import Mathlib

/-!
# Heap-based Dijkstra (`src/go/dijkstra/otimizado/dijkstra_otimizado.go`)

A shallow embedding of the Go program: the adjacency-list `WeightedGraph`, the
`PriorityQueue` with the `container/heap` algorithms driving it, the full run
`Dijkstra`, the early-exit run `DijkstraOptimized` and `GetPath`.

Conventions of the embedding

* Go `int` is the 64-bit two's-complement integer of the usual targets
  (amd64, arm64): values are `Int`, and the one addition of the program is
  wrapped by `wrapInt`.
* Go slices are `List`s; every index expression goes through `sliceGet` /
  `sliceSet`, which fail with `Fault.indexOutOfRange` exactly where the Go
  runtime panics.
* Loops whose trip count is not syntactically bounded carry a step budget
  (`fuel`); running out of it is the separate outcome `Fault.fuelExhausted`,
  which is never identified with a Go result.
-/

set_option autoImplicit false

namespace DijkstraOtimizado

/-! ## Machine integers, faults, slices -/

/-- Ways in which a run does not produce a value. -/
inductive Fault where
  /-- Go runtime panic: index out of range. -/
  | indexOutOfRange
  /-- Go runtime panic: `makeslice: len out of range`. -/
  | negativeLen
  /-- The step budget of the model ran out. -/
  | fuelExhausted
deriving DecidableEq, Repr

deriving instance DecidableEq for Except

/-- Largest value of a 64-bit Go `int`. -/
def maxInt64 : Int := 9223372036854775807

/-- The constant `INF = math.MaxInt32` of the program. -/
def INF : Int := 2147483647

/-- Two's-complement wrap-around of a mathematical integer into 64 bits. -/
def wrapInt (x : Int) : Int := (x + 9223372036854775808) % 18446744073709551616 - 9223372036854775808

/-- Go `a + b` on `int`. -/
def addInt (a b : Int) : Int := wrapInt (a + b)

/-- Go `xs[i]` as an rvalue. -/
def sliceGet {α : Type} (xs : List α) (i : Int) : Except Fault α :=
  if 0 ≤ i then
    match xs[i.toNat]? with
    | some x => .ok x
    | none => .error .indexOutOfRange
  else .error .indexOutOfRange

/-- Go `xs[i] = x`. -/
def sliceSet {α : Type} (xs : List α) (i : Int) (x : α) : Except Fault (List α) :=
  if 0 ≤ i ∧ i.toNat < xs.length then .ok (xs.set i.toNat x) else .error .indexOutOfRange

/-! ## WeightedGraph -/

/-- Go `type Edge struct { to, weight int }`; the field `to` is spelled `dest`
because `to` is reserved in Lean. -/
structure Edge where
  dest : Int
  weight : Int
deriving DecidableEq, Repr

/-- Go `type WeightedGraph struct { vertices int; adjList [][]Edge }`. -/
structure WeightedGraph where
  vertices : Int
  adjList : List (List Edge)
deriving DecidableEq, Repr

/-- Go `NewWeightedGraph`: `make([][]Edge, vertices)` gives `vertices` nil rows. -/
def NewWeightedGraph (vertices : Int) : Except Fault WeightedGraph :=
  if 0 ≤ vertices then .ok ⟨vertices, List.replicate vertices.toNat []⟩
  else .error .negativeLen

/-- Go `AddEdge`: `g.adjList[from] = append(g.adjList[from], Edge{to, weight})`;
`from` and `to` are spelled `src` and `dest`. -/
def WeightedGraph.AddEdge (g : WeightedGraph) (src dest weight : Int) :
    Except Fault WeightedGraph := do
  let row ← sliceGet g.adjList src
  let adj ← sliceSet g.adjList src (row ++ [⟨dest, weight⟩])
  pure { g with adjList := adj }

/-! ## PriorityQueue and container/heap -/

/-- Go `type Item struct { vertex, distance, index int }`. -/
structure Item where
  vertex : Int
  distance : Int
  index : Int
deriving DecidableEq, Repr

/-- Go `type PriorityQueue []*Item`; every `*Item` is allocated by one
`&Item{...}` and held once, so the pointers carry no aliasing. -/
abbrev PriorityQueue := List Item

namespace PriorityQueue

/-- Go `Len`. -/
def Len (pq : PriorityQueue) : Int := pq.length

/-- Go `Less`: `pq[i].distance < pq[j].distance`. -/
def Less (pq : PriorityQueue) (i j : Int) : Except Fault Bool := do
  let a ← sliceGet pq i
  let b ← sliceGet pq j
  pure (decide (a.distance < b.distance))

/-- Go `Swap`: `pq[i], pq[j] = pq[j], pq[i]; pq[i].index = i; pq[j].index = j`. -/
def Swap (pq : PriorityQueue) (i j : Int) : Except Fault PriorityQueue := do
  let a ← sliceGet pq i
  let b ← sliceGet pq j
  let pq ← sliceSet pq i b
  let pq ← sliceSet pq j a
  let x ← sliceGet pq i
  let pq ← sliceSet pq i { x with index := i }
  let y ← sliceGet pq j
  sliceSet pq j { y with index := j }

/-- Go `Push`: `item.index = n; *pq = append(*pq, item)`. -/
def Push (pq : PriorityQueue) (item : Item) : PriorityQueue :=
  pq ++ [{ item with index := pq.Len }]

/-- Go `Pop`: takes `old[n-1]`, sets its index to -1, keeps `old[0 : n-1]`. -/
def Pop (pq : PriorityQueue) : Except Fault (Item × PriorityQueue) := do
  let n := pq.Len
  let item ← sliceGet pq (n - 1)
  pure ({ item with index := -1 }, pq.take (n - 1).toNat)

end PriorityQueue

/-- Go `container/heap.up` (standard library): sift the entry at `j` towards
the root. `(j - 1) / 2` is Go's truncating division. The loop strictly
decreases `j`, so `fuel > j` never runs out. -/
def heapUp : Nat → PriorityQueue → Int → Except Fault PriorityQueue
  | 0, _, _ => .error .fuelExhausted
  | fuel + 1, pq, j =>
    let i := (j - 1).tdiv 2
    if i = j then .ok pq
    else do
      let lt ← pq.Less j i
      if !lt then .ok pq
      else do
        let pq ← pq.Swap i j
        heapUp fuel pq i

/-- Go `container/heap.down` (standard library) without its unused result:
sift the entry at `i` down inside the first `n` entries. The guard `j1 < 0`
is the library's overflow check; `2*i + 1` is not wrapped because `i` indexes
a slice of 8-byte pointers, so `i < 2^60`. The loop strictly increases `i`
below `n`, so `fuel ≥ n - i` (and `fuel ≥ 1`) never runs out. -/
def heapDown : Nat → PriorityQueue → Int → Int → Except Fault PriorityQueue
  | 0, _, _, _ => .error .fuelExhausted
  | fuel + 1, pq, i, n =>
    let j1 := 2 * i + 1
    if j1 ≥ n ∨ j1 < 0 then .ok pq
    else do
      let j2 := j1 + 1
      let right ← if j2 < n then pq.Less j2 j1 else pure false
      let j := if right then j2 else j1
      let lt ← pq.Less j i
      if !lt then .ok pq
      else do
        let pq ← pq.Swap i j
        heapDown fuel pq j n

/-- The loop of `container/heap.Init`: `for i := n/2 - 1; i >= 0; i--`. -/
def heapInitLoop : Nat → PriorityQueue → Int → Int → Except Fault PriorityQueue
  | 0, pq, i, _ => if i ≥ 0 then .error .fuelExhausted else .ok pq
  | fuel + 1, pq, i, n =>
    if i ≥ 0 then do
      let pq ← heapDown pq.length pq i n
      heapInitLoop fuel pq (i - 1) n
    else .ok pq

/-- Go `container/heap.Init`. -/
def heapInit (pq : PriorityQueue) : Except Fault PriorityQueue :=
  let n := pq.Len
  heapInitLoop pq.length pq (n.tdiv 2 - 1) n

/-- Go `container/heap.Push`: `h.Push(x); up(h, h.Len()-1)`. -/
def heapPush (pq : PriorityQueue) (x : Item) : Except Fault PriorityQueue :=
  let pq := pq.Push x
  heapUp pq.length pq (pq.Len - 1)

/-- Go `container/heap.Pop`: `n := h.Len() - 1; h.Swap(0, n); down(h, 0, n);
return h.Pop()`. -/
def heapPop (pq : PriorityQueue) : Except Fault (Item × PriorityQueue) := do
  let n := pq.Len - 1
  let pq ← pq.Swap 0 n
  let pq ← heapDown pq.length pq 0 n
  pq.Pop

/-! ## Dijkstra -/

/-- The local slices of one query and its priority queue. -/
structure State where
  distances : List Int
  previous : List Int
  visited : List Bool
  pq : PriorityQueue
deriving DecidableEq, Repr

/-- The body of the relaxation loop, for one `edge` of `g.adjList[currentVertex]`. -/
def relaxEdge (currentVertex : Int) (edge : Edge) (st : State) : Except Fault State := do
  let neighbor := edge.dest
  let dcur ← sliceGet st.distances currentVertex
  let newDistance := addInt dcur edge.weight
  let dn ← sliceGet st.distances neighbor
  if newDistance < dn then do
    let distances ← sliceSet st.distances neighbor newDistance
    let previous ← sliceSet st.previous neighbor currentVertex
    let pq ← heapPush st.pq ⟨neighbor, newDistance, 0⟩
    pure { st with distances := distances, previous := previous, pq := pq }
  else pure st

/-- The relaxation loop `for _, edge := range g.adjList[currentVertex]`. -/
def relaxEdges (currentVertex : Int) : List Edge → State → Except Fault State
  | [], st => .ok st
  | edge :: rest, st => do
    let st ← relaxEdge currentVertex edge st
    relaxEdges currentVertex rest st

/-- One iteration of the main loop of `Dijkstra` (entered with `pq.Len() > 0`). -/
def dijkstraStep (g : WeightedGraph) (st : State) : Except Fault State := do
  let (current, pq) ← heapPop st.pq
  let currentVertex := current.vertex
  let seen ← sliceGet st.visited currentVertex
  if seen then pure { st with pq := pq }
  else do
    let visited ← sliceSet st.visited currentVertex true
    let edges ← sliceGet g.adjList currentVertex
    relaxEdges currentVertex edges { st with visited := visited, pq := pq }

/-- The main loop `for pq.Len() > 0 { ... }` of `Dijkstra`. -/
def dijkstraLoop (g : WeightedGraph) : Nat → State → Except Fault State
  | 0, st => if st.pq.Len > 0 then .error .fuelExhausted else .ok st
  | fuel + 1, st =>
    if st.pq.Len > 0 then do
      let st ← dijkstraStep g st
      dijkstraLoop g fuel st
    else .ok st

/-- The common prologue of `Dijkstra` and `DijkstraOptimized`: the three
`make`s, the initialising loop, `distances[start] = 0`, and the queue holding
the start item. -/
def initState (g : WeightedGraph) (start : Int) : Except Fault State := do
  if g.vertices < 0 then throw Fault.negativeLen
  let n := g.vertices.toNat
  let distances ← sliceSet (List.replicate n INF) start 0
  let pq ← heapInit []
  let pq ← heapPush pq ⟨start, 0, 0⟩
  pure ⟨distances, List.replicate n (-1), List.replicate n false, pq⟩

/-- Go `Dijkstra` with a budget of `fuel` iterations for its main loop. -/
def WeightedGraph.DijkstraFuel (g : WeightedGraph) (fuel : Nat) (start : Int) :
    Except Fault (List Int × List Int) := do
  let st ← initState g start
  let st ← dijkstraLoop g fuel st
  pure (st.distances, st.previous)

/-- Number of stored edges. -/
def WeightedGraph.edgeCount (g : WeightedGraph) : Nat :=
  (g.adjList.map List.length).sum

/-- Go `Dijkstra`. The main loop pops at most once per push and pushes at most
once per stored edge after the start item, so `edgeCount + 1` iterations are
enough: on a well-formed graph every larger budget gives the same result
(`dijkstra_run`). -/
def WeightedGraph.Dijkstra (g : WeightedGraph) (start : Int) :
    Except Fault (List Int × List Int) :=
  g.DijkstraFuel (g.edgeCount + 1) start

/-- The loop `for current != -1 { ... }` of `GetPath`. -/
def getPathLoop (previous : List Int) : Nat → Int → List Int → Except Fault (List Int)
  | 0, current, path => if current ≠ -1 then .error .fuelExhausted else .ok path
  | fuel + 1, current, path =>
    if current ≠ -1 then do
      let p ← sliceGet previous current
      getPathLoop previous fuel p (current :: path)
    else .ok path

/-- Go `GetPath` with a budget of `fuel` iterations; `none` is the `nil` result.
The receiver is unused by the Go method. -/
def GetPathFuel (fuel : Nat) (previous : List Int) (start stop : Int) :
    Except Fault (Option (List Int)) := do
  let p ← sliceGet previous stop
  if p = -1 ∧ start ≠ stop then pure none
  else do
    let path ← getPathLoop previous fuel stop []
    pure (some path)

/-- One iteration of the main loop of `DijkstraOptimized`; the flag is `true`
when the iteration leaves the loop through `break`. -/
def optimizedStep (g : WeightedGraph) (stop : Int) (st : State) :
    Except Fault (Bool × State) := do
  let (current, pq) ← heapPop st.pq
  let currentVertex := current.vertex
  let seen ← sliceGet st.visited currentVertex
  if seen then pure (false, { st with pq := pq })
  else do
    let visited ← sliceSet st.visited currentVertex true
    if currentVertex = stop then pure (true, { st with visited := visited, pq := pq })
    else do
      let edges ← sliceGet g.adjList currentVertex
      let st ← relaxEdges currentVertex edges { st with visited := visited, pq := pq }
      pure (false, st)

/-- The main loop of `DijkstraOptimized`. -/
def optimizedLoop (g : WeightedGraph) (stop : Int) : Nat → State → Except Fault State
  | 0, st => if st.pq.Len > 0 then .error .fuelExhausted else .ok st
  | fuel + 1, st =>
    if st.pq.Len > 0 then do
      let (brk, st) ← optimizedStep g stop st
      if brk then pure st else optimizedLoop g stop fuel st
    else .ok st

/-- Go `DijkstraOptimized` with a budget for its main loop and one for the loop
of `GetPath`. -/
def WeightedGraph.DijkstraOptimizedFuel (g : WeightedGraph) (fuel pathFuel : Nat)
    (start stop : Int) : Except Fault (Int × Option (List Int)) := do
  if start = stop then pure (0, some [start])
  else do
    let st ← initState g start
    let st ← optimizedLoop g stop fuel st
    let path ← GetPathFuel pathFuel st.previous start stop
    let d ← sliceGet st.distances stop
    pure (d, path)

/-- Go `GetPath`. A run of its loop that ends visits pairwise distinct
vertices of `previous`, so `len(previous) + 1` iterations are enough for every
run that ends; `Fault.fuelExhausted` here stands for a loop that cycles. -/
def GetPath (previous : List Int) (start stop : Int) : Except Fault (Option (List Int)) :=
  GetPathFuel (previous.length + 1) previous start stop

/-- Go `DijkstraOptimized`, with the budget of `Dijkstra` for its main loop and
that of `GetPath` for the path loop. -/
def WeightedGraph.DijkstraOptimized (g : WeightedGraph) (start stop : Int) :
    Except Fault (Int × Option (List Int)) :=
  g.DijkstraOptimizedFuel (g.edgeCount + 1) (g.vertices.toNat + 1) start stop

/-- A graph as a driver builds it: `NewWeightedGraph(vertices)` followed by one
`AddEdge(from, to, weight)` per triple, in order. -/
def buildGraph (vertices : Int) (edges : List (Int × Int × Int)) : Except Fault WeightedGraph := do
  let g ← NewWeightedGraph vertices
  edges.foldlM (fun g e => g.AddEdge e.1 e.2.1 e.2.2) g

/-! ## Vocabulary of the statements -/

/-- The shape `NewWeightedGraph` gives a graph and `AddEdge` keeps: one
adjacency row per vertex. -/
def WeightedGraph.Shaped (g : WeightedGraph) : Prop :=
  0 ≤ g.vertices ∧ g.adjList.length = g.vertices.toNat

instance (g : WeightedGraph) : Decidable g.Shaped := by
  unfold WeightedGraph.Shaped; infer_instance

/-- The data-model invariant of the specification: one row per vertex and
every stored edge ends at a vertex of `[0, V)`. -/
def WeightedGraph.WellFormed (g : WeightedGraph) : Prop :=
  g.Shaped ∧ ∀ row ∈ g.adjList, ∀ e ∈ row, 0 ≤ e.dest ∧ e.dest < g.vertices

instance (g : WeightedGraph) : Decidable g.WellFormed := by
  unfold WeightedGraph.WellFormed; infer_instance

/-- Every weight is non-negative. -/
def WeightedGraph.NonNegative (g : WeightedGraph) : Prop :=
  ∀ row ∈ g.adjList, ∀ e ∈ row, 0 ≤ e.weight

instance (g : WeightedGraph) : Decidable g.NonNegative := by
  unfold WeightedGraph.NonNegative; infer_instance

/-- Every weight is non-negative and small enough that adding it to a distance
below `INF` cannot overflow a 64-bit `int`. -/
def WeightedGraph.WeightsBounded (g : WeightedGraph) : Prop :=
  ∀ row ∈ g.adjList, ∀ e ∈ row, 0 ≤ e.weight ∧ e.weight ≤ maxInt64 - INF

instance (g : WeightedGraph) : Decidable g.WeightsBounded := by
  unfold WeightedGraph.WeightsBounded; infer_instance

/-- The edge `e` is stored in the adjacency row of vertex `u`. -/
def WeightedGraph.HasEdge (g : WeightedGraph) (u : Int) (e : Edge) : Prop :=
  ∃ row, sliceGet g.adjList u = .ok row ∧ e ∈ row

/-- Directed walks from `s`: `Walk g s v d` says that some sequence of stored
edges leads from `s` to `v` with total weight `d` (a sum of mathematical
integers). -/
inductive Walk (g : WeightedGraph) (s : Int) : Int → Int → Prop where
  | nil : Walk g s s 0
  | snoc (u d : Int) (e : Edge) : Walk g s u d → g.HasEdge u e → Walk g s e.dest (d + e.weight)

/-- The vertex `v` is reachable from `s` by a directed path. -/
def Reach (g : WeightedGraph) (s v : Int) : Prop := ∃ d, Walk g s v d

/-- The vertex sequence `p` follows stored edges whose weights add up to `d`. -/
inductive PathWeight (g : WeightedGraph) : List Int → Int → Prop where
  | single (v : Int) : PathWeight g [v] 0
  | snoc (p : List Int) (u d : Int) (e : Edge) :
      PathWeight g (p ++ [u]) d → g.HasEdge u e → PathWeight g (p ++ [u, e.dest]) (d + e.weight)

/-- The step relation of a shortest-path tree for the table `dist`: an edge
`a -> b` is stored whose weight is the difference of the two distances. -/
def TreeStep (g : WeightedGraph) (dist : List Int) (a b : Int) : Prop :=
  ∃ e da db, g.HasEdge a e ∧ e.dest = b ∧ sliceGet dist a = .ok da ∧
    sliceGet dist b = .ok db ∧ db = da + e.weight

/-- The payload of a queue item: `(vertex, distance)`, without the bookkeeping
field `index`. -/
def Item.entry (it : Item) : Int × Int := (it.vertex, it.distance)

/-- The payloads of a queue, in slice order. -/
def entries (pq : PriorityQueue) : List (Int × Int) := pq.map Item.entry

/-- The queues that arise from the empty queue by `heap.Push` and `heap.Pop`. -/
inductive Built : PriorityQueue → Prop where
  | empty : Built []
  | push (pq pq' : PriorityQueue) (x : Item) : Built pq → heapPush pq x = .ok pq' → Built pq'
  | pop (pq pq' : PriorityQueue) (it : Item) : Built pq → heapPop pq = .ok (it, pq') → Built pq'

/-- The ten `AddEdge` calls of the concrete scenario of the specification (the
calls of `main` in `dijkstra_basico.go`). -/
def scenarioEdges : List (Int × Int × Int) :=
  [(0, 1, 10), (0, 4, 5), (1, 2, 1), (1, 4, 2), (2, 3, 4), (3, 2, 6), (3, 0, 7),
    (4, 1, 3), (4, 2, 9), (4, 3, 2)]

/-- The adjacency lists those calls produce. -/
def scenarioGraph : WeightedGraph :=
  ⟨5, [[⟨1, 10⟩, ⟨4, 5⟩], [⟨2, 1⟩, ⟨4, 2⟩], [⟨3, 4⟩], [⟨2, 6⟩, ⟨0, 7⟩],
    [⟨1, 3⟩, ⟨2, 9⟩, ⟨3, 2⟩]]⟩

/-- The disconnected scenario of the specification: three vertices and the
single edge 0 -> 1 of weight 1. -/
def disconnectedGraph : WeightedGraph := ⟨3, [[⟨1, 1⟩], [], []]⟩

/-- Three vertices with the edges 0 -> 1 and 1 -> 2 of weight 1 and the edge
2 -> 1 of weight `MaxInt64`: all weights are non-negative, and relaxing 2 -> 1
overflows the 64-bit addition. -/
def overflowGraph : WeightedGraph :=
  ⟨3, [[⟨1, 1⟩], [⟨2, 1⟩], [⟨1, 9223372036854775807⟩]]⟩

/-! ## Definitions used by the proofs -/

/-- The list with positions `i` and `j` exchanged (unchanged when one of them
is out of range). -/
def swapList {β : Type} (xs : List β) (i j : Nat) : List β :=
  match xs[i]?, xs[j]? with
  | some a, some b => (xs.set i b).set j a
  | _, _ => xs

/-- The distance stored at position `k` of a list of payloads. -/
def keyAt (es : List (Int × Int)) (k : Nat) : Int := (es.getD k (0, 0)).2

/-- Min-heap order on the first `n` positions: every position is at least its
parent `(k - 1) / 2`. -/
def IsHeapUpTo (es : List (Int × Int)) (n : Nat) : Prop :=
  ∀ k, 0 < k → k < n → keyAt es ((k - 1) / 2) ≤ keyAt es k

/-- Min-heap order on a whole queue. -/
def IsHeap (pq : PriorityQueue) : Prop := IsHeapUpTo (entries pq) pq.length

/-- Heap order on the whole list except possibly between `j` and its parent
(the loop invariant of `heapUp`). -/
def AlmostUp (es : List (Int × Int)) (j : Nat) : Prop :=
  (∀ k, 0 < k → k < es.length → k ≠ j → keyAt es ((k - 1) / 2) ≤ keyAt es k) ∧
  (∀ k, 0 < k → k < es.length → (k - 1) / 2 = j → 0 < j →
    keyAt es ((j - 1) / 2) ≤ keyAt es k)

/-- Heap order on the first `n` positions except possibly between `i` and its
children (the loop invariant of `heapDown`). -/
def AlmostDown (es : List (Int × Int)) (i n : Nat) : Prop :=
  (∀ k, 0 < k → k < n → (k - 1) / 2 ≠ i → keyAt es ((k - 1) / 2) ≤ keyAt es k) ∧
  (∀ k, 0 < k → k < n → (k - 1) / 2 = i → 0 < i →
    keyAt es ((i - 1) / 2) ≤ keyAt es k)

/-- The child of `i` that `heapDown` compares with `i`: the right child
`2*i + 2` when it lies below `n` and is strictly smaller than the left child,
otherwise the left child `2*i + 1`. -/
def minChild (es : List (Int × Int)) (i n : Nat) : Nat :=
  if 2 * i + 2 < n ∧ keyAt es (2 * i + 2) < keyAt es (2 * i + 1) then 2 * i + 2 else 2 * i + 1

/-- The index `v` is inside a slice of length `n`. -/
def InR (n : Nat) (v : Int) : Prop := 0 ≤ v ∧ v.toNat < n

instance (n : Nat) (v : Int) : Decidable (InR n v) := by
  unfold InR; infer_instance

/-- The value a slice holds at `v`, with `d` standing in outside the slice. -/
def look {α : Type} (d : α) (xs : List α) (v : Int) : α :=
  if 0 ≤ v then xs.getD v.toNat d else d

/-- The entry `distances[v]` of a state (`INF` outside the slice). -/
def State.D (st : State) (v : Int) : Int := look INF st.distances v

/-- The entry `previous[v]` of a state (`-1` outside the slice). -/
def State.P (st : State) (v : Int) : Int := look (-1) st.previous v

/-- The entry `visited[v]` of a state (`false` outside the slice). -/
def State.Vis (st : State) (v : Int) : Bool := look false st.visited v

/-- Invariant of the main loop that holds for every well-formed graph, whatever
its weights: the slices have one entry per vertex, the queue is a heap of
in-range reachable vertices, no distance exceeds `INF`, a distance below `INF`
belongs to a reachable vertex, and a vertex either was never written
(`previous = -1`, distance still the initial one) or has an in-range
predecessor and a distance below `INF`. -/
structure InvB (g : WeightedGraph) (s : Int) (st : State) : Prop where
  lenD : st.distances.length = g.adjList.length
  lenP : st.previous.length = g.adjList.length
  lenV : st.visited.length = g.adjList.length
  heap : IsHeap st.pq
  entIn : ∀ e ∈ entries st.pq, InR g.adjList.length e.1 ∧ Reach g s e.1
  dLe : ∀ v, st.D v ≤ INF
  dReach : ∀ v, InR g.adjList.length v → st.D v < INF → Reach g s v
  prevDist : ∀ v, InR g.adjList.length v →
    (st.P v = -1 ∧ st.D v = if v = s then 0 else INF) ∨
    (InR g.adjList.length (st.P v) ∧ st.D v < INF)

/-- Number of stored edges leaving vertices not yet marked visited. -/
def pendingEdges : List Bool → List (List Edge) → Nat
  | v :: vs, row :: rows => (if v then 0 else row.length) + pendingEdges vs rows
  | _, _ => 0

/-- Termination measure of the main loop: queue length plus pending edges. -/
def loopMeasure (g : WeightedGraph) (st : State) : Nat :=
  st.pq.length + pendingEdges st.visited g.adjList

/-- The state in which the main loop is entered: every distance `INF` except
`distances[start] = 0`, no predecessor, nothing visited, the start item queued. -/
def startState (g : WeightedGraph) (start : Int) : State :=
  { distances := (List.replicate g.vertices.toNat INF).set start.toNat 0,
    previous := List.replicate g.vertices.toNat (-1),
    visited := List.replicate g.vertices.toNat false,
    pq := [⟨start, 0, 0⟩] }

/-- The predecessor chain of `v`: the vertex sequence `p` from `s` to `v` in
which every vertex but the first has its predecessor `previous[·]` right before
it, that predecessor is visited, and an edge between the two accounts for the
difference of their distances. -/
inductive Chain (g : WeightedGraph) (st : State) (s : Int) : Int → List Int → Prop where
  | base : Chain g st s s [s]
  | step (u v : Int) (p : List Int) (e : Edge) :
      Chain g st s u p → st.Vis u = true → v ≠ s → st.P v = u → g.HasEdge u e →
      e.dest = v → st.D v = st.D u + e.weight → Chain g st s v (p ++ [v])

/-- Invariant of the main loop on graphs whose weights are non-negative and
cannot overflow: the source keeps distance 0 and no predecessor, distances are
non-negative and realised by walks, visited vertices have a distance below
`INF` that no unvisited vertex undercuts, every unvisited vertex with a distance
below `INF` is queued with that distance, queued distances are below `INF` and
never below the current distance, and every vertex with a distance below `INF`
has a predecessor chain. -/
structure InvF (g : WeightedGraph) (s : Int) (st : State) : Prop where
  src0 : st.D s = 0
  prevSrc : st.P s = -1
  nonneg : ∀ v, 0 ≤ st.D v
  walk : ∀ v, InR g.adjList.length v → st.D v < INF → Walk g s v (st.D v)
  visFin : ∀ u, st.Vis u = true → st.D u < INF
  queued : ∀ v, InR g.adjList.length v → st.Vis v = false → st.D v < INF →
    (v, st.D v) ∈ entries st.pq
  entryOk : ∀ e ∈ entries st.pq, st.D e.1 ≤ e.2 ∧ e.2 < INF
  mono : ∀ u v, st.Vis u = true → st.Vis v = false → st.D u ≤ st.D v
  chain : ∀ v, InR g.adjList.length v → st.D v < INF → ∃ p, Chain g st s v p

/-- Every edge leaving a visited vertex is relaxed, except the edges of `cur`
that are still in `todo`. -/
def Tri (g : WeightedGraph) (st : State) (cur : Int) (todo : List Edge) : Prop :=
  ∀ u e, st.Vis u = true → g.HasEdge u e → (u = cur → e ∉ todo) →
    st.D e.dest ≤ st.D u + e.weight

/-- The vertex `cur` is visited and no visited vertex has a larger distance. -/
def CurMax (st : State) (cur : Int) : Prop :=
  st.Vis cur = true ∧ ∀ u, st.Vis u = true → st.D u ≤ st.D cur

/-- Nothing changes at a visited vertex from `st` to `st'`: it stays visited
and keeps its predecessor and its distance. -/
def Frozen (st st' : State) : Prop :=
  ∀ y, st.Vis y = true → st'.Vis y = true ∧ st'.P y = st.P y ∧ st'.D y = st.D y

/-- Two vertices with the edge 0 -> 1 of weight 1 and the edge 1 -> 0 of weight
`MaxInt64`: relaxing 1 -> 0 overflows and lowers the distance of the source. -/
def overflowBackGraph : WeightedGraph :=
  ⟨2, [[⟨1, 1⟩], [⟨0, 9223372036854775807⟩]]⟩

/-- The single-vertex scenario of the specification: one vertex, no edge. -/
def singleVertexGraph : WeightedGraph := ⟨1, [[]]⟩

/-! ## The run of Dijkstra, observed

The functions below are `relaxEdge`, `relaxEdges`, `dijkstraStep`,
`dijkstraLoop` and `Dijkstra` again, statement for statement, with one
addition: they record what happens, as a list of events, each with the state
right after it. -/

/-- What a run of `Dijkstra` does, seen from outside. -/
inductive Event where
  /-- The call `heap.Push(pq, &Item{vertex: start, distance: 0})` before the loop. -/
  | push (vertex : Int)
  /-- An item of an already visited vertex was popped: `continue`. -/
  | discard (vertex : Int)
  /-- An item of a vertex not yet visited was popped and the vertex marked; the
  loop over its outgoing edges starts. -/
  | visit (vertex : Int)
  /-- One iteration of the relaxation loop, for `edge` leaving `vertex`;
  `pushed` tells whether it called `heap.Push`. -/
  | relax (vertex : Int) (edge : Edge) (pushed : Bool)
deriving DecidableEq, Repr

/-- The event is a call of `heap.Push`. -/
def Event.isPush : Event → Bool
  | .push _ => true
  | .relax _ _ pushed => pushed
  | _ => false

/-- The event starts the relaxation of the outgoing edges of `u`. -/
def Event.isVisit (u : Int) : Event → Bool
  | .visit v => decide (v = u)
  | _ => false

/-- Observed `relaxEdge`: the new state and whether `heap.Push` was called. -/
def relaxEdgeObs (currentVertex : Int) (edge : Edge) (st : State) :
    Except Fault (State × Bool) := do
  let neighbor := edge.dest
  let dcur ← sliceGet st.distances currentVertex
  let newDistance := addInt dcur edge.weight
  let dn ← sliceGet st.distances neighbor
  if newDistance < dn then do
    let distances ← sliceSet st.distances neighbor newDistance
    let previous ← sliceSet st.previous neighbor currentVertex
    let pq ← heapPush st.pq ⟨neighbor, newDistance, 0⟩
    pure ({ st with distances := distances, previous := previous, pq := pq }, true)
  else pure (st, false)

/-- Observed `relaxEdges`: the final state and one event per edge. -/
def relaxEdgesObs (currentVertex : Int) :
    List Edge → State → Except Fault (State × List (Event × State))
  | [], st => .ok (st, [])
  | edge :: rest, st => do
    let (st, pushed) ← relaxEdgeObs currentVertex edge st
    let (stF, log) ← relaxEdgesObs currentVertex rest st
    pure (stF, (Event.relax currentVertex edge pushed, st) :: log)

/-- Observed `dijkstraStep`. -/
def dijkstraStepObs (g : WeightedGraph) (st : State) :
    Except Fault (State × List (Event × State)) := do
  let (current, pq) ← heapPop st.pq
  let currentVertex := current.vertex
  let seen ← sliceGet st.visited currentVertex
  if seen then pure ({ st with pq := pq }, [(Event.discard currentVertex, { st with pq := pq })])
  else do
    let visited ← sliceSet st.visited currentVertex true
    let edges ← sliceGet g.adjList currentVertex
    let (stF, log) ← relaxEdgesObs currentVertex edges { st with visited := visited, pq := pq }
    pure (stF, (Event.visit currentVertex, { st with visited := visited, pq := pq }) :: log)

/-- Observed `dijkstraLoop`. -/
def dijkstraLoopObs (g : WeightedGraph) :
    Nat → State → Except Fault (State × List (Event × State))
  | 0, st => if st.pq.Len > 0 then .error .fuelExhausted else .ok (st, [])
  | fuel + 1, st =>
    if st.pq.Len > 0 then do
      let (st, log) ← dijkstraStepObs g st
      let (stF, rest) ← dijkstraLoopObs g fuel st
      pure (stF, log ++ rest)
    else .ok (st, [])

/-- Observed `Dijkstra`: the two tables and the events of the run, in order,
the first being the push of the start item. -/
def WeightedGraph.DijkstraObs (g : WeightedGraph) (start : Int) :
    Except Fault ((List Int × List Int) × List (Event × State)) := do
  let st ← initState g start
  let (stF, log) ← dijkstraLoopObs g (g.edgeCount + 1) st
  pure ((stF.distances, stF.previous), (Event.push start, st) :: log)

/-- The states of a run, in order. -/
def statesOf (log : List (Event × State)) : List State := log.map Prod.snd

/-- The events of a run, in order. -/
def eventsOf (log : List (Event × State)) : List Event := log.map Prod.fst

/-- Number of calls of `heap.Push` in a run. -/
def pushCount (log : List (Event × State)) : Nat := (eventsOf log).countP Event.isPush

/-- Number of times the relaxation loop is started for the vertex `u`. -/
def visitCount (u : Int) (log : List (Event × State)) : Nat :=
  (eventsOf log).countP (Event.isVisit u)

/-- Two vertices joined in both directions by edges of weight -1: a cycle of
negative total weight. -/
def negativeCycleGraph : WeightedGraph := ⟨2, [[⟨1, -1⟩], [⟨0, -1⟩]]⟩

/-! ## Runs free of runtime panics -/

/-- A run that raises no Go runtime panic: it returns, or only the step budget
of the model ran out. `heap.Pop` on an empty queue calls `Swap(0, -1)` and `Pop`
on an empty queue reads `old[n-1]` with `n = 0`, so a pop from an empty queue is
an index fault like any other. -/
def NoPanic {α : Type} : Except Fault α → Prop
  | .ok _ => True
  | .error e => e = Fault.fuelExhausted

end DijkstraOtimizado

namespace GoRuntime

/-! ## Conversions between `int` and `float64`

`int(math.Max(float64(a), float64(b)))` and its `math.Min` twin are how the
programs take the maximum and minimum of two `int`s. A `float64` has a 53-bit
significand: the conversion of an `int` is exact up to `2^53` in absolute value
and rounds to the nearest representable value, ties to even, above. -/

/-- Number of binary digits of `n`, counted with at most `fuel` halvings
(64 are enough for the magnitude of a 64-bit `int`). -/
def bitLen : Nat → Nat → Nat
  | 0, _ => 0
  | fuel + 1, n => if n = 0 then 0 else 1 + bitLen fuel (n / 2)

/-- Go `float64(x)` for an `int` `x`, as the exact integer value of the
resulting float: `x` itself up to `2^53` in absolute value, otherwise `x`
rounded to 53 significant bits, ties to even. -/
def toFloat64 (x : Int) : Int :=
  let a := x.natAbs
  if a ≤ 9007199254740992 then x
  else
    let e := bitLen 64 a - 53
    let q := a / 2 ^ e
    let r := a % 2 ^ e
    let half := 2 ^ (e - 1)
    let q' := if half < r ∨ (r = half ∧ q % 2 = 1) then q + 1 else q
    (if x < 0 then -1 else 1) * ((q' * 2 ^ e : Nat) : Int)

/-- Go `int(f)` for an integer-valued `float64` `f`. A value outside the range
of `int` (only `2^63` can arise here) gives an implementation-dependent result;
this is the one of amd64, the smallest `int`. -/
def fromFloat64 (v : Int) : Int :=
  if -9223372036854775808 ≤ v ∧ v ≤ 9223372036854775807 then v else -9223372036854775808

/-- Go `int(math.Max(float64(a), float64(b)))`. -/
def maxViaFloat64 (a b : Int) : Int := fromFloat64 (max (toFloat64 a) (toFloat64 b))

/-- Go `int(math.Min(float64(a), float64(b)))`. -/
def minViaFloat64 (a b : Int) : Int := fromFloat64 (min (toFloat64 a) (toFloat64 b))

/-- The bound `2^53` up to which `float64` holds every integer exactly. -/
def exactBound : Int := 9007199254740992

/-- Go `a * b` on `int`. -/
def mulInt (a b : Int) : Int := DijkstraOtimizado.wrapInt (a * b)

/-- Go `xs[i]` for an index that the program keeps non-negative. -/
def index {α : Type} (xs : List α) (i : Nat) : Except DijkstraOtimizado.Fault α :=
  match xs[i]? with
  | some x => .ok x
  | none => .error .indexOutOfRange

/-- Go `xs[i] = x` for an index that the program keeps non-negative. -/
def store {α : Type} (xs : List α) (i : Nat) (x : α) : Except DijkstraOtimizado.Fault (List α) :=
  if i < xs.length then .ok (xs.set i x) else .error .indexOutOfRange

end GoRuntime

namespace TwoPointer

open DijkstraOtimizado GoRuntime

/-! # Two-pointer algorithms (`src/go/two_pointer/two_pointer_basico.go`)

The methods of `TwoPointerAlgorithms` are modelled without their receiver: its
two fields `operationsCount` and `comparisonsCount` are reset at the start of
every method, only incremented afterwards and never read by the algorithms. -/

/-- The loop `for left < right { ... }` of `TwoSumSorted`. Every iteration
moves one pointer towards the other, so `fuel > right - left` never runs out. -/
def twoSumLoop (nums : List Int) (target : Int) : Nat → Int → Int → Except Fault (List Int)
  | 0, left, right => if left < right then .error .fuelExhausted else .ok []
  | fuel + 1, left, right =>
    if left < right then do
      let a ← sliceGet nums left
      let b ← sliceGet nums right
      let currentSum := addInt a b
      if currentSum = target then .ok [left, right]
      else if currentSum < target then twoSumLoop nums target fuel (left + 1) right
      else twoSumLoop nums target fuel left (right - 1)
    else .ok []

/-- Go `TwoSumSorted`: the pair of indices `[left, right]`, or the empty slice. -/
def TwoSumSorted (nums : List Int) (target : Int) : Except Fault (List Int) :=
  twoSumLoop nums target nums.length 0 (nums.length - 1)

/-- The loop `for left < right { ... }` of `ContainerWithMostWater`. -/
def containerLoop (heights : List Int) : Nat → Int → Int → Int → Except Fault Int
  | 0, left, right, maxArea => if left < right then .error .fuelExhausted else .ok maxArea
  | fuel + 1, left, right, maxArea =>
    if left < right then do
      let width := right - left
      let hl ← sliceGet heights left
      let hr ← sliceGet heights right
      let height := minViaFloat64 hl hr
      let area := mulInt width height
      let maxArea := maxViaFloat64 maxArea area
      if hl < hr then containerLoop heights fuel (left + 1) right maxArea
      else containerLoop heights fuel left (right - 1) maxArea
    else .ok maxArea

/-- Go `ContainerWithMostWater`. -/
def ContainerWithMostWater (heights : List Int) : Except Fault Int :=
  containerLoop heights heights.length 0 (heights.length - 1) 0

/-! ## Vocabulary of the statements -/

/-- Positions `i < j` of `nums` hold two values that add up to `target` (as
mathematical integers). -/
def PairSum (nums : List Int) (target : Int) (i j : Nat) : Prop :=
  i < j ∧ ∃ x y, nums[i]? = some x ∧ nums[j]? = some y ∧ x + y = target

/-- No sum of the elements at two different positions leaves the range of a
64-bit `int`. -/
def SumsFit (nums : List Int) : Prop :=
  ∀ j, j < nums.length → ∀ i, i < j →
    -9223372036854775808 ≤ nums.getD i 0 + nums.getD j 0 ∧
    nums.getD i 0 + nums.getD j 0 ≤ 9223372036854775807

instance (nums : List Int) : Decidable (SumsFit nums) := by
  unfold SumsFit; infer_instance

/-- Non-decreasing order. -/
def Ascending (nums : List Int) : Prop := nums.Pairwise (· ≤ ·)

instance (nums : List Int) : Decidable (Ascending nums) := by
  unfold Ascending; infer_instance

/-- The area `a` is the one of the container between positions `i < j`:
`(j - i) * min(heights[i], heights[j])`. -/
def AreaAt (heights : List Int) (i j : Nat) (a : Int) : Prop :=
  i < j ∧ ∃ x y, heights[i]? = some x ∧ heights[j]? = some y ∧
    a = ((j : Int) - (i : Int)) * min x y

/-- Heights are non-negative and small enough for every area, and so every
height of an array with two elements or more, to stay within `2^53`. -/
def HeightsFit (heights : List Int) : Prop :=
  ∀ h ∈ heights, 0 ≤ h ∧ h * heights.length ≤ exactBound

instance (heights : List Int) : Decidable (HeightsFit heights) := by
  unfold HeightsFit; infer_instance

/-! ## SortColors -/

/-- Go `nums[i], nums[j] = nums[j], nums[i]`: both operands are read, then
`nums[i]` and `nums[j]` are written in this order. -/
def swapAt (nums : List Int) (i j : Int) : Except Fault (List Int) := do
  let a ← sliceGet nums j
  let b ← sliceGet nums i
  let nums ← sliceSet nums i a
  sliceSet nums j b

/-- The loop `for mid <= high { switch nums[mid] { ... } }` of `SortColors`. A
value other than 0, 1 and 2 matches no case: the iteration changes nothing and
the loop never ends, which the model reports as an exhausted budget. -/
def sortColorsLoop : Nat → List Int → Int → Int → Int → Except Fault (List Int)
  | 0, nums, _, mid, high => if mid ≤ high then .error .fuelExhausted else .ok nums
  | fuel + 1, nums, low, mid, high =>
    if mid ≤ high then do
      let v ← sliceGet nums mid
      if v = 0 then do
        let nums ← swapAt nums low mid
        sortColorsLoop fuel nums (low + 1) (mid + 1) high
      else if v = 1 then sortColorsLoop fuel nums low (mid + 1) high
      else if v = 2 then do
        let nums ← swapAt nums mid high
        sortColorsLoop fuel nums low mid (high - 1)
      else sortColorsLoop fuel nums low mid high
    else .ok nums

/-- Go `func (tp *TwoPointerAlgorithms) SortColors(nums []int)`: the contents of
`nums` after the call. -/
def SortColors (nums : List Int) : Except Fault (List Int) :=
  sortColorsLoop nums.length nums 0 0 (nums.length - 1)

/-- Every element is 0, 1 or 2. -/
def Colors (nums : List Int) : Prop := ∀ x ∈ nums, x = 0 ∨ x = 1 ∨ x = 2

instance (nums : List Int) : Decidable (Colors nums) := by
  unfold Colors
  infer_instance

/-- Invariant of `SortColors`: zeros below `low`, ones from `low` up to `mid`,
twos above `high`. -/
def FlagInv (nums : List Int) (low mid high : Nat) : Prop :=
  low ≤ mid ∧ mid ≤ high ∧ high ≤ nums.length ∧ Colors nums ∧
  (∀ i x, i < low → nums[i]? = some x → x = 0) ∧
  (∀ i x, low ≤ i → i < mid → nums[i]? = some x → x = 1) ∧
  (∀ i x, high ≤ i → nums[i]? = some x → x = 2)

/-! ## ThreeSum -/

/-- Go `sort.Ints(nums)` of the standard library: the contents of `nums`
afterwards, its elements in increasing order. The result does not depend on
the sorting algorithm; insertion sort stands for it. -/
def sortInts (nums : List Int) : List Int := nums.insertionSort (· ≤ ·)

/-- Go `for left < right && nums[left] == nums[left+1] { left++ }`; returns
`left`. -/
def skipLeft (nums : List Int) (right : Int) : Nat → Int → Except Fault Int
  | 0, left => if left < right then .error .fuelExhausted else .ok left
  | fuel + 1, left =>
    if left < right then do
      let x ← sliceGet nums left
      let y ← sliceGet nums (left + 1)
      if x = y then skipLeft nums right fuel (left + 1) else .ok left
    else .ok left

/-- Go `for left < right && nums[right] == nums[right-1] { right-- }`; returns
`right`. -/
def skipRight (nums : List Int) (left : Int) : Nat → Int → Except Fault Int
  | 0, right => if left < right then .error .fuelExhausted else .ok right
  | fuel + 1, right =>
    if left < right then do
      let x ← sliceGet nums right
      let y ← sliceGet nums (right - 1)
      if x = y then skipRight nums left fuel (right - 1) else .ok right
    else .ok right

/-- The loop `for left < right { ... }` of `ThreeSum` for the first index `i`. -/
def threeSumInner (nums : List Int) (i : Int) :
    Nat → Int → Int → List (List Int) → Except Fault (List (List Int))
  | 0, left, right, result => if left < right then .error .fuelExhausted else .ok result
  | fuel + 1, left, right, result =>
    if left < right then do
      let a ← sliceGet nums i
      let b ← sliceGet nums left
      let c ← sliceGet nums right
      let currentSum := addInt (addInt a b) c
      if currentSum = 0 then do
        let result := result ++ [[a, b, c]]
        let left ← skipLeft nums right nums.length left
        let right ← skipRight nums left nums.length right
        threeSumInner nums i fuel (left + 1) (right - 1) result
      else if currentSum < 0 then threeSumInner nums i fuel (left + 1) right result
      else threeSumInner nums i fuel left (right - 1) result
    else .ok result

/-- Go `i > 0 && nums[i] == nums[i-1]`. -/
def sameAsPrevious (nums : List Int) (i : Int) : Except Fault Bool :=
  if 0 < i then do
    let x ← sliceGet nums i
    let y ← sliceGet nums (i - 1)
    pure (decide (x = y))
  else pure false

/-- The loop `for i := 0; i < len(nums)-2; i++` of `ThreeSum`, on the sorted
slice. -/
def threeSumOuter (nums : List Int) :
    Nat → Int → List (List Int) → Except Fault (List (List Int))
  | 0, i, result =>
    if i < (nums.length : Int) - 2 then .error .fuelExhausted else .ok result
  | fuel + 1, i, result =>
    if i < (nums.length : Int) - 2 then do
      let skip ← sameAsPrevious nums i
      if skip then threeSumOuter nums fuel (i + 1) result
      else do
        let result ← threeSumInner nums i nums.length (i + 1) ((nums.length : Int) - 1) result
        threeSumOuter nums fuel (i + 1) result
    else .ok result

/-- Go `func (tp *TwoPointerAlgorithms) ThreeSum(nums []int) [][]int`. -/
def ThreeSum (nums : List Int) : Except Fault (List (List Int)) :=
  let nums := sortInts nums
  threeSumOuter nums nums.length 0 []

/-- The values `a`, `b`, `c` stand at three distinct positions of `nums`. -/
def TripleAt (nums : List Int) (a b c : Int) : Prop :=
  ∃ i j k : Nat, i ≠ j ∧ i ≠ k ∧ j ≠ k ∧
    nums[i]? = some a ∧ nums[j]? = some b ∧ nums[k]? = some c

/-- The list `t` is a triple `[a, b, c]` with `a ≤ b ≤ c` and `a + b + c = 0`
made of elements at three distinct positions of `nums`. -/
def ZeroTriple (nums : List Int) (t : List Int) : Prop :=
  ∃ a b c, t = [a, b, c] ∧ a ≤ b ∧ b ≤ c ∧ a + b + c = 0 ∧ TripleAt nums a b c

/-- No sum of the elements at three different positions of `nums` leaves the
range of a 64-bit `int`. -/
def TriplesFit (nums : List Int) : Prop :=
  ∀ k, k < nums.length → ∀ j, j < k → ∀ i, i < j →
    -9223372036854775808 ≤ nums.getD i 0 + nums.getD j 0 + nums.getD k 0 ∧
    nums.getD i 0 + nums.getD j 0 + nums.getD k 0 ≤ 9223372036854775807

instance (nums : List Int) : Decidable (TriplesFit nums) := by
  unfold TriplesFit
  infer_instance

/-- The value at position `p` of a slice, for a position inside it. -/
def elemAt (s : List Int) (p : Nat) : Int := s.getD p 0

/-- Positions `p < q < r` of `s` hold values that add up to zero. -/
def Hit (s : List Int) (p q r : Nat) : Prop :=
  p < q ∧ q < r ∧ r < s.length ∧ elemAt s p + elemAt s q + elemAt s r = 0

/-- The triple of the values at positions `p`, `q`, `r`. -/
def tripleOf (s : List Int) (p q r : Nat) : List Int := [elemAt s p, elemAt s q, elemAt s r]

/-- Invariant of the inner loop of `ThreeSum` for the first position `i`: the
triples `found` so far are hits, pairwise different, their middle value is
below every value between the pointers, and every hit is found or lies between
the pointers. -/
def InnerInv (s : List Int) (i left : Nat) (right : Int) (found : List (List Int)) : Prop :=
  (∀ t ∈ found, ∃ q r, Hit s i q r ∧ t = tripleOf s i q r) ∧ found.Nodup ∧
  (∀ t ∈ found, ∀ q : Nat, left ≤ q → (q : Int) ≤ right → t.getD 1 0 < elemAt s q) ∧
  (∀ q r, Hit s i q r → tripleOf s i q r ∈ found ∨ (left ≤ q ∧ (r : Int) ≤ right))

/-- Invariant of the outer loop of `ThreeSum` when position `i` is about to be
visited: `result` lists, without repetition, the triples of the hits whose
first position is below `i`. -/
def OuterInv (s : List Int) (i : Nat) (result : List (List Int)) : Prop :=
  (∀ t ∈ result, ∃ p q r, p < i ∧ Hit s p q r ∧ t = tripleOf s p q r) ∧ result.Nodup ∧
  (∀ p q r, p < i → Hit s p q r → tripleOf s p q r ∈ result)

end TwoPointer

namespace SlidingWindow

open DijkstraOtimizado GoRuntime

/-! # Sliding-window algorithms (`sliding_window_basico.go`)

The methods of `SlidingWindowAlgorithms` only use their receiver for the two
diagnostic counters, which no result depends on; they are modelled as functions
of their arguments. Counters that start at 0 and only move forward inside the
slice (`left`, `right`, `i`) are natural numbers; every value computed from
them is an `Int`. A `string` is the list of its characters: the model is that
of strings of single-byte characters, for which `range s` visits the index `i`
together with the character `s[i]`. -/

/-- Go `a - b` on `int`. -/
def subInt (a b : Int) : Int := wrapInt (a - b)

/-! ## MaxSumSubarrayVariable -/

/-- The inner loop of `MaxSumSubarrayVariable`:
`for currentSum > target && left <= right { currentSum -= nums[left]; left++ }`;
returns `(currentSum, left)`. -/
def shrinkSum (nums : List Int) (target : Int) (right : Nat) :
    Nat → Int → Nat → Except Fault (Int × Nat)
  | 0, currentSum, left =>
    if target < currentSum ∧ left ≤ right then .error .fuelExhausted else .ok (currentSum, left)
  | fuel + 1, currentSum, left =>
    if target < currentSum ∧ left ≤ right then do
      let x ← index nums left
      shrinkSum nums target right fuel (subInt currentSum x) (left + 1)
    else .ok (currentSum, left)

/-- The outer loop of `MaxSumSubarrayVariable`, from the counter `right`. -/
def maxSumLoop (nums : List Int) (target : Int) :
    Nat → Nat → Nat → Int → Int → Except Fault Int
  | 0, right, _, _, maxSum =>
    if right < nums.length then .error .fuelExhausted else .ok maxSum
  | fuel + 1, right, left, currentSum, maxSum =>
    if right < nums.length then do
      let x ← index nums right
      let currentSum := addInt currentSum x
      let (currentSum, left) ← shrinkSum nums target right (nums.length + 1) currentSum left
      let maxSum := maxViaFloat64 maxSum currentSum
      maxSumLoop nums target fuel (right + 1) left currentSum maxSum
    else .ok maxSum

/-- Go `func (sw *SlidingWindowAlgorithms) MaxSumSubarrayVariable(nums []int, target int) int`. -/
def MaxSumSubarrayVariable (nums : List Int) (target : Int) : Except Fault Int :=
  if nums.length = 0 ∨ target ≤ 0 then .ok 0
  else maxSumLoop nums target nums.length 0 0 0 0

/-! ## FindAnagrams -/

/-- Go `counts[char-'a'] += d` on a slice of counters. -/
def bump (counts : List Int) (char : Char) (d : Int) : Except Fault (List Int) := do
  let i := (char.toNat : Int) - 97
  let v ← sliceGet counts i
  sliceSet counts i (v + d)

/-- Go `for _, char := range p { pCount[char-'a']++ }`. -/
def countPattern : List Char → List Int → Except Fault (List Int)
  | [], pCount => .ok pCount
  | char :: rest, pCount => do
    let pCount ← bump pCount char 1
    countPattern rest pCount

/-- The loop `for i := range a { if a[i] != b[i] { return false } }` of
`arraysEqual`, on slices of the same length. -/
def arraysEqualFrom : List Int → List Int → Bool
  | x :: a, y :: b => if x ≠ y then false else arraysEqualFrom a b
  | _, _ => true

/-- Go `func (sw *SlidingWindowAlgorithms) arraysEqual(a, b []int) bool`. -/
def arraysEqual (a b : List Int) : Bool :=
  if a.length ≠ b.length then false else arraysEqualFrom a b

/-- The loop `for i, char := range s` of `FindAnagrams`, at index `i` with the
characters from `i` on still to be visited. -/
def anagramLoop (s : List Char) (pCount : List Int) (windowSize : Nat) :
    List Char → Nat → List Int → List Int → Except Fault (List Int)
  | [], _, _, result => .ok result
  | char :: rest, i, windowCount, result => do
    let windowCount ← bump windowCount char 1
    let windowCount ←
      if windowSize ≤ i then do
        let old ← index s (i - windowSize)
        bump windowCount old (-1)
      else pure windowCount
    let result :=
      if (windowSize : Int) - 1 ≤ (i : Int) ∧ arraysEqual windowCount pCount = true then
        result ++ [(i : Int) - (windowSize : Int) + 1]
      else result
    anagramLoop s pCount windowSize rest (i + 1) windowCount result

/-- Go `func (sw *SlidingWindowAlgorithms) FindAnagrams(s, p string) []int`. -/
def FindAnagrams (s p : List Char) : Except Fault (List Int) :=
  if s.length < p.length then .ok []
  else do
    let pCount ← countPattern p (List.replicate 26 0)
    anagramLoop s pCount p.length s 0 (List.replicate 26 0) []

/-- The string is made of the letters `a` to `z`. -/
def Lowercase (s : List Char) : Prop := ∀ c ∈ s, 97 ≤ c.toNat ∧ c.toNat ≤ 122

instance (s : List Char) : Decidable (Lowercase s) := by
  unfold Lowercase
  infer_instance

/-- The window of `s` of length `n` that starts at index `i`. -/
def window {α : Type} (s : List α) (i n : Nat) : List α := (s.drop i).take n

/-- Index `i` starts an occurrence of a rearrangement of `p` in `s`. -/
def AnagramAt (s p : List Char) (i : Int) : Prop :=
  0 ≤ i ∧ i ≤ (s.length : Int) - (p.length : Int) ∧ List.Perm (window s i.toNat p.length) p

/-- A slice of 26 counters, given by its entries. -/
def tally (f : Nat → Int) : List Int := (List.range 26).map f

/-- The 26 counters of the letters of `w`: entry `j` counts the occurrences of
the letter with code `97 + j`. -/
def letterCounts (w : List Char) : List Int :=
  tally (fun j => (w.countP (fun c => c.toNat == 97 + j) : Int))

/-- The starts `a < n` of the windows of `s` that are rearrangements of `p`, in
increasing order. -/
def anagramStarts (s p : List Char) (n : Nat) : List Int :=
  ((List.range n).filter (fun a => decide (List.Perm (window s a p.length) p))).map
    (fun (a : Nat) => (a : Int))

/-! ## SlidingWindowMaximum

The `container/list` deque of indices is the list of its values, front first:
`Front` is the head, `Back` the last element, `PushBack` appends. -/

/-- Go `for dq.Len() > 0 && dq.Front().Value.(int) <= i-k { dq.Remove(dq.Front()) }`. -/
def dropExpired (k : Int) (i : Nat) : List Nat → List Nat
  | [] => []
  | front :: rest =>
    if (front : Int) ≤ (i : Int) - k then dropExpired k i rest else front :: rest

/-- Go `for dq.Len() > 0 && nums[dq.Back().Value.(int)] < nums[i] { dq.Remove(dq.Back()) }`,
with `x` the value of `nums[i]`. -/
def dropSmaller (nums : List Int) (x : Int) : Nat → List Nat → Except Fault (List Nat)
  | 0, dq =>
    match dq.getLast? with
    | none => .ok dq
    | some back => do
      let v ← index nums back
      if v < x then .error .fuelExhausted else .ok dq
  | fuel + 1, dq =>
    match dq.getLast? with
    | none => .ok dq
    | some back => do
      let v ← index nums back
      if v < x then dropSmaller nums x fuel dq.dropLast else .ok dq

/-- The loop `for i := 0; i < len(nums); i++` of `SlidingWindowMaximum`. The
front is read right after `PushBack`, when the deque is not empty: the default
of `headD` is never used. -/
def windowMaxLoop (nums : List Int) (k : Int) :
    Nat → Nat → List Nat → List Int → Except Fault (List Int)
  | 0, i, _, result =>
    if i < nums.length then .error .fuelExhausted else .ok result
  | fuel + 1, i, dq, result =>
    if i < nums.length then do
      let dq := dropExpired k i dq
      let x ← index nums i
      let dq ← dropSmaller nums x dq.length dq
      let dq := dq ++ [i]
      let result ←
        if k - 1 ≤ (i : Int) then do
          let v ← index nums (dq.headD i)
          pure (result ++ [v])
        else pure result
      windowMaxLoop nums k fuel (i + 1) dq result
    else .ok result

/-- Go `func (sw *SlidingWindowAlgorithms) SlidingWindowMaximum(nums []int, k int) []int`. -/
def SlidingWindowMaximum (nums : List Int) (k : Int) : Except Fault (List Int) :=
  if nums.length = 0 ∨ k ≤ 0 then .ok []
  else if k = 1 then .ok nums
  else windowMaxLoop nums k nums.length 0 [] []

/-- The value `m` is the maximum of the non-empty list `w`. -/
def IsMaxOf (w : List Int) (m : Int) : Prop := m ∈ w ∧ ∀ x ∈ w, x ≤ m

/-- The value of `nums[d]` for an index inside the slice. -/
def valueAt (nums : List Int) (d : Nat) : Int := nums.getD d 0

/-- Invariant of the deque when index `i` is about to be visited: its indices
increase, lie below `i`, carry values that do not increase, and every index of
the last window is dominated by one of them. -/
def DequeInv (nums : List Int) (k : Int) (i : Nat) (dq : List Nat) : Prop :=
  dq.Pairwise (· < ·) ∧ (∀ d ∈ dq, d < i) ∧
  dq.Pairwise (fun a b => valueAt nums b ≤ valueAt nums a) ∧
  ∀ j, j < i → (i : Int) - 1 - k < j → ∃ d ∈ dq, j ≤ d ∧ valueAt nums j ≤ valueAt nums d

/-- Invariant of the result when index `i` is about to be visited: one maximum
for each complete window so far. -/
def MaximaInv (nums : List Int) (size i : Nat) (result : List Int) : Prop :=
  result.length = i + 1 - size ∧
  ∀ t m, result[t]? = some m → IsMaxOf (window nums t size) m

/-! ## Go maps with `int` values

A `map[K]int` is the list of its entries, one for each key present. The
counters kept in these maps are bounded by the length of a slice or string,
far inside the range of `int`: they are incremented and decremented without
wrap-around. -/

/-- Go `v, exists := m[key]`: `none` when the key is absent. -/
def mapFind {κ : Type} [DecidableEq κ] : List (κ × Int) → κ → Option Int
  | [], _ => none
  | (k, v) :: rest, key => if k = key then some v else mapFind rest key

/-- Go `m[key]` as an rvalue: the zero value when the key is absent. -/
def mapGet {κ : Type} [DecidableEq κ] (m : List (κ × Int)) (key : κ) : Int :=
  (mapFind m key).getD 0

/-- Go `m[key] = v`. -/
def mapSet {κ : Type} [DecidableEq κ] : List (κ × Int) → κ → Int → List (κ × Int)
  | [], key, v => [(key, v)]
  | (k, w) :: rest, key, v =>
    if k = key then (k, v) :: rest else (k, w) :: mapSet rest key v

/-- Go `delete(m, key)`. -/
def mapDelete {κ : Type} [DecidableEq κ] (m : List (κ × Int)) (key : κ) : List (κ × Int) :=
  m.filter (fun e => decide (e.1 ≠ key))

/-! ## LongestSubarrayKDistinct -/

/-- The inner loop of `LongestSubarrayKDistinct`:
`for len(countMap) > k { countMap[nums[left]]--; if countMap[nums[left]] == 0 { delete(countMap, nums[left]) }; left++ }`;
returns `(countMap, left)`. -/
def shrinkDistinct (nums : List Int) (k : Int) :
    Nat → List (Int × Int) → Nat → Except Fault (List (Int × Int) × Nat)
  | 0, countMap, left =>
    if k < (countMap.length : Int) then .error .fuelExhausted else .ok (countMap, left)
  | fuel + 1, countMap, left =>
    if k < (countMap.length : Int) then do
      let y ← index nums left
      let countMap := mapSet countMap y (mapGet countMap y - 1)
      let countMap := if mapGet countMap y = 0 then mapDelete countMap y else countMap
      shrinkDistinct nums k fuel countMap (left + 1)
    else .ok (countMap, left)

/-- The outer loop of `LongestSubarrayKDistinct`, from the counter `right`. -/
def kDistinctLoop (nums : List Int) (k : Int) :
    Nat → Nat → Nat → Int → List (Int × Int) → Except Fault Int
  | 0, right, _, maxLength, _ =>
    if right < nums.length then .error .fuelExhausted else .ok maxLength
  | fuel + 1, right, left, maxLength, countMap =>
    if right < nums.length then do
      let x ← index nums right
      let countMap := mapSet countMap x (mapGet countMap x + 1)
      let (countMap, left) ← shrinkDistinct nums k (nums.length + 1) countMap left
      let maxLength :=
        if (countMap.length : Int) = k then
          maxViaFloat64 maxLength ((right : Int) - (left : Int) + 1)
        else maxLength
      kDistinctLoop nums k fuel (right + 1) left maxLength countMap
    else .ok maxLength

/-- Go `func (sw *SlidingWindowAlgorithms) LongestSubarrayKDistinct(nums []int, k int) int`. -/
def LongestSubarrayKDistinct (nums : List Int) (k : Int) : Except Fault Int :=
  if nums.length = 0 ∨ k ≤ 0 then .ok 0
  else kDistinctLoop nums k nums.length 0 0 0 []

/-- The number of distinct values in `w`. -/
def distinctCount {κ : Type} [DecidableEq κ] (w : List κ) : Nat := w.dedup.length

/-- The map holds, for each value that occurs in `w`, one entry with its number
of occurrences, and nothing else. -/
def Represents {κ : Type} [DecidableEq κ] (m : List (κ × Int)) (w : List κ) : Prop :=
  (m.map Prod.fst).Nodup ∧
  ∀ key, mapFind m key = if w.count key = 0 then none else some (w.count key : Int)

/-- Invariant of `LongestSubarrayKDistinct` when index `right` is about to be
visited: the window from `left` is the longest one ending there with at most
`k` distinct values, and `maxLength` is the best length of a subarray with
exactly `k` distinct values that ends at or before `right`. -/
def KDistinctInv (nums : List Int) (k : Int) (right left : Nat) (maxLength : Int)
    (countMap : List (Int × Int)) : Prop :=
  left ≤ right ∧ Represents countMap (window nums left (right - left)) ∧
  (distinctCount (window nums left (right - left)) : Int) ≤ k ∧
  (∀ a, a < left → k < (distinctCount (window nums a (right - a)) : Int)) ∧
  0 ≤ maxLength ∧ maxLength ≤ (right : Int) ∧
  (∀ a n, a + n ≤ right → (distinctCount (window nums a n) : Int) = k → (n : Int) ≤ maxLength) ∧
  (maxLength = 0 ∨
    ∃ a n, a + n ≤ right ∧ (distinctCount (window nums a n) : Int) = k ∧ (n : Int) = maxLength)

/-! ## MinWindowSubstring -/

/-- The slice `ans` of `MinWindowSubstring`: `ans[0]` is the length of the best
window so far, `ans[1]` and `ans[2]` are its first and last index. -/
structure Answer where
  length : Int
  left : Nat
  right : Nat
deriving DecidableEq, Repr

/-- Go `for _, char := range t { dictT[char]++ }`. -/
def countChars : List Char → List (Char × Int) → List (Char × Int)
  | [], dictT => dictT
  | char :: rest, dictT => countChars rest (mapSet dictT char (mapGet dictT char + 1))

/-- Go `if count, exists := dictT[character]; exists && windowCounts[character] == count { formed++ }`;
returns `formed`. -/
def formedAfterPush (dictT windowCounts : List (Char × Int)) (character : Char)
    (formed : Int) : Int :=
  match mapFind dictT character with
  | some count => if mapGet windowCounts character = count then formed + 1 else formed
  | none => formed

/-- Go `if count, exists := dictT[character]; exists && windowCounts[character] < count { formed-- }`;
returns `formed`. -/
def formedAfterPop (dictT windowCounts : List (Char × Int)) (character : Char)
    (formed : Int) : Int :=
  match mapFind dictT character with
  | some count => if mapGet windowCounts character < count then formed - 1 else formed
  | none => formed

/-- The inner loop `for left <= right && formed == required` of
`MinWindowSubstring`; returns `(left, formed, windowCounts, ans)`. -/
def contract (s : List Char) (dictT : List (Char × Int)) (required : Int) (right : Nat) :
    Nat → Nat → Int → List (Char × Int) → Answer →
      Except Fault (Nat × Int × List (Char × Int) × Answer)
  | 0, left, formed, windowCounts, ans =>
    if left ≤ right ∧ formed = required then .error .fuelExhausted
    else .ok (left, formed, windowCounts, ans)
  | fuel + 1, left, formed, windowCounts, ans =>
    if left ≤ right ∧ formed = required then do
      let character ← index s left
      let ans :=
        if (right : Int) - (left : Int) + 1 < ans.length then
          Answer.mk ((right : Int) - (left : Int) + 1) left right
        else ans
      let windowCounts := mapSet windowCounts character (mapGet windowCounts character - 1)
      let formed := formedAfterPop dictT windowCounts character formed
      contract s dictT required right fuel (left + 1) formed windowCounts ans
    else .ok (left, formed, windowCounts, ans)

/-- The loop `for right, character := range s` of `MinWindowSubstring`, at
index `right` with the characters from `right` on still to be visited. -/
def minWindowLoop (s : List Char) (dictT : List (Char × Int)) (required : Int) :
    List Char → Nat → Nat → Int → List (Char × Int) → Answer → Except Fault Answer
  | [], _, _, _, _, ans => .ok ans
  | character :: rest, right, left, formed, windowCounts, ans => do
    let windowCounts := mapSet windowCounts character (mapGet windowCounts character + 1)
    let formed := formedAfterPush dictT windowCounts character formed
    let (left, formed, windowCounts, ans) ←
      contract s dictT required right (s.length + 1) left formed windowCounts ans
    minWindowLoop s dictT required rest (right + 1) left formed windowCounts ans

/-- Go `s[low:high]`. -/
def substring {α : Type} (s : List α) (low high : Nat) : Except Fault (List α) :=
  if low ≤ high ∧ high ≤ s.length then .ok ((s.drop low).take (high - low))
  else .error .indexOutOfRange

/-- Go `func (sw *SlidingWindowAlgorithms) MinWindowSubstring(s, t string) string`. -/
def MinWindowSubstring (s t : List Char) : Except Fault (List Char) :=
  if s.length = 0 ∨ t.length = 0 then .ok []
  else do
    let dictT := countChars t []
    let required : Int := dictT.length
    let ans ← minWindowLoop s dictT required s 0 0 0 [] (Answer.mk 2147483647 0 0)
    if ans.length = 2147483647 then .ok []
    else substring s ans.left (ans.right + 1)

/-- Every character is a single byte (ASCII). -/
def SingleByte (s : List Char) : Prop := ∀ c ∈ s, c.toNat < 128

instance (s : List Char) : Decidable (SingleByte s) := by
  unfold SingleByte
  infer_instance

/-- The string `w` contains every character of `t` at least as many times as
it occurs in `t`. -/
def Covers (w t : List Char) : Prop := ∀ c, t.count c ≤ w.count c

/-- The number of distinct characters of `t` that occur in `w` at least as
many times as in `t`. -/
def formedCount (t w : List Char) : Nat :=
  t.dedup.countP (fun c => decide (t.count c ≤ w.count c))

/-- The map gives the number of occurrences in `w` of every character. -/
def Counts (m : List (Char × Int)) (w : List Char) : Prop :=
  ∀ key, mapGet m key = (w.count key : Int)

/-- The answer `ans` is at least as good as the window of length `n` that
starts at `b`: shorter, or as long and not further right. -/
def Beats (ans : Answer) (b n : Nat) : Prop :=
  ans.length < (n : Int) ∨ (ans.length = (n : Int) ∧ ans.left ≤ b)

/-- Invariant of `MinWindowSubstring` for the window of `s` from `left` up to
`stop` (excluded): the counters describe the window, `ans` is the sentinel or a
window that covers `t`, and `ans` is at least as good as every window that
starts before `left` and reaches `stop`, and as every window that covers `t`
and ends before `stop`. -/
def WindowInv (s t : List Char) (stop left : Nat) (formed : Int)
    (windowCounts : List (Char × Int)) (ans : Answer) : Prop :=
  left ≤ stop ∧ stop ≤ s.length ∧
  Counts windowCounts (window s left (stop - left)) ∧
  formed = (formedCount t (window s left (stop - left)) : Int) ∧
  ans.length ≤ 2147483647 ∧
  (ans.length < 2147483647 →
    ans.length = (ans.right : Int) - (ans.left : Int) + 1 ∧ ans.left ≤ ans.right ∧
    ans.right < stop ∧ Covers (window s ans.left (ans.right + 1 - ans.left)) t) ∧
  ans.left ≤ left ∧
  (∀ b n, b < left → stop ≤ b + n → Beats ans b n) ∧
  (∀ b n, b + n < stop → Covers (window s b n) t → Beats ans b n)

end SlidingWindow

namespace Backtracking

open DijkstraOtimizado GoRuntime

/-! # Backtracking algorithms (`src/go/backtracking/backtracking_basico.go`)

The methods of `BacktrackingAlgorithms` use their receiver only for the two
diagnostic counters `recursionCount` and `backtrackCount`, which no result
depends on; they are modelled as functions of their arguments. A closure that
appends to the captured variable `result` takes the list and returns it
extended. A `string` is the list of its characters. -/

/-! ## GeneratePermutations -/

/-- Go `func (bt *BacktrackingAlgorithms) contains(slice []int, val int) bool`. -/
def contains : List Int → Int → Bool
  | [], _ => false
  | item :: rest, val => if item = val then true else contains rest val

/-- The closure `backtrack` of `GeneratePermutations`. The slice
`currentPermutation` of a call is the same before and after each iteration of
its loop (`append` followed by the reslice `[:len-1]`), and a deeper call only
writes beyond that length. Every call extends the slice by one element, so the
depth of the recursion is `len(nums) - len(currentPermutation)`; `fuel` bounds
it. -/
def permBacktrack (nums : List Int) :
    Nat → List Int → List (List Int) → Except Fault (List (List Int))
  | 0, currentPermutation, result =>
    if currentPermutation.length = nums.length then .ok (result ++ [currentPermutation])
    else .error .fuelExhausted
  | fuel + 1, currentPermutation, result =>
    if currentPermutation.length = nums.length then .ok (result ++ [currentPermutation])
    else
      nums.foldlM (fun result num =>
        if !contains currentPermutation num then
          permBacktrack nums fuel (currentPermutation ++ [num]) result
        else pure result) result

/-- Go `func (bt *BacktrackingAlgorithms) GeneratePermutations(nums []int) [][]int`. -/
def GeneratePermutations (nums : List Int) : Except Fault (List (List Int)) :=
  permBacktrack nums nums.length [] []

/-- The rearrangements of `nums` that start with `cur`. -/
def ExtendsTo (nums cur p : List Int) : Prop := cur <+: p ∧ p.Perm nums

/-! ## SolveSudoku -/

/-- A Go `[]string` row of a board: the window of `len` cells of the string
memory that starts at `start`. -/
structure Row where
  start : Nat
  len : Nat
deriving DecidableEq, Repr

/-- A Go `[][]string` board: its row slices and the memory of string cells they
are windows of. Two rows may share cells (the same slice stored twice, or
overlapping windows of one array); `SolveSudoku` writes cells and never a row
slice. -/
structure Board where
  rows : List Row
  cells : List (List Char)
deriving DecidableEq, Repr

/-- The string `"."` of an empty cell. -/
def emptyCell : List Char := ['.']

/-- The values of `num` in `for num := "1"; num <= "9"; num = string(rune(num[0] + 1))`,
in order: the successor of `"9"` is `":"`, and `":" <= "9"` is false. -/
def numerals : List (List Char) :=
  [['1'], ['2'], ['3'], ['4'], ['5'], ['6'], ['7'], ['8'], ['9']]

/-- Go `board[i][j]` as an rvalue: the row slice `board[i]`, the bounds check
of `j` against its length, the cell of the memory. -/
def cellGet (board : Board) (i j : Nat) : Except Fault (List Char) := do
  let row ← index board.rows i
  if j < row.len then index board.cells (row.start + j)
  else throw Fault.indexOutOfRange

/-- Go `board[i][j] = v`: the write goes to the memory, so it shows in every row
that shares the cell. -/
def cellSet (board : Board) (i j : Nat) (v : List Char) : Except Fault Board := do
  let row ← index board.rows i
  if j < row.len then do
    let cells ← store board.cells (row.start + j) v
    pure { board with cells := cells }
  else throw Fault.indexOutOfRange

/-- The loop `for x := 0; x < 9; x++ { if board[row][x] == num { return false } }`
of `isValidSudoku`, with `todo` iterations left: `false` when it returns from
the function, `true` when it runs to its end. -/
def scanRow (board : Board) (row : Nat) (num : List Char) : Nat → Nat → Except Fault Bool
  | 0, _ => .ok true
  | todo + 1, x => do
    let c ← cellGet board row x
    if c = num then pure false else scanRow board row num todo (x + 1)

/-- The loop `for x := 0; x < 9; x++ { if board[x][col] == num { return false } }`. -/
def scanCol (board : Board) (col : Nat) (num : List Char) : Nat → Nat → Except Fault Bool
  | 0, _ => .ok true
  | todo + 1, x => do
    let c ← cellGet board x col
    if c = num then pure false else scanCol board col num todo (x + 1)

/-- The nested loops over `i < 3` and `j < 3` that compare
`board[i+startRow][j+startCol]` with `num`, with `todo` cells left. -/
def scanBox (board : Board) (startRow startCol : Nat) (num : List Char) :
    Nat → Nat → Nat → Except Fault Bool
  | 0, _, _ => .ok true
  | todo + 1, i, j => do
    let c ← cellGet board (i + startRow) (j + startCol)
    if c = num then pure false
    else if j + 1 < 3 then scanBox board startRow startCol num todo i (j + 1)
    else scanBox board startRow startCol num todo (i + 1) 0

/-- Go `isValidSudoku(board, row, col, num)`. -/
def isValidSudoku (board : Board) (row col : Nat) (num : List Char) : Except Fault Bool := do
  let rowFree ← scanRow board row num 9 0
  if !rowFree then pure false
  else do
    let colFree ← scanCol board col num 9 0
    if !colFree then pure false
    else scanBox board (3 * (row / 3)) (3 * (col / 3)) num 9 0 0

/-- The nested loops over `i < 9` and `j < 9` of the closure `solve` up to the
first cell equal to `"."`, with `todo` cells left; `none` when the loops run to
their end. -/
def firstEmpty (board : Board) : Nat → Nat → Nat → Except Fault (Option (Nat × Nat))
  | 0, _, _ => .ok none
  | todo + 1, i, j => do
    let c ← cellGet board i j
    if c = emptyCell then pure (some (i, j))
    else if j + 1 < 9 then firstEmpty board todo i (j + 1)
    else firstEmpty board todo (i + 1) 0

/-- The loop over `num` of the closure `solve` at the empty cell `(i, j)`, with
the values of `num` still to try; `solve` is the recursive call. The loop is
followed by `return false`. -/
def tryNums (solve : Board → Except Fault (Bool × Board)) (i j : Nat) :
    List (List Char) → Board → Except Fault (Bool × Board)
  | [], board => .ok (false, board)
  | num :: rest, board => do
    let valid ← isValidSudoku board i j num
    if valid then do
      let board ← cellSet board i j num
      let (solved, board) ← solve board
      if solved then pure (true, board)
      else do
        let board ← cellSet board i j emptyCell
        tryNums solve i j rest board
    else tryNums solve i j rest board

/-- The closure `solve` of `SolveSudoku`, returning its result and the board it
leaves. Every nested call runs on a board with one more filled cell; `fuel`
bounds the depth of the recursion. -/
def solve : Nat → Board → Except Fault (Bool × Board)
  | 0, _ => .error .fuelExhausted
  | fuel + 1, board => do
    match ← firstEmpty board 81 0 0 with
    | none => pure (true, board)
    | some (i, j) => tryNums (fun b => solve fuel b) i j numerals board

/-- Go `SolveSudoku(board)`: the result and the board afterwards. A board has
81 cells, so the recursion is at most 82 calls deep. -/
def SolveSudoku (board : Board) : Except Fault (Bool × Board) := solve 82 board

/-- The address in the cell memory of `board[i][j]`. -/
def address (board : Board) (i j : Nat) : Nat := (board.rows.getD i ⟨0, 0⟩).start + j

/-- The cell `board[i][j]` (the empty cell outside the memory). -/
def cellAt (board : Board) (i j : Nat) : List Char :=
  board.cells.getD (address board i j) emptyCell

/-- A 9x9 board: nine rows of nine cells, each inside the memory. -/
def Shaped (board : Board) : Prop :=
  board.rows.length = 9 ∧ ∀ r ∈ board.rows, r.len = 9 ∧ r.start + 9 ≤ board.cells.length

instance (board : Board) : Decidable (Shaped board) := by
  unfold Shaped; infer_instance

/-- The rows are separate slices: no two of them share a cell. -/
def Separate (board : Board) : Prop :=
  board.rows.Pairwise (fun a b => a.start + a.len ≤ b.start ∨ b.start + b.len ≤ a.start)

instance (board : Board) : Decidable (Separate board) := by
  unfold Separate; infer_instance

/-- The cell `(i, j)` is `"."` or one of the digits `"1"` to `"9"`. -/
def CellOk (board : Board) (i j : Nat) : Prop :=
  cellAt board i j = emptyCell ∨ cellAt board i j ∈ numerals

instance (board : Board) (i j : Nat) : Decidable (CellOk board i j) := by
  unfold CellOk; infer_instance

/-- Every cell is `"."` or one of the digits `"1"` to `"9"`. -/
def CellsOk (board : Board) : Prop := ∀ i, i < 9 → ∀ j, j < 9 → CellOk board i j

instance (board : Board) : Decidable (CellsOk board) := by
  unfold CellsOk; infer_instance

/-- Two cells share a row, a column or a 3x3 box. -/
def Peer (i j i' j' : Nat) : Prop := i = i' ∨ j = j' ∨ (i / 3 = i' / 3 ∧ j / 3 = j' / 3)

instance (i j i' j' : Nat) : Decidable (Peer i j i' j') := by
  unfold Peer; infer_instance

/-- The cell `(i, j)`, if filled, differs from the cell `(i', j')` whenever the
two are different cells that share a row, a column or a 3x3 box. -/
def Differ (board : Board) (i j i' j' : Nat) : Prop :=
  (i, j) ≠ (i', j') → Peer i j i' j' → cellAt board i j ≠ emptyCell →
    cellAt board i j ≠ cellAt board i' j'

instance (board : Board) (i j i' j' : Nat) : Decidable (Differ board i j i' j') := by
  unfold Differ; infer_instance

/-- No digit is repeated in a row, a column or a 3x3 box: two different filled
cells that share one hold different values. -/
def NoClash (board : Board) : Prop :=
  ∀ i, i < 9 → ∀ j, j < 9 → ∀ i', i' < 9 → ∀ j', j' < 9 → Differ board i j i' j'

instance (board : Board) : Decidable (NoClash board) := by
  unfold NoClash; infer_instance

/-- No cell is `"."`. -/
def Complete (board : Board) : Prop :=
  ∀ i j, i < 9 → j < 9 → cellAt board i j ≠ emptyCell

/-- The board `after` keeps every filled cell of `before`. -/
def Agrees (before after : Board) : Prop :=
  ∀ i j, i < 9 → j < 9 → cellAt before i j ≠ emptyCell → cellAt after i j = cellAt before i j

/-- The 81 positions of a board. -/
def positions : List (Nat × Nat) := List.product (List.range 9) (List.range 9)

/-- Number of positions whose cell is `"."`. -/
def empties (board : Board) : Nat :=
  positions.countP (fun p => decide (cellAt board p.1 p.2 = emptyCell))

/-- The board with cell `(i, j)` replaced by `v`. -/
def put (board : Board) (i j : Nat) (v : List Char) : Board :=
  { board with cells := board.cells.set (address board i j) v }

/-- What a call of `solve` on `board` comes to: it returns; with `true` it leaves
a 9x9 board with the same row slices and without empty cell that keeps the
filled cells of `board`, repeats no digit, and holds only digits if `board` held
only digits and `"."`; with `false` it leaves `board` as it was. -/
def Outcome (board : Board) (r : Except Fault (Bool × Board)) : Prop :=
  ∃ solved after, r = .ok (solved, after) ∧
    (solved = true → after.rows = board.rows ∧ Shaped after ∧ Complete after ∧
      Agrees board after ∧ NoClash after ∧ (CellsOk board → CellsOk after)) ∧
    (solved = false → after = board)

/-- The board a composite literal `[][]string{{...}, ...}` of nine rows builds:
every row is an array of its own. -/
def literalBoard (lines : List (List (List Char))) : Board :=
  ⟨(List.range lines.length).map (fun i => ⟨9 * i, 9⟩), lines.flatten⟩

/-- The board `sudokuBoard` of `demonstrarBacktracking`. -/
def puzzle : Board :=
  literalBoard
  [[['5'], ['3'], ['.'], ['.'], ['7'], ['.'], ['.'], ['.'], ['.']],
   [['6'], ['.'], ['.'], ['1'], ['9'], ['5'], ['.'], ['.'], ['.']],
   [['.'], ['9'], ['8'], ['.'], ['.'], ['.'], ['.'], ['6'], ['.']],
   [['8'], ['.'], ['.'], ['.'], ['6'], ['.'], ['.'], ['.'], ['3']],
   [['4'], ['.'], ['.'], ['8'], ['.'], ['3'], ['.'], ['.'], ['1']],
   [['7'], ['.'], ['.'], ['.'], ['2'], ['.'], ['.'], ['.'], ['6']],
   [['.'], ['6'], ['.'], ['.'], ['.'], ['.'], ['2'], ['8'], ['.']],
   [['.'], ['.'], ['.'], ['4'], ['1'], ['9'], ['.'], ['.'], ['5']],
   [['.'], ['.'], ['.'], ['.'], ['8'], ['.'], ['.'], ['7'], ['9']]]

/-- A board whose nine rows are one and the same slice of nine `"."` cells, as
`row := make([]string, 9)`, filled with `"."`, stored in every `board[i]`. -/
def sharedRowBoard : Board := ⟨List.replicate 9 ⟨0, 9⟩, List.replicate 9 emptyCell⟩

/-! ## NQueens

A row of the board is a Go string of `'.'` and `'Q'`; every character is one
byte, so the byte index `board[i][col]` and the rune index `runes[col]` address
the same character. -/

/-- The loop `for i := 0; i < row; i++ { if board[i][col] == 'Q' { return false } }`
of `isSafe`, with `todo` iterations left: `false` when it returns from the
function, `true` when it runs to its end. -/
def safeColumn (board : List (List Char)) (col : Nat) : Nat → Nat → Except Fault Bool
  | 0, _ => .ok true
  | todo + 1, i => do
    let line ← index board i
    let c ← index line col
    if c = 'Q' then pure false else safeColumn board col todo (i + 1)

/-- The loop `for i, j := row-1, col-1; i >= 0 && j >= 0; i, j = i-1, j-1` of
`isSafe`, with a budget of `fuel` iterations. -/
def safeMainDiagonal (board : List (List Char)) : Nat → Int → Int → Except Fault Bool
  | 0, i, j => if i ≥ 0 ∧ j ≥ 0 then .error .fuelExhausted else .ok true
  | fuel + 1, i, j =>
    if i ≥ 0 ∧ j ≥ 0 then do
      let line ← sliceGet board i
      let c ← sliceGet line j
      if c = 'Q' then pure false else safeMainDiagonal board fuel (i - 1) (j - 1)
    else .ok true

/-- The loop `for i, j := row-1, col+1; i >= 0 && j < n; i, j = i-1, j+1` of
`isSafe`, with a budget of `fuel` iterations. -/
def safeSecondaryDiagonal (board : List (List Char)) (n : Int) :
    Nat → Int → Int → Except Fault Bool
  | 0, i, j => if i ≥ 0 ∧ j < n then .error .fuelExhausted else .ok true
  | fuel + 1, i, j =>
    if i ≥ 0 ∧ j < n then do
      let line ← sliceGet board i
      let c ← sliceGet line j
      if c = 'Q' then pure false else safeSecondaryDiagonal board n fuel (i - 1) (j + 1)
    else .ok true

/-- Go `isSafe(board, row, col, n)`. Each diagonal loop lowers `i` from
`row - 1`, so `row` iterations are enough for it. -/
def isSafe (board : List (List Char)) (row col n : Nat) : Except Fault Bool := do
  let columnFree ← safeColumn board col row 0
  if !columnFree then pure false
  else do
    let mainFree ← safeMainDiagonal board row ((row : Int) - 1) ((col : Int) - 1)
    if !mainFree then pure false
    else safeSecondaryDiagonal board n row ((row : Int) - 1) ((col : Int) + 1)

/-- The closure `backtrack` of `NQueens`, as a function of the captured `board`
and `result` that returns both. `runes` is the copy `[]rune(board[row])` that the
iteration writes twice. Every nested call is for the next row, so the depth of
the recursion is `n - row`; `fuel` bounds it. -/
def queensBacktrack (n : Nat) : Nat → Nat → List (List Char) → List (List (List Char)) →
    Except Fault (List (List Char) × List (List (List Char)))
  | 0, row, board, result =>
    if row = n then .ok (board, result ++ [board]) else .error .fuelExhausted
  | fuel + 1, row, board, result =>
    if row = n then .ok (board, result ++ [board])
    else
      (List.range n).foldlM (fun (state : List (List Char) × List (List (List Char))) col => do
        let safe ← isSafe state.1 row col n
        if safe then do
          let line ← index state.1 row
          let runes ← store line col 'Q'
          let board ← store state.1 row runes
          let (board, result) ← queensBacktrack n fuel (row + 1) board state.2
          let runes ← store runes col '.'
          let board ← store board row runes
          pure (board, result)
        else pure state) (board, result)

/-- Go `NQueens(n)`: `make([]string, n)`, every row `strings.Repeat(".", n)`,
then `backtrack(0)`. -/
def NQueens (n : Int) : Except Fault (List (List (List Char))) := do
  if n < 0 then throw Fault.negativeLen
  let m := n.toNat
  let (_, result) ← queensBacktrack m m 0 (List.replicate m (List.replicate m '.')) []
  pure result

/-- The character at row `i`, column `j` of a board (`'.'` outside it). -/
def charAt (board : List (List Char)) (i j : Nat) : Char := (board.getD i []).getD j '.'

/-- A solution of the `n` queens problem as the claim words it: `n` rows of
`n` characters `'.'` or `'Q'`, exactly one `'Q'` in every row, and no two queens
in the same column or on the same diagonal. -/
def IsSolution (n : Nat) (board : List (List Char)) : Prop :=
  board.length = n ∧
  (∀ line ∈ board, line.length = n ∧ ∀ c ∈ line, c = '.' ∨ c = 'Q') ∧
  (∀ i, i < n → ∃ j, j < n ∧ ∀ j', j' < n → (charAt board i j' = 'Q' ↔ j' = j)) ∧
  (∀ i j i' j', i < n → j < n → i' < n → j' < n → charAt board i j = 'Q' →
    charAt board i' j' = 'Q' → i ≠ i' → j ≠ j' ∧ i + j' ≠ i' + j ∧ i + j ≠ i' + j')

/-- The row of length `n` with its queen in column `q`. -/
def queenRow (n q : Nat) : List Char := (List.replicate n '.').set q 'Q'

/-- The board whose queens stand in the columns `qs`, row by row. -/
def boardOf (n : Nat) (qs : List Nat) : List (List Char) := qs.map (queenRow n)

/-- The captured board while the rows of `qs` hold their queens: those rows,
then rows of dots. -/
def stateOf (n : Nat) (qs : List Nat) : List (List Char) :=
  boardOf n qs ++ List.replicate (n - qs.length) (List.replicate n '.')

/-- A queen in column `col` of the next row is attacked by none of `qs`. -/
def SafeAt (qs : List Nat) (col : Nat) : Prop :=
  ∀ i, i < qs.length → qs.getD i 0 ≠ col ∧ qs.getD i 0 + qs.length ≠ col + i ∧
    qs.getD i 0 + i ≠ col + qs.length

instance (qs : List Nat) (col : Nat) : Decidable (SafeAt qs col) := by
  unfold SafeAt; infer_instance

/-- The queens `qs` stand in columns below `n` and no two attack each other. -/
def Placement (n : Nat) (qs : List Nat) : Prop :=
  (∀ q ∈ qs, q < n) ∧
  ∀ i j, i < j → j < qs.length → qs.getD i 0 ≠ qs.getD j 0 ∧
    qs.getD i 0 + j ≠ qs.getD j 0 + i ∧ qs.getD i 0 + i ≠ qs.getD j 0 + j

/-- The column of the first `'Q'` of a row (its length when there is none). -/
def queenCol : List Char → Nat
  | [] => 0
  | c :: rest => if c = 'Q' then 0 else queenCol rest + 1

end Backtracking

namespace DijkstraBasico

open DijkstraOtimizado GoRuntime

/-!
# The didactic variant: `src/go/dijkstra/dijkstra_basico.go`

`SimpleGraph` stores the weights in an adjacency matrix in which `0` stands for
"no edge"; `DijkstraBasico` selects the next vertex by a linear scan. Integers,
slices and faults are those of `DijkstraOtimizado`; the `fmt` output of the Go
function is not modelled.
-/

/-- Go `type SimpleGraph struct { vertices int; matrix [][]int }`. -/
structure SimpleGraph where
  vertices : Int
  matrix : List (List Int)
deriving DecidableEq, Repr

/-- Go `NewSimpleGraph`: `vertices` rows, each `make([]int, vertices)`, all zero. -/
def NewSimpleGraph (vertices : Int) : Except Fault SimpleGraph :=
  if 0 ≤ vertices then
    .ok ⟨vertices, List.replicate vertices.toNat (List.replicate vertices.toNat 0)⟩
  else .error .negativeLen

/-- Go `AddEdge`: `g.matrix[from][to] = weight`; `from` and `to` are spelled
`src` and `dest`. The rows are separate slices, so only row `src` changes. -/
def SimpleGraph.AddEdge (g : SimpleGraph) (src dest weight : Int) :
    Except Fault SimpleGraph := do
  let row ← sliceGet g.matrix src
  let row ← sliceSet row dest weight
  let matrix ← sliceSet g.matrix src row
  pure { g with matrix := matrix }

/-- The local slices of one call of `DijkstraBasico`. -/
structure Tables where
  distances : List Int
  previous : List Int
  visited : List Bool
deriving DecidableEq, Repr

/-- The scan `for v := 0; v < g.vertices; v++` for the unvisited vertex of
least distance, with `todo` iterations left; returns `minVertex`. The operator
`&&` reads `distances[v]` only when `visited[v]` is false. -/
def findMin (st : Tables) : Nat → Int → Int → Int → Except Fault Int
  | 0, _, _, minVertex => .ok minVertex
  | todo + 1, v, minDistance, minVertex => do
    let seen ← sliceGet st.visited v
    if seen then findMin st todo (v + 1) minDistance minVertex
    else do
      let d ← sliceGet st.distances v
      if d < minDistance then findMin st todo (v + 1) d v
      else findMin st todo (v + 1) minDistance minVertex

/-- The body of the relaxation loop for one `neighbor`. -/
def relaxNeighbor (g : SimpleGraph) (minVertex neighbor : Int) (st : Tables) :
    Except Fault Tables := do
  let row ← sliceGet g.matrix minVertex
  let w ← sliceGet row neighbor
  if w > 0 then do
    let seen ← sliceGet st.visited neighbor
    if seen then pure st
    else do
      let dm ← sliceGet st.distances minVertex
      let newDistance := addInt dm w
      let dn ← sliceGet st.distances neighbor
      if newDistance < dn then do
        let distances ← sliceSet st.distances neighbor newDistance
        let previous ← sliceSet st.previous neighbor minVertex
        pure { st with distances := distances, previous := previous }
      else pure st
  else pure st

/-- The relaxation loop `for neighbor := 0; neighbor < g.vertices; neighbor++`,
with `todo` iterations left. -/
def relaxLoop (g : SimpleGraph) (minVertex : Int) : Nat → Int → Tables → Except Fault Tables
  | 0, _, st => .ok st
  | todo + 1, neighbor, st => do
    let st ← relaxNeighbor g minVertex neighbor st
    relaxLoop g minVertex todo (neighbor + 1) st

/-- The main loop `for count := 0; count < g.vertices; count++`, with `todo`
iterations left; it is left early through `break` when the scan finds no
unvisited vertex with a distance below `INF`. -/
def basicoLoop (g : SimpleGraph) : Nat → Tables → Except Fault Tables
  | 0, st => .ok st
  | todo + 1, st => do
    let minVertex ← findMin st g.vertices.toNat 0 INF (-1)
    if minVertex = -1 then pure st
    else do
      let visited ← sliceSet st.visited minVertex true
      let st ← relaxLoop g minVertex g.vertices.toNat 0 { st with visited := visited }
      basicoLoop g todo st

/-- Go `DijkstraBasico`: the three `make`s, the initialising loop,
`distances[start] = 0`, the main loop; returns `(distances, previous)`. Every
loop is bounded by `g.vertices`, so no step budget is needed. -/
def SimpleGraph.DijkstraBasico (g : SimpleGraph) (start : Int) :
    Except Fault (List Int × List Int) := do
  if g.vertices < 0 then throw Fault.negativeLen
  let n := g.vertices.toNat
  let distances ← sliceSet (List.replicate n INF) start 0
  let st ← basicoLoop g n ⟨distances, List.replicate n (-1), List.replicate n false⟩
  pure (st.distances, st.previous)

/-- A matrix graph as a driver builds it: `NewSimpleGraph(vertices)` followed by
one `AddEdge(from, to, weight)` per triple, in order. -/
def buildSimple (vertices : Int) (edges : List (Int × Int × Int)) :
    Except Fault SimpleGraph := do
  let g ← NewSimpleGraph vertices
  edges.foldlM (fun g e => g.AddEdge e.1 e.2.1 e.2.2) g

/-- The `AddEdge` calls `0 -> 1` of weight 1 and `1 -> 0` of weight `MaxInt64`. -/
def overflowCalls : List (Int × Int × Int) := [(0, 1, 1), (1, 0, 9223372036854775807)]

/-! ## Vocabulary of the statements -/

/-- The entry `g.matrix[u][v]` (0 outside the matrix). -/
def SimpleGraph.M (g : SimpleGraph) (u v : Int) : Int := look 0 (look [] g.matrix u) v

/-- The matrix graph `gs` and the adjacency-list graph `gw` store the same
edges: same vertex count, a square matrix, and an edge `u -> v` of weight `w` is
stored in `gw` exactly when `matrix[u][v]` is `w` and positive. -/
structure SameGraph (gs : SimpleGraph) (gw : WeightedGraph) : Prop where
  vert : gs.vertices = gw.vertices
  rows : gs.matrix.length = gw.adjList.length
  cols : ∀ u, InR gw.adjList.length u → (look [] gs.matrix u).length = gw.adjList.length
  edge : ∀ u v w, InR gw.adjList.length u → InR gw.adjList.length v →
    (gw.HasEdge u ⟨v, w⟩ ↔ gs.M u v = w ∧ 0 < w)

/-- The precondition of the comparison: every call has in-range endpoints and a
strictly positive weight, and no `(from, to)` pair is repeated. -/
def ValidCalls (vertices : Int) (calls : List (Int × Int × Int)) : Prop :=
  (∀ e ∈ calls, (0 ≤ e.1 ∧ e.1 < vertices) ∧ (0 ≤ e.2.1 ∧ e.2.1 < vertices) ∧ 0 < e.2.2) ∧
  (calls.map (fun e => (e.1, e.2.1))).Nodup

instance (vertices : Int) (calls : List (Int × Int × Int)) :
    Decidable (ValidCalls vertices calls) := by
  unfold ValidCalls; infer_instance

/-- No weight is so large that adding it to a distance below `INF` overflows. -/
def BoundedCalls (calls : List (Int × Int × Int)) : Prop :=
  ∀ e ∈ calls, e.2.2 ≤ maxInt64 - INF

instance (calls : List (Int × Int × Int)) : Decidable (BoundedCalls calls) := by
  unfold BoundedCalls; infer_instance

/-- The entry `distances[v]` (`INF` outside the slice). -/
def Tables.D (st : Tables) (v : Int) : Int := look INF st.distances v

/-- The entry `visited[v]` (`false` outside the slice). -/
def Tables.Vis (st : Tables) (v : Int) : Bool := look false st.visited v

/-- Invariant of the main loop of `DijkstraBasico` on positive weights that
cannot overflow, stated against the adjacency-list graph `g` with the same
edges: distances lie in `[0, INF]` and are realised by walks, the source keeps
distance 0, visited vertices have a distance below `INF` that no unvisited
vertex undercuts. -/
structure InvS (g : WeightedGraph) (s : Int) (st : Tables) : Prop where
  lenD : st.distances.length = g.adjList.length
  lenP : st.previous.length = g.adjList.length
  lenV : st.visited.length = g.adjList.length
  src0 : st.D s = 0
  nonneg : ∀ v, 0 ≤ st.D v
  dLe : ∀ v, st.D v ≤ INF
  walk : ∀ v, InR g.adjList.length v → st.D v < INF → Walk g s v (st.D v)
  visFin : ∀ u, st.Vis u = true → st.D u < INF
  mono : ∀ u v, st.Vis u = true → st.Vis v = false → st.D u ≤ st.D v

/-- Every edge leaving a visited vertex is relaxed, except the edges of `cur`
to the neighbours from `k` on, which the relaxation loop has yet to reach. -/
def TriUpTo (g : WeightedGraph) (st : Tables) (cur k : Int) : Prop :=
  ∀ u e, st.Vis u = true → g.HasEdge u e → (u = cur → e.dest < k) →
    st.D e.dest ≤ st.D u + e.weight

/-- Every edge leaving a visited vertex is relaxed. -/
def TriS (g : WeightedGraph) (st : Tables) : Prop :=
  ∀ u e, st.Vis u = true → g.HasEdge u e → st.D e.dest ≤ st.D u + e.weight

/-- The vertex `cur` is visited and no visited vertex has a larger distance. -/
def CurMaxS (st : Tables) (cur : Int) : Prop :=
  st.Vis cur = true ∧ ∀ u, st.Vis u = true → st.D u ≤ st.D cur

/-- No unvisited vertex has a distance below `INF`. -/
def Done (st : Tables) : Prop := ∀ v, st.Vis v = false → INF ≤ st.D v

end DijkstraBasico

namespace DijkstraMemory

open DijkstraOtimizado GoRuntime

/-!
# The memory a query runs in (`src/go/dijkstra/otimizado/dijkstra_otimizado.go`)

`Dijkstra` has a pointer receiver and returns two slices, so whether a call
changes the graph, and what a second call finds, are questions about memory.
Here the `WeightedGraph` struct, its adjacency table, the rows of edges and the
slices of `int` and of `bool` are objects of a memory, addressed by number;
`make` allocates a new object, and every read and write of the method goes
through an address. Objects of different Go types never overlap, so each type
has its own address space. The priority queue and its items are allocated by the
call and reachable only from its local variable `pq`; they are kept as the value
`PriorityQueue` of the model of the file.
-/

/-- The objects a program has allocated. A `WeightedGraph` struct holds
`vertices` and the address of its `[][]Edge` table; a table holds the address of
the row of each vertex (two entries may name the same row). -/
structure Memory where
  graphs : List (Int × Nat)
  tables : List (List Nat)
  rows : List (List Edge)
  ints : List (List Int)
  bools : List (List Bool)
deriving DecidableEq, Repr

/-- Go `make([]int, n)`: a new object of `n` zeros; returns its address. -/
def makeInts (mem : Memory) (n : Int) : Except Fault (Nat × Memory) :=
  if n < 0 then .error .negativeLen
  else .ok (mem.ints.length, { mem with ints := mem.ints ++ [List.replicate n.toNat 0] })

/-- Go `make([]bool, n)`: a new object of `n` times `false`; returns its address. -/
def makeBools (mem : Memory) (n : Int) : Except Fault (Nat × Memory) :=
  if n < 0 then .error .negativeLen
  else .ok (mem.bools.length, { mem with bools := mem.bools ++ [List.replicate n.toNat false] })

/-- Go `xs[i]` for the `[]int` at address `a`. -/
def loadInt (mem : Memory) (a : Nat) (i : Int) : Except Fault Int := do
  let xs ← index mem.ints a
  sliceGet xs i

/-- Go `xs[i] = x` for the `[]int` at address `a`. -/
def storeInt (mem : Memory) (a : Nat) (i : Int) (x : Int) : Except Fault Memory := do
  let xs ← index mem.ints a
  let xs ← sliceSet xs i x
  let ints ← store mem.ints a xs
  pure { mem with ints := ints }

/-- Go `xs[i]` for the `[]bool` at address `a`. -/
def loadBool (mem : Memory) (a : Nat) (i : Int) : Except Fault Bool := do
  let xs ← index mem.bools a
  sliceGet xs i

/-- Go `xs[i] = x` for the `[]bool` at address `a`. -/
def storeBool (mem : Memory) (a : Nat) (i : Int) (x : Bool) : Except Fault Memory := do
  let xs ← index mem.bools a
  let xs ← sliceSet xs i x
  let bools ← store mem.bools a xs
  pure { mem with bools := bools }

/-- Go `g.vertices` for the struct at address `g`. -/
def loadVertices (mem : Memory) (g : Nat) : Except Fault Int := do
  let s ← index mem.graphs g
  pure s.1

/-- Go `g.adjList[v]` for the struct at address `g`: the address of the row. -/
def loadRow (mem : Memory) (g : Nat) (v : Int) : Except Fault Nat := do
  let s ← index mem.graphs g
  let table ← index mem.tables s.2
  sliceGet table v

/-- The loop `for i := 0; i < g.vertices; i++ { distances[i] = INF; previous[i] = -1 }`
with a budget of `fuel` iterations; its condition reads `g.vertices` every time. -/
def initLoop (g distances previous : Nat) : Nat → Int → Memory → Except Fault Memory
  | 0, i, mem => do
    let n ← loadVertices mem g
    if i < n then .error .fuelExhausted else .ok mem
  | fuel + 1, i, mem => do
    let n ← loadVertices mem g
    if i < n then do
      let mem ← storeInt mem distances i INF
      let mem ← storeInt mem previous i (-1)
      initLoop g distances previous fuel (i + 1) mem
    else .ok mem

/-- The memory and the local variables of a running call: the addresses of its
three slices and its queue. -/
structure Locals where
  mem : Memory
  distances : Nat
  previous : Nat
  visited : Nat
  pq : PriorityQueue
deriving DecidableEq, Repr

/-- The body of the relaxation loop for one `edge`. -/
def relaxEdgeIn (currentVertex : Int) (edge : Edge) (r : Locals) : Except Fault Locals := do
  let neighbor := edge.dest
  let dcur ← loadInt r.mem r.distances currentVertex
  let newDistance := addInt dcur edge.weight
  let dn ← loadInt r.mem r.distances neighbor
  if newDistance < dn then do
    let mem ← storeInt r.mem r.distances neighbor newDistance
    let mem ← storeInt mem r.previous neighbor currentVertex
    let pq ← heapPush r.pq ⟨neighbor, newDistance, 0⟩
    pure { r with mem := mem, pq := pq }
  else pure r

/-- The loop `for _, edge := range g.adjList[currentVertex]` over the row at
address `row`: the range expression is evaluated once, which fixes the number
`todo` of iterations, and the edge of iteration `k` is read from the memory when
the iteration starts. -/
def relaxRange (currentVertex : Int) (row : Nat) : Nat → Nat → Locals → Except Fault Locals
  | 0, _, r => .ok r
  | todo + 1, k, r => do
    let edges ← index r.mem.rows row
    let edge ← index edges k
    let r ← relaxEdgeIn currentVertex edge r
    relaxRange currentVertex row todo (k + 1) r

/-- One iteration of the main loop of `Dijkstra` for the graph at address `g`. -/
def stepIn (g : Nat) (r : Locals) : Except Fault Locals := do
  let (current, pq) ← heapPop r.pq
  let currentVertex := current.vertex
  let seen ← loadBool r.mem r.visited currentVertex
  if seen then pure { r with pq := pq }
  else do
    let mem ← storeBool r.mem r.visited currentVertex true
    let row ← loadRow mem g currentVertex
    let edges ← index mem.rows row
    relaxRange currentVertex row edges.length 0 { r with mem := mem, pq := pq }

/-- The main loop `for pq.Len() > 0 { ... }`. -/
def loopIn (g : Nat) : Nat → Locals → Except Fault Locals
  | 0, r => if r.pq.Len > 0 then .error .fuelExhausted else .ok r
  | fuel + 1, r =>
    if r.pq.Len > 0 then do
      let r ← stepIn g r
      loopIn g fuel r
    else .ok r

/-- Go `g.Dijkstra(start)` for the graph at address `g`, with a budget of `fuel`
iterations for the main loop: the addresses of the returned slices `distances`
and `previous`, and the memory the call leaves. Each `make` reads `g.vertices`;
the initialising loop gets the vertex count it starts with as its budget; the
queue `make(PriorityQueue, 0, g.vertices)` is the empty queue. -/
def DijkstraIn (fuel : Nat) (g : Nat) (start : Int) (mem : Memory) :
    Except Fault ((Nat × Nat) × Memory) := do
  let n ← loadVertices mem g
  let (distances, mem) ← makeInts mem n
  let n ← loadVertices mem g
  let (previous, mem) ← makeInts mem n
  let n ← loadVertices mem g
  let (visited, mem) ← makeBools mem n
  let n ← loadVertices mem g
  let mem ← initLoop g distances previous n.toNat 0 mem
  let mem ← storeInt mem distances start 0
  let capacity ← loadVertices mem g
  if capacity < 0 then throw Fault.negativeLen
  let pq ← heapInit []
  let pq ← heapPush pq ⟨start, 0, 0⟩
  let r ← loopIn g fuel ⟨mem, distances, previous, visited, pq⟩
  pure ((r.distances, r.previous), r.mem)

/-! ## Vocabulary of the statements -/

/-- The struct at address `g` is the graph `G`: its `vertices`, and a table whose
entry for each vertex names a row holding the adjacency list of that vertex. -/
def Holds (mem : Memory) (g : Nat) (G : WeightedGraph) : Prop :=
  ∃ t table, mem.graphs[g]? = some (G.vertices, t) ∧ mem.tables[t]? = some table ∧
    table.length = G.adjList.length ∧
    ∀ v, v < table.length → (table[v]?).bind (fun r => mem.rows[r]?) = G.adjList[v]?

/-- Nothing allocated in `before` is different in `after`: every graph struct,
table and row is the same, and so is every `[]int` and `[]bool` that existed. -/
def Untouched (before after : Memory) : Prop :=
  after.graphs = before.graphs ∧ after.tables = before.tables ∧ after.rows = before.rows ∧
  before.ints <+: after.ints ∧ before.bools <+: after.bools

/-- The contents of the `[]int` at address `a`. -/
def intsAt (mem : Memory) (a : Nat) : List Int := mem.ints.getD a []

/-- A memory that holds `G` and nothing else: one struct, one table, one row
per vertex. -/
def layout (G : WeightedGraph) : Memory :=
  ⟨[(G.vertices, 0)], [List.range G.adjList.length], G.adjList, [], []⟩

/-- The memory with the contents of the three slices at addresses `d`, `p`, `v`
replaced. -/
def withSlices (base : Memory) (d p v : Nat) (D P : List Int) (V : List Bool) : Memory :=
  { base with ints := (base.ints.set d D).set p P, bools := base.bools.set v V }

/-- The running call whose slices hold the contents of the state `st`. -/
def embed (base : Memory) (d p v : Nat) (st : State) : Locals :=
  ⟨withSlices base d p v st.distances st.previous st.visited, d, p, v, st.pq⟩

/-- The memory after the three `make`s of a call for a graph of `n` vertices. -/
def afterMakes (mem : Memory) (n : Nat) : Memory :=
  { mem with
    ints := mem.ints ++ [List.replicate n 0] ++ [List.replicate n 0],
    bools := mem.bools ++ [List.replicate n false] }

end DijkstraMemory

namespace DijkstraOtimizado

/-! # Theorems -/

/-! ## Slices: basic facts -/

theorem sliceGet_cast {α : Type} (xs : List α) (k : Nat) (x : α) (h : xs[k]? = some x) :
    sliceGet xs (k : Int) = .ok x := by
  simp [sliceGet, h]

theorem sliceSet_cast {α : Type} (xs : List α) (k : Nat) (x : α) (h : k < xs.length) :
    sliceSet xs (k : Int) x = .ok (xs.set k x) := by
  simp [sliceSet, h]

theorem sliceGet_ok_iff {α : Type} (xs : List α) (i : Int) (x : α) :
    sliceGet xs i = .ok x ↔ 0 ≤ i ∧ xs[i.toNat]? = some x := by
  unfold sliceGet
  split
  · rename_i h
    cases hx : xs[i.toNat]? <;> simp [h]
  · rename_i h
    simp [h]

theorem sliceSet_ok_iff {α : Type} (xs ys : List α) (i : Int) (x : α) :
    sliceSet xs i x = .ok ys ↔ (0 ≤ i ∧ i.toNat < xs.length) ∧ ys = xs.set i.toNat x := by
  unfold sliceSet
  split
  · rename_i h
    simp [h, eq_comm]
  · rename_i h
    simp [h]

/-! ## Exchanging two positions of a list -/

theorem perm_cons_set {β : Type} (t : List β) (k : Nat) (a y : β) (h : t[k]? = some y) :
    (y :: t.set k a).Perm (a :: t) := by
  induction t generalizing k with
  | nil => simp at h
  | cons b t ih =>
    cases k with
    | zero =>
      simp at h
      subst h
      exact List.Perm.swap _ _ _
    | succ k =>
      simp at h
      have h1 := ih k h
      simp only [List.set_cons_succ]
      exact (List.Perm.swap b y _).trans ((h1.cons b).trans (List.Perm.swap a b t))

theorem swapList_perm {β : Type} (xs : List β) (i j : Nat) : (swapList xs i j).Perm xs := by
  induction xs generalizing i j with
  | nil => simp [swapList]
  | cons a t ih =>
    cases i with
    | zero =>
      cases j with
      | zero => simp [swapList]
      | succ j =>
        unfold swapList
        cases hb : t[j]? with
        | none => simp [hb]
        | some b =>
          simp [hb]
          exact perm_cons_set t j a b hb
    | succ i =>
      cases j with
      | zero =>
        unfold swapList
        cases hb : t[i]? with
        | none => simp [hb]
        | some b =>
          simp [hb]
          exact perm_cons_set t i a b hb
      | succ j =>
        have h1 := ih i j
        unfold swapList at h1 ⊢
        cases ha : t[i]? with
        | none => simp [ha]
        | some x =>
          cases hb : t[j]? with
          | none => simp [ha, hb]
          | some y =>
            simp [ha, hb] at h1 ⊢
            exact h1

theorem swapList_length {β : Type} (xs : List β) (i j : Nat) :
    (swapList xs i j).length = xs.length := (swapList_perm xs i j).length_eq

theorem swapList_getElem? {β : Type} (xs : List β) (i j k : Nat)
    (hi : i < xs.length) (hj : j < xs.length) :
    (swapList xs i j)[k]? = if k = j then xs[i]? else if k = i then xs[j]? else xs[k]? := by
  unfold swapList
  rw [List.getElem?_eq_getElem hi, List.getElem?_eq_getElem hj]
  simp only [List.getElem?_set, List.length_set]
  by_cases h1 : j = k
  · subst h1; simp [hj]
  · by_cases h2 : i = k
    · subst h2; simp [h1, hi, Ne.symm h1]
    · simp [h1, h2, Ne.symm h1, Ne.symm h2]

/-! ## PriorityQueue primitives on in-range indices -/

theorem entries_length (pq : PriorityQueue) : (entries pq).length = pq.length := by
  simp [entries]

theorem keyAt_swapList (es : List (Int × Int)) (i j k : Nat)
    (hi : i < es.length) (hj : j < es.length) :
    keyAt (swapList es i j) k =
      if k = j then keyAt es i else if k = i then keyAt es j else keyAt es k := by
  unfold keyAt
  simp only [List.getD_eq_getElem?_getD, swapList_getElem? es i j k hi hj]
  split
  · rfl
  · split <;> rfl

theorem Less_cast (pq : PriorityQueue) (i j : Nat) (hi : i < pq.length) (hj : j < pq.length) :
    pq.Less (i : Int) (j : Int)
      = .ok (decide (keyAt (entries pq) i < keyAt (entries pq) j)) := by
  unfold PriorityQueue.Less
  rw [sliceGet_cast pq i pq[i] (List.getElem?_eq_getElem hi),
    sliceGet_cast pq j pq[j] (List.getElem?_eq_getElem hj)]
  simp [keyAt, entries, hi, hj, Item.entry, pure, Except.pure, bind, Except.bind]

theorem Swap_cast (pq : PriorityQueue) (i j : Nat) (hi : i < pq.length) (hj : j < pq.length) :
    ∃ pq', pq.Swap (i : Int) (j : Int) = .ok pq' ∧ pq'.length = pq.length ∧
      entries pq' = swapList (entries pq) i j ∧
      ∀ k, k ≠ i → k ≠ j → pq'[k]? = pq[k]? := by
  unfold PriorityQueue.Swap
  rw [sliceGet_cast pq i pq[i] (List.getElem?_eq_getElem hi),
    sliceGet_cast pq j pq[j] (List.getElem?_eq_getElem hj)]
  simp only [bind, Except.bind]
  rw [sliceSet_cast _ i _ hi]
  simp only []
  rw [sliceSet_cast _ j _ (by simpa using hj)]
  simp only []
  have hi2 : i < ((pq.set i pq[j]).set j pq[i]).length := by simpa using hi
  have hj2 : j < ((pq.set i pq[j]).set j pq[i]).length := by simpa using hj
  rw [sliceGet_cast _ i _ (List.getElem?_eq_getElem hi2)]
  simp only []
  rw [sliceSet_cast _ i _ hi2]
  simp only []
  have hj3 : j < (((pq.set i pq[j]).set j pq[i]).set i
      { ((pq.set i pq[j]).set j pq[i])[i] with index := (i : Int) }).length := by simpa using hj
  rw [sliceGet_cast _ j _ (List.getElem?_eq_getElem hj3)]
  simp only []
  rw [sliceSet_cast _ j _ hj3]
  refine ⟨_, rfl, by simp, ?_, ?_⟩
  · apply List.ext_getElem?
    intro k
    have hie : i < (entries pq).length := by simpa [entries] using hi
    have hje : j < (entries pq).length := by simpa [entries] using hj
    rw [swapList_getElem? _ i j k hie hje]
    simp only [entries, List.getElem?_map, List.getElem?_set, List.length_set, List.getElem_set]
    by_cases h1 : j = k
    · subst h1
      by_cases h2 : i = j
      · subst h2; simp [hi, Item.entry]
      · simp [hi, hj, h2, Ne.symm h2, Item.entry]
    · by_cases h2 : i = k
      · subst h2; simp [hi, hj, h1, Ne.symm h1, Item.entry]
      · simp [h1, h2, Ne.symm h1, Ne.symm h2]
  · intro k hki hkj
    simp [List.getElem?_set, Ne.symm hki, Ne.symm hkj]

/-! ## container/heap: sifting up -/

theorem tdiv_parent (j : Nat) : ((j : Int) - 1).tdiv 2 = (((j - 1) / 2 : Nat) : Int) := by
  rcases j with _ | j
  · decide
  · rw [Int.tdiv_eq_ediv] <;> omega

theorem almostUp_root (es : List (Int × Int)) (h : AlmostUp es 0) :
    IsHeapUpTo es es.length := by
  intro k hk0 hk
  exact h.1 k hk0 hk (by omega)

theorem almostUp_done (es : List (Int × Int)) (j : Nat) (h : AlmostUp es j)
    (hle : keyAt es ((j - 1) / 2) ≤ keyAt es j) : IsHeapUpTo es es.length := by
  intro k hk0 hk
  by_cases hkj : k = j
  · subst hkj; exact hle
  · exact h.1 k hk0 hk hkj

theorem almostUp_step (es : List (Int × Int)) (j : Nat) (hj0 : 0 < j) (hj : j < es.length)
    (h : AlmostUp es j) (hlt : keyAt es j < keyAt es ((j - 1) / 2)) :
    AlmostUp (swapList es ((j - 1) / 2) j) ((j - 1) / 2) := by
  obtain ⟨h1, h2⟩ := h
  have hij : (j - 1) / 2 < j := by omega
  have hi : (j - 1) / 2 < es.length := by omega
  rw [AlmostUp, swapList_length]
  constructor
  · intro k hk0 hk hki
    rw [keyAt_swapList es _ j _ hi hj, keyAt_swapList es _ j _ hi hj]
    by_cases hkj : k = j
    · subst hkj
      simp only [if_true, if_neg (Nat.ne_of_lt hij)]
      exact le_of_lt hlt
    · have hk1 := h1 k hk0 hk hkj
      simp only [if_neg hkj, if_neg hki]
      by_cases hp1 : (k - 1) / 2 = j
      · simp only [if_pos hp1]
        exact h2 k hk0 hk hp1 hj0
      · simp only [if_neg hp1]
        by_cases hp2 : (k - 1) / 2 = (j - 1) / 2
        · simp only [if_pos hp2]
          rw [hp2] at hk1
          linarith
        · simp only [if_neg hp2]
          exact hk1
  · intro k hk0 hk hpk hi0
    have hne1 : ((j - 1) / 2 - 1) / 2 ≠ j := by omega
    have hne2 : ((j - 1) / 2 - 1) / 2 ≠ (j - 1) / 2 := by omega
    have hki : k ≠ (j - 1) / 2 := by omega
    have hpi := h1 ((j - 1) / 2) hi0 hi (by omega)
    rw [keyAt_swapList es _ j _ hi hj, keyAt_swapList es _ j _ hi hj]
    simp only [if_neg hne1, if_neg hne2, if_neg hki]
    by_cases hkj : k = j
    · simp only [if_pos hkj]
      exact hpi
    · simp only [if_neg hkj]
      have hk1 := h1 k hk0 hk hkj
      rw [hpk] at hk1
      linarith

theorem heapUp_spec (fuel : Nat) : ∀ (pq : PriorityQueue) (j : Nat),
    j < pq.length → j < fuel →
    ∃ pq', heapUp fuel pq (j : Int) = .ok pq' ∧ pq'.length = pq.length ∧
      (entries pq').Perm (entries pq) ∧ (AlmostUp (entries pq) j → IsHeap pq') := by
  induction fuel with
  | zero => intro pq j _ hf; omega
  | succ fuel ih =>
    intro pq j hj hf
    unfold heapUp
    simp only [tdiv_parent]
    by_cases hj0 : j = 0
    · subst hj0
      refine ⟨pq, by simp, rfl, List.Perm.refl _, fun h => ?_⟩
      have := almostUp_root _ h
      rwa [entries_length] at this
    · have hij : (j - 1) / 2 < j := by omega
      have hi : (j - 1) / 2 < pq.length := by omega
      have hne : ¬ ((((j - 1) / 2 : Nat) : Int) = (j : Int)) := by omega
      rw [if_neg hne, Less_cast pq j _ hj hi]
      simp only [bind, Except.bind]
      by_cases hlt : keyAt (entries pq) j < keyAt (entries pq) ((j - 1) / 2)
      · obtain ⟨pq1, hsw, hlen1, hent1, _⟩ := Swap_cast pq ((j - 1) / 2) j hi hj
        obtain ⟨pq2, hup, hlen2, hperm2, hheap2⟩ :=
          ih pq1 ((j - 1) / 2) (by omega) (by omega)
        refine ⟨pq2, ?_, by omega, ?_, fun h => ?_⟩
        · rw [decide_eq_true hlt]
          simp only [Bool.not_true, Bool.false_eq_true, if_false, hsw, hup]
        · exact hperm2.trans (hent1 ▸ swapList_perm _ _ _)
        · apply hheap2
          rw [hent1]
          exact almostUp_step _ j (by omega) (by rw [entries_length]; exact hj) h hlt
      · refine ⟨pq, by rw [decide_eq_false hlt]; rfl, rfl, List.Perm.refl _, fun h => ?_⟩
        have := almostUp_done _ j h (by linarith)
        rwa [entries_length] at this

theorem heapPush_spec (pq : PriorityQueue) (x : Item) :
    ∃ pq', heapPush pq x = .ok pq' ∧ pq'.length = pq.length + 1 ∧
      (entries pq').Perm (x.entry :: entries pq) ∧ (IsHeap pq → IsHeap pq') := by
  unfold heapPush
  have hlen : (pq.Push x).length = pq.length + 1 := by simp [PriorityQueue.Push]
  have hcast : (pq.Push x).Len - 1 = ((pq.length : Nat) : Int) := by
    simp [PriorityQueue.Len, hlen]
  have hent : entries (pq.Push x) = entries pq ++ [x.entry] := by
    simp [PriorityQueue.Push, entries, Item.entry]
  obtain ⟨pq', hup, hlen', hperm, hheap⟩ :=
    heapUp_spec (pq.Push x).length (pq.Push x) pq.length (by omega) (by omega)
  refine ⟨pq', ?_, by omega, ?_, fun h => hheap ?_⟩
  · simp only [hcast]; exact hup
  · rw [hent] at hperm
    exact hperm.trans (List.perm_append_singleton _ _)
  · rw [hent]
    have hkey : ∀ k, k < pq.length →
        keyAt (entries pq ++ [x.entry]) k = keyAt (entries pq) k := by
      intro k hk
      unfold keyAt
      rw [List.getD_eq_getElem?_getD, List.getD_eq_getElem?_getD,
        List.getElem?_append_left (by rw [entries_length]; exact hk)]
    constructor
    · intro k hk0 hk hne
      have hk' : k < pq.length := by
        simp [entries_length] at hk; omega
      rw [hkey k hk', hkey _ (by omega)]
      exact h k hk0 hk'
    · intro k _ hk hpk _
      simp [entries_length] at hk
      omega

/-! ## container/heap: sifting down -/

theorem minChild_cases (es : List (Int × Int)) (i n : Nat) :
    minChild es i n = 2 * i + 1 ∨ (minChild es i n = 2 * i + 2 ∧ 2 * i + 2 < n) := by
  unfold minChild
  split
  · rename_i h; exact Or.inr ⟨rfl, h.1⟩
  · exact Or.inl rfl

theorem minChild_le (es : List (Int × Int)) (i n c : Nat) (hc : c < n)
    (hp : (c - 1) / 2 = i) (hc0 : 0 < c) : keyAt es (minChild es i n) ≤ keyAt es c := by
  have hcc : c = 2 * i + 1 ∨ c = 2 * i + 2 := by omega
  unfold minChild
  split
  · rename_i h
    rcases hcc with h1 | h1
    · rw [h1]; exact le_of_lt h.2
    · rw [h1]
  · rename_i h
    rcases hcc with h1 | h1
    · rw [h1]
    · rw [h1]
      have : ¬ keyAt es (2 * i + 2) < keyAt es (2 * i + 1) := fun h2 => h ⟨by omega, h2⟩
      linarith

theorem heapDown_succ_cast (fuel : Nat) (pq : PriorityQueue) (i n : Nat)
    (hn : n ≤ pq.length) :
    heapDown (fuel + 1) pq (i : Int) (n : Int) =
      if n ≤ 2 * i + 1 then .ok pq
      else if keyAt (entries pq) (minChild (entries pq) i n) < keyAt (entries pq) i then
        (pq.Swap (i : Int) ((minChild (entries pq) i n : Nat) : Int)) >>=
          fun pq' => heapDown fuel pq' ((minChild (entries pq) i n : Nat) : Int) (n : Int)
      else .ok pq := by
  conv_lhs => unfold heapDown
  have e1 : (2 * (i : Int) + 1) = ((2 * i + 1 : Nat) : Int) := by push_cast; ring
  have e2 : ((2 * i + 1 : Nat) : Int) + 1 = ((2 * i + 2 : Nat) : Int) := by push_cast; ring
  by_cases h1 : n ≤ 2 * i + 1
  · have : (2 * (i : Int) + 1 ≥ (n : Int) ∨ 2 * (i : Int) + 1 < 0) := by omega
    simp only [if_pos this, if_pos h1]
  · have : ¬ (2 * (i : Int) + 1 ≥ (n : Int) ∨ 2 * (i : Int) + 1 < 0) := by omega
    simp only [if_neg this, if_neg h1]
    have hi : i < pq.length := by omega
    have hj1 : 2 * i + 1 < pq.length := by omega
    by_cases h2 : 2 * i + 2 < n
    · have h2' : (((2 * i + 2 : Nat) : Int) < (n : Int)) := by omega
      simp only [e1, e2, if_pos h2']
      rw [Less_cast pq _ _ (by omega) hj1]
      simp only [bind, Except.bind]
      by_cases h3 : keyAt (entries pq) (2 * i + 2) < keyAt (entries pq) (2 * i + 1)
      · have hm : minChild (entries pq) i n = 2 * i + 2 := by
          unfold minChild; rw [if_pos ⟨h2, h3⟩]
        rw [hm, decide_eq_true h3]
        simp only [if_true]
        rw [Less_cast pq _ _ (by omega) hi]
        by_cases h4 : keyAt (entries pq) (2 * i + 2) < keyAt (entries pq) i
        · rw [decide_eq_true h4, if_pos h4]; rfl
        · rw [decide_eq_false h4, if_neg h4]; rfl
      · have hm : minChild (entries pq) i n = 2 * i + 1 := by
          unfold minChild; rw [if_neg (fun h => h3 h.2)]
        rw [hm, decide_eq_false h3]
        simp only [Bool.false_eq_true, if_false]
        rw [Less_cast pq _ _ hj1 hi]
        by_cases h4 : keyAt (entries pq) (2 * i + 1) < keyAt (entries pq) i
        · rw [decide_eq_true h4, if_pos h4]; rfl
        · rw [decide_eq_false h4, if_neg h4]; rfl
    · have h2' : ¬ (((2 * i + 2 : Nat) : Int) < (n : Int)) := by omega
      have hm : minChild (entries pq) i n = 2 * i + 1 := by
        unfold minChild; rw [if_neg (fun h => h2 h.1)]
      simp only [e1, e2, if_neg h2', hm, pure, Except.pure, bind, Except.bind,
        Bool.false_eq_true, if_false]
      rw [Less_cast pq _ _ hj1 hi]
      by_cases h4 : keyAt (entries pq) (2 * i + 1) < keyAt (entries pq) i
      · rw [decide_eq_true h4, if_pos h4]; rfl
      · rw [decide_eq_false h4, if_neg h4]; rfl

theorem almostDown_leaf (es : List (Int × Int)) (i n : Nat) (h : AlmostDown es i n)
    (hleaf : n ≤ 2 * i + 1) : IsHeapUpTo es n := by
  intro k hk0 hk
  exact h.1 k hk0 hk (by omega)

theorem almostDown_done (es : List (Int × Int)) (i n : Nat) (h : AlmostDown es i n)
    (hle : keyAt es i ≤ keyAt es (minChild es i n)) : IsHeapUpTo es n := by
  intro k hk0 hk
  by_cases hp : (k - 1) / 2 = i
  · have := minChild_le es i n k hk hp hk0
    rw [hp]; linarith
  · exact h.1 k hk0 hk hp

theorem almostDown_step (es : List (Int × Int)) (i n : Nat) (hn : n ≤ es.length)
    (hchild : 2 * i + 1 < n) (h : AlmostDown es i n)
    (hlt : keyAt es (minChild es i n) < keyAt es i) :
    AlmostDown (swapList es i (minChild es i n)) (minChild es i n) n := by
  obtain ⟨h1, h2⟩ := h
  have hmin := minChild_le es i n
  generalize hjdef : minChild es i n = j at hlt hmin ⊢
  have hjc : j = 2 * i + 1 ∨ (j = 2 * i + 2 ∧ 2 * i + 2 < n) := hjdef ▸ minChild_cases es i n
  have hjn : j < n := by omega
  have hij : i < j := by omega
  have hpj : (j - 1) / 2 = i := by omega
  have hi : i < es.length := by omega
  have hj : j < es.length := by omega
  constructor
  · intro k hk0 hk hpk
    rw [keyAt_swapList es i j _ hi hj, keyAt_swapList es i j _ hi hj]
    simp only [if_neg hpk]
    by_cases hkj : k = j
    · subst hkj
      simp only [if_true, hpj]
      exact le_of_lt hlt
    · simp only [if_neg hkj]
      by_cases hki : k = i
      · subst hki
        have hne : ¬ ((k - 1) / 2 = k) := by omega
        simp only [if_true, if_neg hne]
        exact h2 j (by omega) hjn hpj hk0
      · simp only [if_neg hki]
        by_cases hpi : (k - 1) / 2 = i
        · simp only [if_pos hpi]
          exact hmin k hk hpi hk0
        · simp only [if_neg hpi]
          exact h1 k hk0 hk hpi
  · intro k hk0 hk hpk _
    have hne1 : ¬ ((j - 1) / 2 = j) := by omega
    have hkj : ¬ (k = j) := by omega
    have hki : ¬ (k = i) := by omega
    rw [keyAt_swapList es i j _ hi hj, keyAt_swapList es i j _ hi hj]
    simp only [if_neg hne1, if_pos hpj, if_neg hkj, if_neg hki]
    have h3 := h1 k hk0 hk (by omega)
    rw [hpk] at h3
    exact h3

theorem heapDown_spec (fuel : Nat) : ∀ (pq : PriorityQueue) (i n : Nat),
    n ≤ pq.length → 0 < fuel → n ≤ fuel + i →
    ∃ pq', heapDown fuel pq (i : Int) (n : Int) = .ok pq' ∧ pq'.length = pq.length ∧
      (entries pq').Perm (entries pq) ∧ (∀ k, n ≤ k → pq'[k]? = pq[k]?) ∧
      (AlmostDown (entries pq) i n → IsHeapUpTo (entries pq') n) := by
  induction fuel with
  | zero => intro pq i n _ hf; omega
  | succ fuel ih =>
    intro pq i n hn _ hfuel
    rw [heapDown_succ_cast fuel pq i n hn]
    by_cases h1 : n ≤ 2 * i + 1
    · rw [if_pos h1]
      exact ⟨pq, rfl, rfl, List.Perm.refl _, fun _ _ => rfl,
        fun h => almostDown_leaf _ i n h h1⟩
    · rw [if_neg h1]
      by_cases h2 : keyAt (entries pq) (minChild (entries pq) i n) < keyAt (entries pq) i
      · rw [if_pos h2]
        have hjc := minChild_cases (entries pq) i n
        have hjn : minChild (entries pq) i n < n := by omega
        obtain ⟨pq1, hsw, hlen1, hent1, hsame1⟩ :=
          Swap_cast pq i (minChild (entries pq) i n) (by omega) (by omega)
        obtain ⟨pq2, hdn, hlen2, hperm2, hsame2, hheap2⟩ :=
          ih pq1 (minChild (entries pq) i n) n (by omega) (by omega) (by omega)
        refine ⟨pq2, ?_, by omega, ?_, ?_, fun h => ?_⟩
        · rw [hsw]; exact hdn
        · exact hperm2.trans (hent1 ▸ swapList_perm _ _ _)
        · intro k hk
          rw [hsame2 k hk, hsame1 k (by omega) (by omega)]
        · apply hheap2
          rw [hent1]
          exact almostDown_step _ i n (by rw [entries_length]; exact hn) (by omega) h h2
      · rw [if_neg h2]
        exact ⟨pq, rfl, rfl, List.Perm.refl _, fun _ _ => rfl,
          fun h => almostDown_done _ i n h (by linarith)⟩

/-- In a heap the root carries a least distance. -/
theorem heap_root_le (es : List (Int × Int)) (n : Nat) (h : IsHeapUpTo es n) :
    ∀ k, k < n → keyAt es 0 ≤ keyAt es k := by
  intro k
  induction k using Nat.strong_induction_on with
  | _ k ih =>
    intro hk
    by_cases hk0 : k = 0
    · subst hk0; exact le_refl _
    · have h1 := h k (by omega) hk
      have h2 := ih ((k - 1) / 2) (by omega) (by omega)
      linarith

/-! ## container/heap: Pop -/

theorem keyAt_of_getElem? (es : List (Int × Int)) (k : Nat) (e : Int × Int)
    (h : es[k]? = some e) : keyAt es k = e.2 := by
  simp [keyAt, List.getD_eq_getElem?_getD, h]

theorem Pop_cast (pq : PriorityQueue) (m : Nat) (it : Item) (hlen : pq.length = m + 1)
    (hit : pq[m]? = some it) :
    pq.Pop = .ok ({ it with index := -1 }, pq.take m) := by
  unfold PriorityQueue.Pop
  have h1 : pq.Len - 1 = (m : Int) := by simp [PriorityQueue.Len, hlen]
  simp only [h1, Int.toNat_ofNat]
  rw [sliceGet_cast pq m it hit]
  rfl

theorem heapPop_spec (pq : PriorityQueue) (hne : pq ≠ []) :
    ∃ it pq', heapPop pq = .ok (it, pq') ∧ pq'.length + 1 = pq.length ∧
      (entries pq).Perm (it.entry :: entries pq') ∧
      (IsHeap pq → IsHeap pq' ∧ ∀ e ∈ entries pq, it.distance ≤ e.2) := by
  obtain ⟨m, hm⟩ : ∃ m, pq.length = m + 1 := by
    cases pq with
    | nil => exact absurd rfl hne
    | cons a t => exact ⟨t.length, rfl⟩
  have hn : pq.Len - 1 = (m : Int) := by simp [PriorityQueue.Len, hm]
  obtain ⟨pq1, hsw, hlen1, hent1, _⟩ := Swap_cast pq 0 m (by omega) (by omega)
  obtain ⟨pq2, hdn, hlen2, hperm2, hsame2, hheap2⟩ :=
    heapDown_spec pq1.length pq1 0 m (by omega) (by omega) (by omega)
  have hm2 : m < pq2.length := by omega
  have hit : pq2[m]? = some pq2[m] := List.getElem?_eq_getElem hm2
  have hes0 : 0 < (entries pq).length := by rw [entries_length]; omega
  have hesm : m < (entries pq).length := by rw [entries_length]; omega
  -- the popped payload is the old root
  have hroot : (entries pq)[0]? = some pq2[m].entry := by
    have h1 : (entries pq2)[m]? = some pq2[m].entry := by
      simp [entries, hit]
    have h2 : (entries pq2)[m]? = (entries pq1)[m]? := by
      simp only [entries, List.getElem?_map, hsame2 m (le_refl _)]
    rw [← h1, h2, hent1, swapList_getElem? _ 0 m m hes0 hesm, if_pos rfl]
  have hsplit : pq2 = pq2.take m ++ [pq2[m]] := by
    have h3 : pq2.take (m + 1) = pq2 := List.take_of_length_le (by omega)
    conv_lhs => rw [← h3]
    rw [List.take_succ, hit]
    rfl
  refine ⟨{ pq2[m] with index := -1 }, pq2.take m, ?_, ?_, ?_, fun hheap => ⟨?_, ?_⟩⟩
  · unfold heapPop
    simp only [hn, bind, Except.bind]
    have hz : (0 : Int) = ((0 : Nat) : Int) := rfl
    rw [hz, hsw]
    simp only []
    rw [hdn]
    exact Pop_cast pq2 m pq2[m] (by omega) hit
  · rw [List.length_take]; omega
  · have h4 : (entries pq2).Perm (pq2[m].entry :: entries (pq2.take m)) := by
      conv_lhs => rw [hsplit]
      simp only [entries, List.map_append, List.map_cons, List.map_nil]
      exact List.perm_append_singleton _ _
    have h5 : (entries pq).Perm (entries pq2) :=
      ((hperm2.trans (hent1 ▸ swapList_perm _ _ _))).symm
    exact h5.trans h4
  · -- heap order of the remaining queue
    have hA : AlmostDown (entries pq1) 0 m := by
      constructor
      · intro k hk0 hk hp
        rw [hent1, keyAt_swapList _ 0 m _ hes0 hesm, keyAt_swapList _ 0 m _ hes0 hesm]
        have c1 : ¬ ((k - 1) / 2 = m) := by omega
        have c2 : ¬ (k = m) := by omega
        have c3 : ¬ (k = 0) := by omega
        simp only [if_neg c1, if_neg hp, if_neg c2, if_neg c3]
        exact hheap k hk0 (by omega)
      · intro k _ _ _ h0
        omega
    have hH := hheap2 hA
    intro k hk0 hk
    rw [List.length_take] at hk
    have hk' : k < m := by omega
    have hkey : ∀ r, r < m → keyAt (entries (pq2.take m)) r = keyAt (entries pq2) r := by
      intro r hr
      simp only [keyAt, entries, List.getD_eq_getElem?_getD, List.getElem?_map,
        List.getElem?_take, if_pos hr]
    rw [hkey k hk', hkey _ (by omega)]
    exact hH k hk0 hk'
  · intro e he
    obtain ⟨k, hk, hek⟩ := List.getElem_of_mem he
    have h6 : keyAt (entries pq) k = e.2 :=
      keyAt_of_getElem? _ k e (by rw [List.getElem?_eq_getElem hk, hek])
    have h7 : keyAt (entries pq) 0 = pq2[m].distance := by
      rw [keyAt_of_getElem? _ 0 _ hroot]; rfl
    have h8 := heap_root_le (entries pq) pq.length hheap k (by rw [entries_length] at hk; exact hk)
    show pq2[m].distance ≤ e.2
    rw [← h6, ← h7]
    exact h8

/-! ## Queues built by heap.Push and heap.Pop -/

theorem isHeap_nil : IsHeap [] := by
  intro k _ hk
  simp at hk

theorem Built.isHeap {pq : PriorityQueue} (h : Built pq) : IsHeap pq := by
  induction h with
  | empty => exact isHeap_nil
  | push pq pq' x _ hpush ih =>
    obtain ⟨pq2, h2, _, _, hh⟩ := heapPush_spec pq x
    rw [hpush] at h2
    cases h2
    exact hh ih
  | pop pq pq' it _ hpop ih =>
    have hne : pq ≠ [] := by
      rintro rfl
      simp [heapPop, PriorityQueue.Swap, PriorityQueue.Len, sliceGet, bind, Except.bind] at hpop
    obtain ⟨it2, pq2, h2, _, _, hh⟩ := heapPop_spec pq hne
    rw [hpop] at h2
    cases h2
    exact (hh ih).1

/-- C10: on every queue built from the empty queue by `heap.Push` and
`heap.Pop`, `heap.Push` succeeds and adds exactly the pushed payload (no
deduplication), and `heap.Pop` on a non-empty queue succeeds, removes exactly
one payload (the returned one) and returns an item whose distance is at most
the distance of every item that was in the queue. -/
theorem heap_pop_returns_minimum (pq : PriorityQueue) (h : Built pq) :
    (∀ x : Item, ∃ pq', heapPush pq x = .ok pq' ∧ pq'.length = pq.length + 1 ∧
        (entries pq').Perm (x.entry :: entries pq)) ∧
    (pq ≠ [] → ∃ it pq', heapPop pq = .ok (it, pq') ∧ pq'.length + 1 = pq.length ∧
        (entries pq).Perm (it.entry :: entries pq') ∧
        ∀ y ∈ pq, it.distance ≤ y.distance) := by
  constructor
  · intro x
    obtain ⟨pq', h1, h2, h3, _⟩ := heapPush_spec pq x
    exact ⟨pq', h1, h2, h3⟩
  · intro hne
    obtain ⟨it, pq', h1, h2, h3, h4⟩ := heapPop_spec pq hne
    refine ⟨it, pq', h1, h2, h3, fun y hy => ?_⟩
    exact (h4 h.isHeap).2 y.entry (List.mem_map_of_mem _ hy)

/-- C10 at the queue obtained by pushing distances 5, 3, 4 and popping once. -/
theorem heap_pop_returns_minimum_witness :
    (∀ x : Item, ∃ pq', heapPush [⟨2, 4, 0⟩, ⟨1, 5, 1⟩] x = .ok pq' ∧
        pq'.length = ([⟨2, 4, 0⟩, ⟨1, 5, 1⟩] : PriorityQueue).length + 1 ∧
        (entries pq').Perm (x.entry :: entries [⟨2, 4, 0⟩, ⟨1, 5, 1⟩])) ∧
    (([⟨2, 4, 0⟩, ⟨1, 5, 1⟩] : PriorityQueue) ≠ [] →
      ∃ it pq', heapPop [⟨2, 4, 0⟩, ⟨1, 5, 1⟩] = .ok (it, pq') ∧
        pq'.length + 1 = ([⟨2, 4, 0⟩, ⟨1, 5, 1⟩] : PriorityQueue).length ∧
        (entries [⟨2, 4, 0⟩, ⟨1, 5, 1⟩]).Perm (it.entry :: entries pq') ∧
        ∀ y ∈ ([⟨2, 4, 0⟩, ⟨1, 5, 1⟩] : PriorityQueue), it.distance ≤ y.distance) :=
  heap_pop_returns_minimum [⟨2, 4, 0⟩, ⟨1, 5, 1⟩]
    (Built.pop [⟨0, 3, 0⟩, ⟨1, 5, 1⟩, ⟨2, 4, 2⟩] _ ⟨0, 3, -1⟩
      (Built.push [⟨0, 3, 0⟩, ⟨1, 5, 1⟩] _ ⟨2, 4, 0⟩
        (Built.push [⟨1, 5, 0⟩] _ ⟨0, 3, 0⟩
          (Built.push [] _ ⟨1, 5, 0⟩ Built.empty (by rfl)) (by rfl)) (by rfl)) (by rfl))

/-! ## WeightedGraph.AddEdge -/

theorem AddEdge_inRange (g : WeightedGraph) (src dest weight : Int)
    (h0 : 0 ≤ src) (h1 : src.toNat < g.adjList.length) :
    g.AddEdge src dest weight =
      .ok ⟨g.vertices,
        g.adjList.set src.toNat (g.adjList.getD src.toNat [] ++ [⟨dest, weight⟩])⟩ := by
  unfold WeightedGraph.AddEdge
  have hrow : sliceGet g.adjList src = .ok (g.adjList.getD src.toNat []) := by
    rw [sliceGet_ok_iff]
    exact ⟨h0, by rw [List.getD_eq_getElem?_getD, List.getElem?_eq_getElem h1]; rfl⟩
  have hset : ∀ row, sliceSet g.adjList src row = .ok (g.adjList.set src.toNat row) := by
    intro row
    rw [sliceSet_ok_iff]
    exact ⟨⟨h0, h1⟩, rfl⟩
  rw [hrow]
  simp only [bind, Except.bind, hset]
  rfl

theorem AddEdge_outOfRange (g : WeightedGraph) (src dest weight : Int)
    (h : ¬ (0 ≤ src ∧ src.toNat < g.adjList.length)) :
    g.AddEdge src dest weight = .error .indexOutOfRange := by
  unfold WeightedGraph.AddEdge
  have hrow : sliceGet g.adjList src = .error .indexOutOfRange := by
    unfold sliceGet
    split
    · rename_i h0
      have h1 : g.adjList.length ≤ src.toNat := by
        by_contra hc
        exact h ⟨h0, by omega⟩
      rw [List.getElem?_eq_none h1]
    · rfl
  rw [hrow]
  rfl

/-- C6 fails on the code: on the graph with two vertices and no edge,
`AddEdge(0, 1, -1)` does not fail, it stores the edge of weight -1, and
`Dijkstra(0)` then runs on it and reports distance -1 for vertex 1. -/
theorem addEdge_negative_weight_counterexample :
    (⟨2, [[], []]⟩ : WeightedGraph).AddEdge 0 1 (-1) = .ok ⟨2, [[⟨1, -1⟩], []]⟩ ∧
    (⟨2, [[⟨1, -1⟩], []]⟩ : WeightedGraph).Dijkstra 0 = .ok ([0, -1], [-1, 0]) := by
  constructor <;> rfl

/-- C6 as amended: `AddEdge` makes no check of the weight. With `weight < 0`
and `from` inside the adjacency list the call succeeds, appends
`Edge{to, weight}` to the row of `from` and leaves the vertex count and every
other row unchanged; with `from` outside the adjacency list it stops with the
index-out-of-range panic before anything is stored. -/
theorem addEdge_negative_weight (g : WeightedGraph) (src dest weight : Int)
    (hw : weight < 0) :
    ((0 ≤ src ∧ src.toNat < g.adjList.length) →
      ∃ g', g.AddEdge src dest weight = .ok g' ∧ g'.vertices = g.vertices ∧
        g'.adjList.length = g.adjList.length ∧
        g'.adjList[src.toNat]? = some (g.adjList.getD src.toNat [] ++ [⟨dest, weight⟩]) ∧
        ∀ k, k ≠ src.toNat → g'.adjList[k]? = g.adjList[k]?) ∧
    (¬ (0 ≤ src ∧ src.toNat < g.adjList.length) →
      g.AddEdge src dest weight = .error .indexOutOfRange) := by
  have _ := hw
  constructor
  · rintro ⟨h0, h1⟩
    refine ⟨_, AddEdge_inRange g src dest weight h0 h1, rfl, by simp, ?_, ?_⟩
    · simp [List.getElem?_set, h1]
    · intro k hk
      simp [List.getElem?_set, Ne.symm hk]
  · exact AddEdge_outOfRange g src dest weight

/-- C6 as amended, at `AddEdge(0, 1, -1)` on the two-vertex empty graph. -/
theorem addEdge_negative_weight_witness :
    ((0 ≤ (0 : Int) ∧ (0 : Int).toNat < (⟨2, [[], []]⟩ : WeightedGraph).adjList.length) →
      ∃ g', (⟨2, [[], []]⟩ : WeightedGraph).AddEdge 0 1 (-1) = .ok g' ∧
        g'.vertices = (⟨2, [[], []]⟩ : WeightedGraph).vertices ∧
        g'.adjList.length = (⟨2, [[], []]⟩ : WeightedGraph).adjList.length ∧
        g'.adjList[(0 : Int).toNat]? =
          some ((⟨2, [[], []]⟩ : WeightedGraph).adjList.getD (0 : Int).toNat [] ++ [⟨1, -1⟩]) ∧
        ∀ k, k ≠ (0 : Int).toNat →
          g'.adjList[k]? = (⟨2, [[], []]⟩ : WeightedGraph).adjList[k]?) ∧
    (¬ (0 ≤ (0 : Int) ∧ (0 : Int).toNat < (⟨2, [[], []]⟩ : WeightedGraph).adjList.length) →
      (⟨2, [[], []]⟩ : WeightedGraph).AddEdge 0 1 (-1) = .error .indexOutOfRange) :=
  addEdge_negative_weight ⟨2, [[], []]⟩ 0 1 (-1) (by decide)

/-- C7 fails on the code: on the graph with two vertices and no edge,
`AddEdge(0, 7, 1)` does not fail and stores an edge whose end point 7 is
outside `[0, 2)`; `Dijkstra(0)` on the result stops with an index-out-of-range
panic. -/
theorem addEdge_invalid_vertex_counterexample :
    (⟨2, [[], []]⟩ : WeightedGraph).AddEdge 0 7 1 = .ok ⟨2, [[⟨7, 1⟩], []]⟩ ∧
    (⟨2, [[⟨7, 1⟩], []]⟩ : WeightedGraph).Dijkstra 0 = .error .indexOutOfRange := by
  constructor <;> rfl

/-- C7 as amended: on a graph with one adjacency row per vertex, `AddEdge`
with `from` outside `[0, V)` stops with the index-out-of-range panic and stores
nothing; with `from` inside `[0, V)` it succeeds for every `to`, in or out of
range, keeps the shape of the graph and stores the edge in the row of `from`. -/
theorem addEdge_invalid_vertex (g : WeightedGraph) (src dest weight : Int)
    (hg : g.Shaped) :
    (¬ (0 ≤ src ∧ src < g.vertices) →
      g.AddEdge src dest weight = .error .indexOutOfRange) ∧
    ((0 ≤ src ∧ src < g.vertices) →
      ∃ g', g.AddEdge src dest weight = .ok g' ∧ g'.Shaped ∧ g'.vertices = g.vertices ∧
        g'.HasEdge src ⟨dest, weight⟩) := by
  obtain ⟨hv, hlen⟩ := hg
  constructor
  · intro h
    apply AddEdge_outOfRange
    intro hc
    exact h ⟨hc.1, by omega⟩
  · rintro ⟨h0, h1⟩
    have h2 : src.toNat < g.adjList.length := by omega
    refine ⟨_, AddEdge_inRange g src dest weight h0 h2, ⟨hv, by simpa using hlen⟩, rfl, ?_⟩
    refine ⟨g.adjList.getD src.toNat [] ++ [⟨dest, weight⟩], ?_, by simp⟩
    rw [sliceGet_ok_iff]
    exact ⟨h0, by simp [List.getElem?_set, h2]⟩

/-- C7 as amended, at `AddEdge(0, 7, 1)` on the two-vertex empty graph. -/
theorem addEdge_invalid_vertex_witness :
    (¬ (0 ≤ (0 : Int) ∧ (0 : Int) < (⟨2, [[], []]⟩ : WeightedGraph).vertices) →
      (⟨2, [[], []]⟩ : WeightedGraph).AddEdge 0 7 1 = .error .indexOutOfRange) ∧
    ((0 ≤ (0 : Int) ∧ (0 : Int) < (⟨2, [[], []]⟩ : WeightedGraph).vertices) →
      ∃ g', (⟨2, [[], []]⟩ : WeightedGraph).AddEdge 0 7 1 = .ok g' ∧ g'.Shaped ∧
        g'.vertices = (⟨2, [[], []]⟩ : WeightedGraph).vertices ∧
        g'.HasEdge 0 ⟨7, 1⟩) :=
  addEdge_invalid_vertex ⟨2, [[], []]⟩ 0 7 1 (by decide)

/-! ## Reading and writing slices through `look` -/

theorem sliceGet_look {α : Type} (d : α) (xs : List α) (v : Int) (h : InR xs.length v) :
    sliceGet xs v = .ok (look d xs v) := by
  rw [sliceGet_ok_iff]
  refine ⟨h.1, ?_⟩
  unfold look
  rw [if_pos h.1, List.getD_eq_getElem?_getD, List.getElem?_eq_getElem h.2]
  rfl

theorem sliceSet_look {α : Type} (xs : List α) (v : Int) (x : α) (h : InR xs.length v) :
    sliceSet xs v x = .ok (xs.set v.toNat x) := by
  rw [sliceSet_ok_iff]
  exact ⟨h, rfl⟩

theorem look_set {α : Type} (d : α) (xs : List α) (v u : Int) (x : α)
    (h : InR xs.length v) :
    look d (xs.set v.toNat x) u = if u = v then x else look d xs u := by
  unfold look
  by_cases hu : 0 ≤ u
  · simp only [if_pos hu, List.getD_eq_getElem?_getD, List.getElem?_set]
    by_cases huv : u = v
    · subst huv
      simp [h.2]
    · have : ¬ (v.toNat = u.toNat) := by
        have := h.1
        omega
      simp [huv, this]
  · have : ¬ (u = v) := by
      have := h.1
      omega
    simp [hu, this]

theorem look_replicate {α : Type} (d : α) (n : Nat) (v : Int) :
    look d (List.replicate n d) v = d := by
  unfold look
  split
  · rw [List.getD_eq_getElem?_getD]
    cases h : (List.replicate n d)[v.toNat]? with
    | none => rfl
    | some x =>
      have := List.getElem?_mem h
      rw [List.mem_replicate] at this
      simp [this.2]
  · rfl

theorem wrapInt_id (x : Int) (h0 : -9223372036854775808 ≤ x) (h1 : x ≤ 9223372036854775807) :
    wrapInt x = x := by
  unfold wrapInt
  omega

/-! ## One relaxation -/

theorem relaxEdge_cases (cur : Int) (e : Edge) (st : State) (n : Nat)
    (hD : st.distances.length = n) (hP : st.previous.length = n)
    (hcur : InR n cur) (hdest : InR n e.dest) :
    (¬ (addInt (st.D cur) e.weight < st.D e.dest) ∧ relaxEdge cur e st = .ok st) ∨
    (addInt (st.D cur) e.weight < st.D e.dest ∧
      ∃ pq', heapPush st.pq ⟨e.dest, addInt (st.D cur) e.weight, 0⟩ = .ok pq' ∧
        pq'.length = st.pq.length + 1 ∧
        (entries pq').Perm ((e.dest, addInt (st.D cur) e.weight) :: entries st.pq) ∧
        (IsHeap st.pq → IsHeap pq') ∧
        relaxEdge cur e st = .ok
          { distances := st.distances.set e.dest.toNat (addInt (st.D cur) e.weight),
            previous := st.previous.set e.dest.toNat cur,
            visited := st.visited,
            pq := pq' }) := by
  unfold relaxEdge
  dsimp only
  rw [sliceGet_look INF st.distances cur (hD ▸ hcur),
    sliceGet_look INF st.distances e.dest (hD ▸ hdest)]
  simp only [bind, Except.bind]
  by_cases hlt : addInt (st.D cur) e.weight < st.D e.dest
  · right
    refine ⟨hlt, ?_⟩
    obtain ⟨pq', h1, h2, h3, h4⟩ := heapPush_spec st.pq ⟨e.dest, addInt (st.D cur) e.weight, 0⟩
    refine ⟨pq', h1, h2, h3, h4, ?_⟩
    have hlt' : addInt (look INF st.distances cur) e.weight < look INF st.distances e.dest := hlt
    rw [if_pos hlt', sliceSet_look _ _ _ (hD ▸ hdest), sliceSet_look _ _ _ (hP ▸ hdest)]
    simp only []
    have h1' : heapPush st.pq
        ⟨e.dest, addInt (look INF st.distances cur) e.weight, 0⟩ = .ok pq' := h1
    rw [h1']
    rfl
  · left
    refine ⟨hlt, ?_⟩
    have hlt' : ¬ addInt (look INF st.distances cur) e.weight < look INF st.distances e.dest := hlt
    rw [if_neg hlt']
    rfl

/-! ## The basic invariant -/

theorem Reach.step {g : WeightedGraph} {s u : Int} {e : Edge} (h : Reach g s u)
    (he : g.HasEdge u e) : Reach g s e.dest := by
  obtain ⟨d, hd⟩ := h
  exact ⟨d + e.weight, Walk.snoc u d e hd he⟩

theorem hasEdge_dest_inR {g : WeightedGraph} (hg : g.WellFormed) {u : Int} {e : Edge}
    (he : g.HasEdge u e) : InR g.adjList.length e.dest := by
  obtain ⟨row, hrow, hmem⟩ := he
  rw [sliceGet_ok_iff] at hrow
  have h1 := hg.2 row (List.getElem?_mem hrow.2) e hmem
  have h2 := hg.1
  unfold WeightedGraph.Shaped at h2
  exact ⟨h1.1, by omega⟩

theorem State.D_set (st : State) (x : Int) (nd : Int) (P : List Int) (V : List Bool)
    (Q : PriorityQueue) (hx : InR st.distances.length x) (v : Int) :
    State.D ⟨st.distances.set x.toNat nd, P, V, Q⟩ v = if v = x then nd else st.D v := by
  unfold State.D
  exact look_set INF st.distances x v nd hx

theorem State.P_set (st : State) (x : Int) (c : Int) (Dl : List Int) (V : List Bool)
    (Q : PriorityQueue) (hx : InR st.previous.length x) (v : Int) :
    State.P ⟨Dl, st.previous.set x.toNat c, V, Q⟩ v = if v = x then c else st.P v := by
  unfold State.P
  exact look_set (-1) st.previous x v c hx

theorem relaxEdge_basic (g : WeightedGraph) (hg : g.WellFormed) (s cur : Int) (e : Edge)
    (st : State) (hI : InvB g s st) (hcur : InR g.adjList.length cur)
    (hreach : Reach g s cur) (he : g.HasEdge cur e) :
    ∃ st', relaxEdge cur e st = .ok st' ∧ InvB g s st' ∧ st'.visited = st.visited ∧
      st'.pq.length ≤ st.pq.length + 1 := by
  have hdest := hasEdge_dest_inR hg he
  rcases relaxEdge_cases cur e st g.adjList.length hI.lenD hI.lenP hcur hdest with
    ⟨_, hres⟩ | ⟨hlt, pq', _, hlen, hperm, hheap, hres⟩
  · exact ⟨st, hres, hI, rfl, by omega⟩
  · refine ⟨_, hres, ?_, rfl, by simp only [hlen]; omega⟩
    have hxD : InR st.distances.length e.dest := by rw [hI.lenD]; exact hdest
    have hxP : InR st.previous.length e.dest := by rw [hI.lenP]; exact hdest
    have hle := hI.dLe e.dest
    constructor
    · simp [hI.lenD]
    · simp [hI.lenP]
    · exact hI.lenV
    · exact hheap hI.heap
    · intro e' he'
      rcases List.mem_cons.1 (hperm.subset he') with h1 | h1
      · rw [h1]; exact ⟨hdest, hreach.step he⟩
      · exact hI.entIn e' h1
    · intro v
      rw [State.D_set st _ _ _ _ _ hxD]
      split
      · omega
      · exact hI.dLe v
    · intro v hv
      rw [State.D_set st _ _ _ _ _ hxD]
      split
      · rename_i h; intro _; rw [h]; exact hreach.step he
      · exact hI.dReach v hv
    · intro v hv
      rw [State.D_set st _ _ _ _ _ hxD, State.P_set st _ _ _ _ _ hxP]
      by_cases hvx : v = e.dest
      · rw [if_pos hvx, if_pos hvx]
        right
        exact ⟨hcur, by omega⟩
      · rw [if_neg hvx, if_neg hvx]
        exact hI.prevDist v hv

theorem relaxEdges_basic (g : WeightedGraph) (hg : g.WellFormed) (s cur : Int)
    (hcur : InR g.adjList.length cur) (hreach : Reach g s cur) :
    ∀ (es : List Edge) (st : State), InvB g s st → (∀ e ∈ es, g.HasEdge cur e) →
    ∃ st', relaxEdges cur es st = .ok st' ∧ InvB g s st' ∧ st'.visited = st.visited ∧
      st'.pq.length ≤ st.pq.length + es.length := by
  intro es
  induction es with
  | nil =>
    intro st hI _
    exact ⟨st, rfl, hI, rfl, by simp⟩
  | cons e rest ih =>
    intro st hI hes
    obtain ⟨st1, h1, hI1, hv1, hl1⟩ :=
      relaxEdge_basic g hg s cur e st hI hcur hreach (hes e (List.mem_cons_self _ _))
    obtain ⟨st2, h2, hI2, hv2, hl2⟩ :=
      ih st1 hI1 (fun e' he' => hes e' (List.mem_cons_of_mem _ he'))
    refine ⟨st2, ?_, hI2, by rw [hv2, hv1], by simp only [List.length_cons]; omega⟩
    simp only [relaxEdges, bind, Except.bind, h1, h2]

/-! ## One iteration of the main loop -/

theorem dijkstraStep_cases (g : WeightedGraph) (s : Int) (st : State) (hI : InvB g s st)
    (hne : st.pq ≠ []) :
    ∃ it pq', heapPop st.pq = .ok (it, pq') ∧ pq'.length + 1 = st.pq.length ∧
      (entries st.pq).Perm (it.entry :: entries pq') ∧ IsHeap pq' ∧
      (∀ e ∈ entries st.pq, it.distance ≤ e.2) ∧
      InR g.adjList.length it.vertex ∧ Reach g s it.vertex ∧
      ((st.Vis it.vertex = true ∧ dijkstraStep g st = .ok { st with pq := pq' }) ∨
       (st.Vis it.vertex = false ∧
        dijkstraStep g st = relaxEdges it.vertex (look [] g.adjList it.vertex)
          { st with visited := st.visited.set it.vertex.toNat true, pq := pq' })) := by
  obtain ⟨it, pq', hpop, hlen, hperm, hh⟩ := heapPop_spec st.pq hne
  obtain ⟨hheap', hmin⟩ := hh hI.heap
  have hin := hI.entIn it.entry (hperm.symm.subset (List.mem_cons_self _ _))
  have hinV : InR st.visited.length it.vertex := by rw [hI.lenV]; exact hin.1
  refine ⟨it, pq', hpop, hlen, hperm, hheap', hmin, hin.1, hin.2, ?_⟩
  unfold dijkstraStep
  rw [hpop]
  simp only [bind, Except.bind]
  rw [sliceGet_look false st.visited it.vertex hinV]
  simp only []
  cases hv : look false st.visited it.vertex with
  | true =>
    left
    exact ⟨hv, rfl⟩
  | false =>
    right
    refine ⟨hv, ?_⟩
    simp only [Bool.false_eq_true, if_false]
    rw [sliceSet_look _ _ _ hinV, sliceGet_look [] g.adjList it.vertex hin.1]

theorem State.Vis_set (st : State) (x : Int) (Dl Pl : List Int) (Q : PriorityQueue)
    (hx : InR st.visited.length x) (v : Int) :
    State.Vis ⟨Dl, Pl, st.visited.set x.toNat true, Q⟩ v
      = if v = x then true else st.Vis v := by
  unfold State.Vis
  exact look_set false st.visited x v true hx

theorem hasEdge_of_mem_look (g : WeightedGraph) (v : Int) (e : Edge)
    (hv : InR g.adjList.length v) (he : e ∈ look [] g.adjList v) : g.HasEdge v e :=
  ⟨look [] g.adjList v, sliceGet_look [] g.adjList v hv, he⟩

theorem mem_look_of_hasEdge (g : WeightedGraph) (v : Int) (e : Edge)
    (he : g.HasEdge v e) : InR g.adjList.length v ∧ e ∈ look [] g.adjList v := by
  obtain ⟨row, hrow, hmem⟩ := he
  rw [sliceGet_ok_iff] at hrow
  have hlt : v.toNat < g.adjList.length := by
    by_contra hc
    rw [List.getElem?_eq_none (by omega)] at hrow
    exact absurd hrow.2 (by simp)
  refine ⟨⟨hrow.1, hlt⟩, ?_⟩
  unfold look
  rw [if_pos hrow.1, List.getD_eq_getElem?_getD, hrow.2]
  exact hmem

theorem pendingEdges_set (vs : List Bool) : ∀ (rows : List (List Edge)) (k : Nat)
    (row : List Edge), vs[k]? = some false → rows[k]? = some row →
    pendingEdges (vs.set k true) rows + row.length = pendingEdges vs rows := by
  induction vs with
  | nil => intro rows k row h; simp at h
  | cons v vs ih =>
    intro rows k row hv hr
    cases rows with
    | nil => simp at hr
    | cons r rows =>
      cases k with
      | zero =>
        simp at hv hr
        subst hv; subst hr
        simp [pendingEdges]
        omega
      | succ k =>
        simp at hv hr
        have := ih rows k row hv hr
        simp only [List.set_cons_succ, pendingEdges]
        omega

theorem pendingEdges_le (vs : List Bool) : ∀ (rows : List (List Edge)),
    pendingEdges vs rows ≤ (rows.map List.length).sum := by
  induction vs with
  | nil => intro rows; cases rows <;> simp [pendingEdges]
  | cons v vs ih =>
    intro rows
    cases rows with
    | nil => simp [pendingEdges]
    | cons r rows =>
      have := ih rows
      simp only [pendingEdges, List.map_cons, List.sum_cons]
      split <;> omega

theorem dijkstraStep_basic (g : WeightedGraph) (hg : g.WellFormed) (s : Int) (st : State)
    (hI : InvB g s st) (hne : st.pq ≠ []) :
    ∃ st', dijkstraStep g st = .ok st' ∧ InvB g s st' ∧ loopMeasure g st' < loopMeasure g st := by
  obtain ⟨it, pq', _, hlen, hperm, hheap', _, hin, hreach, hcase⟩ :=
    dijkstraStep_cases g s st hI hne
  have hsub : ∀ e ∈ entries pq', e ∈ entries st.pq :=
    fun e he => hperm.symm.subset (List.mem_cons_of_mem _ he)
  rcases hcase with ⟨_, hres⟩ | ⟨hvis, hres⟩
  · refine ⟨_, hres, ?_, ?_⟩
    · exact ⟨hI.lenD, hI.lenP, hI.lenV, hheap', fun e he => hI.entIn e (hsub e he),
        hI.dLe, hI.dReach, hI.prevDist⟩
    · simp only [loopMeasure]; omega
  · have hI1 : InvB g s { st with visited := st.visited.set it.vertex.toNat true, pq := pq' } :=
      ⟨hI.lenD, hI.lenP, by simp [hI.lenV], hheap', fun e he => hI.entIn e (hsub e he),
        hI.dLe, hI.dReach, hI.prevDist⟩
    obtain ⟨st', h1, hI', hv', hl'⟩ :=
      relaxEdges_basic g hg s it.vertex hin hreach (look [] g.adjList it.vertex) _ hI1
        (fun e he => hasEdge_of_mem_look g it.vertex e hin he)
    refine ⟨st', by rw [hres, h1], hI', ?_⟩
    have hvk : st.visited[it.vertex.toNat]? = some false := by
      have h2 : it.vertex.toNat < st.visited.length := by rw [hI.lenV]; exact hin.2
      rw [List.getElem?_eq_getElem h2]
      unfold State.Vis look at hvis
      rw [if_pos hin.1, List.getD_eq_getElem?_getD, List.getElem?_eq_getElem h2] at hvis
      simpa using hvis
    have hrk : g.adjList[it.vertex.toNat]? = some (look [] g.adjList it.vertex) := by
      rw [List.getElem?_eq_getElem hin.2]
      unfold look
      rw [if_pos hin.1, List.getD_eq_getElem?_getD, List.getElem?_eq_getElem hin.2]
      rfl
    have hp := pendingEdges_set st.visited g.adjList it.vertex.toNat _ hvk hrk
    simp only [loopMeasure, hv']
    simp only [] at hl'
    omega

/-! ## The main loop -/

theorem len_pos_iff (pq : PriorityQueue) : pq.Len > 0 ↔ pq ≠ [] := by
  unfold PriorityQueue.Len
  cases pq with
  | nil => simp
  | cons a t =>
    simp only [List.length_cons, ne_eq, reduceCtorEq, not_false_eq_true, iff_true]
    omega

theorem dijkstraLoop_mono (g : WeightedGraph) : ∀ (fuel : Nat) (st st' : State),
    dijkstraLoop g fuel st = .ok st' → ∀ fuel', fuel ≤ fuel' →
    dijkstraLoop g fuel' st = .ok st' := by
  intro fuel
  induction fuel with
  | zero =>
    intro st st' h fuel' _
    unfold dijkstraLoop at h
    split at h
    · cases h
    · rename_i hc
      cases fuel' with
      | zero => unfold dijkstraLoop; rw [if_neg hc]; exact h
      | succ f => unfold dijkstraLoop; rw [if_neg hc]; exact h
  | succ fuel ih =>
    intro st st' h fuel' hle
    obtain ⟨f, rfl⟩ : ∃ f, fuel' = f + 1 := ⟨fuel' - 1, by omega⟩
    unfold dijkstraLoop at h ⊢
    split at h
    · rename_i hc
      rw [if_pos hc]
      cases hstep : dijkstraStep g st with
      | error err => rw [hstep] at h; cases h
      | ok st1 =>
        rw [hstep] at h
        simp only [bind, Except.bind] at h ⊢
        exact ih st1 st' h f (by omega)
    · rename_i hc
      rw [if_neg hc]; exact h

theorem dijkstraLoop_inv (g : WeightedGraph) (I : State → Prop)
    (hstep : ∀ st, I st → st.pq ≠ [] →
      ∃ st', dijkstraStep g st = .ok st' ∧ I st' ∧ loopMeasure g st' < loopMeasure g st) :
    ∀ (fuel : Nat) (st : State), I st → loopMeasure g st ≤ fuel →
    ∃ st', dijkstraLoop g fuel st = .ok st' ∧ I st' ∧ st'.pq = [] := by
  intro fuel
  induction fuel with
  | zero =>
    intro st hI hm
    have hnil : st.pq = [] := by
      unfold loopMeasure at hm
      exact List.eq_nil_of_length_eq_zero (by omega)
    have hc : ¬ st.pq.Len > 0 := by rw [len_pos_iff]; simp [hnil]
    exact ⟨st, by unfold dijkstraLoop; rw [if_neg hc], hI, hnil⟩
  | succ fuel ih =>
    intro st hI hm
    by_cases hc : st.pq.Len > 0
    · obtain ⟨st1, h1, hI1, hlt⟩ := hstep st hI ((len_pos_iff _).1 hc)
      obtain ⟨st', h2, hI', hnil⟩ := ih st1 hI1 (by omega)
      refine ⟨st', ?_, hI', hnil⟩
      unfold dijkstraLoop
      rw [if_pos hc, h1]
      exact h2
    · have hnil : st.pq = [] := by
        by_contra hne
        exact hc ((len_pos_iff _).2 hne)
      exact ⟨st, by unfold dijkstraLoop; rw [if_neg hc], hI, hnil⟩

theorem initState_eq (g : WeightedGraph) (hg : g.Shaped) (s : Int)
    (hs : 0 ≤ s ∧ s < g.vertices) : initState g s = .ok (startState g s) := by
  unfold initState startState
  have h1 : ¬ g.vertices < 0 := by have := hg.1; omega
  have h2 : InR (List.replicate g.vertices.toNat INF).length s := by
    constructor
    · exact hs.1
    · simp only [List.length_replicate]; omega
  simp only [if_neg h1, sliceSet_look _ _ _ h2]
  rfl

theorem startState_measure (g : WeightedGraph) (s : Int) :
    loopMeasure g (startState g s) ≤ g.edgeCount + 1 := by
  unfold loopMeasure startState WeightedGraph.edgeCount
  have := pendingEdges_le (List.replicate g.vertices.toNat false) g.adjList
  simp only [List.length_singleton]
  omega

theorem startState_D (g : WeightedGraph) (hg : g.Shaped) (s : Int)
    (hs : 0 ≤ s ∧ s < g.vertices) (v : Int) :
    (startState g s).D v = if v = s then 0 else INF := by
  unfold State.D startState
  have h2 : InR (List.replicate g.vertices.toNat INF).length s := by
    constructor
    · exact hs.1
    · simp only [List.length_replicate]; omega
  have _ := hg
  simp only []
  rw [look_set INF _ s v 0 h2, look_replicate]

theorem startState_P (g : WeightedGraph) (s : Int) (v : Int) :
    (startState g s).P v = -1 := by
  unfold State.P startState
  exact look_replicate _ _ _

theorem startState_Vis (g : WeightedGraph) (s : Int) (v : Int) :
    (startState g s).Vis v = false := by
  unfold State.Vis startState
  exact look_replicate _ _ _

theorem isHeap_singleton (x : Item) : IsHeap [x] := by
  intro k hk0 hk
  simp at hk
  omega

theorem startState_basic (g : WeightedGraph) (hg : g.Shaped) (s : Int)
    (hs : 0 ≤ s ∧ s < g.vertices) : InvB g s (startState g s) := by
  have hlen := hg.2
  have hsR : InR g.adjList.length s := ⟨hs.1, by omega⟩
  constructor
  · simp [startState, hlen]
  · simp [startState, hlen]
  · simp [startState, hlen]
  · exact isHeap_singleton _
  · intro e he
    simp [startState, entries, Item.entry] at he
    subst he
    exact ⟨hsR, ⟨0, Walk.nil⟩⟩
  · intro v
    rw [startState_D g hg s hs]
    split
    · decide
    · exact le_refl _
  · intro v _ hv
    rw [startState_D g hg s hs] at hv
    split at hv
    · rename_i h; rw [h]; exact ⟨0, Walk.nil⟩
    · exact absurd hv (lt_irrefl _)
  · intro v _
    left
    exact ⟨startState_P g s v, startState_D g hg s hs v⟩

theorem dijkstra_run (g : WeightedGraph) (hg : g.WellFormed) (s : Int)
    (hs : 0 ≤ s ∧ s < g.vertices) (I : State → Prop) (h0 : I (startState g s))
    (hstep : ∀ st st', InvB g s st → I st → st.pq ≠ [] → dijkstraStep g st = .ok st' → I st') :
    ∃ st, (∀ fuel, g.edgeCount + 1 ≤ fuel →
        g.DijkstraFuel fuel s = .ok (st.distances, st.previous)) ∧
      dijkstraLoop g (g.edgeCount + 1) (startState g s) = .ok st ∧
      InvB g s st ∧ I st ∧ st.pq = [] := by
  have hJ : ∀ st, (InvB g s st ∧ I st) → st.pq ≠ [] →
      ∃ st', dijkstraStep g st = .ok st' ∧ (InvB g s st' ∧ I st') ∧
        loopMeasure g st' < loopMeasure g st := by
    intro st hst hne
    obtain ⟨st', h1, h2, h3⟩ := dijkstraStep_basic g hg s st hst.1 hne
    exact ⟨st', h1, ⟨h2, hstep st st' hst.1 hst.2 hne h1⟩, h3⟩
  obtain ⟨st, hrun, hI, hnil⟩ :=
    dijkstraLoop_inv g _ hJ (g.edgeCount + 1) (startState g s)
      ⟨startState_basic g hg.1 s hs, h0⟩ (startState_measure g s)
  refine ⟨st, ?_, hrun, hI.1, hI.2, hnil⟩
  intro fuel hfuel
  unfold WeightedGraph.DijkstraFuel
  rw [initState_eq g hg.1 s hs]
  simp only [bind, Except.bind]
  rw [dijkstraLoop_mono g _ _ _ hrun fuel hfuel]
  rfl

theorem inR_of_vertex (g : WeightedGraph) (hg : g.Shaped) (v : Int)
    (hv : 0 ≤ v ∧ v < g.vertices) : InR g.adjList.length v := by
  have := hg.2
  exact ⟨hv.1, by omega⟩

/-- C4: on every well-formed graph (whatever its weights, so in particular
with non-negative weights) and every source in `[0, V)`, `Dijkstra` returns,
and for every vertex `v` of `[0, V)` that no directed path from the source
reaches it returns `distances[v] = math.MaxInt32` and `previous[v] = -1`. -/
theorem dijkstra_unreachable (g : WeightedGraph) (s : Int) (hg : g.WellFormed)
    (hs : 0 ≤ s ∧ s < g.vertices) :
    ∃ dist prev,
      (∀ fuel, g.edgeCount + 1 ≤ fuel → g.DijkstraFuel fuel s = .ok (dist, prev)) ∧
      ∀ v, 0 ≤ v ∧ v < g.vertices → ¬ Reach g s v →
        sliceGet dist v = .ok INF ∧ sliceGet prev v = .ok (-1) := by
  obtain ⟨st, hrun, _, hI, _, _⟩ :=
    dijkstra_run g hg s hs (fun _ => True) trivial (fun _ _ _ _ _ _ => trivial)
  refine ⟨st.distances, st.previous, hrun, ?_⟩
  intro v hv hnr
  have hvR := inR_of_vertex g hg.1 v hv
  have hD : st.D v = INF := by
    have h1 := hI.dLe v
    by_contra hne
    exact hnr (hI.dReach v hvR (lt_of_le_of_ne h1 hne))
  have hP : st.P v = -1 := by
    rcases hI.prevDist v hvR with h | h
    · exact h.1
    · omega
  constructor
  · rw [sliceGet_look INF st.distances v (by rw [hI.lenD]; exact hvR)]
    exact congrArg _ hD
  · rw [sliceGet_look (-1) st.previous v (by rw [hI.lenP]; exact hvR)]
    exact congrArg _ hP

/-- In `disconnectedGraph` the walks from 0 end at 0 or at 1. -/
theorem disconnectedGraph_walk {v d : Int} (h : Walk disconnectedGraph 0 v d) :
    v = 0 ∨ v = 1 := by
  induction h with
  | nil => exact Or.inl rfl
  | snoc u d e _ he ih =>
    obtain ⟨row, hrow, hmem⟩ := he
    rcases ih with hu | hu
    · subst hu
      cases hrow
      simp [disconnectedGraph] at hmem
      subst hmem
      exact Or.inr rfl
    · subst hu
      cases hrow
      simp [disconnectedGraph] at hmem

/-- C4 at its witness: three vertices, the single edge 0 -> 1 of weight 1,
source 0; vertex 2 is unreachable and keeps distance `math.MaxInt32` and
predecessor -1. -/
theorem dijkstra_unreachable_witness :
    ∃ dist prev, disconnectedGraph.Dijkstra 0 = .ok (dist, prev) ∧
      ¬ Reach disconnectedGraph 0 2 ∧
      sliceGet dist 2 = .ok INF ∧ sliceGet prev 2 = .ok (-1) := by
  obtain ⟨dist, prev, hrun, h⟩ :=
    dijkstra_unreachable disconnectedGraph 0 (by decide) (by decide)
  have hnr : ¬ Reach disconnectedGraph 0 2 := by
    rintro ⟨d, hd⟩
    rcases disconnectedGraph_walk hd with h2 | h2 <;> exact absurd h2 (by decide)
  exact ⟨dist, prev, hrun _ (le_refl _), hnr, h 2 (by decide) hnr⟩

/-- C5: on every well-formed graph, for every source `s` and target `t` in
`[0, V)`, with `(distances, previous)` the result of `Dijkstra(s)`:
`GetPath(previous, s, t)` returns nil if and only if `distances[t]` is
`math.MaxInt32` and `t != s`. -/
theorem getPath_nil_iff (g : WeightedGraph) (s t : Int) (hg : g.WellFormed)
    (hs : 0 ≤ s ∧ s < g.vertices) (ht : 0 ≤ t ∧ t < g.vertices) :
    ∃ dist prev,
      (∀ fuel, g.edgeCount + 1 ≤ fuel → g.DijkstraFuel fuel s = .ok (dist, prev)) ∧
      ∀ pathFuel, GetPathFuel pathFuel prev s t = .ok none ↔
        (sliceGet dist t = .ok INF ∧ t ≠ s) := by
  obtain ⟨st, hrun, _, hI, _, _⟩ :=
    dijkstra_run g hg s hs (fun _ => True) trivial (fun _ _ _ _ _ _ => trivial)
  refine ⟨st.distances, st.previous, hrun, ?_⟩
  intro pathFuel
  have htR := inR_of_vertex g hg.1 t ht
  have hgetD : sliceGet st.distances t = .ok (st.D t) :=
    sliceGet_look INF st.distances t (by rw [hI.lenD]; exact htR)
  have hgetP : sliceGet st.previous t = .ok (st.P t) :=
    sliceGet_look (-1) st.previous t (by rw [hI.lenP]; exact htR)
  unfold GetPathFuel
  rw [hgetP, hgetD]
  simp only [bind, Except.bind]
  have hkey : (st.P t = -1 ∧ s ≠ t) ↔ (st.D t = INF ∧ t ≠ s) := by
    constructor
    · rintro ⟨h1, h2⟩
      refine ⟨?_, Ne.symm h2⟩
      rcases hI.prevDist t htR with h | h
      · rw [h.2, if_neg (Ne.symm h2)]
      · have := h.1.1; omega
    · rintro ⟨h1, h2⟩
      refine ⟨?_, Ne.symm h2⟩
      rcases hI.prevDist t htR with h | h
      · exact h.1
      · omega
  by_cases hc : st.P t = -1 ∧ s ≠ t
  · rw [if_pos hc]
    have := hkey.1 hc
    simp [pure, Except.pure, this.1, this.2]
  · rw [if_neg hc]
    have hn : ¬ (st.D t = INF ∧ t ≠ s) := fun h => hc (hkey.2 h)
    constructor
    · intro h
      cases hloop : getPathLoop st.previous pathFuel t [] with
      | error err => rw [hloop] at h; cases h
      | ok p => rw [hloop] at h; cases h
    · intro h
      exact absurd ⟨by simpa using h.1, h.2⟩ hn

/-- C5 on the graph with three vertices and the single edge 0 -> 1 of weight 1,
for source 0 and target 2. -/
theorem getPath_nil_iff_witness :
    ∃ dist prev,
      (∀ fuel, disconnectedGraph.edgeCount + 1 ≤ fuel →
        disconnectedGraph.DijkstraFuel fuel 0 = .ok (dist, prev)) ∧
      ∀ pathFuel, GetPathFuel pathFuel prev 0 2 = .ok none ↔
        (sliceGet dist 2 = .ok INF ∧ (2 : Int) ≠ 0) :=
  getPath_nil_iff disconnectedGraph 0 2 (by decide) (by decide) (by decide)

/-! ## The invariant for non-negative weights -/

theorem chain_frame (g : WeightedGraph) (st st' : State) (s : Int) (hfr : Frozen st st')
    {v : Int} {p : List Int} (h : Chain g st s v p) :
    st'.P v = st.P v → st'.D v = st.D v → Chain g st' s v p := by
  induction h with
  | base => intro _ _; exact Chain.base
  | step u v p e _ hvis hvs hP he hdest hD ih =>
    intro hP' hD'
    obtain ⟨h1, h2, h3⟩ := hfr u hvis
    exact Chain.step u v p e (ih h2 h3) h1 hvs (by rw [hP', hP]) he hdest
      (by rw [hD', h3, hD])

theorem weight_bounds {g : WeightedGraph} (hw : g.WeightsBounded) {u : Int} {e : Edge}
    (he : g.HasEdge u e) : 0 ≤ e.weight ∧ e.weight ≤ maxInt64 - INF := by
  obtain ⟨row, hrow, hmem⟩ := he
  rw [sliceGet_ok_iff] at hrow
  exact hw row (List.getElem?_mem hrow.2) e hmem

theorem addInt_exact (a w : Int) (ha0 : 0 ≤ a) (ha1 : a ≤ INF) (hw0 : 0 ≤ w)
    (hw1 : w ≤ maxInt64 - INF) : addInt a w = a + w := by
  unfold addInt
  unfold maxInt64 INF at *
  exact wrapInt_id _ (by omega) (by omega)

theorem vis_inR {g : WeightedGraph} {s : Int} {st : State} (hB : InvB g s st) {v : Int}
    (hv : st.Vis v = true) : InR g.adjList.length v := by
  unfold State.Vis look at hv
  by_cases h0 : 0 ≤ v
  · rw [if_pos h0, List.getD_eq_getElem?_getD] at hv
    refine ⟨h0, ?_⟩
    by_contra hc
    rw [List.getElem?_eq_none (by rw [hB.lenV]; omega)] at hv
    simp at hv
  · rw [if_neg h0] at hv
    simp at hv

theorem D_of_not_inR {g : WeightedGraph} {s : Int} {st : State} (hB : InvB g s st) {v : Int}
    (hv : ¬ InR g.adjList.length v) : st.D v = INF := by
  unfold State.D look
  by_cases h0 : 0 ≤ v
  · rw [if_pos h0, List.getD_eq_getElem?_getD]
    have : st.distances.length ≤ v.toNat := by
      rw [hB.lenD]
      by_contra hc
      exact hv ⟨h0, by omega⟩
    rw [List.getElem?_eq_none this]
    rfl
  · rw [if_neg h0]

theorem frozen_refl (st : State) : Frozen st st := fun _ hy => ⟨hy, rfl, rfl⟩

theorem frozen_trans {a b c : State} (h1 : Frozen a b) (h2 : Frozen b c) : Frozen a c := by
  intro y hy
  obtain ⟨hb, hP1, hD1⟩ := h1 y hy
  obtain ⟨hc, hP2, hD2⟩ := h2 y hb
  exact ⟨hc, by rw [hP2, hP1], by rw [hD2, hD1]⟩

theorem relax_update_full (g : WeightedGraph) (hg : g.WellFormed) (hw : g.WeightsBounded)
    (s cur : Int) (e : Edge) (rest : List Edge) (st st2 : State)
    (hB : InvB g s st) (hF : InvF g s st) (hcm : CurMax st cur)
    (htri : Tri g st cur (e :: rest)) (he : g.HasEdge cur e)
    (hlt : st.D cur + e.weight < st.D e.dest)
    (hD' : ∀ v, st2.D v = if v = e.dest then st.D cur + e.weight else st.D v)
    (hP' : ∀ v, st2.P v = if v = e.dest then cur else st.P v)
    (hV' : ∀ v, st2.Vis v = st.Vis v)
    (hperm : (entries st2.pq).Perm ((e.dest, st.D cur + e.weight) :: entries st.pq)) :
    InvF g s st2 ∧ CurMax st2 cur ∧ Tri g st2 cur rest ∧ Frozen st st2 := by
  have hcur : InR g.adjList.length cur := vis_inR hB hcm.1
  have hdest := hasEdge_dest_inR hg he
  obtain ⟨hw0, _⟩ := weight_bounds hw he
  have hDcur0 := hF.nonneg cur
  have hxle := hB.dLe e.dest
  have hcurfin := hF.visFin cur hcm.1
  have hxvis : st.Vis e.dest = false := by
    cases hv : st.Vis e.dest with
    | false => rfl
    | true =>
      have := hcm.2 e.dest hv
      omega
  have hxs : e.dest ≠ s := by
    intro h
    rw [h, hF.src0] at hlt
    omega
  have hcx : cur ≠ e.dest := by
    intro h
    rw [← h, hcm.1] at hxvis
    cases hxvis
  have hDle : ∀ v, st2.D v ≤ st.D v := by
    intro v
    rw [hD']
    split
    · rename_i h; rw [h]; omega
    · exact le_refl _
  have hvisne : ∀ v, st.Vis v = true → v ≠ e.dest := by
    intro v hv h
    rw [h, hxvis] at hv
    cases hv
  have hDvis : ∀ v, st.Vis v = true → st2.D v = st.D v := by
    intro v hv
    rw [hD', if_neg (hvisne v hv)]
  have hPvis : ∀ v, st.Vis v = true → st2.P v = st.P v := by
    intro v hv
    rw [hP', if_neg (hvisne v hv)]
  have hfr : Frozen st st2 :=
    fun y hy => ⟨by rw [hV', hy], hPvis y hy, hDvis y hy⟩
  refine ⟨?_, ?_, ?_, hfr⟩
  · constructor
    · rw [hD', if_neg (Ne.symm hxs), hF.src0]
    · rw [hP', if_neg (Ne.symm hxs), hF.prevSrc]
    · intro v
      rw [hD']
      split
      · omega
      · exact hF.nonneg v
    · intro v hv
      rw [hD']
      split
      · rename_i h
        intro _
        rw [h]
        exact Walk.snoc cur _ e (hF.walk cur hcur hcurfin) he
      · exact hF.walk v hv
    · intro u hu
      rw [hV'] at hu
      rw [hDvis u hu]
      exact hF.visFin u hu
    · intro v hv hvis hfin
      rw [hV'] at hvis
      apply hperm.symm.subset
      by_cases hvx : v = e.dest
      · rw [hD', if_pos hvx, hvx]
        exact List.mem_cons_self _ _
      · rw [hD', if_neg hvx] at hfin ⊢
        exact List.mem_cons_of_mem _ (hF.queued v hv hvis hfin)
    · intro e' he'
      rcases List.mem_cons.1 (hperm.subset he') with h1 | h1
      · rw [h1]
        simp only []
        rw [hD', if_pos rfl]
        exact ⟨le_refl _, by omega⟩
      · have := hF.entryOk e' h1
        have := hDle e'.1
        exact ⟨by omega, by omega⟩
    · intro u v hu hv
      rw [hV'] at hu hv
      rw [hDvis u hu, hD']
      split
      · have := hcm.2 u hu
        omega
      · exact hF.mono u v hu hv
    · intro v hv hfin
      by_cases hvx : v = e.dest
      · obtain ⟨p, hp⟩ := hF.chain cur hcur hcurfin
        have hp2 : Chain g st2 s cur p :=
          chain_frame g st st2 s hfr hp (hPvis cur hcm.1) (hDvis cur hcm.1)
        refine ⟨p ++ [v], Chain.step cur v p e hp2 (by rw [hV', hcm.1]) (hvx ▸ hxs) ?_ he
          hvx.symm ?_⟩
        · rw [hP', if_pos hvx]
        · rw [hD', if_pos hvx, hDvis cur hcm.1]
      · rw [hD', if_neg hvx] at hfin
        obtain ⟨p, hp⟩ := hF.chain v hv hfin
        exact ⟨p, chain_frame g st st2 s hfr hp (by rw [hP', if_neg hvx])
          (by rw [hD', if_neg hvx])⟩
  · refine ⟨by rw [hV', hcm.1], ?_⟩
    intro u hu
    rw [hV'] at hu
    rw [hDvis u hu, hDvis cur hcm.1]
    exact hcm.2 u hu
  · intro u e' hu he' hex
    rw [hV'] at hu
    rw [hDvis u hu]
    by_cases hc : u = cur ∧ e' = e
    · rw [hc.1, hc.2, hD', if_pos rfl]
    · have h1 : st.D e'.dest ≤ st.D u + e'.weight := by
        apply htri u e' hu he'
        intro huc hmem
        rcases List.mem_cons.1 hmem with h2 | h2
        · exact hc ⟨huc, h2⟩
        · exact hex huc h2
      have := hDle e'.dest
      omega

theorem relaxEdge_full (g : WeightedGraph) (hg : g.WellFormed) (hw : g.WeightsBounded)
    (s cur : Int) (e : Edge) (rest : List Edge) (st st' : State)
    (hB : InvB g s st) (hF : InvF g s st) (hcm : CurMax st cur)
    (htri : Tri g st cur (e :: rest)) (he : g.HasEdge cur e)
    (hres : relaxEdge cur e st = .ok st') :
    InvF g s st' ∧ CurMax st' cur ∧ Tri g st' cur rest ∧ Frozen st st' := by
  have hcur : InR g.adjList.length cur := vis_inR hB hcm.1
  have hdest := hasEdge_dest_inR hg he
  obtain ⟨hw0, hw1⟩ := weight_bounds hw he
  have hnd : addInt (st.D cur) e.weight = st.D cur + e.weight :=
    addInt_exact _ _ (hF.nonneg cur) (hB.dLe cur) hw0 hw1
  rcases relaxEdge_cases cur e st g.adjList.length hB.lenD hB.lenP hcur hdest with
    ⟨hnlt, hres2⟩ | ⟨hlt, pq', _, _, hperm, _, hres2⟩
  · -- no update
    rw [hres] at hres2
    cases hres2
    refine ⟨hF, hcm, ?_, frozen_refl st⟩
    intro u e' hu he' hex
    by_cases hc : u = cur ∧ e' = e
    · rw [hc.1, hc.2]
      rw [hnd] at hnlt
      omega
    · apply htri u e' hu he'
      intro huc hmem
      rcases List.mem_cons.1 hmem with h1 | h1
      · exact hc ⟨huc, h1⟩
      · exact hex huc h1
  · -- update of `e.dest`
    rw [hres] at hres2
    cases hres2
    rw [hnd] at hlt hperm
    have hxD : InR st.distances.length e.dest := by rw [hB.lenD]; exact hdest
    have hxP : InR st.previous.length e.dest := by rw [hB.lenP]; exact hdest
    apply relax_update_full g hg hw s cur e rest st _ hB hF hcm htri he hlt
    · intro v
      rw [State.D_set st _ _ _ _ _ hxD, hnd]
    · intro v
      rw [State.P_set st _ _ _ _ _ hxP]
    · intro v
      rfl
    · exact hperm

theorem relaxEdges_full (g : WeightedGraph) (hg : g.WellFormed) (hw : g.WeightsBounded)
    (s cur : Int) (hreach : Reach g s cur) :
    ∀ (es : List Edge) (st st' : State), InvB g s st → InvF g s st → CurMax st cur →
    Tri g st cur es → (∀ e ∈ es, g.HasEdge cur e) → relaxEdges cur es st = .ok st' →
    InvF g s st' ∧ CurMax st' cur ∧ Tri g st' cur [] ∧ Frozen st st' := by
  intro es
  induction es with
  | nil =>
    intro st st' _ hF hcm htri _ hres
    cases hres
    exact ⟨hF, hcm, htri, frozen_refl st⟩
  | cons e rest ih =>
    intro st st' hB hF hcm htri hes hres
    have he := hes e (List.mem_cons_self _ _)
    obtain ⟨st1, h1, hB1, _, _⟩ :=
      relaxEdge_basic g hg s cur e st hB (vis_inR hB hcm.1) hreach he
    obtain ⟨hF1, hcm1, htri1, hfr1⟩ :=
      relaxEdge_full g hg hw s cur e rest st st1 hB hF hcm htri he h1
    simp only [relaxEdges, bind, Except.bind, h1] at hres
    obtain ⟨hF2, hcm2, htri2, hfr2⟩ :=
      ih st1 st' hB1 hF1 hcm1 htri1 (fun e' he' => hes e' (List.mem_cons_of_mem _ he')) hres
    exact ⟨hF2, hcm2, htri2, frozen_trans hfr1 hfr2⟩

/-- Dropping a stale entry from the queue keeps the invariant. -/
theorem drop_full (g : WeightedGraph) (s : Int) (st : State) (it : Item)
    (pq' : PriorityQueue) (hF : InvF g s st) (hT : Tri g st 0 [])
    (hperm : (entries st.pq).Perm (it.entry :: entries pq'))
    (hvis : st.Vis it.vertex = true) :
    InvF g s { st with pq := pq' } ∧ Tri g { st with pq := pq' } 0 [] ∧
      Frozen st { st with pq := pq' } := by
  have hsub : ∀ e ∈ entries pq', e ∈ entries st.pq :=
    fun e he => hperm.symm.subset (List.mem_cons_of_mem _ he)
  refine ⟨?_, hT, fun y hy => ⟨hy, rfl, rfl⟩⟩
  refine ⟨hF.src0, hF.prevSrc, hF.nonneg, hF.walk, hF.visFin, ?_, ?_, hF.mono, ?_⟩
  · intro v hv hvv hfin
    rcases List.mem_cons.1 (hperm.subset (hF.queued v hv hvv hfin)) with h1 | h1
    · have h2 : v = it.vertex := congrArg Prod.fst h1
      have hvv' : st.Vis v = false := hvv
      rw [h2, hvis] at hvv'
      cases hvv'
    · exact h1
  · intro e he
    exact hF.entryOk e (hsub e he)
  · intro v hv hfin
    obtain ⟨p, hp⟩ := hF.chain v hv hfin
    exact ⟨p, chain_frame g st { st with pq := pq' } s (fun y hy => ⟨hy, rfl, rfl⟩) hp rfl rfl⟩

/-- Marking the vertex of a popped minimum visited: the invariant holds again,
with all edges of that vertex still to be relaxed. -/
theorem mark_full (g : WeightedGraph) (s : Int) (st : State) (it : Item)
    (pq' : PriorityQueue) (hB : InvB g s st) (hF : InvF g s st) (hT : Tri g st 0 [])
    (hperm : (entries st.pq).Perm (it.entry :: entries pq')) (hheap' : IsHeap pq')
    (hmin : ∀ e ∈ entries st.pq, it.distance ≤ e.2)
    (hin : InR g.adjList.length it.vertex) (hvis : st.Vis it.vertex = false) :
    InvB g s { st with visited := st.visited.set it.vertex.toNat true, pq := pq' } ∧
    InvF g s { st with visited := st.visited.set it.vertex.toNat true, pq := pq' } ∧
    CurMax { st with visited := st.visited.set it.vertex.toNat true, pq := pq' } it.vertex ∧
    Tri g { st with visited := st.visited.set it.vertex.toNat true, pq := pq' } it.vertex
      (look [] g.adjList it.vertex) ∧
    Frozen st { st with visited := st.visited.set it.vertex.toNat true, pq := pq' } := by
  have hsub : ∀ e ∈ entries pq', e ∈ entries st.pq :=
    fun e he => hperm.symm.subset (List.mem_cons_of_mem _ he)
  have hitmem : it.entry ∈ entries st.pq := hperm.symm.subset (List.mem_cons_self _ _)
  have hitok := hF.entryOk it.entry hitmem
  have hinV : InR st.visited.length it.vertex := by rw [hB.lenV]; exact hin
  have hV1 : ∀ v,
      State.Vis { st with visited := st.visited.set it.vertex.toNat true, pq := pq' } v =
        if v = it.vertex then true else st.Vis v :=
    State.Vis_set st it.vertex _ _ _ hinV
  have hD0 : st.D it.vertex ≤ it.distance := hitok.1
  have hd0 : it.distance < INF := hitok.2
  have hfr : Frozen st { st with visited := st.visited.set it.vertex.toNat true, pq := pq' } := by
    intro y hy
    refine ⟨?_, rfl, rfl⟩
    rw [hV1]
    split
    · rfl
    · exact hy
  refine ⟨?_, ?_, ?_, ?_, hfr⟩
  · exact ⟨hB.lenD, hB.lenP, by simp [hB.lenV], hheap', fun e he => hB.entIn e (hsub e he),
      hB.dLe, hB.dReach, hB.prevDist⟩
  · refine ⟨hF.src0, hF.prevSrc, hF.nonneg, hF.walk, ?_, ?_, ?_, ?_, ?_⟩
    · intro u hu
      rw [hV1] at hu
      by_cases huv : u = it.vertex
      · rw [huv]
        show st.D it.vertex < INF
        omega
      · rw [if_neg huv] at hu
        exact hF.visFin u hu
    · intro v hv hvv hfin
      rw [hV1] at hvv
      by_cases hvv0 : v = it.vertex
      · rw [if_pos hvv0] at hvv; cases hvv
      · rw [if_neg hvv0] at hvv
        rcases List.mem_cons.1 (hperm.subset (hF.queued v hv hvv hfin)) with h1 | h1
        · exact absurd (congrArg Prod.fst h1) hvv0
        · exact h1
    · intro e he
      exact hF.entryOk e (hsub e he)
    · intro u v hu hv
      rw [hV1] at hu hv
      by_cases hvv0 : v = it.vertex
      · rw [if_pos hvv0] at hv; cases hv
      · rw [if_neg hvv0] at hv
        by_cases huv : u = it.vertex
        · rw [huv]
          show st.D it.vertex ≤ st.D v
          by_cases hvR : InR g.adjList.length v
          · by_cases hfin : st.D v < INF
            · have := hmin _ (hF.queued v hvR hv hfin)
              simp only [] at this
              omega
            · omega
          · rw [D_of_not_inR hB hvR]
            omega
        · rw [if_neg huv] at hu
          exact hF.mono u v hu hv
    · intro v hv hfin
      obtain ⟨p, hp⟩ := hF.chain v hv hfin
      exact ⟨p, chain_frame g st _ s hfr hp rfl rfl⟩
  · refine ⟨by rw [hV1, if_pos rfl], ?_⟩
    intro u hu
    rw [hV1] at hu
    by_cases huv : u = it.vertex
    · rw [huv]
    · rw [if_neg huv] at hu
      exact hF.mono u it.vertex hu hvis
  · intro u e hu he hex
    rw [hV1] at hu
    by_cases huv : u = it.vertex
    · exact absurd (mem_look_of_hasEdge g _ e (huv ▸ he)).2 (hex huv)
    · rw [if_neg huv] at hu
      exact hT u e hu he (fun _ h => by simp at h)

theorem dijkstraStep_full (g : WeightedGraph) (hg : g.WellFormed) (hw : g.WeightsBounded)
    (s : Int) (st st' : State) (hB : InvB g s st) (hF : InvF g s st) (hT : Tri g st 0 [])
    (hne : st.pq ≠ []) (hres : dijkstraStep g st = .ok st') :
    InvF g s st' ∧ Tri g st' 0 [] ∧ Frozen st st' := by
  obtain ⟨it, pq', _, _, hperm, hheap', hmin, hin, hreach, hcase⟩ :=
    dijkstraStep_cases g s st hB hne
  rcases hcase with ⟨hvis, hres2⟩ | ⟨hvis, hres2⟩
  · rw [hres] at hres2
    cases hres2
    exact drop_full g s st it pq' hF hT hperm hvis
  · obtain ⟨hB1, hF1, hcm1, hT1, hfr1⟩ :=
      mark_full g s st it pq' hB hF hT hperm hheap' hmin hin hvis
    rw [hres2] at hres
    obtain ⟨hF', _, hT', hfr'⟩ :=
      relaxEdges_full g hg hw s it.vertex hreach _ _ st' hB1 hF1 hcm1 hT1
        (fun e he => hasEdge_of_mem_look g it.vertex e hin he) hres
    exact ⟨hF', fun u e hu he _ => hT' u e hu he (fun _ h => by simp at h),
      frozen_trans hfr1 hfr'⟩

theorem startState_full (g : WeightedGraph) (hg : g.Shaped) (s : Int)
    (hs : 0 ≤ s ∧ s < g.vertices) :
    InvF g s (startState g s) ∧ Tri g (startState g s) 0 [] := by
  have hD := startState_D g hg s hs
  have hV := startState_Vis g s
  refine ⟨⟨?_, startState_P g s s, ?_, ?_, ?_, ?_, ?_, ?_, ?_⟩, ?_⟩
  · rw [hD, if_pos rfl]
  · intro v
    rw [hD]
    split
    · exact le_refl _
    · decide
  · intro v _ hfin
    rw [hD] at hfin ⊢
    split at hfin
    · rename_i h
      rw [if_pos h, h]
      exact Walk.nil
    · exact absurd hfin (lt_irrefl _)
  · intro u hu
    rw [hV] at hu
    cases hu
  · intro v _ _ hfin
    rw [hD] at hfin ⊢
    split at hfin
    · rename_i h
      rw [if_pos h, h]
      simp [startState, entries, Item.entry]
    · exact absurd hfin (lt_irrefl _)
  · intro e he
    simp [startState, entries, Item.entry] at he
    subst he
    simp only []
    rw [hD, if_pos rfl]
    exact ⟨le_refl _, by decide⟩
  · intro u v hu
    rw [hV] at hu
    cases hu
  · intro v _ hfin
    rw [hD] at hfin
    split at hfin
    · rename_i h
      rw [h]
      exact ⟨[s], Chain.base⟩
    · exact absurd hfin (lt_irrefl _)
  · intro u e hu
    rw [hV] at hu
    cases hu

/-- The run of `Dijkstra` on a well-formed graph with bounded non-negative
weights: it returns, and its final state satisfies both invariants with an
empty queue. -/
theorem dijkstra_run_full (g : WeightedGraph) (hg : g.WellFormed) (hw : g.WeightsBounded)
    (s : Int) (hs : 0 ≤ s ∧ s < g.vertices) :
    ∃ st, (∀ fuel, g.edgeCount + 1 ≤ fuel →
        g.DijkstraFuel fuel s = .ok (st.distances, st.previous)) ∧
      dijkstraLoop g (g.edgeCount + 1) (startState g s) = .ok st ∧
      InvB g s st ∧ (InvF g s st ∧ Tri g st 0 []) ∧ st.pq = [] :=
  dijkstra_run g hg s hs (fun st => InvF g s st ∧ Tri g st 0 [])
    (startState_full g hg.1 s hs)
    (fun st st' hB hI hne hres =>
      have h := dijkstraStep_full g hg hw s st st' hB hI.1 hI.2 hne hres
      ⟨h.1, h.2.1⟩)

theorem walk_inR (g : WeightedGraph) (hg : g.WellFormed) (s : Int)
    (hs : InR g.adjList.length s) {v d : Int} (h : Walk g s v d) :
    InR g.adjList.length v := by
  cases h with
  | nil => exact hs
  | snoc u d e _ he => exact hasEdge_dest_inR hg he

/-- At the end of the run every walk from the source either ends at a visited
vertex whose distance it does not undercut, or weighs at least `INF`. -/
theorem final_lower_bound (g : WeightedGraph) (hg : g.WellFormed) (hw : g.WeightsBounded)
    (s : Int) (hs : InR g.adjList.length s) (st : State)
    (hF : InvF g s st) (hT : Tri g st 0 []) (hnil : st.pq = []) :
    ∀ v d, Walk g s v d → (st.Vis v = true ∧ st.D v ≤ d) ∨ INF ≤ d := by
  have hqueue : ∀ v, InR g.adjList.length v → st.Vis v = false → INF ≤ st.D v := by
    intro v hv hvis
    by_contra hc
    have := hF.queued v hv hvis (by omega)
    rw [hnil] at this
    simp [entries] at this
  intro v d h
  induction h with
  | nil =>
    left
    cases hv : st.Vis s with
    | true => exact ⟨rfl, by rw [hF.src0]⟩
    | false =>
      have := hqueue s hs hv
      rw [hF.src0] at this
      exact absurd this (by decide)
  | snoc u d e hwalk he ih =>
    obtain ⟨hw0, _⟩ := weight_bounds hw he
    rcases ih with ⟨hu, hle⟩ | hinf
    · have h1 := hT u e hu he (fun _ h => by simp at h)
      cases hv : st.Vis e.dest with
      | true => left; exact ⟨rfl, by omega⟩
      | false =>
        right
        have := hqueue e.dest (hasEdge_dest_inR hg he) hv
        omega
    · right
      omega

/-- C1 fails on the code, for two reasons. With the single edge 0 -> 1 of
weight 2147483648 the cheapest path to vertex 1 weighs 2147483648, but
`Dijkstra(0)` reports `math.MaxInt32 = 2147483647`, the value it also reports
for unreached vertices. With the edges 0 -> 1 of weight 1 and 1 -> 2 of weight
9223372036854775807 the sum `1 + 9223372036854775807` overflows the 64-bit
`int` and `Dijkstra(0)` reports -9223372036854775808 for vertex 2. -/
theorem dijkstra_shortest_counterexample :
    ((⟨2, [[⟨1, 2147483648⟩], []]⟩ : WeightedGraph).Dijkstra 0
        = .ok ([0, 2147483647], [-1, -1]) ∧
      Walk ⟨2, [[⟨1, 2147483648⟩], []]⟩ 0 1 2147483648 ∧
      ∀ d, Walk ⟨2, [[⟨1, 2147483648⟩], []]⟩ 0 1 d → 2147483648 ≤ d) ∧
    ((⟨3, [[⟨1, 1⟩], [⟨2, 9223372036854775807⟩], []]⟩ : WeightedGraph).Dijkstra 0
        = .ok ([0, 1, -9223372036854775808], [-1, 0, 1]) ∧
      (⟨3, [[⟨1, 1⟩], [⟨2, 9223372036854775807⟩], []]⟩ : WeightedGraph).NonNegative ∧
      ∀ d, Walk ⟨3, [[⟨1, 1⟩], [⟨2, 9223372036854775807⟩], []]⟩ 0 2 d → 0 ≤ d) := by
  refine ⟨⟨rfl, ?_, ?_⟩, rfl, by decide, ?_⟩
  · exact Walk.snoc 0 0 ⟨1, 2147483648⟩ Walk.nil ⟨[⟨1, 2147483648⟩], rfl, by simp⟩
  · have key : ∀ v d, Walk ⟨2, [[⟨1, 2147483648⟩], []]⟩ 0 v d →
        (v = 0 ∧ d = 0) ∨ (v = 1 ∧ 2147483648 ≤ d) := by
      intro v d h
      induction h with
      | nil => left; exact ⟨rfl, rfl⟩
      | snoc u d e _ he ih =>
        obtain ⟨row, hrow, hmem⟩ := he
        rcases ih with ⟨hu, hd⟩ | ⟨hu, hd⟩
        · subst hu; subst hd
          cases hrow
          simp at hmem
          subst hmem
          right
          exact ⟨rfl, by decide⟩
        · subst hu
          cases hrow
          simp at hmem
    intro d h
    rcases key 1 d h with ⟨h1, _⟩ | ⟨_, h2⟩
    · exact absurd h1 (by decide)
    · exact h2
  · have key : ∀ v d, Walk ⟨3, [[⟨1, 1⟩], [⟨2, 9223372036854775807⟩], []]⟩ 0 v d → 0 ≤ d := by
      intro v d h
      induction h with
      | nil => exact le_refl _
      | snoc u d e _ he ih =>
        obtain ⟨row, hrow, hmem⟩ := he
        rw [sliceGet_ok_iff] at hrow
        have h1 := List.getElem?_mem hrow.2
        simp at h1
        rcases h1 with h1 | h1 | h1 <;> subst h1 <;> simp at hmem <;> subst hmem <;>
          simp only [] <;> omega
    exact key 2

theorem walk_nonneg (g : WeightedGraph) (hw : g.WeightsBounded) (s : Int) {v d : Int}
    (h : Walk g s v d) : 0 ≤ d := by
  induction h with
  | nil => exact le_refl _
  | snoc u d e _ he ih =>
    have := (weight_bounds hw he).1
    omega

/-- C1 as amended: on every well-formed graph whose weights lie in
`[0, MaxInt64 - MaxInt32]` and for every source in `[0, V)`, `Dijkstra` returns,
and every vertex `v` reachable from the source has a minimum total edge weight
`d` over all directed paths from the source to `v`, for which `Dijkstra`
reports `distances[v] = min(d, math.MaxInt32)`: the minimum itself when that is
below `math.MaxInt32`, and `math.MaxInt32` otherwise. -/
theorem dijkstra_shortest (g : WeightedGraph) (s : Int) (hg : g.WellFormed)
    (hw : g.WeightsBounded) (hs : 0 ≤ s ∧ s < g.vertices) :
    ∃ dist prev,
      (∀ fuel, g.edgeCount + 1 ≤ fuel → g.DijkstraFuel fuel s = .ok (dist, prev)) ∧
      ∀ v, Reach g s v →
        ∃ d, Walk g s v d ∧ (∀ d', Walk g s v d' → d ≤ d') ∧
          sliceGet dist v = .ok (min d INF) := by
  obtain ⟨st, hrun, _, hB, ⟨hF, hT⟩, hnil⟩ := dijkstra_run_full g hg hw s hs
  refine ⟨st.distances, st.previous, hrun, ?_⟩
  intro v hreach
  obtain ⟨d, hwalk, hmin⟩ := Int.exists_least_of_bdd
    ⟨0, fun z hz => walk_nonneg g hw s hz⟩ hreach
  refine ⟨d, hwalk, hmin, ?_⟩
  have hsR := inR_of_vertex g hg.1 s hs
  have hvR := walk_inR g hg s hsR hwalk
  rw [sliceGet_look INF st.distances v (by rw [hB.lenD]; exact hvR)]
  have hle := hB.dLe v
  have hreal : st.D v < INF → d ≤ st.D v := fun h => hmin _ (hF.walk v hvR h)
  show Except.ok (st.D v) = Except.ok (min d INF)
  congr 1
  rcases final_lower_bound g hg hw s hsR st hF hT hnil v d hwalk with ⟨hvis, hd⟩ | hinf
  · have h1 := hF.visFin v hvis
    have h2 := hreal h1
    rw [min_eq_left (by omega)]
    omega
  · rw [min_eq_right hinf]
    by_contra hne
    have := hreal (by omega)
    omega

/-- C1 as amended, on the graph of the scenario with source 0. -/
theorem dijkstra_shortest_witness :
    ∃ dist prev,
      (∀ fuel, scenarioGraph.edgeCount + 1 ≤ fuel →
        scenarioGraph.DijkstraFuel fuel 0 = .ok (dist, prev)) ∧
      ∀ v, Reach scenarioGraph 0 v →
        ∃ d, Walk scenarioGraph 0 v d ∧ (∀ d', Walk scenarioGraph 0 v d' → d ≤ d') ∧
          sliceGet dist v = .ok (min d INF) :=
  dijkstra_shortest scenarioGraph 0 (by decide) (by decide) (by decide)

/-! ## Predecessor chains and GetPath -/

theorem chain_last {g : WeightedGraph} {st : State} {s v : Int} {p : List Int}
    (h : Chain g st s v p) : ∃ p', p = p' ++ [v] := by
  cases h with
  | base => exact ⟨[], rfl⟩
  | step u v p e _ _ _ _ _ _ _ => exact ⟨p, rfl⟩

theorem chain_head {g : WeightedGraph} {st : State} {s v : Int} {p : List Int}
    (h : Chain g st s v p) : p.head? = some s := by
  induction h with
  | base => rfl
  | step u v p e hch _ _ _ _ _ _ ih =>
    obtain ⟨p', hp'⟩ := chain_last hch
    subst hp'
    cases p' with
    | nil => simpa using ih
    | cons a t => simpa using ih

theorem chain_self {g : WeightedGraph} {st : State} {s : Int} {p : List Int}
    (h : Chain g st s s p) : p = [s] := by
  cases h with
  | base => rfl
  | step u v p e _ _ hvs _ _ _ _ => exact absurd rfl hvs

theorem chain_inR (g : WeightedGraph) (hg : g.WellFormed) (st : State) (s : Int)
    (hs : InR g.adjList.length s) {v : Int} {p : List Int} (h : Chain g st s v p) :
    InR g.adjList.length v := by
  cases h with
  | base => exact hs
  | step u v p e _ _ _ _ he hd _ => exact hd ▸ hasEdge_dest_inR hg he

theorem chain_weight {g : WeightedGraph} {st : State} {s v : Int} {p : List Int}
    (h : Chain g st s v p) (h0 : st.D s = 0) : PathWeight g p (st.D v) := by
  induction h with
  | base => rw [h0]; exact PathWeight.single s
  | step u v p e hch _ _ _ he hd hD ih =>
    obtain ⟨p', hp'⟩ := chain_last hch
    subst hp'
    rw [hD, List.append_assoc]
    subst hd
    exact PathWeight.snoc p' u _ e ih he

theorem chain_treeStep (g : WeightedGraph) (hg : g.WellFormed) (st : State) (s : Int)
    (hs : InR g.adjList.length s) (hlen : st.distances.length = g.adjList.length)
    {v : Int} {p : List Int} (h : Chain g st s v p) :
    List.Chain' (TreeStep g st.distances) p := by
  induction h with
  | base => exact List.chain'_singleton s
  | step u v p e hch _ _ _ he hd hD ih =>
    apply List.Chain'.append ih (List.chain'_singleton v)
    intro x hx y hy
    obtain ⟨p', hp'⟩ := chain_last hch
    subst hp'
    simp at hx hy
    subst hx; subst hy
    have huR := chain_inR g hg st s hs hch
    have hvR : InR g.adjList.length v := hd ▸ hasEdge_dest_inR hg he
    exact ⟨e, st.D u, st.D v, he, hd,
      sliceGet_look INF st.distances u (by rw [hlen]; exact huR),
      sliceGet_look INF st.distances v (by rw [hlen]; exact hvR), hD⟩

theorem getPathLoop_done (previous : List Int) (fuel : Nat) (path : List Int) :
    getPathLoop previous fuel (-1) path = .ok path := by
  cases fuel <;> simp [getPathLoop]

theorem chain_getPathLoop (g : WeightedGraph) (hg : g.WellFormed) (st : State) (s : Int)
    (hs : InR g.adjList.length s) (hlen : st.previous.length = g.adjList.length)
    (hP : st.P s = -1) {v : Int} {p : List Int} (h : Chain g st s v p) :
    ∀ (fuel : Nat) (acc : List Int), p.length ≤ fuel →
    getPathLoop st.previous fuel v acc = .ok (p ++ acc) := by
  induction h with
  | base =>
    intro fuel acc hf
    obtain ⟨f, rfl⟩ : ∃ f, fuel = f + 1 := ⟨fuel - 1, by simp at hf; omega⟩
    have hne : s ≠ -1 := by have := hs.1; omega
    unfold getPathLoop
    rw [if_pos hne, sliceGet_look (-1) st.previous s (by rw [hlen]; exact hs)]
    simp only [bind, Except.bind]
    have hP' : look (-1) st.previous s = -1 := hP
    rw [hP', getPathLoop_done]
    rfl
  | step u v p e hch _ _ hPv he hd _ ih =>
    intro fuel acc hf
    obtain ⟨f, rfl⟩ : ∃ f, fuel = f + 1 := ⟨fuel - 1, by simp at hf; omega⟩
    have hvR : InR g.adjList.length v := hd ▸ hasEdge_dest_inR hg he
    have hne : v ≠ -1 := by have := hvR.1; omega
    unfold getPathLoop
    rw [if_pos hne, sliceGet_look (-1) st.previous v (by rw [hlen]; exact hvR)]
    simp only [bind, Except.bind]
    have hP' : look (-1) st.previous v = u := hPv
    rw [hP', ih f (v :: acc) (by simp at hf; omega)]
    simp

/-- On `previous = [-1, 2, 1]` the loop of `GetPath(previous, 0, 1)` cycles
between 1 and 2: no number of iterations ends it. -/
theorem getPath_cycle (fuel : Nat) :
    GetPathFuel fuel [-1, 2, 1] 0 1 = .error .fuelExhausted := by
  have key : ∀ fuel acc, getPathLoop [-1, 2, 1] fuel 1 acc = .error .fuelExhausted ∧
      getPathLoop [-1, 2, 1] fuel 2 acc = .error .fuelExhausted := by
    intro fuel
    induction fuel with
    | zero => intro acc; exact ⟨rfl, rfl⟩
    | succ f ih =>
      intro acc
      constructor
      · exact (ih (1 :: acc)).2
      · exact (ih (2 :: acc)).1
  unfold GetPathFuel
  simp only [sliceGet, bind, Except.bind]
  have := (key fuel []).1
  simp [this]

/-- C3 fails on the code: with the edges 0 -> 1 and 1 -> 2 of weight 1 and
2 -> 1 of weight 9223372036854775807 (all non-negative), relaxing 2 -> 1
overflows, `Dijkstra(0)` ends with `previous = [-1, 2, 1]` and a distance for
vertex 1 that is not `math.MaxInt32`, and the loop of `GetPath(previous, 0, 1)`
cycles between 1 and 2: it has not returned after any number of iterations. -/
theorem getPath_counterexample :
    overflowGraph.NonNegative ∧
    overflowGraph.Dijkstra 0 = .ok ([0, -9223372036854775807, 2], [-1, 2, 1]) ∧
    sliceGet [0, -9223372036854775807, 2] 1 ≠ .ok INF ∧
    ∀ fuel, GetPathFuel fuel [-1, 2, 1] 0 1 = .error .fuelExhausted :=
  ⟨by decide, by rfl, by decide, getPath_cycle⟩

/-- C3 as amended: on every well-formed graph whose weights lie in
`[0, MaxInt64 - MaxInt32]`, for every source `s` and vertex `t` of `[0, V)`
whose reported distance is not `math.MaxInt32`: `GetPath(previous, s, t)`
returns (within `len(path)` iterations) a vertex sequence that starts with `s`
and ends with `t`, in which every consecutive pair `(a, b)` is joined by a
stored edge `a -> b` with `distances[b] = distances[a] + weight`, whose total
weight is `distances[t]`, and which is `[s]` when `t = s`. -/
theorem getPath_shortest_path (g : WeightedGraph) (s t : Int) (hg : g.WellFormed)
    (hw : g.WeightsBounded) (hs : 0 ≤ s ∧ s < g.vertices) (ht : 0 ≤ t ∧ t < g.vertices) :
    ∃ dist prev,
      (∀ fuel, g.edgeCount + 1 ≤ fuel → g.DijkstraFuel fuel s = .ok (dist, prev)) ∧
      (sliceGet dist t ≠ .ok INF →
        ∃ path, (∀ fuel, path.length ≤ fuel → GetPathFuel fuel prev s t = .ok (some path)) ∧
          path.head? = some s ∧ path.getLast? = some t ∧
          List.Chain' (TreeStep g dist) path ∧
          (∃ dt, sliceGet dist t = .ok dt ∧ PathWeight g path dt) ∧
          (t = s → path = [s])) := by
  obtain ⟨st, hrun, _, hB, ⟨hF, _⟩, _⟩ := dijkstra_run_full g hg hw s hs
  refine ⟨st.distances, st.previous, hrun, ?_⟩
  have hsR := inR_of_vertex g hg.1 s hs
  have htR := inR_of_vertex g hg.1 t ht
  have hgetD : sliceGet st.distances t = .ok (st.D t) :=
    sliceGet_look INF st.distances t (by rw [hB.lenD]; exact htR)
  have hgetP : sliceGet st.previous t = .ok (st.P t) :=
    sliceGet_look (-1) st.previous t (by rw [hB.lenP]; exact htR)
  intro hne
  have hfin : st.D t < INF := by
    have h1 := hB.dLe t
    rcases lt_or_eq_of_le h1 with h | h
    · exact h
    · rw [hgetD, h] at hne
      exact absurd rfl hne
  obtain ⟨p, hp⟩ := hF.chain t htR hfin
  obtain ⟨p', hp'⟩ := chain_last hp
  refine ⟨p, ?_, chain_head hp, by rw [hp']; simp,
    chain_treeStep g hg st s hsR hB.lenD hp, ⟨st.D t, hgetD, chain_weight hp hF.src0⟩,
    fun h => chain_self (h ▸ hp)⟩
  intro fuel hfuel
  unfold GetPathFuel
  rw [hgetP]
  simp only [bind, Except.bind]
  have hcond : ¬ (st.P t = -1 ∧ s ≠ t) := by
    rintro ⟨h1, h2⟩
    rcases hB.prevDist t htR with h | h
    · rw [h.2, if_neg (Ne.symm h2)] at hfin
      exact absurd hfin (lt_irrefl _)
    · have := h.1.1
      omega
  rw [if_neg hcond, chain_getPathLoop g hg st s hsR hB.lenP hF.prevSrc hp fuel [] hfuel]
  simp [pure, Except.pure]

/-- C3 as amended, on the graph of the scenario for source 0 and target 3. -/
theorem getPath_shortest_path_witness :
    ∃ dist prev,
      (∀ fuel, scenarioGraph.edgeCount + 1 ≤ fuel →
        scenarioGraph.DijkstraFuel fuel 0 = .ok (dist, prev)) ∧
      (sliceGet dist 3 ≠ .ok INF →
        ∃ path, (∀ fuel, path.length ≤ fuel → GetPathFuel fuel prev 0 3 = .ok (some path)) ∧
          path.head? = some 0 ∧ path.getLast? = some 3 ∧
          List.Chain' (TreeStep scenarioGraph dist) path ∧
          (∃ dt, sliceGet dist 3 = .ok dt ∧ PathWeight scenarioGraph path dt) ∧
          ((3 : Int) = 0 → path = [0])) :=
  getPath_shortest_path scenarioGraph 0 3 (by decide) (by decide) (by decide) (by decide)

/-! ## The concrete scenario -/

/-- C8: the ten `AddEdge` calls on `NewWeightedGraph(5)` succeed, the
heap-based `Dijkstra(0)` on the resulting graph returns distances
`[0, 8, 9, 7, 5]` (with predecessors `[-1, 4, 1, 4, 0]`), and
`GetPath(previous, 0, 3)` returns `[0, 4, 3]`. -/
theorem scenario_distances_and_path :
    buildGraph 5 scenarioEdges = .ok scenarioGraph ∧
    scenarioGraph.Dijkstra 0 = .ok ([0, 8, 9, 7, 5], [-1, 4, 1, 4, 0]) ∧
    GetPath [-1, 4, 1, 4, 0] 0 3 = .ok (some [0, 4, 3]) := by
  refine ⟨by rfl, by rfl, by rfl⟩

/-! ## The early-exit loop -/

theorem optimizedStep_cases (g : WeightedGraph) (s stop : Int) (st : State)
    (hI : InvB g s st) (hne : st.pq ≠ []) :
    ∃ it pq', heapPop st.pq = .ok (it, pq') ∧
      ((st.Vis it.vertex = false ∧ it.vertex = stop ∧
        optimizedStep g stop st = .ok (true,
          { st with visited := st.visited.set it.vertex.toNat true, pq := pq' })) ∨
       (¬ (st.Vis it.vertex = false ∧ it.vertex = stop) ∧
        optimizedStep g stop st =
          (dijkstraStep g st >>= fun st' => pure (false, st')))) := by
  obtain ⟨it, pq', hpop, _, hperm, _⟩ := heapPop_spec st.pq hne
  have hin := hI.entIn it.entry (hperm.symm.subset (List.mem_cons_self _ _))
  have hinV : InR st.visited.length it.vertex := by rw [hI.lenV]; exact hin.1
  refine ⟨it, pq', hpop, ?_⟩
  unfold optimizedStep dijkstraStep
  rw [hpop]
  simp only [bind, Except.bind]
  rw [sliceGet_look false st.visited it.vertex hinV]
  simp only []
  cases hv : look false st.visited it.vertex with
  | true =>
    right
    refine ⟨fun h => ?_, rfl⟩
    have h1 : look false st.visited it.vertex = false := h.1
    rw [hv] at h1
    cases h1
  | false =>
    simp only [Bool.false_eq_true, if_false]
    rw [sliceSet_look _ _ _ hinV]
    simp only []
    by_cases hstop : it.vertex = stop
    · left
      refine ⟨hv, hstop, ?_⟩
      rw [if_pos hstop]
      rfl
    · right
      refine ⟨fun h => hstop h.2, ?_⟩
      rw [if_neg hstop]
      cases hrow : sliceGet g.adjList it.vertex with
      | error err => rfl
      | ok row =>
        simp only []

theorem optimizedLoop_mono (g : WeightedGraph) (stop : Int) : ∀ (fuel : Nat) (st st' : State),
    optimizedLoop g stop fuel st = .ok st' → ∀ fuel', fuel ≤ fuel' →
    optimizedLoop g stop fuel' st = .ok st' := by
  intro fuel
  induction fuel with
  | zero =>
    intro st st' h fuel' _
    unfold optimizedLoop at h
    split at h
    · cases h
    · rename_i hc
      cases fuel' with
      | zero => unfold optimizedLoop; rw [if_neg hc]; exact h
      | succ f => unfold optimizedLoop; rw [if_neg hc]; exact h
  | succ fuel ih =>
    intro st st' h fuel' hle
    obtain ⟨f, rfl⟩ : ∃ f, fuel' = f + 1 := ⟨fuel' - 1, by omega⟩
    unfold optimizedLoop at h ⊢
    split at h
    · rename_i hc
      rw [if_pos hc]
      cases hstep : optimizedStep g stop st with
      | error err => rw [hstep] at h; cases h
      | ok r =>
        obtain ⟨brk, st1⟩ := r
        rw [hstep] at h
        simp only [bind, Except.bind] at h ⊢
        cases brk with
        | true => exact h
        | false =>
          simp only [Bool.false_eq_true, if_false] at h ⊢
          exact ih st1 st' h f (by omega)
    · rename_i hc
      rw [if_neg hc]; exact h

/-- The full loop from a state satisfying the invariants: it ends, in a state
satisfying them, with an empty queue, and nothing changed at the vertices that
were already visited. -/
theorem dijkstraLoop_full (g : WeightedGraph) (hg : g.WellFormed) (hw : g.WeightsBounded)
    (s : Int) (fuel : Nat) (st : State) (hB : InvB g s st) (hF : InvF g s st)
    (hT : Tri g st 0 []) (hm : loopMeasure g st ≤ fuel) :
    ∃ stF, dijkstraLoop g fuel st = .ok stF ∧ InvB g s stF ∧ InvF g s stF ∧
      Tri g stF 0 [] ∧ stF.pq = [] ∧ Frozen st stF := by
  have hJ : ∀ st1, (InvB g s st1 ∧ InvF g s st1 ∧ Tri g st1 0 [] ∧ Frozen st st1) →
      st1.pq ≠ [] →
      ∃ st2, dijkstraStep g st1 = .ok st2 ∧
        (InvB g s st2 ∧ InvF g s st2 ∧ Tri g st2 0 [] ∧ Frozen st st2) ∧
        loopMeasure g st2 < loopMeasure g st1 := by
    intro st1 h1 hne
    obtain ⟨st2, hs, hB2, hlt⟩ := dijkstraStep_basic g hg s st1 h1.1 hne
    obtain ⟨hF2, hT2, hfr2⟩ := dijkstraStep_full g hg hw s st1 st2 h1.1 h1.2.1 h1.2.2.1 hne hs
    exact ⟨st2, hs, ⟨hB2, hF2, hT2, frozen_trans h1.2.2.2 hfr2⟩, hlt⟩
  obtain ⟨stF, hrun, hI, hnil⟩ :=
    dijkstraLoop_inv g _ hJ fuel st ⟨hB, hF, hT, frozen_refl st⟩ hm
  exact ⟨stF, hrun, hI.1, hI.2.1, hI.2.2.1, hnil, hI.2.2.2⟩

/-- The early-exit loop against the full loop, from a state satisfying the
invariants: both end, and either in the same state, or the early-exit loop
stopped with `stop` visited and the full loop changed nothing at the vertices
visited by then. -/
theorem optimizedLoop_agrees (g : WeightedGraph) (hg : g.WellFormed) (hw : g.WeightsBounded)
    (s stop : Int) : ∀ (fuel : Nat) (st : State), InvB g s st → InvF g s st →
    Tri g st 0 [] → loopMeasure g st ≤ fuel →
    ∃ stO stF, optimizedLoop g stop fuel st = .ok stO ∧ dijkstraLoop g fuel st = .ok stF ∧
      InvB g s stO ∧ InvF g s stO ∧ InvB g s stF ∧ InvF g s stF ∧
      (stO = stF ∨ (stO.Vis stop = true ∧ Frozen stO stF)) := by
  intro fuel
  induction fuel with
  | zero =>
    intro st hB hF _ hm
    have hnil : st.pq = [] := by
      unfold loopMeasure at hm
      exact List.eq_nil_of_length_eq_zero (by omega)
    have hc : ¬ st.pq.Len > 0 := by rw [len_pos_iff]; simp [hnil]
    exact ⟨st, st, by unfold optimizedLoop; rw [if_neg hc],
      by unfold dijkstraLoop; rw [if_neg hc], hB, hF, hB, hF, Or.inl rfl⟩
  | succ fuel ih =>
    intro st hB hF hT hm
    by_cases hc : st.pq.Len > 0
    · have hne := (len_pos_iff _).1 hc
      obtain ⟨st', hs, hB', hlt⟩ := dijkstraStep_basic g hg s st hB hne
      obtain ⟨hF', hT', _⟩ := dijkstraStep_full g hg hw s st st' hB hF hT hne hs
      obtain ⟨it, pq', hpop, hcase⟩ := optimizedStep_cases g s stop st hB hne
      rcases hcase with ⟨hvis, hstop, hopt⟩ | ⟨_, hopt⟩
      · -- the iteration that leaves through `break`
        obtain ⟨it2, pq2, hpop2, _, hperm, hheap', hmin, hin, hreach, hcase2⟩ :=
          dijkstraStep_cases g s st hB hne
        rw [hpop] at hpop2
        cases hpop2
        obtain ⟨hB1, hF1, hcm1, hT1, _⟩ :=
          mark_full g s st it pq' hB hF hT hperm hheap' hmin hin hvis
        have hrel : relaxEdges it.vertex (look [] g.adjList it.vertex)
            { st with visited := st.visited.set it.vertex.toNat true, pq := pq' } = .ok st' := by
          rcases hcase2 with ⟨hv2, _⟩ | ⟨_, h2⟩
          · rw [hvis] at hv2; cases hv2
          · rw [← h2]; exact hs
        obtain ⟨_, _, _, hfr1⟩ := relaxEdges_full g hg hw s it.vertex hreach _ _ st' hB1 hF1
          hcm1 hT1 (fun e he => hasEdge_of_mem_look g it.vertex e hin he) hrel
        obtain ⟨stF, hrunF, hBF, hFF, _, _, hfrF⟩ :=
          dijkstraLoop_full g hg hw s fuel st' hB' hF' hT' (by omega)
        refine ⟨_, stF, ?_, ?_, hB1, hF1, hBF, hFF, Or.inr ⟨?_, frozen_trans hfr1 hfrF⟩⟩
        · unfold optimizedLoop
          rw [if_pos hc, hopt]
          rfl
        · unfold dijkstraLoop
          rw [if_pos hc, hs]
          exact hrunF
        · rw [← hstop]; exact hcm1.1
      · -- an iteration shared with the full loop
        obtain ⟨stO, stF, hO, hFl, h1, h2, h3, h4, h5⟩ := ih st' hB' hF' hT' (by omega)
        refine ⟨stO, stF, ?_, ?_, h1, h2, h3, h4, h5⟩
        · unfold optimizedLoop
          rw [if_pos hc, hopt, hs]
          exact hO
        · unfold dijkstraLoop
          rw [if_pos hc, hs]
          exact hFl
    · have hnil : st.pq = [] := by
        by_contra hne
        exact hc ((len_pos_iff _).2 hne)
      exact ⟨st, st, by unfold optimizedLoop; rw [if_neg hc],
        by unfold dijkstraLoop; rw [if_neg hc], hB, hF, hB, hF, Or.inl rfl⟩

theorem getPath_of_chain (g : WeightedGraph) (hg : g.WellFormed) (st : State) (s t : Int)
    (hs : InR g.adjList.length s) (hB : InvB g s st) (hPs : st.P s = -1)
    {p : List Int} (hp : Chain g st s t p) (pf : Nat) (hpf : p.length ≤ pf) :
    GetPathFuel pf st.previous s t = .ok (some p) := by
  have htR := chain_inR g hg st s hs hp
  unfold GetPathFuel
  rw [sliceGet_look (-1) st.previous t (by rw [hB.lenP]; exact htR)]
  simp only [bind, Except.bind]
  have hcond : ¬ (look (-1) st.previous t = -1 ∧ s ≠ t) := by
    rintro ⟨h1, h2⟩
    cases hp with
    | base => exact h2 rfl
    | step u v p e _ hvis _ hP _ _ _ =>
      have hu := (vis_inR hB hvis).1
      have : st.P t = -1 := h1
      omega
  rw [if_neg hcond, chain_getPathLoop g hg st s hs hB.lenP hPs hp pf [] hpf]
  simp [pure, Except.pure]

theorem getPath_none (g : WeightedGraph) (st : State) (s t : Int)
    (ht : InR g.adjList.length t) (hB : InvB g s st) (hD : st.D t = INF) (hts : t ≠ s)
    (pf : Nat) : GetPathFuel pf st.previous s t = .ok none := by
  unfold GetPathFuel
  rw [sliceGet_look (-1) st.previous t (by rw [hB.lenP]; exact ht)]
  simp only [bind, Except.bind]
  have hcond : look (-1) st.previous t = -1 ∧ s ≠ t := by
    refine ⟨?_, Ne.symm hts⟩
    rcases hB.prevDist t ht with h | h
    · exact h.1
    · omega
  rw [if_pos hcond]
  rfl

/-- The early-exit query against the full run, on a well-formed graph with
bounded non-negative weights: both return, with the same distance for the
target and the same path. -/
theorem optimized_agrees (g : WeightedGraph) (s t : Int) (hg : g.WellFormed)
    (hw : g.WeightsBounded) (hs : 0 ≤ s ∧ s < g.vertices) (ht : 0 ≤ t ∧ t < g.vertices) :
    ∃ d path dist prev n,
      (∀ fuel, g.edgeCount + 1 ≤ fuel → g.DijkstraFuel fuel s = .ok (dist, prev)) ∧
      sliceGet dist t = .ok d ∧
      (∀ pf, n ≤ pf → GetPathFuel pf prev s t = .ok path) ∧
      (∀ fuel pf, g.edgeCount + 1 ≤ fuel → n ≤ pf →
        g.DijkstraOptimizedFuel fuel pf s t = .ok (d, path)) ∧
      (s = t → d = 0 ∧ path = some [s]) ∧
      (d = INF → t ≠ s → path = none) ∧
      (¬ Reach g s t → d = INF) := by
  have hsR := inR_of_vertex g hg.1 s hs
  have htR := inR_of_vertex g hg.1 t ht
  obtain ⟨hF0, hT0⟩ := startState_full g hg.1 s hs
  obtain ⟨stO, stF, hO, hFl, hBO, hFO, hBF, hFF, hagree⟩ :=
    optimizedLoop_agrees g hg hw s t (g.edgeCount + 1) (startState g s)
      (startState_basic g hg.1 s hs) hF0 hT0 (startState_measure g s)
  have hrun : ∀ fuel, g.edgeCount + 1 ≤ fuel →
      g.DijkstraFuel fuel s = .ok (stF.distances, stF.previous) := by
    intro fuel hfuel
    unfold WeightedGraph.DijkstraFuel
    rw [initState_eq g hg.1 s hs]
    simp only [bind, Except.bind]
    rw [dijkstraLoop_mono g _ _ _ hFl fuel hfuel]
    rfl
  have hgetF : sliceGet stF.distances t = .ok (stF.D t) :=
    sliceGet_look INF stF.distances t (by rw [hBF.lenD]; exact htR)
  have hgetO : sliceGet stO.distances t = .ok (stO.D t) :=
    sliceGet_look INF stO.distances t (by rw [hBO.lenD]; exact htR)
  have hunreach : ¬ Reach g s t → stF.D t = INF := by
    intro hnr
    have h1 := hBF.dLe t
    by_contra hne
    exact hnr (hBF.dReach t htR (lt_of_le_of_ne h1 hne))
  by_cases hst : s = t
  · subst hst
    refine ⟨stF.D s, some [s], stF.distances, stF.previous, 1, hrun, hgetF, ?_, ?_, ?_, ?_,
      hunreach⟩
    · intro pf hpf
      exact getPath_of_chain g hg stF s s hsR hBF hFF.prevSrc Chain.base pf (by simpa using hpf)
    · intro fuel pf _ _
      unfold WeightedGraph.DijkstraOptimizedFuel
      rw [if_pos rfl, hFF.src0]
      rfl
    · intro _
      exact ⟨hFF.src0, rfl⟩
    · intro _ h
      exact absurd rfl h
  · have hopt : ∀ (path : Option (List Int)) (n : Nat),
        (∀ pf, n ≤ pf → GetPathFuel pf stO.previous s t = .ok path) →
        ∀ fuel pf, g.edgeCount + 1 ≤ fuel → n ≤ pf →
        g.DijkstraOptimizedFuel fuel pf s t = .ok (stO.D t, path) := by
      intro path n hpath fuel pf hfuel hpf
      unfold WeightedGraph.DijkstraOptimizedFuel
      rw [if_neg hst, initState_eq g hg.1 s hs]
      simp only [bind, Except.bind]
      rw [optimizedLoop_mono g t _ _ _ hO fuel hfuel]
      simp only []
      rw [hpath pf hpf, hgetO]
      rfl
    by_cases hfin : stO.D t < INF
    · obtain ⟨p, hp⟩ := hFO.chain t htR hfin
      have hboth : stF.D t = stO.D t ∧ Chain g stF s t p := by
        rcases hagree with h | ⟨hvis, hfr⟩
        · subst h; exact ⟨rfl, hp⟩
        · obtain ⟨_, hP, hD⟩ := hfr t hvis
          exact ⟨hD, chain_frame g stO stF s hfr hp hP hD⟩
      refine ⟨stO.D t, some p, stF.distances, stF.previous, p.length, hrun, ?_, ?_, ?_, ?_, ?_,
        ?_⟩
      · rw [hgetF, hboth.1]
      · intro pf hpf
        exact getPath_of_chain g hg stF s t hsR hBF hFF.prevSrc hboth.2 pf hpf
      · exact hopt (some p) p.length
          (fun pf hpf => getPath_of_chain g hg stO s t hsR hBO hFO.prevSrc hp pf hpf)
      · intro h; exact absurd h hst
      · intro h; omega
      · intro hnr
        rw [← hboth.1]
        exact hunreach hnr
    · have hDO : stO.D t = INF := by
        have := hBO.dLe t
        omega
      have heq : stO = stF := by
        rcases hagree with h | ⟨hvis, _⟩
        · exact h
        · have := hFO.visFin t hvis
          omega
      subst heq
      refine ⟨stO.D t, none, stO.distances, stO.previous, 0, hrun, hgetF, ?_, ?_, ?_, ?_, ?_⟩
      · intro pf _
        exact getPath_none g stO s t htR hBO hDO (Ne.symm hst) pf
      · exact hopt none 0
          (fun pf _ => getPath_none g stO s t htR hBO hDO (Ne.symm hst) pf)
      · intro h; exact absurd h hst
      · intro _ _; rfl
      · intro _; exact hDO

/-- C2 fails on the code: on `overflowGraph` (non-negative weights) the
early-exit query `DijkstraOptimized(0, 1)` stops when vertex 1 is popped and
returns distance 1, while the full run goes on to relax 2 -> 1, whose sum
`2 + 9223372036854775807` wraps, and ends with
`distances[1] = -9223372036854775807`. -/
theorem optimized_distance_counterexample :
    overflowGraph.NonNegative ∧
    overflowGraph.Dijkstra 0 = .ok ([0, -9223372036854775807, 2], [-1, 2, 1]) ∧
    overflowGraph.DijkstraOptimized 0 1 = .ok (1, some [0, 1]) :=
  ⟨by decide, by rfl, by rfl⟩

/-- C2 as amended: on every well-formed graph whose weights lie in
`[0, MaxInt64 - MaxInt32]` and for all `start`, `end` in `[0, V)`, both
`Dijkstra(start)` and `DijkstraOptimized(start, end)` return, and the distance
returned by the early-exit query equals `distances[end]` of the full run; it is
0 when `start == end` and `math.MaxInt32` when `end` is not reachable. -/
theorem optimized_distance (g : WeightedGraph) (s t : Int) (hg : g.WellFormed)
    (hw : g.WeightsBounded) (hs : 0 ≤ s ∧ s < g.vertices) (ht : 0 ≤ t ∧ t < g.vertices) :
    ∃ d dist prev n,
      (∀ fuel, g.edgeCount + 1 ≤ fuel → g.DijkstraFuel fuel s = .ok (dist, prev)) ∧
      sliceGet dist t = .ok d ∧
      (∀ fuel pf, g.edgeCount + 1 ≤ fuel → n ≤ pf →
        ∃ path, g.DijkstraOptimizedFuel fuel pf s t = .ok (d, path)) ∧
      (s = t → d = 0) ∧ (¬ Reach g s t → d = INF) := by
  obtain ⟨d, path, dist, prev, n, h1, h2, _, h4, h5, _, h7⟩ :=
    optimized_agrees g s t hg hw hs ht
  exact ⟨d, dist, prev, n, h1, h2, fun fuel pf hf hp => ⟨path, h4 fuel pf hf hp⟩,
    fun h => (h5 h).1, h7⟩

/-- C2 as amended, on the graph of the scenario for start 0 and end 3. -/
theorem optimized_distance_witness :
    ∃ d dist prev n,
      (∀ fuel, scenarioGraph.edgeCount + 1 ≤ fuel →
        scenarioGraph.DijkstraFuel fuel 0 = .ok (dist, prev)) ∧
      sliceGet dist 3 = .ok d ∧
      (∀ fuel pf, scenarioGraph.edgeCount + 1 ≤ fuel → n ≤ pf →
        ∃ path, scenarioGraph.DijkstraOptimizedFuel fuel pf 0 3 = .ok (d, path)) ∧
      ((0 : Int) = 3 → d = 0) ∧ (¬ Reach scenarioGraph 0 3 → d = INF) :=
  optimized_distance scenarioGraph 0 3 (by decide) (by decide) (by decide) (by decide)

/-- C9 fails on the code: on `overflowGraph` (non-negative weights) the
early-exit query `DijkstraOptimized(0, 1)` returns the path `[0, 1]`, while
the full run `Dijkstra(0)` ends with `previous = [-1, 2, 1]`, on which the loop
of `GetPath(previous, 0, 1)` never returns. -/
theorem optimized_path_counterexample :
    overflowGraph.NonNegative ∧
    overflowGraph.DijkstraOptimized 0 1 = .ok (1, some [0, 1]) ∧
    overflowGraph.Dijkstra 0 = .ok ([0, -9223372036854775807, 2], [-1, 2, 1]) ∧
    ∀ fuel, GetPathFuel fuel [-1, 2, 1] 0 1 = .error .fuelExhausted :=
  ⟨by decide, by rfl, by rfl, getPath_cycle⟩

/-- C9 as amended: on every well-formed graph whose weights lie in
`[0, MaxInt64 - MaxInt32]` and for all `start`, `end` in `[0, V)`, the path
returned by `DijkstraOptimized(start, end)` is the result of
`GetPath(previous, start, end)` on the predecessor table of the full run
`Dijkstra(start)`: both return it; it is `[start]` when `start == end` and nil
when `distances[end]` of the full run is `math.MaxInt32` and `end != start`. -/
theorem optimized_path (g : WeightedGraph) (s t : Int) (hg : g.WellFormed)
    (hw : g.WeightsBounded) (hs : 0 ≤ s ∧ s < g.vertices) (ht : 0 ≤ t ∧ t < g.vertices) :
    ∃ path dist prev n,
      (∀ fuel, g.edgeCount + 1 ≤ fuel → g.DijkstraFuel fuel s = .ok (dist, prev)) ∧
      (∀ pf, n ≤ pf → GetPathFuel pf prev s t = .ok path) ∧
      (∀ fuel pf, g.edgeCount + 1 ≤ fuel → n ≤ pf →
        ∃ d, g.DijkstraOptimizedFuel fuel pf s t = .ok (d, path)) ∧
      (s = t → path = some [s]) ∧
      (sliceGet dist t = .ok INF → t ≠ s → path = none) := by
  obtain ⟨d, path, dist, prev, n, h1, h2, h3, h4, h5, h6, _⟩ :=
    optimized_agrees g s t hg hw hs ht
  refine ⟨path, dist, prev, n, h1, h3, fun fuel pf hf hp => ⟨d, h4 fuel pf hf hp⟩,
    fun h => (h5 h).2, ?_⟩
  intro hd hts
  rw [h2] at hd
  exact h6 (by injection hd) hts

/-- C9 as amended, on the graph of the scenario for start 0 and end 3. -/
theorem optimized_path_witness :
    ∃ path dist prev n,
      (∀ fuel, scenarioGraph.edgeCount + 1 ≤ fuel →
        scenarioGraph.DijkstraFuel fuel 0 = .ok (dist, prev)) ∧
      (∀ pf, n ≤ pf → GetPathFuel pf prev 0 3 = .ok path) ∧
      (∀ fuel pf, scenarioGraph.edgeCount + 1 ≤ fuel → n ≤ pf →
        ∃ d, scenarioGraph.DijkstraOptimizedFuel fuel pf 0 3 = .ok (d, path)) ∧
      ((0 : Int) = 3 → path = some [0]) ∧
      (sliceGet dist 3 = .ok INF → (3 : Int) ≠ 0 → path = none) :=
  optimized_path scenarioGraph 0 3 (by decide) (by decide) (by decide) (by decide)

/-! ## Graphs built by NewWeightedGraph and AddEdge -/

theorem NewWeightedGraph_wellFormed (vertices : Int) (g : WeightedGraph)
    (h : NewWeightedGraph vertices = .ok g) : g.WellFormed ∧ g.vertices = vertices := by
  unfold NewWeightedGraph at h
  split at h
  · rename_i hv
    cases h
    refine ⟨⟨⟨hv, by simp⟩, ?_⟩, rfl⟩
    intro row hrow e he
    rw [List.mem_replicate] at hrow
    rw [hrow.2] at he
    simp at he
  · cases h

theorem AddEdge_wellFormed (g g' : WeightedGraph) (src dest weight : Int)
    (hg : g.WellFormed) (hdest : 0 ≤ dest ∧ dest < g.vertices)
    (h : g.AddEdge src dest weight = .ok g') : g'.WellFormed ∧ g'.vertices = g.vertices := by
  by_cases hsrc : 0 ≤ src ∧ src.toNat < g.adjList.length
  · rw [AddEdge_inRange g src dest weight hsrc.1 hsrc.2] at h
    cases h
    refine ⟨⟨⟨hg.1.1, by simpa using hg.1.2⟩, ?_⟩, rfl⟩
    intro row hrow e he
    rcases List.mem_or_eq_of_mem_set hrow with h1 | h1
    · exact hg.2 row h1 e he
    · rw [h1] at he
      rcases List.mem_append.1 he with h2 | h2
      · have hmem : g.adjList.getD src.toNat [] ∈ g.adjList := by
          rw [List.getD_eq_getElem?_getD, List.getElem?_eq_getElem hsrc.2]
          exact List.getElem_mem _
        exact hg.2 _ hmem e h2
      · simp at h2
        rw [h2]
        exact hdest
  · rw [AddEdge_outOfRange g src dest weight hsrc] at h
    cases h

/-- A graph built by `NewWeightedGraph` and `AddEdge` calls whose `to` lies in
`[0, V)` satisfies the data-model invariant. -/
theorem buildGraph_wellFormed (vertices : Int) (edges : List (Int × Int × Int))
    (g : WeightedGraph) (hedges : ∀ e ∈ edges, 0 ≤ e.2.1 ∧ e.2.1 < vertices)
    (h : buildGraph vertices edges = .ok g) : g.WellFormed ∧ g.vertices = vertices := by
  unfold buildGraph at h
  cases hnew : NewWeightedGraph vertices with
  | error err => rw [hnew] at h; cases h
  | ok g0 =>
    rw [hnew] at h
    simp only [bind, Except.bind] at h
    obtain ⟨hwf0, hv0⟩ := NewWeightedGraph_wellFormed vertices g0 hnew
    clear hnew
    induction edges generalizing g0 with
    | nil =>
      simp [List.foldlM, pure, Except.pure] at h
      subst h
      exact ⟨hwf0, hv0⟩
    | cons e rest ih =>
      simp only [List.foldlM, bind, Except.bind] at h
      cases hadd : g0.AddEdge e.1 e.2.1 e.2.2 with
      | error err => rw [hadd] at h; cases h
      | ok g1 =>
        rw [hadd] at h
        have he := hedges e (List.mem_cons_self _ _)
        obtain ⟨hwf1, hv1⟩ := AddEdge_wellFormed g0 g1 e.1 e.2.1 e.2.2 hwf0
          (by rw [hv0]; exact he) hadd
        exact ih (fun e' he' => hedges e' (List.mem_cons_of_mem _ he')) g1 h hwf1
          (by rw [hv1, hv0])

/-! ## The tables returned by Dijkstra -/

/-- C11 fails on the code: on `overflowBackGraph` (non-negative weights)
relaxing the edge 1 -> 0 computes `1 + 9223372036854775807`, which wraps to
-9223372036854775808, so `Dijkstra(0)` returns `distances[0]` negative and
`previous[0] = 1`. -/
theorem dijkstra_source_counterexample :
    overflowBackGraph.NonNegative ∧
    overflowBackGraph.Dijkstra 0 = .ok ([-9223372036854775808, 1], [1, 0]) :=
  ⟨by decide, by rfl⟩

/-- C11 as amended: on every well-formed graph whose weights lie in
`[0, MaxInt64 - MaxInt32]` and for every source in `[0, V)` (so `V >= 1`),
`Dijkstra(source)` returns a distances table and a previous table of exactly
`V` entries with `distances[source] = 0` and `previous[source] = -1`. -/
theorem dijkstra_source_entry (g : WeightedGraph) (s : Int) (hg : g.WellFormed)
    (hw : g.WeightsBounded) (hs : 0 ≤ s ∧ s < g.vertices) :
    ∃ dist prev,
      (∀ fuel, g.edgeCount + 1 ≤ fuel → g.DijkstraFuel fuel s = .ok (dist, prev)) ∧
      (dist.length : Int) = g.vertices ∧ (prev.length : Int) = g.vertices ∧
      sliceGet dist s = .ok 0 ∧ sliceGet prev s = .ok (-1) := by
  obtain ⟨st, hrun, _, hB, ⟨hF, _⟩, _⟩ := dijkstra_run_full g hg hw s hs
  have hsR := inR_of_vertex g hg.1 s hs
  have hlen := hg.1.2
  have hv := hg.1.1
  refine ⟨st.distances, st.previous, hrun, ?_, ?_, ?_, ?_⟩
  · rw [hB.lenD, hlen]; omega
  · rw [hB.lenP, hlen]; omega
  · rw [sliceGet_look INF st.distances s (by rw [hB.lenD]; exact hsR)]
    exact congrArg _ hF.src0
  · rw [sliceGet_look (-1) st.previous s (by rw [hB.lenP]; exact hsR)]
    exact congrArg _ hF.prevSrc

/-- C11 as amended, at its witness: one vertex, no edge, source 0; the tables
are `[0]` and `[-1]`. -/
theorem dijkstra_source_entry_witness :
    singleVertexGraph.Dijkstra 0 = .ok ([0], [-1]) ∧
    ∃ dist prev,
      (∀ fuel, singleVertexGraph.edgeCount + 1 ≤ fuel →
        singleVertexGraph.DijkstraFuel fuel 0 = .ok (dist, prev)) ∧
      (dist.length : Int) = singleVertexGraph.vertices ∧
      (prev.length : Int) = singleVertexGraph.vertices ∧
      sliceGet dist 0 = .ok 0 ∧ sliceGet prev 0 = .ok (-1) :=
  ⟨by rfl, dijkstra_source_entry singleVertexGraph 0 (by decide) (by decide) (by decide)⟩

/-! ## AddEdge as an append -/

theorem sliceGet_set_ne {α : Type} (xs : List α) (k : Nat) (x : α) (u : Int)
    (h : u ≠ (k : Int)) : sliceGet (xs.set k x) u = sliceGet xs u := by
  unfold sliceGet
  by_cases hu : 0 ≤ u
  · have hne : k ≠ u.toNat := by omega
    simp only [if_pos hu, List.getElem?_set, if_neg hne]
  · simp only [if_neg hu]

/-- C12: on every graph with one adjacency row per vertex, `AddEdge(from, to,
weight)` with `from`, `to` in `[0, V)` and `weight >= 0` succeeds; afterwards
the row of `from` is its previous row with `Edge{to, weight}` appended last
(parallel edges and self-loops included), and the vertex count and the row
of every other vertex are unchanged. -/
theorem addEdge_appends (g : WeightedGraph) (src dest weight : Int) (hg : g.Shaped)
    (hsrc : 0 ≤ src ∧ src < g.vertices) (hdest : 0 ≤ dest ∧ dest < g.vertices)
    (hw : 0 ≤ weight) :
    ∃ row g', sliceGet g.adjList src = .ok row ∧ g.AddEdge src dest weight = .ok g' ∧
      g'.vertices = g.vertices ∧ g'.adjList.length = g.adjList.length ∧
      sliceGet g'.adjList src = .ok (row ++ [⟨dest, weight⟩]) ∧
      ∀ u, u ≠ src → sliceGet g'.adjList u = sliceGet g.adjList u := by
  have _ := hdest
  have _ := hw
  have hsR := inR_of_vertex g hg src hsrc
  refine ⟨look [] g.adjList src, _, sliceGet_look [] g.adjList src hsR,
    AddEdge_inRange g src dest weight hsR.1 hsR.2, rfl, by simp, ?_, ?_⟩
  · rw [sliceGet_ok_iff]
    refine ⟨hsR.1, ?_⟩
    unfold look
    simp [List.getElem?_set, hsR.1, hsR.2]
  · intro u hu
    apply sliceGet_set_ne
    have := hsR.1
    omega

/-- C12 on `scenarioGraph`, adding a second (parallel) edge 0 -> 1. -/
theorem addEdge_appends_witness :
    ∃ row g', sliceGet scenarioGraph.adjList 0 = .ok row ∧
      scenarioGraph.AddEdge 0 1 3 = .ok g' ∧
      g'.vertices = scenarioGraph.vertices ∧
      g'.adjList.length = scenarioGraph.adjList.length ∧
      sliceGet g'.adjList 0 = .ok (row ++ [⟨1, 3⟩]) ∧
      ∀ u, u ≠ 0 → sliceGet g'.adjList u = sliceGet scenarioGraph.adjList u :=
  addEdge_appends scenarioGraph 0 1 3 (by decide) (by decide) (by decide) (by decide)

/-! ## The observed run -/

theorem relaxEdgeObs_cases (cur : Int) (e : Edge) (st : State) (n : Nat)
    (hD : st.distances.length = n) (hP : st.previous.length = n)
    (hcur : InR n cur) (hdest : InR n e.dest) :
    ∃ st' b, relaxEdge cur e st = .ok st' ∧ relaxEdgeObs cur e st = .ok (st', b) := by
  rcases relaxEdge_cases cur e st n hD hP hcur hdest with ⟨hn, h⟩ | ⟨hlt, pq', h1, _, _, _, h⟩
  · refine ⟨st, false, h, ?_⟩
    unfold relaxEdgeObs
    dsimp only
    rw [sliceGet_look INF st.distances cur (hD ▸ hcur),
      sliceGet_look INF st.distances e.dest (hD ▸ hdest)]
    simp only [bind, Except.bind]
    have hlt' : ¬ addInt (look INF st.distances cur) e.weight < look INF st.distances e.dest := hn
    rw [if_neg hlt']
    rfl
  · refine ⟨_, true, h, ?_⟩
    unfold relaxEdgeObs
    dsimp only
    rw [sliceGet_look INF st.distances cur (hD ▸ hcur),
      sliceGet_look INF st.distances e.dest (hD ▸ hdest)]
    simp only [bind, Except.bind]
    have hlt' : addInt (look INF st.distances cur) e.weight < look INF st.distances e.dest := hlt
    rw [if_pos hlt', sliceSet_look _ _ _ (hD ▸ hdest), sliceSet_look _ _ _ (hP ▸ hdest)]
    simp only []
    have h1' : heapPush st.pq
        ⟨e.dest, addInt (look INF st.distances cur) e.weight, 0⟩ = .ok pq' := h1
    rw [h1']
    rfl

/-- The observed relaxation loop runs as `relaxEdges` does and records one
relaxation per edge, in order. -/
theorem relaxEdgesObs_run (g : WeightedGraph) (hg : g.WellFormed) (s cur : Int)
    (hcur : InR g.adjList.length cur) (hreach : Reach g s cur) :
    ∀ (es : List Edge) (st : State), InvB g s st → (∀ e ∈ es, g.HasEdge cur e) →
    ∃ st' log, relaxEdges cur es st = .ok st' ∧ relaxEdgesObs cur es st = .ok (st', log) ∧
      log.length = es.length ∧
      (∀ x ∈ log, ∃ e b, x.1 = Event.relax cur e b) := by
  intro es
  induction es with
  | nil =>
    intro st _ _
    exact ⟨st, [], rfl, rfl, rfl, fun x hx => absurd hx (List.not_mem_nil x)⟩
  | cons e rest ih =>
    intro st hI hes
    have he := hes e (List.mem_cons_self _ _)
    obtain ⟨st1, b, h1, h1o⟩ := relaxEdgeObs_cases cur e st g.adjList.length hI.lenD hI.lenP
      hcur (hasEdge_dest_inR hg he)
    obtain ⟨st1', h1', hI1, _, _⟩ := relaxEdge_basic g hg s cur e st hI hcur hreach he
    rw [h1] at h1'
    cases h1'
    obtain ⟨st', log, h2, h2o, h3, h4⟩ := ih st1 hI1 (fun x hx => hes x (List.mem_cons_of_mem _ hx))
    refine ⟨st', (Event.relax cur e b, st1) :: log, ?_, ?_, by simp [h3], ?_⟩
    · unfold relaxEdges
      rw [h1]
      exact h2
    · unfold relaxEdgesObs
      rw [h1o]
      simp only [bind, Except.bind]
      rw [h2o]
      rfl
    · intro x hx
      rcases List.mem_cons.1 hx with rfl | hx
      · exact ⟨e, b, rfl⟩
      · exact h4 x hx

theorem counts_of_relax (cur : Int) (log : List (Event × State))
    (h : ∀ x ∈ log, ∃ e b, x.1 = Event.relax cur e b) :
    pushCount log ≤ log.length ∧ ∀ u, visitCount u log = 0 := by
  constructor
  · unfold pushCount eventsOf
    have := List.countP_le_length Event.isPush (l := log.map Prod.fst)
    simpa using this
  · intro u
    unfold visitCount eventsOf
    rw [List.countP_eq_zero]
    intro ev hev
    obtain ⟨x, hx, rfl⟩ := List.mem_map.1 hev
    obtain ⟨e, b, hxe⟩ := h x hx
    rw [hxe]
    simp [Event.isVisit]

theorem vis_of_get (st : State) (u : Int) (b : Bool) (hin : InR st.visited.length u)
    (h : st.Vis u = b) : st.visited[u.toNat]? = some b := by
  rw [List.getElem?_eq_getElem hin.2]
  unfold State.Vis look at h
  rw [if_pos hin.1, List.getD_eq_getElem?_getD, List.getElem?_eq_getElem hin.2] at h
  simpa using h

/-- The observed step runs as `dijkstraStep` does; the pushes it records are
paid for by the edges of the vertex it marks, and it starts the relaxation
loop for one vertex at most, which was not visited before and is afterwards. -/
theorem dijkstraStepObs_run (g : WeightedGraph) (hg : g.WellFormed) (s : Int) (st : State)
    (hI : InvB g s st) (hne : st.pq ≠ []) :
    ∃ st' log, dijkstraStep g st = .ok st' ∧ dijkstraStepObs g st = .ok (st', log) ∧
      InvB g s st' ∧ loopMeasure g st' < loopMeasure g st ∧
      pushCount log + pendingEdges st'.visited g.adjList ≤ pendingEdges st.visited g.adjList ∧
      (∀ u, st.Vis u = true → st'.Vis u = true) ∧
      (∀ u, visitCount u log ≤ 1 ∧ (st.Vis u = true → visitCount u log = 0) ∧
        (visitCount u log = 1 → st'.Vis u = true)) := by
  obtain ⟨st', hres, hI', hm⟩ := dijkstraStep_basic g hg s st hI hne
  obtain ⟨it, pq', hpop, hlen, hperm, hheap', _, hin, hreach, hcase⟩ :=
    dijkstraStep_cases g s st hI hne
  have hinV : InR st.visited.length it.vertex := by rw [hI.lenV]; exact hin
  have hsub : ∀ e ∈ entries pq', e ∈ entries st.pq :=
    fun e he => hperm.symm.subset (List.mem_cons_of_mem _ he)
  rcases hcase with ⟨hvis, hres'⟩ | ⟨hvis, hres'⟩
  · rw [hres] at hres'
    cases hres'
    refine ⟨_, [(Event.discard it.vertex, { st with pq := pq' })], hres, ?_, hI', hm, ?_,
      fun u hu => hu, ?_⟩
    · unfold dijkstraStepObs
      rw [hpop]
      simp only [bind, Except.bind]
      rw [sliceGet_look false st.visited it.vertex hinV]
      simp only []
      have hv : look false st.visited it.vertex = true := hvis
      rw [hv]
      rfl
    · simp [pushCount, eventsOf, Event.isPush]
    · intro u
      simp [visitCount, eventsOf, Event.isVisit]
  · have hI1 : InvB g s { st with visited := st.visited.set it.vertex.toNat true, pq := pq' } :=
      ⟨hI.lenD, hI.lenP, by simp [hI.lenV], hheap', fun e he => hI.entIn e (hsub e he),
        hI.dLe, hI.dReach, hI.prevDist⟩
    obtain ⟨st2, log, h1, h1o, hll, hlr⟩ :=
      relaxEdgesObs_run g hg s it.vertex hin hreach (look [] g.adjList it.vertex) _ hI1
        (fun e he => hasEdge_of_mem_look g it.vertex e hin he)
    obtain ⟨st2', h1', _, hv', _⟩ :=
      relaxEdges_basic g hg s it.vertex hin hreach (look [] g.adjList it.vertex) _ hI1
        (fun e he => hasEdge_of_mem_look g it.vertex e hin he)
    rw [h1] at h1'
    cases h1'
    rw [hres'] at hres
    rw [h1] at hres
    cases hres
    obtain ⟨hc1, hc2⟩ := counts_of_relax it.vertex log hlr
    have hvk := vis_of_get st it.vertex false hinV hvis
    have hrk : g.adjList[it.vertex.toNat]? = some (look [] g.adjList it.vertex) := by
      rw [List.getElem?_eq_getElem hin.2]
      unfold look
      rw [if_pos hin.1, List.getD_eq_getElem?_getD, List.getElem?_eq_getElem hin.2]
      rfl
    have hp := pendingEdges_set st.visited g.adjList it.vertex.toNat _ hvk hrk
    have hvisit : ∀ u, st'.Vis u = if u = it.vertex then true else st.Vis u := by
      intro u
      unfold State.Vis
      rw [hv']
      exact look_set false st.visited it.vertex u true hinV
    refine ⟨st', (Event.visit it.vertex,
        { st with visited := st.visited.set it.vertex.toNat true, pq := pq' }) :: log,
      by rw [hres', h1], ?_, hI', hm, ?_, ?_, ?_⟩
    · unfold dijkstraStepObs
      rw [hpop]
      simp only [bind, Except.bind]
      rw [sliceGet_look false st.visited it.vertex hinV]
      simp only []
      have hv : look false st.visited it.vertex = false := hvis
      rw [hv]
      simp only [Bool.false_eq_true, if_false]
      rw [sliceSet_look _ _ _ hinV, sliceGet_look [] g.adjList it.vertex hin]
      simp only []
      rw [h1o]
      rfl
    · have e1 : pushCount ((Event.visit it.vertex,
          { st with visited := st.visited.set it.vertex.toNat true, pq := pq' }) :: log)
          = pushCount log := by
        simp [pushCount, eventsOf, Event.isPush]
      rw [e1, hv']
      simp only [] at hp ⊢
      omega
    · intro u hu
      rw [hvisit u]
      by_cases h : u = it.vertex
      · rw [if_pos h]
      · rw [if_neg h]
        exact hu
    · intro u
      have e2 : visitCount u ((Event.visit it.vertex,
          { st with visited := st.visited.set it.vertex.toNat true, pq := pq' }) :: log)
          = if it.vertex = u then 1 else 0 := by
        have := hc2 u
        simp only [visitCount, eventsOf, List.map_cons, List.countP_cons, Event.isVisit] at this ⊢
        rw [this]
        by_cases h : it.vertex = u
        · simp [h]
        · simp [h]
      rw [e2]
      by_cases h : it.vertex = u
      · rw [if_pos h]
        refine ⟨le_refl _, ?_, ?_⟩
        · intro hu
          rw [← h, hvis] at hu
          cases hu
        · intro _
          rw [hvisit u, if_pos h.symm]
      · rw [if_neg h]
        exact ⟨Nat.zero_le _, fun _ => rfl, fun h0 => absurd h0 (by decide)⟩

theorem pushCount_append (a b : List (Event × State)) :
    pushCount (a ++ b) = pushCount a + pushCount b := by
  simp [pushCount, eventsOf, List.countP_append]

theorem visitCount_append (u : Int) (a b : List (Event × State)) :
    visitCount u (a ++ b) = visitCount u a + visitCount u b := by
  simp [visitCount, eventsOf, List.countP_append]

/-- The observed loop runs as `dijkstraLoop` does; it pushes at most once per
edge that leaves a vertex not yet visited, and starts the relaxation loop at
most once per vertex, never for a vertex visited before. -/
theorem dijkstraLoopObs_run (g : WeightedGraph) (hg : g.WellFormed) (s : Int) :
    ∀ (fuel : Nat) (st : State), InvB g s st → loopMeasure g st ≤ fuel →
    ∃ stF log, dijkstraLoop g fuel st = .ok stF ∧ dijkstraLoopObs g fuel st = .ok (stF, log) ∧
      pushCount log ≤ pendingEdges st.visited g.adjList ∧
      ∀ u, visitCount u log ≤ 1 ∧ (st.Vis u = true → visitCount u log = 0) := by
  intro fuel
  induction fuel with
  | zero =>
    intro st _ hm
    have hnil : st.pq = [] := by
      have : st.pq.length = 0 := by
        unfold loopMeasure at hm
        omega
      exact List.length_eq_zero.1 this
    have hlen : ¬ st.pq.Len > 0 := by
      rw [len_pos_iff]
      exact fun h => h hnil
    refine ⟨st, [], ?_, ?_, Nat.zero_le _, fun u => ⟨Nat.zero_le _, fun _ => rfl⟩⟩
    · unfold dijkstraLoop
      rw [if_neg hlen]
    · unfold dijkstraLoopObs
      rw [if_neg hlen]
  | succ fuel ih =>
    intro st hI hm
    by_cases hlen : st.pq.Len > 0
    · have hne := (len_pos_iff st.pq).1 hlen
      obtain ⟨st1, log1, h1, h1o, hI1, hm1, hp1, hmono, hv1⟩ :=
        dijkstraStepObs_run g hg s st hI hne
      obtain ⟨stF, log2, h2, h2o, hp2, hv2⟩ := ih st1 hI1 (by omega)
      refine ⟨stF, log1 ++ log2, ?_, ?_, ?_, ?_⟩
      · unfold dijkstraLoop
        rw [if_pos hlen, h1]
        exact h2
      · unfold dijkstraLoopObs
        rw [if_pos hlen, h1o]
        simp only [bind, Except.bind]
        rw [h2o]
        rfl
      · rw [pushCount_append]
        omega
      · intro u
        rw [visitCount_append]
        obtain ⟨a1, a2, a3⟩ := hv1 u
        obtain ⟨b1, b2⟩ := hv2 u
        constructor
        · by_cases h : visitCount u log1 = 1
          · have := b2 (a3 h)
            omega
          · omega
        · intro hu
          have := a2 hu
          have := b2 (hmono u hu)
          omega
    · refine ⟨st, [], ?_, ?_, Nat.zero_le _, fun u => ⟨Nat.zero_le _, fun _ => rfl⟩⟩
      · unfold dijkstraLoop
        rw [if_neg hlen]
      · unfold dijkstraLoopObs
        rw [if_neg hlen]

/-- C27: on every graph whose stored edges end in `[0, V)`, whatever the
weights, and for every start in `[0, V)`, `Dijkstra(start)` terminates (within
`E + 1` iterations of its main loop), the observed run returns the same
tables, it starts the relaxation of the outgoing edges of each vertex at most
once, and it calls `heap.Push` at most `1 + E` times, `E` being the number of
stored edges. -/
theorem dijkstra_push_bound (g : WeightedGraph) (s : Int) (hg : g.WellFormed)
    (hs : 0 ≤ s ∧ s < g.vertices) :
    ∃ tables log, g.Dijkstra s = .ok tables ∧ g.DijkstraObs s = .ok (tables, log) ∧
      (∀ fuel, g.edgeCount + 1 ≤ fuel → g.DijkstraFuel fuel s = .ok tables) ∧
      pushCount log ≤ 1 + g.edgeCount ∧ ∀ u, visitCount u log ≤ 1 := by
  obtain ⟨st, hall, hloop, _, _, _⟩ :=
    dijkstra_run g hg s hs (fun _ => True) trivial (fun _ _ _ _ _ _ => trivial)
  obtain ⟨stF, log, h1, h1o, hp, hv⟩ := dijkstraLoopObs_run g hg s (g.edgeCount + 1)
    (startState g s) (startState_basic g hg.1 s hs) (startState_measure g s)
  rw [hloop] at h1
  cases h1
  refine ⟨(st.distances, st.previous), (Event.push s, startState g s) :: log,
    hall _ (le_refl _), ?_, hall, ?_, ?_⟩
  · unfold WeightedGraph.DijkstraObs
    rw [initState_eq g hg.1 s hs]
    simp only [bind, Except.bind]
    rw [h1o]
    rfl
  · have e1 : pushCount ((Event.push s, startState g s) :: log) = 1 + pushCount log := by
      simp [pushCount, eventsOf, Event.isPush]
      omega
    have := pendingEdges_le (startState g s).visited g.adjList
    rw [e1]
    unfold WeightedGraph.edgeCount
    omega
  · intro u
    have e2 : visitCount u ((Event.push s, startState g s) :: log) = visitCount u log := by
      simp [visitCount, eventsOf, Event.isVisit]
    rw [e2]
    exact (hv u).1

/-- C27 on a cycle of negative weight: the run ends after three pushes. -/
theorem dijkstra_push_bound_witness :
    (negativeCycleGraph.DijkstraObs 0).map (fun r => (r.1, pushCount r.2))
      = .ok (([-2, -1], [1, 0]), 3) ∧
    ∃ tables log, negativeCycleGraph.Dijkstra 0 = .ok tables ∧
      negativeCycleGraph.DijkstraObs 0 = .ok (tables, log) ∧
      (∀ fuel, negativeCycleGraph.edgeCount + 1 ≤ fuel →
        negativeCycleGraph.DijkstraFuel fuel 0 = .ok tables) ∧
      pushCount log ≤ 1 + negativeCycleGraph.edgeCount ∧ ∀ u, visitCount u log ≤ 1 :=
  ⟨by rfl, dijkstra_push_bound negativeCycleGraph 0 (by decide) (by decide)⟩

/-! ## Finalized vertices along the run -/

/-- C26 fails on the code: on `overflowBackGraph` (non-negative weights) with
source 0, vertex 0 is visited with distance 0 (event 1 of the run); the later
relaxation of the edge 1 -> 0 (event 4) computes `1 + MaxInt64`, which wraps
to `MinInt64`, and writes it to `distances[0]`, with `previous[0] = 1`. -/
theorem finalized_counterexample :
    overflowBackGraph.NonNegative ∧
    ∃ tables log a b, overflowBackGraph.DijkstraObs 0 = .ok (tables, log) ∧
      log[1]? = some (Event.visit 0, a) ∧
      log[4]? = some (Event.relax 1 ⟨0, 9223372036854775807⟩ true, b) ∧
      a.Vis 0 = true ∧ a.D 0 = 0 ∧ a.P 0 = -1 ∧
      b.D 0 = -9223372036854775808 ∧ b.P 0 = 1 :=
  ⟨by decide, _, _, _, _, rfl, rfl, rfl, rfl, rfl, rfl, rfl, rfl⟩

/-- The observed relaxation loop on a graph whose weights cannot overflow:
every state it records keeps what the states before it hold at the visited
vertices. -/
theorem relaxEdgesObs_full (g : WeightedGraph) (hg : g.WellFormed) (hw : g.WeightsBounded)
    (s cur : Int) (hcur : InR g.adjList.length cur) (hreach : Reach g s cur) :
    ∀ (es : List Edge) (st : State), InvB g s st → InvF g s st → CurMax st cur →
    Tri g st cur es → (∀ e ∈ es, g.HasEdge cur e) →
    ∃ st' log, relaxEdges cur es st = .ok st' ∧ relaxEdgesObs cur es st = .ok (st', log) ∧
      Frozen st st' ∧ (statesOf log).Pairwise Frozen ∧
      ∀ x ∈ statesOf log, Frozen st x ∧ Frozen x st' := by
  intro es
  induction es with
  | nil =>
    intro st _ _ _ _ _
    exact ⟨st, [], rfl, rfl, frozen_refl st, List.Pairwise.nil,
      fun x hx => absurd hx (List.not_mem_nil x)⟩
  | cons e rest ih =>
    intro st hB hF hcm htri hes
    have he := hes e (List.mem_cons_self _ _)
    obtain ⟨st1, b, h1, h1o⟩ := relaxEdgeObs_cases cur e st g.adjList.length hB.lenD hB.lenP
      hcur (hasEdge_dest_inR hg he)
    obtain ⟨st1', h1', hB1, _, _⟩ := relaxEdge_basic g hg s cur e st hB hcur hreach he
    rw [h1] at h1'
    cases h1'
    obtain ⟨hF1, hcm1, htri1, hfr1⟩ :=
      relaxEdge_full g hg hw s cur e rest st st1 hB hF hcm htri he h1
    obtain ⟨st', log, h2, h2o, hfr2, hpw, hall⟩ := ih st1 hB1 hF1 hcm1 htri1
      (fun x hx => hes x (List.mem_cons_of_mem _ hx))
    refine ⟨st', (Event.relax cur e b, st1) :: log, ?_, ?_, frozen_trans hfr1 hfr2, ?_, ?_⟩
    · unfold relaxEdges
      rw [h1]
      exact h2
    · unfold relaxEdgesObs
      rw [h1o]
      simp only [bind, Except.bind]
      rw [h2o]
      rfl
    · unfold statesOf at hpw hall ⊢
      rw [List.map_cons, List.pairwise_cons]
      exact ⟨fun x hx => (hall x hx).1, hpw⟩
    · intro x hx
      unfold statesOf at hx hall
      rw [List.map_cons] at hx
      rcases List.mem_cons.1 hx with rfl | hx
      · exact ⟨hfr1, hfr2⟩
      · exact ⟨frozen_trans hfr1 (hall x hx).1, (hall x hx).2⟩

/-- The observed step on a graph whose weights cannot overflow. -/
theorem dijkstraStepObs_full (g : WeightedGraph) (hg : g.WellFormed) (hw : g.WeightsBounded)
    (s : Int) (st : State) (hB : InvB g s st) (hF : InvF g s st) (hT : Tri g st 0 [])
    (hne : st.pq ≠ []) :
    ∃ st' log, dijkstraStep g st = .ok st' ∧ dijkstraStepObs g st = .ok (st', log) ∧
      (statesOf log).Pairwise Frozen ∧ ∀ x ∈ statesOf log, Frozen st x ∧ Frozen x st' := by
  obtain ⟨it, pq', hpop, hlen, hperm, hheap', hmin, hin, hreach, hcase⟩ :=
    dijkstraStep_cases g s st hB hne
  have hinV : InR st.visited.length it.vertex := by rw [hB.lenV]; exact hin
  rcases hcase with ⟨hvis, hres⟩ | ⟨hvis, hres⟩
  · obtain ⟨_, _, hfr⟩ := drop_full g s st it pq' hF hT hperm hvis
    refine ⟨_, [(Event.discard it.vertex, { st with pq := pq' })], hres, ?_, ?_, ?_⟩
    · unfold dijkstraStepObs
      rw [hpop]
      simp only [bind, Except.bind]
      rw [sliceGet_look false st.visited it.vertex hinV]
      simp only []
      have hv : look false st.visited it.vertex = true := hvis
      rw [hv]
      rfl
    · simp [statesOf]
    · intro x hx
      simp only [statesOf, List.map_cons, List.map_nil, List.mem_singleton] at hx
      rw [hx]
      exact ⟨hfr, frozen_refl _⟩
  · obtain ⟨hB0, hF0, hcm0, htri0, hfr0⟩ :=
      mark_full g s st it pq' hB hF hT hperm hheap' hmin hin hvis
    obtain ⟨st', log, h1, h1o, hfr1, hpw, hall⟩ :=
      relaxEdgesObs_full g hg hw s it.vertex hin hreach (look [] g.adjList it.vertex) _
        hB0 hF0 hcm0 htri0 (fun e he => hasEdge_of_mem_look g it.vertex e hin he)
    refine ⟨st', (Event.visit it.vertex,
        { st with visited := st.visited.set it.vertex.toNat true, pq := pq' }) :: log,
      by rw [hres, h1], ?_, ?_, ?_⟩
    · unfold dijkstraStepObs
      rw [hpop]
      simp only [bind, Except.bind]
      rw [sliceGet_look false st.visited it.vertex hinV]
      simp only []
      have hv : look false st.visited it.vertex = false := hvis
      rw [hv]
      simp only [Bool.false_eq_true, if_false]
      rw [sliceSet_look _ _ _ hinV, sliceGet_look [] g.adjList it.vertex hin]
      simp only []
      rw [h1o]
      rfl
    · unfold statesOf at hpw hall ⊢
      rw [List.map_cons, List.pairwise_cons]
      exact ⟨fun x hx => (hall x hx).1, hpw⟩
    · intro x hx
      unfold statesOf at hx hall
      rw [List.map_cons] at hx
      rcases List.mem_cons.1 hx with rfl | hx
      · exact ⟨hfr0, hfr1⟩
      · exact ⟨frozen_trans hfr0 (hall x hx).1, (hall x hx).2⟩

/-- The observed loop on a graph whose weights cannot overflow. -/
theorem dijkstraLoopObs_full (g : WeightedGraph) (hg : g.WellFormed) (hw : g.WeightsBounded)
    (s : Int) : ∀ (fuel : Nat) (st : State), InvB g s st → InvF g s st → Tri g st 0 [] →
    loopMeasure g st ≤ fuel →
    ∃ stF log, dijkstraLoop g fuel st = .ok stF ∧ dijkstraLoopObs g fuel st = .ok (stF, log) ∧
      (statesOf log).Pairwise Frozen ∧ ∀ x ∈ statesOf log, Frozen st x := by
  intro fuel
  induction fuel with
  | zero =>
    intro st _ _ _ hm
    have hnil : st.pq = [] := by
      have : st.pq.length = 0 := by
        unfold loopMeasure at hm
        omega
      exact List.length_eq_zero.1 this
    have hlen : ¬ st.pq.Len > 0 := by
      rw [len_pos_iff]
      exact fun h => h hnil
    refine ⟨st, [], ?_, ?_, List.Pairwise.nil, fun x hx => absurd hx (List.not_mem_nil x)⟩
    · unfold dijkstraLoop
      rw [if_neg hlen]
    · unfold dijkstraLoopObs
      rw [if_neg hlen]
  | succ fuel ih =>
    intro st hB hF hT hm
    by_cases hlen : st.pq.Len > 0
    · have hne := (len_pos_iff st.pq).1 hlen
      obtain ⟨st1, log1, h1, h1o, hpw1, hall1⟩ := dijkstraStepObs_full g hg hw s st hB hF hT hne
      obtain ⟨st1', h1', hB1, hm1⟩ := dijkstraStep_basic g hg s st hB hne
      rw [h1] at h1'
      cases h1'
      obtain ⟨hF1, hT1, hfr1⟩ := dijkstraStep_full g hg hw s st st1 hB hF hT hne h1
      obtain ⟨stF, log2, h2, h2o, hpw2, hall2⟩ := ih st1 hB1 hF1 hT1 (by omega)
      refine ⟨stF, log1 ++ log2, ?_, ?_, ?_, ?_⟩
      · unfold dijkstraLoop
        rw [if_pos hlen, h1]
        exact h2
      · unfold dijkstraLoopObs
        rw [if_pos hlen, h1o]
        simp only [bind, Except.bind]
        rw [h2o]
        rfl
      · unfold statesOf at hpw1 hpw2 hall1 hall2 ⊢
        rw [List.map_append, List.pairwise_append]
        exact ⟨hpw1, hpw2, fun a ha b hb => frozen_trans (hall1 a ha).2 (hall2 b hb)⟩
      · intro x hx
        unfold statesOf at hx hall1 hall2
        rw [List.map_append] at hx
        rcases List.mem_append.1 hx with hx | hx
        · exact (hall1 x hx).1
        · exact frozen_trans hfr1 (hall2 x hx)
    · refine ⟨st, [], ?_, ?_, List.Pairwise.nil, fun x hx => absurd hx (List.not_mem_nil x)⟩
      · unfold dijkstraLoop
        rw [if_neg hlen]
      · unfold dijkstraLoopObs
        rw [if_neg hlen]

/-- C26 as amended: on every well-formed graph whose weights lie in
`[0, MaxInt64 - MaxInt32]` and for every source in `[0, V)`, in the run of
`Dijkstra(source)` a vertex that is marked visited in some state is still
marked, with the same `distances` and `previous` entries, in every later state:
after each pop, each marking and each relaxation, those of visited neighbours
included. -/
theorem visited_entries_final (g : WeightedGraph) (s : Int) (hg : g.WellFormed)
    (hw : g.WeightsBounded) (hs : 0 ≤ s ∧ s < g.vertices) :
    ∃ tables log, g.Dijkstra s = .ok tables ∧ g.DijkstraObs s = .ok (tables, log) ∧
      ∀ (i j : Nat) (a b : State), i < j → (statesOf log)[i]? = some a →
        (statesOf log)[j]? = some b →
        ∀ u : Int, a.Vis u = true → b.Vis u = true ∧ b.P u = a.P u ∧ b.D u = a.D u := by
  obtain ⟨st, hall, hloop, _, _, _⟩ :=
    dijkstra_run g hg s hs (fun _ => True) trivial (fun _ _ _ _ _ _ => trivial)
  obtain ⟨hF0, hT0⟩ := startState_full g hg.1 s hs
  obtain ⟨stF, log, h1, h1o, hpw, hfrom⟩ := dijkstraLoopObs_full g hg hw s (g.edgeCount + 1)
    (startState g s) (startState_basic g hg.1 s hs) hF0 hT0 (startState_measure g s)
  rw [hloop] at h1
  cases h1
  have hpair : (statesOf ((Event.push s, startState g s) :: log)).Pairwise Frozen := by
    unfold statesOf at hpw hfrom ⊢
    rw [List.map_cons, List.pairwise_cons]
    exact ⟨hfrom, hpw⟩
  refine ⟨(st.distances, st.previous), (Event.push s, startState g s) :: log,
    hall _ (le_refl _), ?_, ?_⟩
  · unfold WeightedGraph.DijkstraObs
    rw [initState_eq g hg.1 s hs]
    simp only [bind, Except.bind]
    rw [h1o]
    rfl
  · intro i j a b hij ha hb u hu
    obtain ⟨hi, rfl⟩ := List.getElem?_eq_some.1 ha
    obtain ⟨hj, rfl⟩ := List.getElem?_eq_some.1 hb
    exact (List.pairwise_iff_getElem.1 hpair) i j hi hj hij u hu

/-- C26 as amended, on `scenarioGraph` with source 0. -/
theorem visited_entries_final_witness :
    ∃ tables log, scenarioGraph.Dijkstra 0 = .ok tables ∧
      scenarioGraph.DijkstraObs 0 = .ok (tables, log) ∧
      ∀ (i j : Nat) (a b : State), i < j → (statesOf log)[i]? = some a →
        (statesOf log)[j]? = some b →
        ∀ u : Int, a.Vis u = true → b.Vis u = true ∧ b.P u = a.P u ∧ b.D u = a.D u :=
  visited_entries_final scenarioGraph 0 (by decide) (by decide) (by decide)

/-! ## No empty pop, no index out of range -/

theorem heapPop_nil : heapPop [] = .error Fault.indexOutOfRange := by decide

theorem break_basic (g : WeightedGraph) (s : Int) (st : State) (it : Item)
    (pq' : PriorityQueue) (hB : InvB g s st)
    (hperm : (entries st.pq).Perm (it.entry :: entries pq')) (hheap' : IsHeap pq') :
    InvB g s { st with visited := st.visited.set it.vertex.toNat true, pq := pq' } := by
  constructor
  · exact hB.lenD
  · exact hB.lenP
  · simp [hB.lenV]
  · exact hheap'
  · intro e he
    exact hB.entIn e (hperm.symm.subset (List.mem_cons_of_mem _ he))
  · exact hB.dLe
  · exact hB.dReach
  · exact hB.prevDist

theorem dijkstraLoop_safe (g : WeightedGraph) (hg : g.WellFormed) (s : Int) :
    ∀ (fuel : Nat) (st : State), InvB g s st →
    (∃ st', dijkstraLoop g fuel st = .ok st' ∧ InvB g s st') ∨
    (dijkstraLoop g fuel st = .error Fault.fuelExhausted ∧ fuel < loopMeasure g st) := by
  intro fuel
  induction fuel with
  | zero =>
    intro st hB
    by_cases hc : st.pq.Len > 0
    · right
      refine ⟨by unfold dijkstraLoop; rw [if_pos hc], ?_⟩
      have hpos : 0 < st.pq.length := List.length_pos.2 ((len_pos_iff _).1 hc)
      unfold loopMeasure
      omega
    · left
      exact ⟨st, by unfold dijkstraLoop; rw [if_neg hc], hB⟩
  | succ fuel ih =>
    intro st hB
    by_cases hc : st.pq.Len > 0
    · have hne := (len_pos_iff _).1 hc
      obtain ⟨st', hs, hB', hlt⟩ := dijkstraStep_basic g hg s st hB hne
      rcases ih st' hB' with ⟨st2, h2, hB2⟩ | ⟨h2, hlt2⟩
      · left
        refine ⟨st2, ?_, hB2⟩
        unfold dijkstraLoop
        rw [if_pos hc, hs]
        exact h2
      · right
        refine ⟨?_, by omega⟩
        unfold dijkstraLoop
        rw [if_pos hc, hs]
        exact h2
    · left
      exact ⟨st, by unfold dijkstraLoop; rw [if_neg hc], hB⟩

theorem optimizedLoop_safe (g : WeightedGraph) (hg : g.WellFormed) (s stop : Int) :
    ∀ (fuel : Nat) (st : State), InvB g s st →
    (∃ st', optimizedLoop g stop fuel st = .ok st' ∧ InvB g s st') ∨
    (optimizedLoop g stop fuel st = .error Fault.fuelExhausted ∧
      fuel < loopMeasure g st) := by
  intro fuel
  induction fuel with
  | zero =>
    intro st hB
    by_cases hc : st.pq.Len > 0
    · right
      refine ⟨by unfold optimizedLoop; rw [if_pos hc], ?_⟩
      have hpos : 0 < st.pq.length := List.length_pos.2 ((len_pos_iff _).1 hc)
      unfold loopMeasure
      omega
    · left
      exact ⟨st, by unfold optimizedLoop; rw [if_neg hc], hB⟩
  | succ fuel ih =>
    intro st hB
    by_cases hc : st.pq.Len > 0
    · have hne := (len_pos_iff _).1 hc
      obtain ⟨st', hs, hB', hlt⟩ := dijkstraStep_basic g hg s st hB hne
      obtain ⟨it, pq', hpop, hcase⟩ := optimizedStep_cases g s stop st hB hne
      rcases hcase with ⟨_, _, hopt⟩ | ⟨_, hopt⟩
      · left
        obtain ⟨it2, pq2, hpop2, _, hperm, hheap', _⟩ := dijkstraStep_cases g s st hB hne
        rw [hpop] at hpop2
        cases hpop2
        refine ⟨_, ?_, break_basic g s st it pq' hB hperm hheap'⟩
        unfold optimizedLoop
        rw [if_pos hc, hopt]
        rfl
      · rcases ih st' hB' with ⟨st2, h2, hB2⟩ | ⟨h2, hlt2⟩
        · left
          refine ⟨st2, ?_, hB2⟩
          unfold optimizedLoop
          rw [if_pos hc, hopt, hs]
          exact h2
        · right
          refine ⟨?_, by omega⟩
          unfold optimizedLoop
          rw [if_pos hc, hopt, hs]
          exact h2
    · left
      exact ⟨st, by unfold optimizedLoop; rw [if_neg hc], hB⟩

theorem getPathLoop_safe (g : WeightedGraph) (s : Int) (st : State) (hB : InvB g s st) :
    ∀ (fuel : Nat) (cur : Int) (path : List Int),
    (cur = -1 ∨ InR g.adjList.length cur) →
    NoPanic (getPathLoop st.previous fuel cur path) := by
  intro fuel
  induction fuel with
  | zero =>
    intro cur path _
    unfold getPathLoop
    split
    · exact rfl
    · exact trivial
  | succ fuel ih =>
    intro cur path h
    by_cases hc : cur ≠ -1
    · have hin : InR g.adjList.length cur := by
        rcases h with h | h
        · exact absurd h hc
        · exact h
      unfold getPathLoop
      rw [if_pos hc, sliceGet_look (-1) st.previous cur (by rw [hB.lenP]; exact hin)]
      simp only [bind, Except.bind]
      apply ih
      rcases hB.prevDist cur hin with h1 | h1
      · left; exact h1.1
      · right; exact h1.1
    · unfold getPathLoop
      rw [if_neg hc]
      exact trivial

theorem getPathFuel_safe (g : WeightedGraph) (s : Int) (st : State) (hB : InvB g s st)
    (pf : Nat) (a t : Int) (ht : InR g.adjList.length t) :
    ∃ r, GetPathFuel pf st.previous a t = .ok r ∨
      GetPathFuel pf st.previous a t = .error Fault.fuelExhausted := by
  unfold GetPathFuel
  rw [sliceGet_look (-1) st.previous t (by rw [hB.lenP]; exact ht)]
  simp only [bind, Except.bind]
  split
  · exact ⟨none, Or.inl rfl⟩
  · have hsafe := getPathLoop_safe g s st hB pf t [] (Or.inr ht)
    cases hrun : getPathLoop st.previous pf t [] with
    | error e =>
      rw [hrun] at hsafe
      have he : e = Fault.fuelExhausted := hsafe
      subst he
      exact ⟨none, Or.inr rfl⟩
    | ok path => exact ⟨some path, Or.inl rfl⟩

/-- C28: on a graph whose stored edges all have endpoints in `[0, V)`, for
`start` and `end` in `[0, V)`: `Dijkstra(start)` returns, the main loop of
`DijkstraOptimized(start, end)` ends within `1 + E` iterations, and under every
step budget neither function raises a runtime panic. A pop from an empty queue
is an index fault (`heapPop []`), as is every index outside `distances`,
`previous`, `visited` or `adjList`, so none of them is reached; the only way not
to return is a step budget that ran out. -/
theorem dijkstra_no_panic (g : WeightedGraph) (s t : Int) (hg : g.WellFormed)
    (hs : 0 ≤ s ∧ s < g.vertices) (ht : 0 ≤ t ∧ t < g.vertices) :
    heapPop [] = .error Fault.indexOutOfRange ∧
    (∃ tables, g.Dijkstra s = .ok tables) ∧
    (∃ st0 st, initState g s = .ok st0 ∧
      optimizedLoop g t (g.edgeCount + 1) st0 = .ok st) ∧
    (∀ fuel, NoPanic (g.DijkstraFuel fuel s)) ∧
    (∀ fuel pf, NoPanic (g.DijkstraOptimizedFuel fuel pf s t)) := by
  have hB0 := startState_basic g hg.1 s hs
  have hinit := initState_eq g hg.1 s hs
  have htR : InR g.adjList.length t := ⟨ht.1, by have := hg.1.2; omega⟩
  refine ⟨heapPop_nil, ?_, ?_, ?_, ?_⟩
  · obtain ⟨st, hrun, _⟩ := dijkstra_run g hg s hs (fun _ => True) trivial
      (fun _ _ _ _ _ _ => trivial)
    exact ⟨_, hrun (g.edgeCount + 1) (le_refl _)⟩
  · rcases optimizedLoop_safe g hg s t (g.edgeCount + 1) (startState g s) hB0 with
      ⟨st, h, _⟩ | ⟨_, hlt⟩
    · exact ⟨_, st, hinit, h⟩
    · have := startState_measure g s
      omega
  · intro fuel
    unfold WeightedGraph.DijkstraFuel
    rw [hinit]
    simp only [bind, Except.bind]
    rcases dijkstraLoop_safe g hg s fuel (startState g s) hB0 with ⟨st, h, _⟩ | ⟨h, _⟩
    · rw [h]
      exact trivial
    · rw [h]
      exact rfl
  · intro fuel pf
    unfold WeightedGraph.DijkstraOptimizedFuel
    by_cases hst : s = t
    · rw [if_pos hst]
      exact trivial
    · rw [if_neg hst, hinit]
      simp only [bind, Except.bind]
      rcases optimizedLoop_safe g hg s t fuel (startState g s) hB0 with ⟨st, h, hB⟩ | ⟨h, _⟩
      · rw [h]
        simp only []
        obtain ⟨r, hr | hr⟩ := getPathFuel_safe g s st hB pf s t htR
        · rw [hr]
          simp only []
          rw [sliceGet_look INF st.distances t (by rw [hB.lenD]; exact htR)]
          exact trivial
        · rw [hr]
          exact rfl
      · rw [h]
        exact rfl

/-- C28 on a cycle of negative weight, from vertex 0 to vertex 1. -/
theorem dijkstra_no_panic_witness :
    negativeCycleGraph.WellFormed ∧
    heapPop [] = .error Fault.indexOutOfRange ∧
    (∃ tables, negativeCycleGraph.Dijkstra 0 = .ok tables) ∧
    (∃ st0 st, initState negativeCycleGraph 0 = .ok st0 ∧
      optimizedLoop negativeCycleGraph 1 (negativeCycleGraph.edgeCount + 1) st0 = .ok st) ∧
    (∀ fuel, NoPanic (negativeCycleGraph.DijkstraFuel fuel 0)) ∧
    (∀ fuel pf, NoPanic (negativeCycleGraph.DijkstraOptimizedFuel fuel pf 0 1)) :=
  ⟨by decide, dijkstra_no_panic negativeCycleGraph 0 1 (by decide) (by decide) (by decide)⟩

end DijkstraOtimizado

namespace GoRuntime

/-! ## Exact range of the float64 round trip -/

theorem toFloat64_exact (x : Int) (h0 : -exactBound ≤ x) (h1 : x ≤ exactBound) :
    toFloat64 x = x := by
  unfold exactBound at h0 h1
  unfold toFloat64
  have : x.natAbs ≤ 9007199254740992 := by omega
  simp only [this, if_true]

theorem fromFloat64_exact (v : Int) (h0 : -exactBound ≤ v) (h1 : v ≤ exactBound) :
    fromFloat64 v = v := by
  unfold exactBound at h0 h1
  unfold fromFloat64
  rw [if_pos (by omega)]

theorem maxViaFloat64_exact (a b : Int) (ha0 : -exactBound ≤ a) (ha1 : a ≤ exactBound)
    (hb0 : -exactBound ≤ b) (hb1 : b ≤ exactBound) : maxViaFloat64 a b = max a b := by
  unfold maxViaFloat64
  rw [toFloat64_exact a ha0 ha1, toFloat64_exact b hb0 hb1]
  apply fromFloat64_exact
  · exact le_trans ha0 (le_max_left a b)
  · exact max_le ha1 hb1

theorem minViaFloat64_exact (a b : Int) (ha0 : -exactBound ≤ a) (ha1 : a ≤ exactBound)
    (hb0 : -exactBound ≤ b) (hb1 : b ≤ exactBound) : minViaFloat64 a b = min a b := by
  unfold minViaFloat64
  rw [toFloat64_exact a ha0 ha1, toFloat64_exact b hb0 hb1]
  apply fromFloat64_exact
  · exact le_min ha0 hb0
  · exact le_trans (min_le_left a b) ha1

theorem index_ok {α : Type} (xs : List α) (i : Nat) (h : i < xs.length) :
    index xs i = .ok xs[i] := by
  unfold index
  rw [List.getElem?_eq_getElem h]

theorem index_some {α : Type} (xs : List α) (i : Nat) (x : α) (h : xs[i]? = some x) :
    index xs i = .ok x := by
  unfold index
  rw [h]

theorem store_ok {α : Type} (xs : List α) (i : Nat) (x : α) (h : i < xs.length) :
    store xs i x = .ok (xs.set i x) := by
  unfold store
  rw [if_pos h]

theorem set_self {α : Type} (l : List α) (i : Nat) (h : i < l.length) :
    l.set i l[i] = l := by
  apply List.ext_getElem?
  intro k
  rw [List.getElem?_set]
  split
  · rename_i hik
    subst hik
    simp [h]
  · rfl

end GoRuntime

namespace TwoPointer

open DijkstraOtimizado GoRuntime

/-! # Theorems on the two-pointer algorithms -/

/-- C19 fails on the code: `[1, 2, 9223372036854775807]` is sorted and its
first two elements add up to the target 3, but `1 + 9223372036854775807` and
`2 + 9223372036854775807` wrap to negative sums, both below 3, so the left
pointer runs up to the right one and `TwoSumSorted` returns the empty slice. -/
theorem twoSumSorted_counterexample :
    Ascending [1, 2, 9223372036854775807] ∧
    PairSum [1, 2, 9223372036854775807] 3 0 1 ∧
    TwoSumSorted [1, 2, 9223372036854775807] 3 = .ok [] :=
  ⟨by decide, ⟨by decide, 1, 2, rfl, rfl, rfl⟩, by rfl⟩

theorem ascending_le {nums : List Int} (h : Ascending nums) {i j : Nat} {x y : Int}
    (hij : i ≤ j) (hx : nums[i]? = some x) (hy : nums[j]? = some y) : x ≤ y := by
  rcases Nat.lt_or_eq_of_le hij with hlt | heq
  · obtain ⟨hi, rfl⟩ := List.getElem?_eq_some.1 hx
    obtain ⟨hj, rfl⟩ := List.getElem?_eq_some.1 hy
    exact (List.pairwise_iff_getElem.1 h) i j hi hj hlt
  · subst heq
    rw [hx] at hy
    cases hy
    exact le_refl _

theorem sliceGet_nat {α : Type} (xs : List α) (i : Nat) (x : α) (h : xs[i]? = some x) :
    sliceGet xs (i : Int) = .ok x :=
  sliceGet_cast xs i x h

theorem addInt_fits (a b : Int) (h0 : -9223372036854775808 ≤ a + b)
    (h1 : a + b ≤ 9223372036854775807) : addInt a b = a + b := by
  unfold addInt
  exact wrapInt_id _ h0 h1

/-- The loop of `TwoSumSorted` from pointers that bracket every solution. -/
theorem twoSumLoop_spec (nums : List Int) (target : Int) (hs : Ascending nums)
    (hf : SumsFit nums) : ∀ (fuel l : Nat) (right : Int),
    right < nums.length → right - l < fuel →
    (∀ i j, PairSum nums target i j → l ≤ i ∧ (j : Int) ≤ right) →
    ∃ res, twoSumLoop nums target fuel l right = .ok res ∧
      ((res = [] ∧ ∀ i j, ¬ PairSum nums target i j) ∨
       (∃ a b : Nat, res = [(a : Int), (b : Int)] ∧ PairSum nums target a b)) := by
  intro fuel
  induction fuel with
  | zero =>
    intro l right _ hfuel hbr
    have hc : ¬ ((l : Int) < right) := by omega
    refine ⟨[], by unfold twoSumLoop; rw [if_neg hc], Or.inl ⟨rfl, ?_⟩⟩
    intro i j hp
    have := hbr i j hp
    have := hp.1
    omega
  | succ fuel ih =>
    intro l right hlen hfuel hbr
    unfold twoSumLoop
    by_cases hc : (l : Int) < right
    · rw [if_pos hc]
      obtain ⟨r, rfl⟩ : ∃ r : Nat, right = (r : Int) := ⟨right.toNat, by omega⟩
      have hl : l < nums.length := by omega
      have hr : r < nums.length := by omega
      have hgl : nums[l]? = some nums[l] := List.getElem?_eq_getElem hl
      have hgr : nums[r]? = some nums[r] := List.getElem?_eq_getElem hr
      rw [sliceGet_nat nums l _ hgl, sliceGet_nat nums r _ hgr]
      simp only [bind, Except.bind]
      have hfit := hf r hr l (by omega)
      rw [List.getD_eq_getElem _ _ hl, List.getD_eq_getElem _ _ hr] at hfit
      rw [addInt_fits _ _ hfit.1 hfit.2]
      by_cases heq : nums[l] + nums[r] = target
      · rw [if_pos heq]
        exact ⟨_, rfl, Or.inr ⟨l, r, rfl, by omega, nums[l], nums[r], hgl, hgr, heq⟩⟩
      · rw [if_neg heq]
        by_cases hlt : nums[l] + nums[r] < target
        · rw [if_pos hlt]
          have := ih (l + 1) (r : Int) hlen (by push_cast; omega) (by
            intro i j hp
            have hb := hbr i j hp
            refine ⟨?_, hb.2⟩
            by_contra hcon
            have hil : i = l := by omega
            obtain ⟨_, x, y, hx, hy, hxy⟩ := hp
            rw [hil, hgl] at hx
            cases hx
            have := ascending_le hs (by omega : j ≤ r) hy hgr
            omega)
          push_cast at this
          exact this
        · rw [if_neg hlt]
          exact ih l ((r : Int) - 1) (by omega) (by omega) (by
            intro i j hp
            have hb := hbr i j hp
            refine ⟨hb.1, ?_⟩
            by_contra hcon
            have hjr : j = r := by omega
            obtain ⟨_, x, y, hx, hy, hxy⟩ := hp
            rw [hjr, hgr] at hy
            cases hy
            have := ascending_le hs hb.1 hgl hx
            omega)
    · rw [if_neg hc]
      refine ⟨[], rfl, Or.inl ⟨rfl, ?_⟩⟩
      intro i j hp
      have := hbr i j hp
      have := hp.1
      omega

/-- C19 as amended: for every array sorted in non-decreasing order in which no
sum of the elements at two different positions overflows a 64-bit `int`, and
every target:
`TwoSumSorted` returns; if some positions `i < j` hold values that add up to
the target it returns `[l, r]` with `l < r` and `nums[l] + nums[r] = target`,
otherwise it returns the empty slice. -/
theorem twoSumSorted_finds_pair (nums : List Int) (target : Int) (hs : Ascending nums)
    (hf : SumsFit nums) :
    ∃ res, TwoSumSorted nums target = .ok res ∧
      ((∃ i j, PairSum nums target i j) →
        ∃ l r : Nat, res = [(l : Int), (r : Int)] ∧ PairSum nums target l r) ∧
      ((¬ ∃ i j, PairSum nums target i j) → res = []) := by
  obtain ⟨res, hrun, hres⟩ := twoSumLoop_spec nums target hs hf nums.length 0
    ((nums.length : Int) - 1) (by omega) (by push_cast; omega) (by
      intro i j hp
      obtain ⟨_, x, y, _, hy, _⟩ := hp
      obtain ⟨hj, _⟩ := List.getElem?_eq_some.1 hy
      omega)
  refine ⟨res, hrun, ?_, ?_⟩
  · rintro ⟨i, j, hp⟩
    rcases hres with ⟨_, hno⟩ | h
    · exact absurd hp (hno i j)
    · exact h
  · intro hno
    rcases hres with ⟨h, _⟩ | ⟨a, b, _, hp⟩
    · exact h
    · exact absurd ⟨a, b, hp⟩ hno

/-- C19 as amended, at its witness `nums = [2, 7, 11, 15]`, `target = 9`, for
which the result is `[0, 1]`. -/
theorem twoSumSorted_finds_pair_witness :
    TwoSumSorted [2, 7, 11, 15] 9 = .ok [0, 1] ∧
    ∃ res, TwoSumSorted [2, 7, 11, 15] 9 = .ok res ∧
      ((∃ i j, PairSum [2, 7, 11, 15] 9 i j) →
        ∃ l r : Nat, res = [(l : Int), (r : Int)] ∧ PairSum [2, 7, 11, 15] 9 l r) ∧
      ((¬ ∃ i j, PairSum [2, 7, 11, 15] 9 i j) → res = []) :=
  ⟨by rfl, twoSumSorted_finds_pair [2, 7, 11, 15] 9 (by decide) (by decide)⟩

/-- C20 fails on the code: with two walls of height `2^53 + 1` the only
container has area `2^53 + 1 = 9007199254740993`, but `float64(2^53 + 1)` rounds
to `2^53`, so `math.Min` yields 9007199254740992 and that is what
`ContainerWithMostWater` returns. -/
theorem containerWithMostWater_counterexample :
    AreaAt [9007199254740993, 9007199254740993] 0 1 9007199254740993 ∧
    ContainerWithMostWater [9007199254740993, 9007199254740993] = .ok 9007199254740992 :=
  ⟨⟨by decide, 9007199254740993, 9007199254740993, rfl, rfl, by decide⟩, by rfl⟩

theorem mulInt_fits (a b : Int) (h0 : -9223372036854775808 ≤ a * b)
    (h1 : a * b ≤ 9223372036854775807) : mulInt a b = a * b := by
  unfold mulInt
  exact wrapInt_id _ h0 h1

theorem heightsFit_get {heights : List Int} (hf : HeightsFit heights) {i : Nat} {x : Int}
    (hx : heights[i]? = some x) : 0 ≤ x ∧ x * heights.length ≤ exactBound :=
  hf x (List.getElem?_mem hx)

/-- The loop of `ContainerWithMostWater` from pointers that bracket every
container not yet accounted for in `maxArea`. -/
theorem containerLoop_spec (heights : List Int) (hf : HeightsFit heights) :
    ∀ (fuel l : Nat) (right m : Int),
    right < heights.length → right - l < fuel → 0 ≤ m → m ≤ exactBound →
    (∀ i j a, AreaAt heights i j a → a ≤ m ∨ (l ≤ i ∧ (j : Int) ≤ right)) →
    ∃ res, containerLoop heights fuel l right m = .ok res ∧ m ≤ res ∧
      (∀ i j a, AreaAt heights i j a → a ≤ res) ∧
      (res = m ∨ ∃ i j, AreaAt heights i j res) := by
  intro fuel
  induction fuel with
  | zero =>
    intro l right m _ hfuel _ _ hbr
    have hc : ¬ ((l : Int) < right) := by omega
    refine ⟨m, by unfold containerLoop; rw [if_neg hc], le_refl _, ?_, Or.inl rfl⟩
    intro i j a hp
    rcases hbr i j a hp with h | h
    · exact h
    · have := hp.1
      omega
  | succ fuel ih =>
    intro l right m hlen hfuel hm0 hm1 hbr
    unfold containerLoop
    by_cases hc : (l : Int) < right
    · rw [if_pos hc]
      obtain ⟨r, rfl⟩ : ∃ r : Nat, right = (r : Int) := ⟨right.toNat, by omega⟩
      have hl : l < heights.length := by omega
      have hr : r < heights.length := by omega
      have hlr : l < r := by omega
      have hgl : heights[l]? = some heights[l] := List.getElem?_eq_getElem hl
      have hgr : heights[r]? = some heights[r] := List.getElem?_eq_getElem hr
      rw [sliceGet_nat heights l _ hgl, sliceGet_nat heights r _ hgr]
      simp only [bind, Except.bind]
      obtain ⟨hl0, hl1⟩ := heightsFit_get hf hgl
      obtain ⟨hr0, hr1⟩ := heightsFit_get hf hgr
      generalize heights[l] = x at hgl hl0 hl1 ⊢
      generalize heights[r] = y at hgr hr0 hr1 ⊢
      have hB : (0 : Int) ≤ exactBound := by decide
      have hlenpos : (1 : Int) ≤ heights.length := by omega
      have hxB : x ≤ exactBound := by nlinarith
      have hyB : y ≤ exactBound := by nlinarith
      have hmin : minViaFloat64 x y = min x y :=
        minViaFloat64_exact x y (by omega) hxB (by omega) hyB
      have hmin0 : 0 ≤ min x y := le_min hl0 hr0
      have hw0 : (0 : Int) ≤ (r : Int) - (l : Int) := by omega
      have hw1 : (r : Int) - (l : Int) ≤ heights.length := by omega
      have harea0 : 0 ≤ ((r : Int) - (l : Int)) * min x y := mul_nonneg hw0 hmin0
      have harea1 : ((r : Int) - (l : Int)) * min x y ≤ exactBound := by
        have h1 : ((r : Int) - (l : Int)) * min x y ≤ (heights.length : Int) * x :=
          mul_le_mul hw1 (min_le_left x y) hmin0 (by omega)
        linarith
      have hBv : exactBound = 9007199254740992 := rfl
      have hmul : mulInt ((r : Int) - (l : Int)) (min x y) = ((r : Int) - (l : Int)) * min x y :=
        mulInt_fits _ _ (by omega) (by omega)
      have hmax : maxViaFloat64 m (((r : Int) - (l : Int)) * min x y)
          = max m (((r : Int) - (l : Int)) * min x y) :=
        maxViaFloat64_exact _ _ (by omega) hm1 (by omega) harea1
      rw [hmin, hmul, hmax]
      have hA : AreaAt heights l r (((r : Int) - (l : Int)) * min x y) :=
        ⟨hlr, x, y, hgl, hgr, rfl⟩
      have hfin : ∀ res, max m (((r : Int) - (l : Int)) * min x y) ≤ res →
          (res = max m (((r : Int) - (l : Int)) * min x y) ∨ ∃ i j, AreaAt heights i j res) →
          m ≤ res ∧ (res = m ∨ ∃ i j, AreaAt heights i j res) := by
        intro res h1 h2
        refine ⟨le_trans (le_max_left _ _) h1, ?_⟩
        rcases h2 with h | h
        · rcases max_cases m (((r : Int) - (l : Int)) * min x y) with ⟨h3, _⟩ | ⟨h3, _⟩
          · left; rw [h, h3]
          · right; exact ⟨l, r, by rw [h, h3]; exact hA⟩
        · exact Or.inr h
      by_cases hlt : x < y
      · rw [if_pos hlt]
        obtain ⟨res, hrun, hle, hub, hatt⟩ := ih (l + 1) (r : Int) _ hlen (by push_cast; omega)
          (le_trans hm0 (le_max_left _ _)) (max_le hm1 harea1) (by
            intro i j a hp
            rcases hbr i j a hp with h | h
            · exact Or.inl (le_trans h (le_max_left _ _))
            · by_cases hil : i = l
              · left
                obtain ⟨hij, x', y', hx', hy', ha⟩ := hp
                rw [hil, hgl] at hx'
                cases hx'
                have hy0 := (heightsFit_get hf hy').1
                have h1 : ((j : Int) - (l : Int)) * min x y' ≤ ((r : Int) - (l : Int)) * x :=
                  mul_le_mul (by omega) (min_le_left _ _) (le_min hl0 hy0) hw0
                rw [min_eq_left (le_of_lt hlt)]
                rw [ha, hil]
                exact le_trans h1 (le_max_right _ _)
              · right
                exact ⟨by omega, h.2⟩)
        push_cast at hrun
        obtain ⟨h1, h2⟩ := hfin res hle hatt
        exact ⟨res, hrun, h1, hub, h2⟩
      · rw [if_neg hlt]
        obtain ⟨res, hrun, hle, hub, hatt⟩ := ih l ((r : Int) - 1) _ (by omega) (by omega)
          (le_trans hm0 (le_max_left _ _)) (max_le hm1 harea1) (by
            intro i j a hp
            rcases hbr i j a hp with h | h
            · exact Or.inl (le_trans h (le_max_left _ _))
            · by_cases hjr : j = r
              · left
                obtain ⟨hij, x', y', hx', hy', ha⟩ := hp
                rw [hjr, hgr] at hy'
                cases hy'
                have hx0 := (heightsFit_get hf hx').1
                have h1 : ((r : Int) - (i : Int)) * min x' y ≤ ((r : Int) - (l : Int)) * y :=
                  mul_le_mul (by omega) (min_le_right _ _) (le_min hx0 hr0) hw0
                rw [min_eq_right (not_lt.1 hlt)]
                rw [ha, hjr]
                exact le_trans h1 (le_max_right _ _)
              · right
                exact ⟨h.1, by omega⟩)
        obtain ⟨h1, h2⟩ := hfin res hle hatt
        exact ⟨res, hrun, h1, hub, h2⟩
    · rw [if_neg hc]
      refine ⟨m, rfl, le_refl _, ?_, Or.inl rfl⟩
      intro i j a hp
      rcases hbr i j a hp with h | h
      · exact h
      · have := hp.1
        omega

/-- C20 as amended: for non-negative heights with `h * len(heights) ≤ 2^53` for
every height `h` (so that the float64 round trips of `math.Min` and `math.Max`
are exact), `ContainerWithMostWater` returns a value that bounds the area
`(j - i) * min(heights[i], heights[j])` of every pair `i < j`, that is 0 when
there are fewer than two heights, and that is the area of some pair otherwise. -/
theorem containerWithMostWater_max (heights : List Int) (hf : HeightsFit heights) :
    ∃ m, ContainerWithMostWater heights = .ok m ∧
      (∀ i j a, AreaAt heights i j a → a ≤ m) ∧
      (heights.length < 2 → m = 0) ∧
      (2 ≤ heights.length → ∃ i j, AreaAt heights i j m) := by
  obtain ⟨res, hrun, hle, hub, hatt⟩ := containerLoop_spec heights hf heights.length 0
    ((heights.length : Int) - 1) 0 (by omega) (by push_cast; omega) (le_refl _) (by decide) (by
      intro i j a hp
      right
      obtain ⟨hij, x, y, hx, hy, _⟩ := hp
      have hj : j < heights.length := by
        rcases Nat.lt_or_ge j heights.length with h | h
        · exact h
        · rw [List.getElem?_eq_none h] at hy
          cases hy
      omega)
  refine ⟨res, hrun, hub, ?_, ?_⟩
  · intro hlen
    rcases hatt with h | ⟨i, j, hp⟩
    · exact h
    · exfalso
      obtain ⟨hij, x, y, hx, hy, _⟩ := hp
      have hj : j < heights.length := by
        rcases Nat.lt_or_ge j heights.length with h | h
        · exact h
        · rw [List.getElem?_eq_none h] at hy
          cases hy
      omega
  · intro hlen
    rcases hatt with h | h
    · have h0 : 0 < heights.length := by omega
      have h1 : 1 < heights.length := by omega
      have hA : AreaAt heights 0 1 ((((1 : Nat) : Int) - ((0 : Nat) : Int)) * min heights[0] heights[1]) :=
        ⟨by decide, heights[0], heights[1], List.getElem?_eq_getElem h0,
          List.getElem?_eq_getElem h1, rfl⟩
      have h2 := hub 0 1 _ hA
      have h3 : 0 ≤ min heights[0] heights[1] :=
        le_min (hf _ (List.getElem_mem h0)).1 (hf _ (List.getElem_mem h1)).1
      have h4 : (((1 : Nat) : Int) - ((0 : Nat) : Int)) * min heights[0] heights[1] = res := by
        push_cast at h2 ⊢
        omega
      exact ⟨0, 1, h4 ▸ hA⟩
    · exact h

/-- C20 as amended, on the heights `[1,8,6,2,5,4,8,3,7]`. -/
theorem containerWithMostWater_max_witness :
    ContainerWithMostWater [1, 8, 6, 2, 5, 4, 8, 3, 7] = .ok 49 ∧
    ∃ m, ContainerWithMostWater [1, 8, 6, 2, 5, 4, 8, 3, 7] = .ok m ∧
      (∀ i j a, AreaAt [1, 8, 6, 2, 5, 4, 8, 3, 7] i j a → a ≤ m) ∧
      (([1, 8, 6, 2, 5, 4, 8, 3, 7] : List Int).length < 2 → m = 0) ∧
      (2 ≤ ([1, 8, 6, 2, 5, 4, 8, 3, 7] : List Int).length →
        ∃ i j, AreaAt [1, 8, 6, 2, 5, 4, 8, 3, 7] i j m) :=
  ⟨by decide, containerWithMostWater_max [1, 8, 6, 2, 5, 4, 8, 3, 7]
    (by simp [HeightsFit, exactBound])⟩

/-! ## SortColors -/

theorem swapAt_swapList (nums : List Int) (i j : Nat) (hi : i < nums.length)
    (hj : j < nums.length) : swapAt nums (i : Int) (j : Int) = .ok (swapList nums i j) := by
  unfold swapAt swapList
  rw [sliceGet_nat nums j _ (List.getElem?_eq_getElem hj),
    sliceGet_nat nums i _ (List.getElem?_eq_getElem hi)]
  simp only [bind, Except.bind]
  rw [sliceSet_cast _ _ _ hi]
  simp only []
  rw [sliceSet_cast _ _ _ (by rw [List.length_set]; exact hj)]
  rw [List.getElem?_eq_getElem hi, List.getElem?_eq_getElem hj]

theorem colors_perm {a b : List Int} (h : a.Perm b) (hc : Colors b) : Colors a :=
  fun x hx => hc x (h.subset hx)

/-- The loop of `SortColors` from a state that satisfies `FlagInv`, with `hi`
one above the pointer `high`. -/
theorem sortColorsLoop_spec : ∀ (fuel : Nat) (nums : List Int) (low mid hi : Nat),
    FlagInv nums low mid hi → hi - mid ≤ fuel →
    ∃ res, sortColorsLoop fuel nums low mid ((hi : Int) - 1) = .ok res ∧ res.Perm nums ∧
      ∃ low' mid', FlagInv res low' mid' mid' := by
  intro fuel
  induction fuel with
  | zero =>
    intro nums low mid hi hinv hf
    have h1 := hinv.2.1
    have : mid = hi := by omega
    subst this
    refine ⟨nums, ?_, List.Perm.refl _, low, mid, hinv⟩
    unfold sortColorsLoop
    rw [if_neg (by omega)]
  | succ fuel ih =>
    intro nums low mid hi hinv hf
    obtain ⟨hlm, hmh, hhl, hcol, h0, h1, h2⟩ := hinv
    unfold sortColorsLoop
    by_cases hc : (mid : Int) ≤ (hi : Int) - 1
    · rw [if_pos hc]
      have hmid : mid < nums.length := by omega
      have hgm : nums[mid]? = some nums[mid] := List.getElem?_eq_getElem hmid
      rw [sliceGet_nat nums mid _ hgm]
      simp only [bind, Except.bind]
      have hv := hcol _ (List.getElem_mem hmid)
      generalize nums[mid] = v at hgm hv
      have hlow : low < nums.length := by omega
      rcases hv with rfl | rfl | rfl
      · rw [if_pos rfl, swapAt_swapList nums low mid hlow hmid]
        simp only []
        have hcol' : Colors (swapList nums low mid) := colors_perm (swapList_perm _ _ _) hcol
        have hget := swapList_getElem? nums low mid
        have e1 : ((low : Int) + 1) = ((low + 1 : Nat) : Int) := by push_cast; rfl
        have e2 : ((mid : Int) + 1) = ((mid + 1 : Nat) : Int) := by push_cast; rfl
        rw [e1, e2]
        suffices hinv' : FlagInv (swapList nums low mid) (low + 1) (mid + 1) hi by
          obtain ⟨res, hrun, hperm, hfin⟩ := ih _ _ _ _ hinv' (by omega)
          exact ⟨res, hrun, hperm.trans (swapList_perm _ _ _), hfin⟩
        refine ⟨by omega, by omega, by rw [swapList_length]; exact hhl, hcol', ?_, ?_, ?_⟩
        · intro i x hi' hx
          rw [hget i hlow hmid] at hx
          by_cases him : i = mid
          · rw [if_pos him] at hx
            have : low = mid := by omega
            rw [this, hgm] at hx
            cases hx
            rfl
          · rw [if_neg him] at hx
            by_cases hil : i = low
            · rw [if_pos hil, hgm] at hx
              cases hx
              rfl
            · rw [if_neg hil] at hx
              exact h0 i x (by omega) hx
        · intro i x hi1 hi2 hx
          rw [hget i hlow hmid] at hx
          by_cases him : i = mid
          · rw [if_pos him] at hx
            exact h1 low x (le_refl _) (by omega) hx
          · rw [if_neg him] at hx
            have hil : ¬ i = low := by omega
            rw [if_neg hil] at hx
            exact h1 i x (by omega) (by omega) hx
        · intro i x hi1 hx
          rw [hget i hlow hmid] at hx
          have him : ¬ i = mid := by omega
          have hil : ¬ i = low := by omega
          rw [if_neg him, if_neg hil] at hx
          exact h2 i x hi1 hx
      · rw [if_neg (by decide), if_pos rfl]
        have e2 : ((mid : Int) + 1) = ((mid + 1 : Nat) : Int) := by push_cast; rfl
        rw [e2]
        suffices hinv' : FlagInv nums low (mid + 1) hi from ih _ _ _ _ hinv' (by omega)
        refine ⟨by omega, by omega, hhl, hcol, h0, ?_, h2⟩
        intro i x hi1 hi2 hx
        by_cases him : i = mid
        · rw [him, hgm] at hx
          cases hx
          rfl
        · exact h1 i x hi1 (by omega) hx
      · rw [if_neg (by decide), if_neg (by decide), if_pos rfl]
        have hhi : hi - 1 < nums.length := by omega
        have e3 : (hi : Int) - 1 = ((hi - 1 : Nat) : Int) := by omega
        rw [e3, swapAt_swapList nums mid (hi - 1) hmid hhi]
        simp only []
        have hcol' : Colors (swapList nums mid (hi - 1)) :=
          colors_perm (swapList_perm _ _ _) hcol
        have hget := swapList_getElem? nums mid (hi - 1)
        suffices hinv' : FlagInv (swapList nums mid (hi - 1)) low mid (hi - 1) by
          obtain ⟨res, hrun, hperm, hfin⟩ := ih _ _ _ _ hinv' (by omega)
          exact ⟨res, hrun, hperm.trans (swapList_perm _ _ _), hfin⟩
        refine ⟨hlm, by omega, by rw [swapList_length]; omega, hcol', ?_, ?_, ?_⟩
        · intro i x hi' hx
          rw [hget i hmid hhi] at hx
          have h3 : ¬ i = hi - 1 := by omega
          have h4 : ¬ i = mid := by omega
          rw [if_neg h3, if_neg h4] at hx
          exact h0 i x hi' hx
        · intro i x hi1 hi2 hx
          rw [hget i hmid hhi] at hx
          have h3 : ¬ i = hi - 1 := by omega
          have h4 : ¬ i = mid := by omega
          rw [if_neg h3, if_neg h4] at hx
          exact h1 i x hi1 hi2 hx
        · intro i x hi1 hx
          rw [hget i hmid hhi] at hx
          by_cases h3 : i = hi - 1
          · rw [if_pos h3, hgm] at hx
            cases hx
            rfl
          · rw [if_neg h3] at hx
            have h4 : ¬ i = mid := by omega
            rw [if_neg h4] at hx
            exact h2 i x (by omega) hx
    · rw [if_neg hc]
      have : mid = hi := by omega
      subst this
      exact ⟨nums, rfl, List.Perm.refl _, low, mid, hlm, hmh, hhl, hcol, h0, h1, h2⟩

/-- C22: on every slice of values 0, 1 and 2, `SortColors` terminates and
leaves the slice in non-decreasing order and a permutation of its original
contents, so with the same number of 0s, 1s and 2s. -/
theorem sortColors_sorts (nums : List Int) (hc : Colors nums) :
    ∃ res, SortColors nums = .ok res ∧ res.Pairwise (· ≤ ·) ∧ res.Perm nums ∧
      ∀ x, res.count x = nums.count x := by
  obtain ⟨res, hrun, hperm, low, mid, hinv⟩ := sortColorsLoop_spec nums.length nums 0 0
    nums.length ⟨le_refl _, Nat.zero_le _, le_refl _, hc, by intro i x hi; omega,
      by intro i x h1 h2; omega, by
        intro i x hi hx
        rw [List.getElem?_eq_none hi] at hx
        cases hx⟩ (by omega)
  refine ⟨res, hrun, ?_, hperm, fun x => hperm.count_eq x⟩
  obtain ⟨hlm, _, _, _, h0, h1, h2⟩ := hinv
  rw [List.pairwise_iff_getElem]
  intro i j hi hj hij
  have hxi := List.getElem?_eq_getElem hi
  have hxj := List.getElem?_eq_getElem hj
  by_cases hi0 : i < low
  · rw [h0 i _ hi0 hxi]
    by_cases hj0 : j < low
    · rw [h0 j _ hj0 hxj]
    · by_cases hj1 : j < mid
      · rw [h1 j _ (by omega) hj1 hxj]
        decide
      · rw [h2 j _ (by omega) hxj]
        decide
  · by_cases hi1 : i < mid
    · rw [h1 i _ (by omega) hi1 hxi]
      by_cases hj1 : j < mid
      · rw [h1 j _ (by omega) hj1 hxj]
      · rw [h2 j _ (by omega) hxj]
        decide
    · rw [h2 i _ (by omega) hxi, h2 j _ (by omega) hxj]

/-- C22 on `[2,0,2,1,1,0]`. -/
theorem sortColors_sorts_witness :
    SortColors [2, 0, 2, 1, 1, 0] = .ok [0, 0, 1, 1, 2, 2] ∧
    ∃ res, SortColors [2, 0, 2, 1, 1, 0] = .ok res ∧ res.Pairwise (· ≤ ·) ∧
      res.Perm [2, 0, 2, 1, 1, 0] ∧
      ∀ x, res.count x = ([2, 0, 2, 1, 1, 0] : List Int).count x :=
  ⟨by decide, sortColors_sorts [2, 0, 2, 1, 1, 0] (by decide)⟩

/-! ## ThreeSum -/

/-- C21 fails on the code: the sum `nums[i] + nums[left] + nums[right]` is
computed on 64-bit `int`s. For `[MinInt64, MinInt64, 0]` it wraps to 0, so
`ThreeSum` returns the triple `[MinInt64, MinInt64, 0]`, whose sum is `-2^64`. -/
theorem threeSum_counterexample :
    ThreeSum [-9223372036854775808, -9223372036854775808, 0]
      = .ok [[-9223372036854775808, -9223372036854775808, 0]] ∧
    (-9223372036854775808 : Int) + -9223372036854775808 + 0 ≠ 0 :=
  ⟨by decide, by decide⟩

theorem elemAt_get (s : List Int) (p : Nat) (h : p < s.length) :
    s[p]? = some (elemAt s p) := by
  unfold elemAt
  rw [List.getD_eq_getElem _ _ h, List.getElem?_eq_getElem h]

theorem elemAt_of_get (s : List Int) (p : Nat) (x : Int) (h : s[p]? = some x) :
    elemAt s p = x := by
  unfold elemAt
  rw [List.getD_eq_getElem?_getD, h]
  rfl

theorem elemAt_mono (s : List Int) (hs : Ascending s) (p q : Nat) (hpq : p ≤ q)
    (hq : q < s.length) : elemAt s p ≤ elemAt s q :=
  ascending_le hs hpq (elemAt_get s p (by omega)) (elemAt_get s q hq)

/-- A rearrangement moves positions injectively. -/
theorem perm_positions {l₁ l₂ : List Int} (h : l₁.Perm l₂) :
    ∃ f : Nat → Nat, (∀ i, i < l₁.length → l₂[f i]? = l₁[i]?) ∧
      (∀ i j, i < l₁.length → j < l₁.length → f i = f j → i = j) := by
  induction h with
  | nil => exact ⟨id, by intro i hi; simp at hi, by intro i j hi; simp at hi⟩
  | cons x _ ih =>
    obtain ⟨f, hf1, hf2⟩ := ih
    refine ⟨fun i => match i with | 0 => 0 | i + 1 => f i + 1, ?_, ?_⟩
    · intro i hi
      cases i with
      | zero => simp
      | succ i =>
        simp only [List.getElem?_cons_succ]
        exact hf1 i (by simpa using hi)
    · intro i j hi hj hij
      cases i with
      | zero =>
        cases j with
        | zero => rfl
        | succ j => simp at hij
      | succ i =>
        cases j with
        | zero => simp at hij
        | succ j =>
          simp only [Nat.add_right_cancel_iff] at hij
          rw [hf2 i j (by simpa using hi) (by simpa using hj) hij]
  | swap x y l =>
    refine ⟨fun i => match i with | 0 => 1 | 1 => 0 | i + 2 => i + 2, ?_, ?_⟩
    · intro i hi
      match i with
      | 0 => simp
      | 1 => simp
      | i + 2 => simp
    · intro i j _ _ hij
      match i, j with
      | 0, 0 => rfl
      | 0, 1 => simp at hij
      | 0, j + 2 => simp at hij
      | 1, 0 => simp at hij
      | 1, 1 => rfl
      | 1, j + 2 => simp at hij
      | i + 2, 0 => simp at hij
      | i + 2, 1 => simp at hij
      | i + 2, j + 2 => simpa using hij
  | @trans u v w _ _ ih₁ ih₂ =>
    obtain ⟨f, hf1, hf2⟩ := ih₁
    obtain ⟨g, hg1, hg2⟩ := ih₂
    have hrange : ∀ i, i < u.length → f i < v.length := by
      intro i hi
      have := hf1 i hi
      rw [List.getElem?_eq_getElem hi] at this
      exact (List.getElem?_eq_some.1 this).1
    refine ⟨fun i => g (f i), ?_, ?_⟩
    · intro i hi
      rw [hg1 (f i) (hrange i hi), hf1 i hi]
    · intro i j hi hj hij
      exact hf2 i j hi hj (hg2 _ _ (hrange i hi) (hrange j hj) hij)

theorem tripleAt_perm {l₁ l₂ : List Int} (h : l₁.Perm l₂) (a b c : Int)
    (ht : TripleAt l₁ a b c) : TripleAt l₂ a b c := by
  obtain ⟨f, hf1, hf2⟩ := perm_positions h
  obtain ⟨i, j, k, hij, hik, hjk, hi, hj, hk⟩ := ht
  have hil := (List.getElem?_eq_some.1 hi).1
  have hjl := (List.getElem?_eq_some.1 hj).1
  have hkl := (List.getElem?_eq_some.1 hk).1
  refine ⟨f i, f j, f k, fun e => hij (hf2 i j hil hjl e), fun e => hik (hf2 i k hil hkl e),
    fun e => hjk (hf2 j k hjl hkl e), ?_, ?_, ?_⟩
  · rw [hf1 i hil, hi]
  · rw [hf1 j hjl, hj]
  · rw [hf1 k hkl, hk]

/-- In a sorted slice, values `a ≤ b ≤ c` at three distinct positions also
stand at three increasing positions. -/
theorem tripleAt_sorted (s : List Int) (hs : Ascending s) (a b c : Int) (hab : a ≤ b)
    (hbc : b ≤ c) (h : TripleAt s a b c) :
    ∃ p q r : Nat, p < q ∧ q < r ∧ s[p]? = some a ∧ s[q]? = some b ∧ s[r]? = some c := by
  obtain ⟨i, j, k, hij, hik, hjk, hi, hj, hk⟩ := h
  rcases Nat.lt_or_gt_of_ne hij with h1 | h1
  · rcases Nat.lt_or_gt_of_ne hjk with h2 | h2
    · exact ⟨i, j, k, h1, h2, hi, hj, hk⟩
    · rcases Nat.lt_or_gt_of_ne hik with h3 | h3
      · have := ascending_le hs (Nat.le_of_lt h2) hk hj
        have hbc' : b = c := by omega
        subst hbc'
        exact ⟨i, k, j, h3, h2, hi, hk, hj⟩
      · have := ascending_le hs (Nat.le_of_lt h3) hk hi
        have e1 : a = b := by omega
        have e2 : b = c := by omega
        subst e1
        subst e2
        exact ⟨k, i, j, h3, h1, hk, hi, hj⟩
  · rcases Nat.lt_or_gt_of_ne hik with h3 | h3
    · have := ascending_le hs (Nat.le_of_lt h1) hj hi
      have e1 : a = b := by omega
      subst e1
      exact ⟨j, i, k, h1, h3, hj, hi, hk⟩
    · rcases Nat.lt_or_gt_of_ne hjk with h2 | h2
      · have := ascending_le hs (Nat.le_of_lt h3) hk hi
        have e1 : a = b := by omega
        have e2 : b = c := by omega
        subst e1
        subst e2
        exact ⟨j, k, i, h2, h3, hj, hk, hi⟩
      · have := ascending_le hs (Nat.le_of_lt h3) hk hi
        have e1 : a = b := by omega
        have e2 : b = c := by omega
        subst e1
        subst e2
        exact ⟨k, j, i, h2, h1, hk, hj, hi⟩

theorem skipLeft_spec (s : List Int) (r : Nat) (hr : r < s.length) :
    ∀ (fuel l : Nat), l ≤ r → r - l ≤ fuel →
    ∃ l' : Nat, skipLeft s (r : Int) fuel (l : Int) = .ok (l' : Int) ∧ l ≤ l' ∧ l' ≤ r ∧
      elemAt s l' = elemAt s l ∧ (l' < r → elemAt s l' ≠ elemAt s (l' + 1)) := by
  intro fuel
  induction fuel with
  | zero =>
    intro l hl hf
    have : l = r := by omega
    subst this
    refine ⟨l, ?_, le_refl _, le_refl _, rfl, fun h => absurd h (lt_irrefl _)⟩
    unfold skipLeft
    rw [if_neg (lt_irrefl _)]
  | succ fuel ih =>
    intro l hl hf
    unfold skipLeft
    by_cases hc : (l : Int) < (r : Int)
    · rw [if_pos hc]
      have hlr : l < r := by omega
      rw [sliceGet_nat s l _ (elemAt_get s l (by omega))]
      have e1 : (l : Int) + 1 = ((l + 1 : Nat) : Int) := by push_cast; rfl
      rw [e1, sliceGet_nat s (l + 1) _ (elemAt_get s (l + 1) (by omega))]
      simp only [bind, Except.bind]
      by_cases heq : elemAt s l = elemAt s (l + 1)
      · rw [if_pos heq]
        obtain ⟨l', h1, h2, h3, h4, h5⟩ := ih (l + 1) (by omega) (by omega)
        exact ⟨l', h1, by omega, h3, by rw [h4, heq], h5⟩
      · rw [if_neg heq]
        exact ⟨l, rfl, le_refl _, hl, rfl, fun _ => heq⟩
    · rw [if_neg hc]
      have : l = r := by omega
      subst this
      exact ⟨l, rfl, le_refl _, le_refl _, rfl, fun h => absurd h (lt_irrefl _)⟩

theorem skipRight_spec (s : List Int) (l : Nat) :
    ∀ (fuel r : Nat), l ≤ r → r < s.length → r - l ≤ fuel →
    ∃ r' : Nat, skipRight s (l : Int) fuel (r : Int) = .ok (r' : Int) ∧ l ≤ r' ∧ r' ≤ r ∧
      elemAt s r' = elemAt s r ∧ (l < r' → elemAt s r' ≠ elemAt s (r' - 1)) := by
  intro fuel
  induction fuel with
  | zero =>
    intro r hl hr hf
    have : r = l := by omega
    subst this
    refine ⟨r, ?_, le_refl _, le_refl _, rfl, fun h => absurd h (lt_irrefl _)⟩
    unfold skipRight
    rw [if_neg (lt_irrefl _)]
  | succ fuel ih =>
    intro r hl hr hf
    unfold skipRight
    by_cases hc : (l : Int) < (r : Int)
    · rw [if_pos hc]
      have hlr : l < r := by omega
      rw [sliceGet_nat s r _ (elemAt_get s r hr)]
      have e1 : (r : Int) - 1 = ((r - 1 : Nat) : Int) := by omega
      rw [e1, sliceGet_nat s (r - 1) _ (elemAt_get s (r - 1) (by omega))]
      simp only [bind, Except.bind]
      by_cases heq : elemAt s r = elemAt s (r - 1)
      · rw [if_pos heq]
        obtain ⟨r', h1, h2, h3, h4, h5⟩ := ih (r - 1) (by omega) (by omega) (by omega)
        exact ⟨r', h1, h2, by omega, by rw [h4, heq], h5⟩
      · rw [if_neg heq]
        exact ⟨r, rfl, hl, le_refl _, rfl, fun _ => heq⟩
    · rw [if_neg hc]
      have : r = l := by omega
      subst this
      exact ⟨r, rfl, le_refl _, le_refl _, rfl, fun h => absurd h (lt_irrefl _)⟩

theorem elemAt_mem (s : List Int) (p : Nat) (h : p < s.length) : elemAt s p ∈ s :=
  List.getElem?_mem (elemAt_get s p h)

theorem tripleOf_mid (s : List Int) (p q r : Nat) : (tripleOf s p q r).getD 1 0 = elemAt s q := by
  simp [tripleOf]

/-- The two additions of `nums[i] + nums[left] + nums[right]` wrap like one:
when the sum of the three values fits, so does the result, whatever the
intermediate sum does. -/
theorem addInt_three (a b c : Int) (h0 : -9223372036854775808 ≤ a + b + c)
    (h1 : a + b + c ≤ 9223372036854775807) : addInt (addInt a b) c = a + b + c := by
  unfold addInt wrapInt
  omega

/-- The inner loop of `ThreeSum` for the first position `i`, from a state that
satisfies `InnerInv`: it appends to `result` the triples of the hits at `i` it
had not found yet. -/
theorem threeSumInner_spec (s : List Int) (hs : Ascending s) (hf : TriplesFit s) (i : Nat)
    (base : List (List Int)) :
    ∀ (fuel left : Nat) (right : Int) (found : List (List Int)),
    i < left → right < s.length → right - left < fuel → InnerInv s i left right found →
    ∃ found', threeSumInner s (i : Int) fuel (left : Int) right (base ++ found)
        = .ok (base ++ found') ∧
      (∀ t ∈ found', ∃ q r, Hit s i q r ∧ t = tripleOf s i q r) ∧ found'.Nodup ∧
      (∀ q r, Hit s i q r → tripleOf s i q r ∈ found') := by
  intro fuel
  induction fuel with
  | zero =>
    intro left right found hil hr hfuel hinv
    obtain ⟨h1, h2, _, h4⟩ := hinv
    refine ⟨found, ?_, h1, h2, ?_⟩
    · unfold threeSumInner
      rw [if_neg (by omega)]
    · intro q r hit
      rcases h4 q r hit with h | h
      · exact h
      · have := hit.2.1
        omega
  | succ fuel ih =>
    intro left right found hil hr hfuel hinv
    obtain ⟨h1, h2, h3, h4⟩ := hinv
    unfold threeSumInner
    by_cases hc : (left : Int) < right
    · rw [if_pos hc]
      obtain ⟨r, rfl⟩ : ∃ r : Nat, right = (r : Int) := ⟨right.toNat, by omega⟩
      have hlr : left < r := by omega
      have hrl : r < s.length := by omega
      rw [sliceGet_nat s i _ (elemAt_get s i (by omega)),
        sliceGet_nat s left _ (elemAt_get s left (by omega)),
        sliceGet_nat s r _ (elemAt_get s r hrl)]
      simp only [bind, Except.bind]
      have hfit : -9223372036854775808 ≤ elemAt s i + elemAt s left + elemAt s r ∧
          elemAt s i + elemAt s left + elemAt s r ≤ 9223372036854775807 :=
        hf r hrl left hlr i (by omega)
      rw [addInt_three _ _ _ hfit.1 hfit.2]
      by_cases hz : elemAt s i + elemAt s left + elemAt s r = 0
      · rw [if_pos hz]
        obtain ⟨l', hl1, hl2, hl3, hl4, hl5⟩ := skipLeft_spec s r hrl s.length left
          (by omega) (by omega)
        rw [hl1]
        simp only []
        obtain ⟨r', hr1, hr2, hr3, hr4, hr5⟩ := skipRight_spec s l' s.length r hl3 hrl
          (by omega)
        rw [hr1]
        simp only []
        have e1 : (l' : Int) + 1 = ((l' + 1 : Nat) : Int) := by push_cast; rfl
        rw [e1, List.append_assoc]
        have hhit : Hit s i left r := ⟨hil, hlr, hrl, hz⟩
        apply ih (l' + 1) ((r' : Int) - 1) (found ++ [[elemAt s i, elemAt s left, elemAt s r]])
          (by omega) (by omega) (by push_cast; omega)
        refine ⟨?_, ?_, ?_, ?_⟩
        · intro t ht
          rcases List.mem_append.1 ht with ht | ht
          · exact h1 t ht
          · rw [List.mem_singleton] at ht
            exact ⟨left, r, hhit, ht⟩
        · rw [List.nodup_append]
          refine ⟨h2, List.nodup_singleton _, ?_⟩
          intro t ht ht'
          rw [List.mem_singleton] at ht'
          have := h3 t ht left (le_refl _) (by omega)
          rw [ht'] at this
          simp at this
        · intro t ht q hq1 hq2
          have hlt : l' < r := by omega
          have hne := hl5 hlt
          have hm1 := elemAt_mono s hs l' (l' + 1) (by omega) (by omega)
          have hm2 := elemAt_mono s hs (l' + 1) q hq1 (by omega)
          rcases List.mem_append.1 ht with ht | ht
          · exact h3 t ht q (by omega) (by omega)
          · rw [List.mem_singleton] at ht
            rw [ht]
            simp only [List.getD_cons_succ, List.getD_cons_zero]
            omega
        · intro q r0 hit
          rcases h4 q r0 hit with h | ⟨hq, hr0⟩
          · exact Or.inl (List.mem_append_left _ h)
          · by_cases hin : l' + 1 ≤ q ∧ (r0 : Int) ≤ (r' : Int) - 1
            · exact Or.inr hin
            · left
              apply List.mem_append_right
              rw [List.mem_singleton]
              obtain ⟨hiq, hqr, hr0l, hsum⟩ := hit
              have hr0r : r0 ≤ r := by omega
              have hb : elemAt s q = elemAt s left ∧ elemAt s r0 = elemAt s r := by
                have m1 := elemAt_mono s hs left q hq (by omega)
                have m2 := elemAt_mono s hs r0 r hr0r hrl
                by_cases hql : q ≤ l'
                · have m3 := elemAt_mono s hs q l' hql (by omega)
                  omega
                · have hr' : r' ≤ r0 := by omega
                  have m3 := elemAt_mono s hs r' r0 hr' (by omega)
                  omega
              unfold tripleOf
              rw [hb.1, hb.2]
      · rw [if_neg hz]
        by_cases hneg : elemAt s i + elemAt s left + elemAt s r < 0
        · rw [if_pos hneg]
          have e1 : (left : Int) + 1 = ((left + 1 : Nat) : Int) := by push_cast; rfl
          rw [e1]
          apply ih (left + 1) (r : Int) found (by omega) hr (by push_cast; omega)
          refine ⟨h1, h2, fun t ht q hq1 hq2 => h3 t ht q (by omega) hq2, ?_⟩
          intro q r0 hit
          rcases h4 q r0 hit with h | ⟨hq, hr0⟩
          · exact Or.inl h
          · right
            refine ⟨?_, hr0⟩
            by_contra hcon
            have hql : q = left := by omega
            subst hql
            obtain ⟨_, _, _, hsum⟩ := hit
            have m2 := elemAt_mono s hs r0 r (by omega) hrl
            omega
        · rw [if_neg hneg]
          apply ih left ((r : Int) - 1) found hil (by omega) (by omega)
          refine ⟨h1, h2, fun t ht q hq1 hq2 => h3 t ht q hq1 (by omega), ?_⟩
          intro q r0 hit
          rcases h4 q r0 hit with h | ⟨hq, hr0⟩
          · exact Or.inl h
          · right
            refine ⟨hq, ?_⟩
            by_contra hcon
            have hrr : r0 = r := by omega
            subst hrr
            obtain ⟨_, _, _, hsum⟩ := hit
            have m1 := elemAt_mono s hs left q hq (by omega)
            omega
    · rw [if_neg hc]
      refine ⟨found, rfl, h1, h2, ?_⟩
      intro q r hit
      rcases h4 q r hit with h | h
      · exact h
      · have := hit.2.1
        omega

theorem sameAsPrevious_spec (s : List Int) (i : Nat) (hi : i < s.length) :
    sameAsPrevious s (i : Int)
      = .ok (decide (0 < i ∧ elemAt s i = elemAt s (i - 1))) := by
  unfold sameAsPrevious
  by_cases h0 : 0 < i
  · rw [if_pos (by omega)]
    have e1 : (i : Int) - 1 = ((i - 1 : Nat) : Int) := by omega
    rw [sliceGet_nat s i _ (elemAt_get s i hi), e1,
      sliceGet_nat s (i - 1) _ (elemAt_get s (i - 1) (by omega))]
    simp [bind, Except.bind, pure, Except.pure, h0]
  · rw [if_neg (by omega)]
    simp [pure, Except.pure, h0]

/-- The outer loop of `ThreeSum` from position `i`. -/
theorem threeSumOuter_spec (s : List Int) (hs : Ascending s) (hf : TriplesFit s) :
    ∀ (fuel i : Nat) (result : List (List Int)), s.length ≤ i + fuel + 2 →
    OuterInv s i result →
    ∃ res, threeSumOuter s fuel (i : Int) result = .ok res ∧
      (∀ t ∈ res, ∃ p q r, Hit s p q r ∧ t = tripleOf s p q r) ∧ res.Nodup ∧
      (∀ p q r, Hit s p q r → tripleOf s p q r ∈ res) := by
  intro fuel
  induction fuel with
  | zero =>
    intro i result hfuel hinv
    obtain ⟨o1, o2, o3⟩ := hinv
    refine ⟨result, ?_, ?_, o2, ?_⟩
    · unfold threeSumOuter
      rw [if_neg (by omega)]
    · intro t ht
      obtain ⟨p, q, r, _, h, e⟩ := o1 t ht
      exact ⟨p, q, r, h, e⟩
    · intro p q r hit
      exact o3 p q r (by have := hit.1; have := hit.2.1; have := hit.2.2.1; omega) hit
  | succ fuel ih =>
    intro i result hfuel hinv
    obtain ⟨o1, o2, o3⟩ := hinv
    unfold threeSumOuter
    by_cases hc : (i : Int) < (s.length : Int) - 2
    · rw [if_pos hc]
      have hi : i < s.length := by omega
      rw [sameAsPrevious_spec s i hi]
      simp only [bind, Except.bind]
      have e1 : (i : Int) + 1 = ((i + 1 : Nat) : Int) := by push_cast; rfl
      by_cases hskip : 0 < i ∧ elemAt s i = elemAt s (i - 1)
      · rw [decide_eq_true hskip]
        simp only [if_true]
        rw [e1]
        apply ih (i + 1) result (by omega)
        refine ⟨?_, o2, ?_⟩
        · intro t ht
          obtain ⟨p, q, r, hp, h, e⟩ := o1 t ht
          exact ⟨p, q, r, by omega, h, e⟩
        · intro p q r hp hit
          by_cases hpi : p = i
          · subst hpi
            obtain ⟨h1, h2, h3, h4⟩ := hit
            have := o3 (p - 1) q r (by omega) ⟨by omega, h2, h3, by rw [← hskip.2]; exact h4⟩
            unfold tripleOf at this ⊢
            rw [hskip.2]
            exact this
          · exact o3 p q r (by omega) hit
      · rw [decide_eq_false hskip]
        simp only [Bool.false_eq_true, if_false]
        have hstart : InnerInv s i (i + 1) ((s.length : Int) - 1) [] := by
          refine ⟨fun t ht => absurd ht (List.not_mem_nil t), List.nodup_nil,
            fun t ht => absurd ht (List.not_mem_nil t), ?_⟩
          intro q r hit
          right
          have := hit.1
          have := hit.2.2.1
          exact ⟨by omega, by omega⟩
        obtain ⟨found, hrun, f1, f2, f4⟩ := threeSumInner_spec s hs hf i result s.length
          (i + 1) ((s.length : Int) - 1) [] (by omega) (by omega) (by push_cast; omega) hstart
        rw [List.append_nil] at hrun
        rw [← e1] at hrun
        rw [hrun]
        simp only []
        rw [e1]
        apply ih (i + 1) (result ++ found) (by omega)
        refine ⟨?_, ?_, ?_⟩
        · intro t ht
          rcases List.mem_append.1 ht with ht | ht
          · obtain ⟨p, q, r, hp, h, e⟩ := o1 t ht
            exact ⟨p, q, r, by omega, h, e⟩
          · obtain ⟨q, r, h, e⟩ := f1 t ht
            exact ⟨i, q, r, by omega, h, e⟩
        · rw [List.nodup_append]
          refine ⟨o2, f2, ?_⟩
          intro t ht ht'
          obtain ⟨p, q, r, hp, h, e⟩ := o1 t ht
          obtain ⟨q', r', h', e'⟩ := f1 t ht'
          rw [e] at e'
          unfold tripleOf at e'
          have hhead : elemAt s p = elemAt s i := by
            injection e'
          have m1 := elemAt_mono s hs p (i - 1) (by omega) (by omega)
          have m2 := elemAt_mono s hs (i - 1) i (by omega) hi
          exact hskip ⟨by omega, by omega⟩
        · intro p q r hp hit
          by_cases hpi : p = i
          · subst hpi
            exact List.mem_append_right _ (f4 q r hit)
          · exact List.mem_append_left _ (o3 p q r (by omega) hit)
    · rw [if_neg hc]
      refine ⟨result, rfl, ?_, o2, ?_⟩
      · intro t ht
        obtain ⟨p, q, r, _, h, e⟩ := o1 t ht
        exact ⟨p, q, r, h, e⟩
      · intro p q r hit
        exact o3 p q r (by have := hit.1; have := hit.2.1; have := hit.2.2.1; omega) hit

theorem triplesFit_at (nums : List Int) (hf : TriplesFit nums) (a b c : Int)
    (h : TripleAt nums a b c) :
    -9223372036854775808 ≤ a + b + c ∧ a + b + c ≤ 9223372036854775807 := by
  obtain ⟨i, j, k, hij, hik, hjk, hi, hj, hk⟩ := h
  have hil := (List.getElem?_eq_some.1 hi).1
  have hjl := (List.getElem?_eq_some.1 hj).1
  have hkl := (List.getElem?_eq_some.1 hk).1
  have ea : nums.getD i 0 = a := elemAt_of_get nums i a hi
  have eb : nums.getD j 0 = b := elemAt_of_get nums j b hj
  have ec : nums.getD k 0 = c := elemAt_of_get nums k c hk
  rcases Nat.lt_or_gt_of_ne hij with h1 | h1
  · rcases Nat.lt_or_gt_of_ne hjk with h2 | h2
    · have := hf k hkl j h2 i h1
      rw [ea, eb, ec] at this
      omega
    · rcases Nat.lt_or_gt_of_ne hik with h3 | h3
      · have := hf j hjl k h2 i h3
        rw [ea, eb, ec] at this
        omega
      · have := hf j hjl i h1 k h3
        rw [ea, eb, ec] at this
        omega
  · rcases Nat.lt_or_gt_of_ne hjk with h2 | h2
    · rcases Nat.lt_or_gt_of_ne hik with h3 | h3
      · have := hf k hkl i h3 j h1
        rw [ea, eb, ec] at this
        omega
      · have := hf i hil k h3 j h2
        rw [ea, eb, ec] at this
        omega
    · have := hf i hil j h1 k h2
      rw [ea, eb, ec] at this
      omega

/-- C21 as amended: for every integer array in which no sum of the elements at
three different positions overflows a 64-bit `int`, `ThreeSum` returns a list without
repetition whose members are exactly the triples `[a, b, c]` with `a ≤ b ≤ c`
and `a + b + c = 0` made of elements at three distinct positions of `nums`. -/
theorem threeSum_triples (nums : List Int) (hf : TriplesFit nums) :
    ∃ res, ThreeSum nums = .ok res ∧ res.Nodup ∧ ∀ t, t ∈ res ↔ ZeroTriple nums t := by
  have hperm : (sortInts nums).Perm nums := List.perm_insertionSort _ _
  have hs : Ascending (sortInts nums) := List.sorted_insertionSort _ _
  have hf' : TriplesFit (sortInts nums) := by
    intro k hk j hjk i hij
    exact triplesFit_at nums hf _ _ _ (tripleAt_perm hperm _ _ _
      ⟨i, j, k, by omega, by omega, by omega, elemAt_get _ i (by omega),
        elemAt_get _ j (by omega), elemAt_get _ k hk⟩)
  obtain ⟨res, hrun, r1, r2, r3⟩ := threeSumOuter_spec (sortInts nums) hs hf'
    (sortInts nums).length 0 [] (by omega)
    ⟨fun t ht => absurd ht (List.not_mem_nil t), List.nodup_nil,
      fun p q r hp => absurd hp (Nat.not_lt_zero p)⟩
  refine ⟨res, hrun, r2, ?_⟩
  intro t
  constructor
  · intro ht
    obtain ⟨p, q, r, ⟨hpq, hqr, hrl, hsum⟩, e⟩ := r1 t ht
    refine ⟨_, _, _, e, elemAt_mono _ hs p q (by omega) (by omega),
      elemAt_mono _ hs q r (by omega) hrl, hsum, ?_⟩
    apply tripleAt_perm hperm
    exact ⟨p, q, r, by omega, by omega, by omega, elemAt_get _ p (by omega),
      elemAt_get _ q (by omega), elemAt_get _ r hrl⟩
  · rintro ⟨a, b, c, e, hab, hbc, hsum, hat⟩
    obtain ⟨p, q, r, hpq, hqr, hp, hq, hr⟩ := tripleAt_sorted _ hs a b c hab hbc
      (tripleAt_perm hperm.symm a b c hat)
    have hrl := (List.getElem?_eq_some.1 hr).1
    have ea := elemAt_of_get _ p a hp
    have eb := elemAt_of_get _ q b hq
    have ec := elemAt_of_get _ r c hr
    have := r3 p q r ⟨hpq, hqr, hrl, by rw [ea, eb, ec]; exact hsum⟩
    unfold tripleOf at this
    rw [ea, eb, ec] at this
    rw [e]
    exact this

/-- The bounds on sums concern different positions only: arrays whose single
pair or triple fits satisfy them, however large an element is. -/
theorem fits_examples :
    SumsFit [1, 4611686018427387904] ∧ SumsFit [9223372036854775807] ∧
    TriplesFit [-1, 0, 3074457345618258603] ∧
    TriplesFit [9223372036854775807, 9223372036854775807] := by decide

/-- C21 as amended, on `[-1,0,1,2,-1,-4]`. -/
theorem threeSum_triples_witness :
    ThreeSum [-1, 0, 1, 2, -1, -4] = .ok [[-1, -1, 2], [-1, 0, 1]] ∧
    ∃ res, ThreeSum [-1, 0, 1, 2, -1, -4] = .ok res ∧ res.Nodup ∧
      ∀ t, t ∈ res ↔ ZeroTriple [-1, 0, 1, 2, -1, -4] t :=
  ⟨by decide, threeSum_triples [-1, 0, 1, 2, -1, -4] (by decide)⟩

end TwoPointer

namespace SlidingWindow

open DijkstraOtimizado GoRuntime

/-! # Theorems on the sliding-window algorithms -/

/-! ## MaxSumSubarrayVariable -/

/-- C16 fails on the code: for `nums = [-1, 2]` and `target = 5` the subarray
`[2]` has sum 2, which is at most 5, but `MaxSumSubarrayVariable` returns 1 (the
sum of the whole array): the window is only ever shrunk when its sum exceeds
the target, so a negative element at its left end is never dropped. On the
sample of the demonstration `[1, 2, 3, 4, 5]`, `8` the answer is 7. -/
theorem maxSumSubarrayVariable_negative_element :
    MaxSumSubarrayVariable [-1, 2] 5 = .ok 1 ∧
    ([2] : List Int) <:+: [-1, 2] ∧ ([2] : List Int).sum ≤ 5 ∧ 1 < ([2] : List Int).sum ∧
    MaxSumSubarrayVariable [1, 2, 3, 4, 5] 8 = .ok 7 :=
  ⟨by decide, ⟨[-1], [], rfl⟩, by decide, by decide, by decide⟩

/-! ## FindAnagrams -/

theorem arraysEqualFrom_iff : ∀ (a b : List Int), a.length = b.length →
    (arraysEqualFrom a b = true ↔ a = b)
  | [], [], _ => by simp [arraysEqualFrom]
  | [], _ :: _, h => by simp at h
  | _ :: _, [], h => by simp at h
  | x :: a, y :: b, h => by
    have ih := arraysEqualFrom_iff a b (by simpa using h)
    unfold arraysEqualFrom
    by_cases hxy : x = y
    · simp [hxy, ih]
    · simp [hxy]

theorem arraysEqual_iff (a b : List Int) : arraysEqual a b = true ↔ a = b := by
  unfold arraysEqual
  by_cases h : a.length = b.length
  · simp only [ne_eq, h, not_true_eq_false, if_false]
    exact arraysEqualFrom_iff a b h
  · simp only [ne_eq, h, not_false_eq_true, if_true]
    constructor
    · intro h'
      cases h'
    · intro h'
      exact absurd (congrArg List.length h') h

theorem tally_length (f : Nat → Int) : (tally f).length = 26 := by
  simp [tally]

theorem tally_get (f : Nat → Int) (j : Nat) (h : j < 26) : (tally f)[j]? = some (f j) := by
  simp [tally, List.getElem?_map, List.getElem?_range h]

theorem tally_congr (f g : Nat → Int) : tally f = tally g ↔ ∀ j < 26, f j = g j := by
  unfold tally
  constructor
  · intro h j hj
    have := List.map_inj_left.1 h j (List.mem_range.2 hj)
    exact this
  · intro h
    exact List.map_congr_left (fun j hj => h j (List.mem_range.1 hj))

theorem bump_tally (f : Nat → Int) (c : Char) (d : Int)
    (hc : 97 ≤ c.toNat ∧ c.toNat ≤ 122) :
    bump (tally f) c d = .ok (tally (fun j => if j = c.toNat - 97 then f j + d else f j)) := by
  unfold bump
  have hi : (c.toNat : Int) - 97 = ((c.toNat - 97 : Nat) : Int) := by omega
  have hlt : c.toNat - 97 < 26 := by omega
  simp only [hi]
  rw [sliceGet_cast _ _ _ (tally_get f _ hlt)]
  simp only [bind, Except.bind]
  rw [sliceSet_cast _ _ _ (by rw [tally_length]; exact hlt)]
  congr 1
  apply List.ext_getElem?
  intro j
  by_cases hj : j < 26
  · rw [tally_get _ _ hj, List.getElem?_set]
    by_cases hjc : c.toNat - 97 = j
    · subst hjc
      simp [tally_length, hlt, tally_get f _ hlt]
    · have hjc' : ¬ j = c.toNat - 97 := fun h => hjc h.symm
      simp [hjc, hjc', tally_get f _ hj]
  · have h1 : (tally (fun j => if j = c.toNat - 97 then f j + d else f j)).length ≤ j := by
      rw [tally_length]; omega
    have h2 : ((tally f).set (c.toNat - 97) (f (c.toNat - 97) + d)).length ≤ j := by
      rw [List.length_set, tally_length]; omega
    rw [List.getElem?_eq_none h1, List.getElem?_eq_none h2]

theorem bump_push (w : List Char) (c : Char) (hc : 97 ≤ c.toNat ∧ c.toNat ≤ 122) :
    bump (letterCounts w) c 1 = .ok (letterCounts (w ++ [c])) := by
  unfold letterCounts
  rw [bump_tally _ c 1 hc]
  congr 1
  rw [tally_congr]
  intro j hj
  by_cases h : j = c.toNat - 97
  · subst h
    have h2 : 97 + (c.toNat - 97) = c.toNat := by omega
    simp [List.countP_append, List.countP_cons, h2]
  · have h' : ¬ c.toNat = 97 + j := by omega
    simp [List.countP_append, List.countP_cons, h, h']

theorem bump_pop (w : List Char) (c : Char) (hc : 97 ≤ c.toNat ∧ c.toNat ≤ 122) :
    bump (letterCounts (c :: w)) c (-1) = .ok (letterCounts w) := by
  unfold letterCounts
  rw [bump_tally _ c (-1) hc]
  congr 1
  rw [tally_congr]
  intro j hj
  by_cases h : j = c.toNat - 97
  · subst h
    have h2 : 97 + (c.toNat - 97) = c.toNat := by omega
    simp [List.countP_cons, h2]
  · have h' : ¬ c.toNat = 97 + j := by omega
    simp [List.countP_cons, h, h']

theorem countPattern_spec : ∀ (p acc : List Char), Lowercase p →
    countPattern p (letterCounts acc) = .ok (letterCounts (acc ++ p))
  | [], acc, _ => by simp [countPattern]
  | c :: rest, acc, hp => by
    unfold countPattern
    rw [bump_push acc c (hp c (List.mem_cons_self _ _))]
    simp only [bind, Except.bind]
    rw [countPattern_spec rest (acc ++ [c]) (fun x hx => hp x (List.mem_cons_of_mem _ hx))]
    simp

theorem letterCounts_nil : letterCounts [] = List.replicate 26 0 := by
  decide

theorem char_eq_of_toNat (c a : Char) (h : c.toNat = a.toNat) : c = a :=
  Char.ext (UInt32.ext h)

theorem letterCounts_eq_iff (w p : List Char) (hw : Lowercase w) (hp : Lowercase p) :
    letterCounts w = letterCounts p ↔ List.Perm w p := by
  unfold letterCounts
  rw [tally_congr, List.perm_iff_count]
  constructor
  · intro h a
    by_cases ha : 97 ≤ a.toNat ∧ a.toNat ≤ 122
    · have h1 := h (a.toNat - 97) (by omega)
      have h2 : 97 + (a.toNat - 97) = a.toNat := by omega
      rw [h2] at h1
      have hcnt : ∀ l : List Char, l.countP (fun c => c.toNat == a.toNat) = l.count a := by
        intro l
        unfold List.count
        apply List.countP_congr
        intro c _
        simp only [beq_iff_eq]
        constructor
        · intro hc
          exact char_eq_of_toNat c a hc
        · intro hc
          rw [hc]
      rw [hcnt, hcnt] at h1
      exact_mod_cast h1
    · have h1 : ∀ l : List Char, Lowercase l → l.count a = 0 := by
        intro l hl
        rw [List.count_eq_zero]
        intro hmem
        exact ha (hl a hmem)
      rw [h1 w hw, h1 p hp]
  · intro h j hj
    have hcp : ∀ l : List Char, Lowercase l →
        l.countP (fun c => c.toNat == 97 + j) = l.count (Char.ofNat (97 + j)) := by
      intro l hl
      unfold List.count
      apply List.countP_congr
      intro c _
      have hval : (Char.ofNat (97 + j)).toNat = 97 + j := by
        have : ∀ j, j < 26 → (Char.ofNat (97 + j)).toNat = 97 + j := by decide
        exact this j hj
      simp only [beq_iff_eq]
      constructor
      · intro hc
        exact char_eq_of_toNat c _ (by rw [hc, hval])
      · intro hc
        rw [hc, hval]
    rw [hcp w hw, hcp p hp, h]

theorem window_snoc {α : Type} (s : List α) (a n : Nat) (c : α) (h : s[a + n]? = some c) :
    window s a n ++ [c] = window s a (n + 1) := by
  unfold window
  rw [List.take_succ, List.getElem?_drop, h]
  rfl

theorem window_cons {α : Type} (s : List α) (a n : Nat) (x : α) (h : s[a]? = some x) :
    window s a (n + 1) = x :: window s (a + 1) n := by
  unfold window
  obtain ⟨ha, rfl⟩ := List.getElem?_eq_some_iff.1 h
  rw [List.drop_eq_getElem_cons ha, List.take_succ_cons]

theorem window_lowercase (s : List Char) (hs : Lowercase s) (a n : Nat) :
    Lowercase (window s a n) := by
  intro c hc
  exact hs c (List.mem_of_mem_drop (List.mem_of_mem_take hc))

theorem anagramStarts_succ (s p : List Char) (n : Nat) :
    anagramStarts s p (n + 1) = anagramStarts s p n ++
      (if List.Perm (window s n p.length) p then [(n : Int)] else []) := by
  unfold anagramStarts
  rw [List.range_succ, List.filter_append, List.map_append]
  congr 1
  by_cases h : List.Perm (window s n p.length) p
  · simp [List.filter_cons, h]
  · simp [List.filter_cons, h]

/-- The loop of `FindAnagrams` from index `i`, with the counters of the last
`min i len(p)` characters visited and the starts found so far. -/
theorem anagramLoop_spec (s p : List Char) (hs : Lowercase s) (hp : Lowercase p)
    (hne : 1 ≤ p.length) :
    ∀ (rest : List Char) (i : Nat), i ≤ s.length → s.drop i = rest →
    anagramLoop s (letterCounts p) p.length rest i
        (letterCounts (window s (i - p.length) (min i p.length)))
        (anagramStarts s p (i + 1 - p.length))
      = .ok (anagramStarts s p (s.length + 1 - p.length)) := by
  intro rest
  induction rest with
  | nil =>
    intro i hi hd
    have hi2 : s.length ≤ i := List.drop_eq_nil_iff.1 hd
    have : i = s.length := by omega
    subst this
    unfold anagramLoop
    rfl
  | cons c rest ih =>
    intro i hi hd
    have hlt : i < s.length := by
      rcases Nat.lt_or_ge i s.length with h | h
      · exact h
      · rw [List.drop_eq_nil_iff.2 h] at hd
        cases hd
    have hsi : s[i]? = some c := by
      rw [List.getElem?_eq_getElem hlt]
      have := List.drop_eq_getElem_cons hlt
      rw [this] at hd
      injection hd with h1 h2
      rw [h1]
    have hrest : s.drop (i + 1) = rest := by
      have := List.drop_eq_getElem_cons hlt
      rw [this] at hd
      injection hd
    have hc : 97 ≤ c.toNat ∧ c.toNat ≤ 122 := hs c (List.getElem?_mem hsi)
    unfold anagramLoop
    rw [bump_push _ c hc]
    simp only [bind, Except.bind]
    have hres : (if (p.length : Int) - 1 ≤ (i : Int) ∧
          arraysEqual (letterCounts (window s (i + 1 - p.length) (min (i + 1) p.length)))
            (letterCounts p) = true
        then anagramStarts s p (i + 1 - p.length) ++ [(i : Int) - (p.length : Int) + 1]
        else anagramStarts s p (i + 1 - p.length))
        = anagramStarts s p (i + 1 + 1 - p.length) := by
      by_cases hw : p.length ≤ i + 1
      · have h1 : i + 1 + 1 - p.length = (i + 1 - p.length) + 1 := by omega
        have h2 : min (i + 1) p.length = p.length := by omega
        have h3 : (i : Int) - (p.length : Int) + 1 = ((i + 1 - p.length : Nat) : Int) := by omega
        have h4 : (p.length : Int) - 1 ≤ (i : Int) := by omega
        have hiff : arraysEqual (letterCounts (window s (i + 1 - p.length) p.length))
            (letterCounts p) = true ↔ List.Perm (window s (i + 1 - p.length) p.length) p := by
          rw [arraysEqual_iff, letterCounts_eq_iff _ _ (window_lowercase s hs _ _) hp]
        rw [h1, anagramStarts_succ, h2, h3]
        by_cases hperm : List.Perm (window s (i + 1 - p.length) p.length) p
        · rw [if_pos ⟨h4, hiff.2 hperm⟩, if_pos hperm]
        · rw [if_neg (fun h => hperm (hiff.1 h.2)), if_neg hperm, List.append_nil]
      · have h1 : i + 1 + 1 - p.length = 0 := by omega
        have h2 : i + 1 - p.length = 0 := by omega
        have h4 : ¬ ((p.length : Int) - 1 ≤ (i : Int)) := by omega
        rw [if_neg (fun h => h4 h.1), h1, h2]
    by_cases hw : p.length ≤ i
    · rw [if_pos hw]
      have hold : i - p.length < s.length := by omega
      rw [index_ok s _ hold]
      simp only []
      have h1 : min i p.length = p.length := by omega
      have h2 : min (i + 1) p.length = p.length := by omega
      have h3 : i - p.length + p.length = i := by omega
      have h4 : i + 1 - p.length = i - p.length + 1 := by omega
      have hb : bump (letterCounts (window s (i - p.length) (min i p.length) ++ [c]))
          s[i - p.length] (-1)
          = .ok (letterCounts (window s (i + 1 - p.length) (min (i + 1) p.length))) := by
        rw [h1, h2, window_snoc s _ _ c (by rw [h3]; exact hsi),
          window_cons s _ _ _ (List.getElem?_eq_getElem hold), h4]
        exact bump_pop _ _ (hs _ (List.getElem_mem hold))
      rw [hb]
      simp only []
      rw [hres]
      exact ih (i + 1) hlt hrest
    · rw [if_neg hw]
      have h1 : min i p.length = i := by omega
      have h2 : min (i + 1) p.length = i + 1 := by omega
      have h3 : i - p.length = 0 := by omega
      have h4 : i + 1 - p.length = 0 := by omega
      have hb : letterCounts (window s (i - p.length) (min i p.length) ++ [c])
          = letterCounts (window s (i + 1 - p.length) (min (i + 1) p.length)) := by
        rw [h1, h2, h3, h4, window_snoc s 0 i c (by rw [Nat.zero_add]; exact hsi)]
      rw [hb]
      simp only [pure, Except.pure]
      rw [hres]
      exact ih (i + 1) hlt hrest

/-- C18: for strings `s` and `p` of letters `a` to `z` with `p` non-empty,
`FindAnagrams s p` returns a strictly increasing list whose members are exactly
the indices `i` with `0 ≤ i ≤ len(s) - len(p)` for which the `len(p)` characters
of `s` from `i` on are a rearrangement of `p`; the list is empty when
`len(p) > len(s)`. -/
theorem findAnagrams_indices (s p : List Char) (hs : Lowercase s) (hp : Lowercase p)
    (hne : p ≠ []) :
    ∃ res, FindAnagrams s p = .ok res ∧ res.Pairwise (· < ·) ∧
      (∀ i, i ∈ res ↔ AnagramAt s p i) ∧ (s.length < p.length → res = []) := by
  have hlen : 1 ≤ p.length := by
    cases p with
    | nil => exact absurd rfl hne
    | cons _ _ => simp
  by_cases hshort : s.length < p.length
  · refine ⟨[], by unfold FindAnagrams; rw [if_pos hshort], List.Pairwise.nil, ?_, fun _ => rfl⟩
    intro i
    constructor
    · intro h
      cases h
    · rintro ⟨h0, h1, _⟩
      omega
  · refine ⟨anagramStarts s p (s.length + 1 - p.length), ?_, ?_, ?_, fun h => absurd h hshort⟩
    · unfold FindAnagrams
      rw [if_neg hshort, ← letterCounts_nil, countPattern_spec p [] hp]
      simp only [bind, Except.bind, List.nil_append]
      have := anagramLoop_spec s p hs hp hlen s 0 (Nat.zero_le _) rfl
      have h1 : 0 + 1 - p.length = 0 := by omega
      have h2 : window s (0 - p.length) (min 0 p.length) = [] := by simp [window]
      rw [h1, h2] at this
      exact this
    · unfold anagramStarts
      rw [List.pairwise_map]
      apply List.Pairwise.filter
      exact (List.pairwise_lt_range _).imp (fun h => by exact_mod_cast h)
    · intro i
      unfold anagramStarts AnagramAt
      simp only [List.mem_map, List.mem_filter, List.mem_range, decide_eq_true_eq]
      constructor
      · rintro ⟨a, ⟨ha, hperm⟩, rfl⟩
        refine ⟨by omega, by omega, ?_⟩
        simpa using hperm
      · rintro ⟨h0, h1, hperm⟩
        exact ⟨i.toNat, ⟨by omega, hperm⟩, by omega⟩

/-- C18 on its example input. -/
theorem findAnagrams_indices_witness :
    FindAnagrams ['a', 'b', 'a', 'b'] ['a', 'b'] = .ok [0, 1, 2] ∧
    ∃ res, FindAnagrams ['a', 'b', 'a', 'b'] ['a', 'b'] = .ok res ∧ res.Pairwise (· < ·) ∧
      (∀ i, i ∈ res ↔ AnagramAt ['a', 'b', 'a', 'b'] ['a', 'b'] i) ∧
      ((['a', 'b', 'a', 'b'] : List Char).length < (['a', 'b'] : List Char).length → res = []) :=
  ⟨by rfl, findAnagrams_indices ['a', 'b', 'a', 'b'] ['a', 'b'] (by decide) (by decide)
    (by decide)⟩

/-! ## SlidingWindowMaximum -/

theorem index_valueAt (nums : List Int) (d : Nat) (h : d < nums.length) :
    index nums d = .ok (valueAt nums d) := by
  rw [index_ok nums d h]
  unfold valueAt
  rw [List.getD_eq_getElem _ _ h]

theorem valueAt_of_get (nums : List Int) (d : Nat) (x : Int) (h : nums[d]? = some x) :
    valueAt nums d = x := by
  unfold valueAt
  rw [List.getD_eq_getElem?_getD, h]
  rfl

theorem mem_window {α : Type} (s : List α) (t n : Nat) (x : α) :
    x ∈ window s t n ↔ ∃ j, t ≤ j ∧ j < t + n ∧ s[j]? = some x := by
  unfold window
  rw [List.mem_iff_getElem?]
  constructor
  · rintro ⟨m, hm⟩
    rw [List.getElem?_take] at hm
    by_cases hmn : m < n
    · rw [if_pos hmn, List.getElem?_drop] at hm
      exact ⟨t + m, by omega, by omega, hm⟩
    · rw [if_neg hmn] at hm
      cases hm
  · rintro ⟨j, h1, h2, h3⟩
    refine ⟨j - t, ?_⟩
    rw [List.getElem?_take, if_pos (by omega), List.getElem?_drop]
    have : t + (j - t) = j := by omega
    rw [this]
    exact h3

theorem dropExpired_spec (k : Int) (i : Nat) : ∀ dq : List Nat, dq.Pairwise (· < ·) →
    ∃ removed, dq = removed ++ dropExpired k i dq ∧
      (∀ d ∈ removed, (d : Int) ≤ (i : Int) - k) ∧
      (∀ d ∈ dropExpired k i dq, (i : Int) - k < (d : Int))
  | [], _ => ⟨[], rfl, by simp, by simp [dropExpired]⟩
  | front :: rest, h => by
    unfold dropExpired
    by_cases hf : (front : Int) ≤ (i : Int) - k
    · rw [if_pos hf]
      obtain ⟨removed, h1, h2, h3⟩ := dropExpired_spec k i rest (List.Pairwise.of_cons h)
      refine ⟨front :: removed, by rw [List.cons_append, ← h1], ?_, h3⟩
      intro d hd
      rcases List.mem_cons.1 hd with rfl | hd
      · exact hf
      · exact h2 d hd
    · rw [if_neg hf]
      refine ⟨[], rfl, by simp, ?_⟩
      intro d hd
      rcases List.mem_cons.1 hd with rfl | hd
      · omega
      · have := List.rel_of_pairwise_cons h hd
        omega

theorem dropSmaller_spec (nums : List Int) (x : Int) :
    ∀ (fuel : Nat) (dq : List Nat), dq.length ≤ fuel → (∀ d ∈ dq, d < nums.length) →
    ∃ kept removed, dq = kept ++ removed ∧ dropSmaller nums x fuel dq = .ok kept ∧
      (∀ d ∈ removed, valueAt nums d < x) ∧
      (∀ b, kept.getLast? = some b → x ≤ valueAt nums b) := by
  intro fuel
  induction fuel with
  | zero =>
    intro dq hlen _
    have : dq = [] := List.length_eq_zero.1 (by omega)
    subst this
    exact ⟨[], [], rfl, rfl, by simp, by simp⟩
  | succ fuel ih =>
    intro dq hlen hin
    rcases List.eq_nil_or_concat dq with rfl | ⟨init, b, hdq⟩
    · exact ⟨[], [], rfl, rfl, by simp, by simp⟩
    · rw [List.concat_eq_append] at hdq
      subst hdq
      unfold dropSmaller
      have hb : b < nums.length := hin b (by simp)
      have hlast : (init ++ [b]).getLast? = some b := by simp
      rw [hlast]
      simp only []
      rw [index_valueAt nums b hb]
      simp only [bind, Except.bind]
      by_cases hv : valueAt nums b < x
      · rw [if_pos hv, List.dropLast_concat]
        obtain ⟨kept, removed, h1, h2, h3, h4⟩ := ih init (by simp at hlen; omega)
          (fun d hd => hin d (by simp [hd]))
        refine ⟨kept, removed ++ [b], by rw [h1, List.append_assoc], h2, ?_, h4⟩
        intro d hd
        rcases List.mem_append.1 hd with hd | hd
        · exact h3 d hd
        · simp at hd
          rw [hd]
          exact hv
      · rw [if_neg hv]
        refine ⟨init ++ [b], [], by simp, rfl, by simp, ?_⟩
        intro b' hb'
        simp at hb'
        rw [← hb']
        omega

theorem head_dominates (nums : List Int) (l : List Nat) (dflt d : Nat)
    (hp : l.Pairwise (fun a b => valueAt nums b ≤ valueAt nums a)) (hd : d ∈ l) :
    valueAt nums d ≤ valueAt nums (l.headD dflt) := by
  cases l with
  | nil => cases hd
  | cons a rest =>
    rcases List.mem_cons.1 hd with rfl | h
    · exact le_refl _
    · exact List.rel_of_pairwise_cons hp h

theorem headD_mem (l : List Nat) (dflt : Nat) (h : l ≠ []) : l.headD dflt ∈ l := by
  cases l with
  | nil => exact absurd rfl h
  | cons a rest => simp

/-- One visit of the loop of `SlidingWindowMaximum` keeps the deque invariant. -/
theorem deque_step (nums : List Int) (k : Int) (hk : 0 < k) (i : Nat) (dq : List Nat)
    (hi : i < nums.length) (hinv : DequeInv nums k i dq) :
    ∃ kept, dropSmaller nums (valueAt nums i) (dropExpired k i dq).length (dropExpired k i dq)
        = .ok kept ∧
      DequeInv nums k (i + 1) (kept ++ [i]) ∧ (∀ d ∈ kept ++ [i], (i : Int) - k < (d : Int)) := by
  obtain ⟨hsorted, hlt, hval, hdom⟩ := hinv
  obtain ⟨rem1, h1, h2, h3⟩ := dropExpired_spec k i dq hsorted
  generalize dropExpired k i dq = dq1 at h1 h3 ⊢
  have hsub1 : dq1.Sublist dq := by
    rw [h1]
    exact List.sublist_append_right rem1 dq1
  obtain ⟨kept, rem2, g1, g2, g3, g4⟩ := dropSmaller_spec nums (valueAt nums i) dq1.length dq1
    (le_refl _) (fun d hd => lt_trans (hlt d (hsub1.subset hd)) hi)
  have hsub2 : kept.Sublist dq1 := by
    rw [g1]
    exact List.sublist_append_left kept rem2
  have hsub : kept.Sublist dq := hsub2.trans hsub1
  have hkval : ∀ d ∈ kept, valueAt nums i ≤ valueAt nums d := by
    intro d hd
    rcases List.eq_nil_or_concat kept with hnil | ⟨init, b, hkb⟩
    · rw [hnil] at hd
      cases hd
    · rw [List.concat_eq_append] at hkb
      have hb : valueAt nums i ≤ valueAt nums b := g4 b (by rw [hkb]; simp)
      have hp := hval.sublist hsub
      rw [hkb] at hp hd
      rcases List.mem_append.1 hd with hd | hd
      · have := (List.pairwise_append.1 hp).2.2 d hd b (by simp)
        omega
      · simp at hd
        rw [hd]
        exact hb
  refine ⟨kept, g2, ⟨?_, ?_, ?_, ?_⟩, ?_⟩
  · rw [List.pairwise_append]
    refine ⟨hsorted.sublist hsub, List.pairwise_singleton _ _, ?_⟩
    intro a ha b hb
    simp at hb
    rw [hb]
    exact hlt a (hsub.subset ha)
  · intro d hd
    rcases List.mem_append.1 hd with hd | hd
    · have := hlt d (hsub.subset hd)
      omega
    · simp at hd
      omega
  · rw [List.pairwise_append]
    refine ⟨hval.sublist hsub, List.pairwise_singleton _ _, ?_⟩
    intro a ha b hb
    simp at hb
    rw [hb]
    exact hkval a ha
  · intro j hj hjk
    by_cases hji : j = i
    · exact ⟨i, by simp, by omega, by rw [hji]⟩
    · obtain ⟨d, hd, hjd, hvd⟩ := hdom j (by omega) (by push_cast at hjk; omega)
      rw [h1] at hd
      rcases List.mem_append.1 hd with hd | hd
      · have := h2 d hd
        push_cast at hjk
        omega
      · rw [g1] at hd
        rcases List.mem_append.1 hd with hd | hd
        · exact ⟨d, List.mem_append_left _ hd, hjd, hvd⟩
        · exact ⟨i, by simp, by omega, le_of_lt (lt_of_le_of_lt hvd (g3 d hd))⟩
  · intro d hd
    rcases List.mem_append.1 hd with hd | hd
    · exact h3 d (hsub2.subset hd)
    · simp at hd
      rw [hd]
      omega

/-- The loop of `SlidingWindowMaximum` from index `i`. -/
theorem windowMaxLoop_spec (nums : List Int) (k : Int) (hk : 2 ≤ k) :
    ∀ (fuel i : Nat) (dq : List Nat) (result : List Int),
    nums.length ≤ i + fuel → i ≤ nums.length → DequeInv nums k i dq →
    MaximaInv nums k.toNat i result →
    ∃ res, windowMaxLoop nums k fuel i dq result = .ok res ∧
      MaximaInv nums k.toNat nums.length res := by
  intro fuel
  induction fuel with
  | zero =>
    intro i dq result hf hi _ hres
    have : i = nums.length := by omega
    subst this
    exact ⟨result, by unfold windowMaxLoop; rw [if_neg (lt_irrefl _)], hres⟩
  | succ fuel ih =>
    intro i dq result hf hi hdq hres
    unfold windowMaxLoop
    by_cases hlt : i < nums.length
    · rw [if_pos hlt]
      simp only []
      rw [index_valueAt nums i hlt]
      simp only [bind, Except.bind]
      obtain ⟨kept, hrun, hdq', hwin⟩ := deque_step nums k (by omega) i dq hlt hdq
      rw [hrun]
      simp only []
      have hfm : (kept ++ [i]).headD i ∈ kept ++ [i] := headD_mem _ _ (by simp)
      have hflt : (kept ++ [i]).headD i < nums.length := by
        have := hdq'.2.1 _ hfm
        omega
      have hhead := fun d hd => head_dominates nums (kept ++ [i]) i d hdq'.2.2.1 hd
      generalize (kept ++ [i]).headD i = f at hfm hflt hhead ⊢
      by_cases hfull : k - 1 ≤ (i : Int)
      · rw [if_pos hfull, index_valueAt nums _ hflt]
        simp only [pure, Except.pure]
        apply ih (i + 1) _ _ (by omega) hlt hdq'
        obtain ⟨hlen, hmax⟩ := hres
        refine ⟨by rw [List.length_append, hlen]; simp; omega, ?_⟩
        intro t m htm
        by_cases ht : t < result.length
        · rw [List.getElem?_append_left ht] at htm
          exact hmax t m htm
        · have htlen : t = result.length := by
            rcases Nat.lt_or_ge t (result ++ [valueAt nums f]).length with h | h
            · rw [List.length_append] at h
              simp at h
              omega
            · rw [List.getElem?_eq_none h] at htm
              cases htm
          rw [htlen, List.getElem?_append_right (le_refl _)] at htm
          simp at htm
          subst htm
          rw [htlen, hlen]
          have hfw := hwin _ hfm
          have hfi := hdq'.2.1 _ hfm
          constructor
          · rw [mem_window]
            refine ⟨f, by omega, by omega, ?_⟩
            rw [List.getElem?_eq_getElem hflt]
            unfold valueAt
            rw [List.getD_eq_getElem _ _ hflt]
          · intro x hx
            rw [mem_window] at hx
            obtain ⟨j, hj1, hj2, hj3⟩ := hx
            obtain ⟨d, hd, _, hvd⟩ := hdq'.2.2.2 j (by omega) (by push_cast; omega)
            rw [← valueAt_of_get nums j x hj3]
            exact le_trans hvd (hhead d hd)
      · rw [if_neg hfull]
        simp only [pure, Except.pure]
        apply ih (i + 1) _ _ (by omega) hlt hdq'
        obtain ⟨hlen, hmax⟩ := hres
        exact ⟨by rw [hlen]; omega, hmax⟩
    · rw [if_neg hlt]
      have : i = nums.length := by omega
      subst this
      exact ⟨result, rfl, hres⟩

/-- C17: `SlidingWindowMaximum nums k` returns the empty list when `nums` is
empty, `k ≤ 0` or `k > len(nums)`; for `1 ≤ k ≤ len(nums)` it returns
`len(nums) - k + 1` values, the one at position `i` being the maximum of the
`k` elements of `nums` from index `i` on. -/
theorem slidingWindowMaximum_maxima (nums : List Int) (k : Int) :
    ∃ res, SlidingWindowMaximum nums k = .ok res ∧
      ((nums = [] ∨ k ≤ 0 ∨ (nums.length : Int) < k) → res = []) ∧
      (1 ≤ k → k ≤ (nums.length : Int) → res.length = nums.length - k.toNat + 1 ∧
        ∀ i m, res[i]? = some m → IsMaxOf (window nums i k.toNat) m) := by
  unfold SlidingWindowMaximum
  by_cases h0 : nums.length = 0 ∨ k ≤ 0
  · rw [if_pos h0]
    refine ⟨[], rfl, fun _ => rfl, ?_⟩
    intro h1 h2
    omega
  · rw [if_neg h0]
    have hn : 0 < nums.length := by omega
    have hk : 0 < k := by omega
    by_cases h1 : k = 1
    · rw [if_pos h1]
      refine ⟨nums, rfl, ?_, ?_⟩
      · rintro (h | h | h)
        · rw [h] at hn
          simp at hn
        · omega
        · omega
      · intro _ _
        subst h1
        refine ⟨by simp; omega, ?_⟩
        intro i m him
        constructor
        · rw [mem_window]
          exact ⟨i, le_refl _, by simp, him⟩
        · intro x hx
          rw [mem_window] at hx
          obtain ⟨j, hj1, hj2, hj3⟩ := hx
          have : j = i := by
            simp at hj2
            omega
          rw [this, him] at hj3
          cases hj3
          exact le_refl _
    · rw [if_neg h1]
      obtain ⟨res, hrun, hlen, hmax⟩ := windowMaxLoop_spec nums k (by omega) nums.length 0 [] []
        (by omega) (Nat.zero_le _)
        ⟨List.Pairwise.nil, by simp, List.Pairwise.nil, by intro j hj; omega⟩
        ⟨by simp; omega, by simp⟩
      refine ⟨res, hrun, ?_, ?_⟩
      · rintro (h | h | h)
        · rw [h] at hn
          simp at hn
        · omega
        · apply List.length_eq_zero.1
          rw [hlen]
          omega
      · intro _ h2
        exact ⟨by rw [hlen]; omega, hmax⟩

/-- C17 on its example input. -/
theorem slidingWindowMaximum_maxima_witness :
    SlidingWindowMaximum [1, 3, -1, -3, 5, 3, 6, 7] 3 = .ok [3, 3, 5, 5, 6, 7] ∧
    ∃ res, SlidingWindowMaximum [1, 3, -1, -3, 5, 3, 6, 7] 3 = .ok res ∧
      ((([1, 3, -1, -3, 5, 3, 6, 7] : List Int) = [] ∨ (3 : Int) ≤ 0 ∨
        ((([1, 3, -1, -3, 5, 3, 6, 7] : List Int).length : Int) < 3)) → res = []) ∧
      ((1 : Int) ≤ 3 → (3 : Int) ≤ (([1, 3, -1, -3, 5, 3, 6, 7] : List Int).length : Int) →
        res.length = ([1, 3, -1, -3, 5, 3, 6, 7] : List Int).length - (3 : Int).toNat + 1 ∧
        ∀ i m, res[i]? = some m →
          IsMaxOf (window [1, 3, -1, -3, 5, 3, 6, 7] i (3 : Int).toNat) m) :=
  ⟨by decide, slidingWindowMaximum_maxima [1, 3, -1, -3, 5, 3, 6, 7] 3⟩

/-! ## Go maps -/

theorem mapFind_set {κ : Type} [DecidableEq κ] (a key : κ) (v : Int) :
    ∀ m : List (κ × Int), mapFind (mapSet m a v) key = if a = key then some v else mapFind m key
  | [] => by simp [mapSet, mapFind]
  | (k, w) :: rest => by
    unfold mapSet
    by_cases hk : k = a
    · subst hk
      by_cases hkey : k = key
      · simp [mapFind, hkey]
      · simp [mapFind, hkey]
    · rw [if_neg hk]
      unfold mapFind
      rw [mapFind_set a key v rest]
      by_cases hkey : a = key
      · subst hkey
        simp [hk]
      · simp [hkey]

theorem keys_set {κ : Type} [DecidableEq κ] (a : κ) (v : Int) :
    ∀ m : List (κ × Int), (mapSet m a v).map Prod.fst =
      if a ∈ m.map Prod.fst then m.map Prod.fst else m.map Prod.fst ++ [a]
  | [] => by simp [mapSet]
  | (k, w) :: rest => by
    unfold mapSet
    by_cases hk : k = a
    · subst hk
      simp
    · rw [if_neg hk, List.map_cons, keys_set a v rest]
      have hk' : ¬ a = k := fun h => hk h.symm
      by_cases hmem : a ∈ rest.map Prod.fst
      · rw [if_pos hmem, if_pos (by simp only [List.map_cons, List.mem_cons]; exact Or.inr hmem)]
        rfl
      · rw [if_neg hmem, if_neg (by
          simp only [List.map_cons, List.mem_cons]
          rintro (h | h)
          · exact hk' h
          · exact hmem h)]
        rfl

theorem mapFind_delete {κ : Type} [DecidableEq κ] (a key : κ) :
    ∀ m : List (κ × Int), mapFind (mapDelete m a) key = if a = key then none else mapFind m key
  | [] => by simp [mapDelete, mapFind]
  | (k, w) :: rest => by
    have ih := mapFind_delete a key rest
    unfold mapDelete at ih ⊢
    rw [List.filter_cons]
    by_cases hk : k = a
    · subst hk
      simp only [ne_eq, not_true_eq_false, decide_False, Bool.false_eq_true, if_false]
      rw [ih]
      by_cases hkey : k = key
      · simp [hkey]
      · simp [hkey, mapFind]
    · simp only [ne_eq, hk, not_false_eq_true, decide_True, if_true]
      unfold mapFind
      rw [ih]
      by_cases hkey : a = key
      · subst hkey
        simp [hk]
      · simp [hkey]

theorem nodup_keys_delete {κ : Type} [DecidableEq κ] (a : κ) (m : List (κ × Int))
    (h : (m.map Prod.fst).Nodup) : ((mapDelete m a).map Prod.fst).Nodup := by
  unfold mapDelete
  exact (List.Nodup.sublist (List.Sublist.map _ (List.filter_sublist _)) h)

theorem nodup_keys_set {κ : Type} [DecidableEq κ] (a : κ) (v : Int) (m : List (κ × Int))
    (h : (m.map Prod.fst).Nodup) : ((mapSet m a v).map Prod.fst).Nodup := by
  rw [keys_set]
  by_cases hmem : a ∈ m.map Prod.fst
  · rw [if_pos hmem]
    exact h
  · rw [if_neg hmem]
    rw [List.nodup_append]
    refine ⟨h, List.nodup_singleton _, ?_⟩
    intro x hx hx'
    simp at hx'
    rw [hx'] at hx
    exact hmem hx

theorem mem_keys_iff {κ : Type} [DecidableEq κ] (key : κ) :
    ∀ m : List (κ × Int), key ∈ m.map Prod.fst ↔ mapFind m key ≠ none
  | [] => by simp [mapFind]
  | (k, w) :: rest => by
    unfold mapFind
    by_cases hk : k = key
    · simp [hk]
    · have hk' : ¬ key = k := fun h => hk h.symm
      simp [hk, hk', mem_keys_iff key rest]

theorem represents_length {κ : Type} [DecidableEq κ] (m : List (κ × Int)) (w : List κ)
    (h : Represents m w) : m.length = distinctCount w := by
  unfold distinctCount
  rw [← List.length_map m Prod.fst]
  apply List.Perm.length_eq
  rw [List.perm_ext_iff_of_nodup h.1 (List.nodup_dedup w)]
  intro key
  rw [mem_keys_iff, h.2 key, List.mem_dedup]
  by_cases hc : w.count key = 0
  · rw [if_pos hc]
    simp [List.count_eq_zero.1 hc]
  · rw [if_neg hc]
    have : key ∈ w := by
      by_contra hn
      exact hc (List.count_eq_zero.2 hn)
    simp [this]

theorem represents_nil {κ : Type} [DecidableEq κ] : Represents ([] : List (κ × Int)) [] := by
  constructor
  · simp
  · intro key
    simp [mapFind]

theorem mapGet_of_represents {κ : Type} [DecidableEq κ] (m : List (κ × Int)) (w : List κ)
    (h : Represents m w) (key : κ) : mapGet m key = (w.count key : Int) := by
  unfold mapGet
  rw [h.2 key]
  by_cases hc : w.count key = 0
  · rw [if_pos hc, hc]
    rfl
  · rw [if_neg hc]
    rfl

theorem represents_push {κ : Type} [DecidableEq κ] (m : List (κ × Int)) (w : List κ) (x : κ)
    (h : Represents m w) : Represents (mapSet m x (mapGet m x + 1)) (w ++ [x]) := by
  refine ⟨nodup_keys_set _ _ _ h.1, ?_⟩
  intro key
  rw [mapFind_set, mapGet_of_represents m w h, List.count_append]
  by_cases hx : x = key
  · subst hx
    simp
  · rw [if_neg hx, h.2 key]
    have : List.count key [x] = 0 := by
      rw [List.count_eq_zero]
      simp
      exact fun h => hx h.symm
    rw [this, Nat.add_zero]

theorem represents_pop {κ : Type} [DecidableEq κ] (m : List (κ × Int)) (w : List κ) (y : κ)
    (h : Represents m (y :: w)) :
    Represents (if mapGet (mapSet m y (mapGet m y - 1)) y = 0
      then mapDelete (mapSet m y (mapGet m y - 1)) y else mapSet m y (mapGet m y - 1)) w := by
  have hget : mapGet m y = (w.count y : Int) + 1 := by
    rw [mapGet_of_represents m _ h]
    simp
  have hget1 : mapGet (mapSet m y (mapGet m y - 1)) y = (w.count y : Int) := by
    unfold mapGet
    rw [mapFind_set, if_pos rfl, ← mapGet.eq_1 m y, hget]
    simp
  rw [hget1, hget]
  have hsimp : (w.count y : Int) + 1 - 1 = (w.count y : Int) := by omega
  rw [hsimp]
  have hother : ∀ key, y ≠ key →
      mapFind m key = if w.count key = 0 then none else some (w.count key : Int) := by
    intro key hne
    rw [h.2 key, List.count_cons]
    have : ¬ (y == key) = true := by simpa using hne
    simp [this]
  by_cases hc : (w.count y : Int) = 0
  · rw [if_pos hc]
    refine ⟨nodup_keys_delete _ _ (nodup_keys_set _ _ _ h.1), ?_⟩
    intro key
    rw [mapFind_delete]
    by_cases hy : y = key
    · subst hy
      have : w.count y = 0 := by omega
      simp [this]
    · rw [if_neg hy, mapFind_set, if_neg hy]
      exact hother key hy
  · rw [if_neg hc]
    refine ⟨nodup_keys_set _ _ _ h.1, ?_⟩
    intro key
    rw [mapFind_set]
    by_cases hy : y = key
    · subst hy
      have : ¬ w.count y = 0 := by omega
      simp [this]
    · rw [if_neg hy]
      exact hother key hy

/-! ## LongestSubarrayKDistinct -/

theorem distinctCount_mono {κ : Type} [DecidableEq κ] (u w : List κ) (h : u ⊆ w) :
    distinctCount u ≤ distinctCount w := by
  unfold distinctCount
  rw [← List.card_toFinset, ← List.card_toFinset]
  apply Finset.card_le_card
  intro x hx
  rw [List.mem_toFinset] at hx ⊢
  exact h hx

theorem window_subset {α : Type} (s : List α) (a n b m : Nat) (h1 : b ≤ a)
    (h2 : a + n ≤ b + m) : window s a n ⊆ window s b m := by
  intro x hx
  rw [mem_window] at hx ⊢
  obtain ⟨j, hj1, hj2, hj3⟩ := hx
  exact ⟨j, by omega, by omega, hj3⟩

theorem window_zero {α : Type} (s : List α) (a : Nat) : window s a 0 = [] := by
  simp [window]

theorem infix_iff_window {α : Type} (w s : List α) :
    w <:+: s ↔ ∃ a, a + w.length ≤ s.length ∧ w = window s a w.length := by
  constructor
  · rintro ⟨pre, post, rfl⟩
    refine ⟨pre.length, by simp, ?_⟩
    unfold window
    rw [List.append_assoc, List.drop_left, List.take_left]
  · rintro ⟨a, _, hw⟩
    rw [hw]
    unfold window
    exact (List.take_prefix _ _).isInfix.trans (List.drop_suffix _ _).isInfix

/-- The inner loop of `LongestSubarrayKDistinct` on the window that ends before
`stop`: it stops at the first `left` from which the window has at most `k`
distinct values. -/
theorem shrinkDistinct_spec (nums : List Int) (k : Int) (hk : 1 ≤ k) (stop : Nat)
    (hstop : stop ≤ nums.length) :
    ∀ (fuel left : Nat) (m : List (Int × Int)), left ≤ stop → stop - left ≤ fuel →
    Represents m (window nums left (stop - left)) →
    ∃ m' left', shrinkDistinct nums k fuel m left = .ok (m', left') ∧ left ≤ left' ∧
      left' ≤ stop ∧ Represents m' (window nums left' (stop - left')) ∧
      (distinctCount (window nums left' (stop - left')) : Int) ≤ k ∧
      ∀ a, left ≤ a → a < left' → k < (distinctCount (window nums a (stop - a)) : Int) := by
  intro fuel
  induction fuel with
  | zero =>
    intro left m hl hf hrep
    have h0 : stop - left = 0 := by omega
    have hlen := represents_length m _ hrep
    rw [h0, window_zero] at hlen
    have hm : ¬ k < (m.length : Int) := by
      rw [hlen]
      simp [distinctCount]
      omega
    refine ⟨m, left, by unfold shrinkDistinct; rw [if_neg hm], le_refl _, hl, hrep, ?_, ?_⟩
    · rw [h0, window_zero]
      simp [distinctCount]
      omega
    · intro a h1 h2
      omega
  | succ fuel ih =>
    intro left m hl hf hrep
    have hlen := represents_length m _ hrep
    unfold shrinkDistinct
    by_cases hc : k < (m.length : Int)
    · rw [if_pos hc]
      have hlt : left < stop := by
        rcases Nat.lt_or_ge left stop with h | h
        · exact h
        · have h0 : stop - left = 0 := by omega
          rw [h0, window_zero] at hlen
          simp [distinctCount] at hlen
          rw [hlen] at hc
          simp at hc
          omega
      have hin : left < nums.length := by omega
      rw [index_ok nums left hin]
      simp only [bind, Except.bind]
      have hw : window nums left (stop - left)
          = nums[left] :: window nums (left + 1) (stop - (left + 1)) := by
        have : stop - left = (stop - (left + 1)) + 1 := by omega
        rw [this, window_cons nums left _ _ (List.getElem?_eq_getElem hin)]
      rw [hw] at hrep
      obtain ⟨m', left', h1, h2, h3, h4, h5, h6⟩ := ih (left + 1) _ (by omega) (by omega)
        (represents_pop m _ _ hrep)
      refine ⟨m', left', h1, by omega, h3, h4, h5, ?_⟩
      intro a ha1 ha2
      by_cases hal : a = left
      · rw [hal, ← hlen]
        exact hc
      · exact h6 a (by omega) ha2
    · rw [if_neg hc]
      refine ⟨m, left, rfl, le_refl _, hl, hrep, ?_, ?_⟩
      · rw [← hlen]
        omega
      · intro a h1 h2
        omega

/-- One visit of the outer loop of `LongestSubarrayKDistinct` keeps the
invariant. -/
theorem kDistinct_step (nums : List Int) (k : Int) (hk : 1 ≤ k)
    (hlen : (nums.length : Int) ≤ exactBound) (right left : Nat) (maxLength : Int)
    (m : List (Int × Int)) (hr : right < nums.length)
    (hinv : KDistinctInv nums k right left maxLength m) :
    ∃ m' left', shrinkDistinct nums k (nums.length + 1)
        (mapSet m nums[right] (mapGet m nums[right] + 1)) left = .ok (m', left') ∧
      KDistinctInv nums k (right + 1) left'
        (if (m'.length : Int) = k then maxViaFloat64 maxLength ((right : Int) - (left' : Int) + 1)
          else maxLength) m' := by
  obtain ⟨hl, hrep, hdist, hlong, hm0, hm1, hub, hatt⟩ := hinv
  have hpush := represents_push m _ nums[right] hrep
  have hw : window nums left (right - left) ++ [nums[right]]
      = window nums left (right + 1 - left) := by
    have h1 : right + 1 - left = (right - left) + 1 := by omega
    rw [h1]
    exact window_snoc nums left _ _ (by
      have : left + (right - left) = right := by omega
      rw [this]
      exact List.getElem?_eq_getElem hr)
  rw [hw] at hpush
  obtain ⟨m', left', h1, h2, h3, h4, h5, h6⟩ := shrinkDistinct_spec nums k hk (right + 1)
    (by omega) (nums.length + 1) left _ (by omega) (by omega) hpush
  refine ⟨m', left', h1, ?_⟩
  have hcount := represents_length m' _ h4
  have hB : exactBound = 9007199254740992 := rfl
  have hmax : maxViaFloat64 maxLength ((right : Int) - (left' : Int) + 1)
      = max maxLength ((right : Int) - (left' : Int) + 1) :=
    maxViaFloat64_exact _ _ (by omega) (by omega) (by omega) (by omega)
  have hlong' : ∀ a, a < left' → k < (distinctCount (window nums a (right + 1 - a)) : Int) := by
    intro a ha
    by_cases hal : a < left
    · have := hlong a hal
      have hmono := distinctCount_mono _ _
        (window_subset nums a (right - a) a (right + 1 - a) (le_refl _) (by omega))
      omega
    · exact h6 a (by omega) ha
  have hend : ∀ a n, a + n = right + 1 → (distinctCount (window nums a n) : Int) = k →
      (m'.length : Int) = k ∧ (n : Int) ≤ (right : Int) - (left' : Int) + 1 := by
    intro a n han hd
    have hal : left' ≤ a := by
      by_contra hcon
      have := hlong' a (by omega)
      have hn : right + 1 - a = n := by omega
      rw [hn] at this
      omega
    have hmono := distinctCount_mono _ _
      (window_subset nums a n left' (right + 1 - left') hal (by omega))
    refine ⟨by rw [hcount]; omega, by omega⟩
  by_cases hk' : (m'.length : Int) = k
  · rw [if_pos hk', hmax]
    refine ⟨h3, h4, h5, hlong', le_trans hm0 (le_max_left _ _), ?_, ?_, ?_⟩
    · apply max_le
      · omega
      · push_cast
        omega
    · intro a n han hd
      by_cases hold : a + n ≤ right
      · exact le_trans (hub a n hold hd) (le_max_left _ _)
      · exact le_trans (hend a n (by omega) hd).2 (le_max_right _ _)
    · rcases max_cases maxLength ((right : Int) - (left' : Int) + 1) with ⟨h, _⟩ | ⟨h, _⟩
      · rw [h]
        rcases hatt with h0 | ⟨a, n, g1, g2, g3⟩
        · exact Or.inl h0
        · exact Or.inr ⟨a, n, by omega, g2, g3⟩
      · rw [h]
        right
        exact ⟨left', right + 1 - left', by omega, by rw [← hcount]; exact hk', by omega⟩
  · rw [if_neg hk']
    refine ⟨h3, h4, h5, hlong', hm0, by push_cast; omega, ?_, ?_⟩
    · intro a n han hd
      by_cases hold : a + n ≤ right
      · exact hub a n hold hd
      · exact absurd (hend a n (by omega) hd).1 hk'
    · rcases hatt with h0 | ⟨a, n, g1, g2, g3⟩
      · exact Or.inl h0
      · exact Or.inr ⟨a, n, by omega, g2, g3⟩

/-- The outer loop of `LongestSubarrayKDistinct` from the counter `right`. -/
theorem kDistinctLoop_spec (nums : List Int) (k : Int) (hk : 1 ≤ k)
    (hlen : (nums.length : Int) ≤ exactBound) :
    ∀ (fuel right left : Nat) (maxLength : Int) (m : List (Int × Int)),
    nums.length ≤ right + fuel → right ≤ nums.length →
    KDistinctInv nums k right left maxLength m →
    ∃ res left' m', kDistinctLoop nums k fuel right left maxLength m = .ok res ∧
      KDistinctInv nums k nums.length left' res m' := by
  intro fuel
  induction fuel with
  | zero =>
    intro right left maxLength m hf hr hinv
    have : right = nums.length := by omega
    subst this
    exact ⟨maxLength, left, m, by unfold kDistinctLoop; rw [if_neg (lt_irrefl _)], hinv⟩
  | succ fuel ih =>
    intro right left maxLength m hf hr hinv
    unfold kDistinctLoop
    by_cases hlt : right < nums.length
    · rw [if_pos hlt, index_ok nums right hlt]
      simp only [bind, Except.bind]
      obtain ⟨m', left', hrun, hinv'⟩ := kDistinct_step nums k hk hlen right left maxLength m
        hlt hinv
      rw [hrun]
      simp only []
      exact ih (right + 1) left' _ m' (by omega) hlt hinv'
    · rw [if_neg hlt]
      have : right = nums.length := by omega
      subst this
      exact ⟨maxLength, left, m, rfl, hinv⟩

/-- C15: for a slice of at most `2^53` elements (every slice that fits in
memory), `LongestSubarrayKDistinct nums k` returns 0 when `nums` is empty or
`k ≤ 0`; for `k > 0` it returns a value that bounds the length of every
contiguous subarray with exactly `k` distinct values, and that is the length of
such a subarray, or 0 when there is none. -/
theorem longestSubarrayKDistinct_max (nums : List Int) (k : Int)
    (hlen : (nums.length : Int) ≤ exactBound) :
    ∃ m, LongestSubarrayKDistinct nums k = .ok m ∧
      ((nums = [] ∨ k ≤ 0) → m = 0) ∧
      (0 < k →
        (∀ w, w <:+: nums → (distinctCount w : Int) = k → (w.length : Int) ≤ m) ∧
        ((∃ w, w <:+: nums ∧ (distinctCount w : Int) = k ∧ (w.length : Int) = m) ∨
          (m = 0 ∧ ¬ ∃ w, w <:+: nums ∧ (distinctCount w : Int) = k))) := by
  unfold LongestSubarrayKDistinct
  by_cases h0 : nums.length = 0 ∨ k ≤ 0
  · rw [if_pos h0]
    refine ⟨0, rfl, fun _ => rfl, ?_⟩
    intro hk
    have hnil : nums = [] := by
      rcases h0 with h | h
      · exact List.length_eq_zero.1 h
      · omega
    subst hnil
    have hnone : ∀ w : List Int, w <:+: [] → ¬ (distinctCount w : Int) = k := by
      intro w hw hd
      rw [List.infix_nil] at hw
      subst hw
      simp [distinctCount] at hd
      omega
    refine ⟨fun w hw hd => absurd hd (hnone w hw), Or.inr ⟨rfl, ?_⟩⟩
    rintro ⟨w, hw, hd⟩
    exact hnone w hw hd
  · rw [if_neg h0]
    have hk : 1 ≤ k := by omega
    obtain ⟨res, left', m', hrun, hinv⟩ := kDistinctLoop_spec nums k hk hlen nums.length 0 0 0 []
      (by omega) (Nat.zero_le _)
      ⟨le_refl _, by rw [window_zero]; exact represents_nil, by
        rw [window_zero]; simp [distinctCount]; omega, by intro a ha; omega, le_refl _,
        by simp, by
          intro a n han hd
          have : n = 0 := by omega
          subst this
          simp, Or.inl rfl⟩
    obtain ⟨_, _, _, _, hm0, _, hub, hatt⟩ := hinv
    refine ⟨res, hrun, ?_, ?_⟩
    · rintro (h | h)
      · rw [h] at h0
        simp at h0
      · omega
    · intro _
      constructor
      · intro w hw hd
        obtain ⟨a, ha, hwa⟩ := (infix_iff_window w nums).1 hw
        rw [hwa] at hd
        exact hub a w.length ha hd
      · rcases hatt with hz | ⟨a, n, g1, g2, g3⟩
        · right
          refine ⟨hz, ?_⟩
          rintro ⟨w, hw, hd⟩
          obtain ⟨a, ha, hwa⟩ := (infix_iff_window w nums).1 hw
          have hd' := hd
          rw [hwa] at hd'
          have := hub a w.length ha hd'
          have hwn : w = [] := List.length_eq_zero.1 (by omega)
          subst hwn
          simp [distinctCount] at hd
          omega
        · left
          have hwl : (window nums a n).length = n := by
            unfold window
            rw [List.length_take, List.length_drop]
            omega
          refine ⟨window nums a n, ?_, g2, by rw [hwl]; exact g3⟩
          unfold window
          exact (List.take_prefix _ _).isInfix.trans (List.drop_suffix _ _).isInfix

/-- C15 on its example input. -/
theorem longestSubarrayKDistinct_max_witness :
    LongestSubarrayKDistinct [1, 2, 1, 2, 3] 2 = .ok 4 ∧
    ∃ m, LongestSubarrayKDistinct [1, 2, 1, 2, 3] 2 = .ok m ∧
      ((([1, 2, 1, 2, 3] : List Int) = [] ∨ (2 : Int) ≤ 0) → m = 0) ∧
      ((0 : Int) < 2 →
        (∀ w : List Int, w <:+: [1, 2, 1, 2, 3] → (distinctCount w : Int) = 2 → (w.length : Int) ≤ m) ∧
        ((∃ w : List Int, w <:+: [1, 2, 1, 2, 3] ∧ (distinctCount w : Int) = 2 ∧ (w.length : Int) = m) ∨
          (m = 0 ∧ ¬ ∃ w : List Int, w <:+: [1, 2, 1, 2, 3] ∧ (distinctCount w : Int) = 2))) :=
  ⟨by decide, longestSubarrayKDistinct_max [1, 2, 1, 2, 3] 2 (by decide)⟩

/-! ## MinWindowSubstring -/

theorem countP_update (c : Char) (p q : Char → Bool) :
    ∀ l : List Char, l.Nodup → (∀ a ∈ l, a ≠ c → p a = q a) →
    l.countP q + (if c ∈ l ∧ p c = true then 1 else 0)
      = l.countP p + (if c ∈ l ∧ q c = true then 1 else 0)
  | [], _, _ => by simp
  | a :: l, hnd, h => by
    have hnd' := List.nodup_cons.1 hnd
    by_cases hac : a = c
    · subst hac
      have hcongr : l.countP q = l.countP p := by
        apply List.countP_congr
        intro x hx
        have hxa : x ≠ a := fun hxa => hnd'.1 (hxa ▸ hx)
        rw [h x (List.mem_cons_of_mem _ hx) hxa]
      rw [List.countP_cons, List.countP_cons, hcongr]
      cases hp : p a <;> cases hq : q a <;> simp
    · have ih := countP_update c p q l hnd'.2 (fun x hx hxc => h x (List.mem_cons_of_mem _ hx) hxc)
      have hpa := h a (List.mem_cons_self _ _) hac
      have hmem : c ∈ a :: l ↔ c ∈ l := by
        simp only [List.mem_cons]
        constructor
        · rintro (h1 | h1)
          · exact absurd h1.symm hac
          · exact h1
        · exact Or.inr
      rw [List.countP_cons, List.countP_cons, hpa]
      simp only [hmem]
      omega

theorem formedCount_eq_iff (t w : List Char) :
    formedCount t w = distinctCount t ↔ Covers w t := by
  unfold formedCount distinctCount Covers
  rw [List.countP_eq_length]
  constructor
  · intro h c
    by_cases hc : c ∈ t
    · have := h c (List.mem_dedup.2 hc)
      simpa using this
    · rw [List.count_eq_zero.2 hc]
      exact Nat.zero_le _
  · intro h c _
    simpa using h c

theorem formedCount_le (t w : List Char) : formedCount t w ≤ distinctCount t := by
  unfold formedCount distinctCount
  exact List.countP_le_length _

theorem formedCount_push (t w : List Char) (c : Char) :
    (formedCount t (w ++ [c]) : Int)
      = (formedCount t w : Int) +
        (if c ∈ t ∧ (w ++ [c]).count c = t.count c then 1 else 0) := by
  have h := countP_update c (fun a => decide (t.count a ≤ w.count a))
    (fun a => decide (t.count a ≤ (w ++ [c]).count a)) t.dedup (List.nodup_dedup t) (by
      intro a _ hac
      have : (w ++ [c]).count a = w.count a := by
        rw [List.count_append]
        have : List.count a [c] = 0 := by
          rw [List.count_eq_zero]
          simp
          exact hac
        omega
      simp only [this])
  unfold formedCount
  have hcnt : (w ++ [c]).count c = w.count c + 1 := by
    rw [List.count_append]
    simp
  simp only [List.mem_dedup, decide_eq_true_eq, hcnt] at h ⊢
  by_cases hc : c ∈ t
  · have hpos : 0 < t.count c := List.count_pos_iff.2 hc
    by_cases h1 : t.count c ≤ w.count c
    · have h2 : t.count c ≤ w.count c + 1 := by omega
      have h3 : ¬ w.count c + 1 = t.count c := by omega
      simp only [hc, h1, h2, h3, and_self, and_false, if_true, if_false] at h ⊢
      omega
    · by_cases h2 : t.count c ≤ w.count c + 1
      · have h3 : w.count c + 1 = t.count c := by omega
        rw [if_pos ⟨hc, h3⟩]
        simp only [hc, h1, h2, true_and, and_self, and_false, if_true, if_false] at h
        omega
      · have h3 : ¬ w.count c + 1 = t.count c := by omega
        simp only [hc, h1, h2, h3, and_self, and_false, if_true, if_false] at h ⊢
        omega
  · simp only [hc, false_and, if_false] at h ⊢
    omega

theorem formedCount_pop (t w : List Char) (y : Char) (hcov : Covers (y :: w) t) :
    (formedCount t w : Int)
      = (formedCount t (y :: w) : Int) -
        (if y ∈ t ∧ w.count y < t.count y then 1 else 0) := by
  have h := countP_update y (fun a => decide (t.count a ≤ (y :: w).count a))
    (fun a => decide (t.count a ≤ w.count a)) t.dedup (List.nodup_dedup t) (by
      intro a _ hay
      have : (y :: w).count a = w.count a := by
        rw [List.count_cons]
        have : ¬ (y == a) = true := by
          simp
          exact fun h => hay h.symm
        simp [this]
      simp only [this])
  unfold formedCount
  have hy := hcov y
  simp only [List.mem_dedup, decide_eq_true_eq] at h ⊢
  by_cases hc : y ∈ t
  · by_cases h1 : w.count y < t.count y
    · have h2 : ¬ t.count y ≤ w.count y := by omega
      simp only [hc, hy, h1, h2, and_self, and_false, if_true, if_false] at h ⊢
      omega
    · have h2 : t.count y ≤ w.count y := by omega
      simp only [hc, hy, h1, h2, and_self, and_false, if_true, if_false] at h ⊢
      omega
  · simp only [hc, false_and, if_false] at h ⊢
    omega

theorem window_sublist {α : Type} (s : List α) (a m b n : Nat) (h1 : a ≤ b)
    (h2 : b + n ≤ a + m) : (window s b n).Sublist (window s a m) := by
  unfold window
  obtain ⟨d, rfl⟩ : ∃ d, b = a + d := ⟨b - a, by omega⟩
  rw [← List.drop_drop, List.take_drop]
  exact (List.drop_sublist _ _).trans (List.take_sublist_take_left _ (by omega))

theorem covers_mono (s t : List Char) (a m b n : Nat) (h1 : a ≤ b) (h2 : b + n ≤ a + m)
    (h : Covers (window s b n) t) : Covers (window s a m) t := by
  intro c
  exact le_trans (h c) ((window_sublist s a m b n h1 h2).count_le c)

theorem not_covers_nil (t : List Char) (ht : t ≠ []) : ¬ Covers [] t := by
  intro h
  cases t with
  | nil => exact ht rfl
  | cons c rest =>
    have := h c
    simp at this

theorem counts_push (m : List (Char × Int)) (w : List Char) (c : Char) (h : Counts m w) :
    Counts (mapSet m c (mapGet m c + 1)) (w ++ [c]) := by
  intro key
  unfold mapGet
  rw [mapFind_set]
  by_cases hc : c = key
  · subst hc
    rw [if_pos rfl, ← mapGet.eq_1 m c, h c, List.count_append]
    simp
  · rw [if_neg hc, ← mapGet.eq_1 m key, h key, List.count_append]
    have : List.count key [c] = 0 := by
      rw [List.count_eq_zero]
      simp
      exact fun h => hc h.symm
    rw [this, Nat.add_zero]

theorem counts_pop (m : List (Char × Int)) (w : List Char) (y : Char)
    (h : Counts m (y :: w)) : Counts (mapSet m y (mapGet m y - 1)) w := by
  intro key
  unfold mapGet
  rw [mapFind_set]
  by_cases hc : y = key
  · subst hc
    rw [if_pos rfl, ← mapGet.eq_1 m y, h y]
    simp
  · rw [if_neg hc, ← mapGet.eq_1 m key, h key, List.count_cons]
    have : ¬ (y == key) = true := by simpa using hc
    simp [this]

theorem countChars_represents : ∀ (t acc : List Char) (dictT : List (Char × Int)),
    Represents dictT acc → Represents (countChars t dictT) (acc ++ t)
  | [], acc, dictT, h => by
    rw [List.append_nil]
    exact h
  | c :: rest, acc, dictT, h => by
    unfold countChars
    have := countChars_represents rest (acc ++ [c]) _ (represents_push dictT acc c h)
    rw [List.append_assoc] at this
    exact this

theorem mapFind_of_represents (dictT : List (Char × Int)) (t : List Char)
    (h : Represents dictT t) (c : Char) :
    mapFind dictT c = if c ∈ t then some (t.count c : Int) else none := by
  rw [h.2 c]
  by_cases hc : c ∈ t
  · have : ¬ t.count c = 0 := by
      have := List.count_pos_iff.2 hc
      omega
    rw [if_neg this, if_pos hc]
  · rw [if_pos (List.count_eq_zero.2 hc), if_neg hc]

theorem beats_persist (ans ans' : Answer) (b n : Nat)
    (h : ans' = ans ∨ ans'.length < ans.length) (hb : Beats ans b n) : Beats ans' b n := by
  rcases h with h | h
  · rw [h]
    exact hb
  · unfold Beats at hb ⊢
    rcases hb with hb | ⟨hb, _⟩
    · exact Or.inl (by omega)
    · exact Or.inl (by omega)

theorem beats_longer (ans : Answer) (b n n' : Nat) (hn : n ≤ n') (hb : Beats ans b n) :
    Beats ans b n' := by
  unfold Beats at hb ⊢
  rcases hb with hb | ⟨hb, hl⟩
  · exact Or.inl (by omega)
  · by_cases h : n = n'
    · subst h
      exact Or.inr ⟨hb, hl⟩
    · exact Or.inl (by omega)

theorem formedAfterPush_spec (dictT windowCounts : List (Char × Int)) (t w : List Char)
    (c : Char) (hd : Represents dictT t) (hc : Counts windowCounts (w ++ [c])) :
    formedAfterPush dictT windowCounts c (formedCount t w : Int)
      = (formedCount t (w ++ [c]) : Int) := by
  unfold formedAfterPush
  rw [mapFind_of_represents dictT t hd, formedCount_push, hc c]
  by_cases hct : c ∈ t
  · rw [if_pos hct]
    simp only []
    by_cases heq : (w ++ [c]).count c = t.count c
    · rw [if_pos (by rw [heq]), if_pos ⟨hct, heq⟩]
    · rw [if_neg (by intro h; exact heq (by exact_mod_cast h)), if_neg (fun h => heq h.2)]
      simp
  · rw [if_neg hct, if_neg (fun h => hct h.1)]
    simp

theorem formedAfterPop_spec (dictT windowCounts : List (Char × Int)) (t w : List Char)
    (y : Char) (hd : Represents dictT t) (hc : Counts windowCounts w)
    (hcov : Covers (y :: w) t) :
    formedAfterPop dictT windowCounts y (formedCount t (y :: w) : Int)
      = (formedCount t w : Int) := by
  unfold formedAfterPop
  rw [mapFind_of_represents dictT t hd, formedCount_pop t w y hcov, hc y]
  by_cases hyt : y ∈ t
  · rw [if_pos hyt]
    simp only []
    by_cases hlt : w.count y < t.count y
    · rw [if_pos (by exact_mod_cast hlt), if_pos ⟨hyt, hlt⟩]
    · rw [if_neg (by intro h; exact hlt (by exact_mod_cast h)), if_neg (fun h => hlt h.2)]
      simp
  · rw [if_neg hyt, if_neg (fun h => hyt h.1)]
    simp

/-- The inner loop of `MinWindowSubstring` for the window that ends at `right`:
it stops at the first `left` from which the window no longer covers `t`, and
`ans` accounts for every window passed on the way. -/
theorem contract_spec (s t : List Char) (ht : t ≠ []) (dictT : List (Char × Int))
    (hd : Represents dictT t) (right : Nat) (hr : right < s.length) :
    ∀ (fuel left : Nat) (formed : Int) (wc : List (Char × Int)) (ans : Answer),
    right + 1 - left ≤ fuel → WindowInv s t (right + 1) left formed wc ans →
    ∃ left' formed' wc' ans',
      contract s dictT (distinctCount t : Int) right fuel left formed wc ans
        = .ok (left', formed', wc', ans') ∧
      WindowInv s t (right + 1) left' formed' wc' ans' ∧
      ¬ Covers (window s left' (right + 1 - left')) t := by
  intro fuel
  induction fuel with
  | zero =>
    intro left formed wc ans hf hinv
    have hl := hinv.1
    have hle : ¬ (left ≤ right ∧ formed = (distinctCount t : Int)) := fun h => by omega
    refine ⟨left, formed, wc, ans, by unfold contract; rw [if_neg hle], hinv, ?_⟩
    have h0 : right + 1 - left = 0 := by omega
    rw [h0, window_zero]
    exact not_covers_nil t ht
  | succ fuel ih =>
    intro left formed wc ans hf hinv
    obtain ⟨hl, hstop, hcounts, hformed, hamax, hvalid, hal, hJ5, hJ2⟩ := hinv
    have hcoviff : formed = (distinctCount t : Int) ↔
        Covers (window s left (right + 1 - left)) t := by
      rw [hformed, ← formedCount_eq_iff]
      exact Nat.cast_inj
    unfold contract
    by_cases hc : left ≤ right ∧ formed = (distinctCount t : Int)
    · rw [if_pos hc]
      obtain ⟨hlr, hfr⟩ := hc
      have hcov := hcoviff.1 hfr
      have hin : left < s.length := by omega
      rw [index_ok s left hin]
      simp only [bind, Except.bind]
      have hw : window s left (right + 1 - left)
          = s[left] :: window s (left + 1) (right + 1 - (left + 1)) := by
        have : right + 1 - left = (right + 1 - (left + 1)) + 1 := by omega
        rw [this, window_cons s left _ _ (List.getElem?_eq_getElem hin)]
      rw [hw] at hcounts hformed hcov
      have hcounts' := counts_pop wc _ _ hcounts
      have hformed' := formedAfterPop_spec dictT _ t _ s[left] hd hcounts' hcov
      rw [← hformed] at hformed'
      rw [← hw] at hcov
      apply ih (left + 1) _ _ _ (by omega)
      by_cases hupd : (right : Int) - (left : Int) + 1 < ans.length
      · rw [if_pos hupd]
        refine ⟨by omega, hstop, hcounts', hformed', ?_, ?_, ?_, ?_, ?_⟩
        · show (right : Int) - (left : Int) + 1 ≤ 2147483647
          omega
        · intro _
          exact ⟨rfl, hlr, by show right < right + 1; omega, hcov⟩
        · show left ≤ left + 1
          omega
        · intro b n hb hn
          by_cases hbl : b = left
          · subst hbl
            apply beats_longer _ b (right + 1 - b) n (by omega)
            right
            exact ⟨by show (right : Int) - (b : Int) + 1 = ((right + 1 - b : Nat) : Int); omega,
              le_refl _⟩
          · exact beats_persist ans _ b n (Or.inr hupd) (hJ5 b n (by omega) hn)
        · intro b n hbn hcv
          exact beats_persist ans _ b n (Or.inr hupd) (hJ2 b n hbn hcv)
      · rw [if_neg hupd]
        refine ⟨by omega, hstop, hcounts', hformed', hamax, hvalid, by omega, ?_, hJ2⟩
        intro b n hb hn
        by_cases hbl : b = left
        · subst hbl
          apply beats_longer _ b (right + 1 - b) n (by omega)
          unfold Beats
          by_cases heq : ans.length = ((right + 1 - b : Nat) : Int)
          · exact Or.inr ⟨heq, hal⟩
          · exact Or.inl (by omega)
        · exact hJ5 b n (by omega) hn
    · rw [if_neg hc]
      refine ⟨left, formed, wc, ans, rfl,
        ⟨hl, hstop, hcounts, hformed, hamax, hvalid, hal, hJ5, hJ2⟩, ?_⟩
      by_cases hlr : left ≤ right
      · intro hcov
        exact hc ⟨hlr, hcoviff.2 hcov⟩
      · have h0 : right + 1 - left = 0 := by omega
        rw [h0, window_zero]
        exact not_covers_nil t ht

theorem formedCount_nil (t : List Char) : formedCount t [] = 0 := by
  unfold formedCount
  rw [List.countP_eq_zero]
  intro c hc
  have : 0 < t.count c := List.count_pos_iff.2 (List.mem_dedup.1 hc)
  simp
  omega

/-- The outer loop of `MinWindowSubstring` from index `right`. -/
theorem minWindowLoop_spec (s t : List Char) (ht : t ≠ []) (dictT : List (Char × Int))
    (hd : Represents dictT t) :
    ∀ (rest : List Char) (right left : Nat) (formed : Int) (wc : List (Char × Int))
      (ans : Answer),
    s.drop right = rest → right ≤ s.length → WindowInv s t right left formed wc ans →
    ¬ Covers (window s left (right - left)) t →
    ∃ ans' left' formed' wc',
      minWindowLoop s dictT (distinctCount t : Int) rest right left formed wc ans = .ok ans' ∧
      WindowInv s t s.length left' formed' wc' ans' ∧
      ¬ Covers (window s left' (s.length - left')) t := by
  intro rest
  induction rest with
  | nil =>
    intro right left formed wc ans hdrop hr hinv hnc
    have : s.length ≤ right := List.drop_eq_nil_iff.1 hdrop
    have : right = s.length := by omega
    subst this
    exact ⟨ans, left, formed, wc, rfl, hinv, hnc⟩
  | cons c rest ih =>
    intro right left formed wc ans hdrop hr hinv hnc
    have hlt : right < s.length := by
      rcases Nat.lt_or_ge right s.length with h | h
      · exact h
      · rw [List.drop_eq_nil_iff.2 h] at hdrop
        cases hdrop
    have hsc : s[right]? = some c := by
      rw [List.getElem?_eq_getElem hlt]
      rw [List.drop_eq_getElem_cons hlt] at hdrop
      injection hdrop with h1 h2
      rw [h1]
    have hrest : s.drop (right + 1) = rest := by
      rw [List.drop_eq_getElem_cons hlt] at hdrop
      injection hdrop
    obtain ⟨hl, hstop, hcounts, hformed, hamax, hvalid, hal, hJ5, hJ2⟩ := hinv
    have hw : window s left (right - left) ++ [c] = window s left (right + 1 - left) := by
      have h1 : right + 1 - left = (right - left) + 1 := by omega
      rw [h1]
      exact window_snoc s left _ c (by
        have : left + (right - left) = right := by omega
        rw [this]
        exact hsc)
    have hcounts1 := counts_push wc _ c hcounts
    have hformed1 := formedAfterPush_spec dictT _ t _ c hd hcounts1
    rw [← hformed] at hformed1
    rw [hw] at hcounts1 hformed1
    have hinv1 : WindowInv s t (right + 1) left
        (formedAfterPush dictT (mapSet wc c (mapGet wc c + 1)) c formed)
        (mapSet wc c (mapGet wc c + 1)) ans := by
      refine ⟨by omega, hlt, hcounts1, hformed1, hamax, ?_, hal, ?_, ?_⟩
      · intro h
        obtain ⟨h1, h2, h3, h4⟩ := hvalid h
        exact ⟨h1, h2, by omega, h4⟩
      · intro b n hb hn
        exact hJ5 b n hb (by omega)
      · intro b n hbn hcv
        by_cases h1 : b + n < right
        · exact hJ2 b n h1 hcv
        · by_cases h2 : b < left
          · exact hJ5 b n h2 (by omega)
          · exact absurd (covers_mono s t left (right - left) b n (by omega) (by omega) hcv) hnc
    obtain ⟨left', formed', wc', ans', hrun, hinv', hnc'⟩ := contract_spec s t ht dictT hd right
      hlt (s.length + 1) left _ _ ans (by omega) hinv1
    unfold minWindowLoop
    simp only []
    rw [hrun]
    simp only [bind, Except.bind]
    exact ih (right + 1) left' formed' wc' ans' hrest hlt hinv' hnc'

/-- What the loops of `MinWindowSubstring` leave in `ans`, for any lengths: the
sentinel, or a window that covers `t`; in both cases `ans` is at least as good
as every window of `s` that covers `t`. -/
theorem minWindowLoop_result (s t : List Char) (ht : t ≠ []) :
    ∃ ans, minWindowLoop s (countChars t []) (((countChars t []).length : Nat) : Int) s 0 0 0 []
        (Answer.mk 2147483647 0 0) = .ok ans ∧
      ans.length ≤ 2147483647 ∧
      (ans.length < 2147483647 →
        ans.length = (ans.right : Int) - (ans.left : Int) + 1 ∧ ans.left ≤ ans.right ∧
        ans.right < s.length ∧ Covers (window s ans.left (ans.right + 1 - ans.left)) t) ∧
      (∀ b n, b + n ≤ s.length → Covers (window s b n) t → Beats ans b n) := by
  have hd : Represents (countChars t []) t := by
    have := countChars_represents t [] [] represents_nil
    rw [List.nil_append] at this
    exact this
  rw [represents_length _ _ hd]
  obtain ⟨ans, left, formed, wc, hrun, hinv, hnc⟩ := minWindowLoop_spec s t ht _ hd s 0 0 0 []
    (Answer.mk 2147483647 0 0) rfl (Nat.zero_le _)
    ⟨le_refl _, Nat.zero_le _, by
        intro key
        rw [window_zero]
        rfl, by
        rw [window_zero, formedCount_nil]
        rfl, le_refl _, by
        intro h
        exact absurd h (lt_irrefl _), le_refl _, by
        intro b n hb
        omega, by
        intro b n hbn
        omega⟩
    (by
      rw [window_zero]
      exact not_covers_nil t ht)
  obtain ⟨hl, hstop, hcounts, hformed, hamax, hvalid, hal, hJ5, hJ2⟩ := hinv
  refine ⟨ans, hrun, hamax, hvalid, ?_⟩
  intro b n hbn hcv
  by_cases h1 : b + n < s.length
  · exact hJ2 b n h1 hcv
  · by_cases h2 : b < left
    · exact hJ5 b n h2 (by omega)
    · exact absurd (covers_mono s t left (s.length - left) b n (by omega) (by omega) hcv) hnc

theorem window_length {α : Type} (s : List α) (a n : Nat) (h : a + n ≤ s.length) :
    (window s a n).length = n := by
  unfold window
  rw [List.length_take, List.length_drop]
  omega

theorem window_within {α : Type} (s : List α) (a n : Nat) : window s a n <:+: s := by
  unfold window
  exact (List.take_prefix _ _).isInfix.trans (List.drop_suffix _ _).isInfix

/-- The result of `MinWindowSubstring` on non-empty strings, for any lengths:
the empty string when every window of `s` that covers `t` has at least
`2^31 - 1` characters, otherwise the leftmost of the shortest windows of `s`
that cover `t`. -/
theorem minWindow_general (s t : List Char) (hs : s ≠ []) (ht : t ≠ []) :
    (MinWindowSubstring s t = .ok [] ∧
      ∀ b n, b + n ≤ s.length → Covers (window s b n) t → 2147483647 ≤ n) ∨
    (∃ a n, 0 < n ∧ n < 2147483647 ∧ a + n ≤ s.length ∧
      MinWindowSubstring s t = .ok (window s a n) ∧
      Covers (window s a n) t ∧
      ∀ b m, b + m ≤ s.length → Covers (window s b m) t → n ≤ m ∧ (m = n → a ≤ b)) := by
  obtain ⟨ans, hrun, hamax, hvalid, hbest⟩ := minWindowLoop_result s t ht
  have hs0 : ¬ (s.length = 0 ∨ t.length = 0) := by
    rintro (h | h)
    · exact hs (List.length_eq_zero.1 h)
    · exact ht (List.length_eq_zero.1 h)
  unfold MinWindowSubstring
  rw [if_neg hs0]
  simp only []
  rw [hrun]
  simp only [bind, Except.bind]
  by_cases hsent : ans.length = 2147483647
  · left
    rw [if_pos hsent]
    refine ⟨rfl, ?_⟩
    intro b n hbn hcv
    have := hbest b n hbn hcv
    unfold Beats at this
    omega
  · right
    rw [if_neg hsent]
    obtain ⟨h1, h2, h3, h4⟩ := hvalid (by omega)
    refine ⟨ans.left, ans.right + 1 - ans.left, by omega, by omega, by omega, ?_, h4, ?_⟩
    · unfold substring
      rw [if_pos ⟨by omega, by omega⟩]
      rfl
    · intro b m hbm hcv
      have := hbest b m hbm hcv
      unfold Beats at this
      constructor
      · omega
      · intro hm
        omega

/-- C14 fails on the code for long strings: with `s = t` made of `2^31 - 1`
letters `a`, the whole of `s` is a window that covers `t`, but its length is not
below the initial `ans[0] = math.MaxInt32`, so `ans` is never written and
`MinWindowSubstring` returns the empty string. -/
theorem minWindowSubstring_counterexample :
    MinWindowSubstring (List.replicate 2147483647 'a') (List.replicate 2147483647 'a') = .ok [] ∧
    (List.replicate 2147483647 'a').length = 2147483647 ∧
    SingleByte (List.replicate 2147483647 'a') ∧
    List.replicate 2147483647 'a' <:+: List.replicate 2147483647 'a' ∧
    Covers (List.replicate 2147483647 'a') (List.replicate 2147483647 'a') := by
  have hgen : ∀ n : Nat, 2147483647 ≤ n →
      MinWindowSubstring (List.replicate n 'a') (List.replicate n 'a') = .ok [] := by
    intro n hn
    have hne : List.replicate n 'a' ≠ [] := by
      intro h
      have := congrArg List.length h
      rw [List.length_replicate] at this
      simp at this
      omega
    rcases minWindow_general (List.replicate n 'a') (List.replicate n 'a') hne hne with
      h | ⟨a, m, hm, hm2, ham, hrun, hcov, _⟩
    · exact h.1
    · exfalso
      have h1 := hcov 'a'
      rw [List.count_replicate_self] at h1
      have h3 : (window (List.replicate n 'a') a m).length = m := window_length _ _ _ ham
      have h4 := List.count_le_length 'a' (window (List.replicate n 'a') a m)
      rw [h3] at h4
      omega
  refine ⟨hgen 2147483647 (le_refl _), List.length_replicate _ _, ?_, List.infix_refl _,
    fun c => le_refl _⟩
  intro c hc
  rw [List.eq_of_mem_replicate hc]
  decide

/-- C14 as amended: for strings `s` and `t` of single-byte characters with
`len(s) < 2^31 - 1`, `MinWindowSubstring s t` returns the empty string exactly
when `s` or `t` is empty or no substring of `s` contains every character of `t`
at least as many times as `t` does; otherwise it returns a substring of `s` that
does, no substring of `s` that does is shorter, and among the windows of `s` of
that length that do it is the leftmost. -/
theorem minWindowSubstring_minimal (s t : List Char) (_hs : SingleByte s)
    (_ht : SingleByte t) (hlen : s.length < 2147483647) :
    ∃ res, MinWindowSubstring s t = .ok res ∧
      (res = [] ↔ (s = [] ∨ t = [] ∨ ¬ ∃ w, w <:+: s ∧ Covers w t)) ∧
      (res ≠ [] → res <:+: s ∧ Covers res t ∧
        (∀ w, w <:+: s → Covers w t → res.length ≤ w.length) ∧
        ∃ a, a + res.length ≤ s.length ∧ res = window s a res.length ∧
          ∀ b, b + res.length ≤ s.length → Covers (window s b res.length) t → a ≤ b) := by
  by_cases hs : s = []
  · refine ⟨[], by subst hs; rfl, ⟨fun _ => Or.inl hs, fun _ => rfl⟩, fun h => absurd rfl h⟩
  by_cases ht : t = []
  · refine ⟨[], ?_, ⟨fun _ => Or.inr (Or.inl ht), fun _ => rfl⟩, fun h => absurd rfl h⟩
    unfold MinWindowSubstring
    rw [if_pos (Or.inr (by rw [ht]; rfl))]
  rcases minWindow_general s t hs ht with ⟨hrun, hnone⟩ | ⟨a, n, hn, _, han, hrun, hcov, hbest⟩
  · refine ⟨[], hrun, ⟨fun _ => Or.inr (Or.inr ?_), fun _ => rfl⟩, fun h => absurd rfl h⟩
    rintro ⟨w, hw, hcw⟩
    obtain ⟨b, hb, hwb⟩ := (infix_iff_window w s).1 hw
    rw [hwb] at hcw
    have := hnone b w.length hb hcw
    omega
  · have hlenw : (window s a n).length = n := window_length s a n han
    have hne : window s a n ≠ [] := by
      intro h
      rw [h] at hlenw
      simp at hlenw
      omega
    refine ⟨window s a n, hrun, ⟨fun h => absurd h hne, ?_⟩, ?_⟩
    · rintro (h | h | h)
      · exact absurd h hs
      · exact absurd h ht
      · exact absurd ⟨window s a n, window_within s a n, hcov⟩ h
    · intro _
      refine ⟨window_within s a n, hcov, ?_, a, by rw [hlenw]; exact han, by rw [hlenw], ?_⟩
      · intro w hw hcw
        obtain ⟨b, hb, hwb⟩ := (infix_iff_window w s).1 hw
        rw [hwb] at hcw
        rw [hlenw]
        exact (hbest b w.length hb hcw).1
      · intro b hb hcb
        rw [hlenw] at hb hcb
        exact (hbest b n hb hcb).2 rfl

/-- C14 as amended, on its example input. -/
theorem minWindowSubstring_minimal_witness :
    MinWindowSubstring ['A', 'D', 'O', 'B', 'E', 'C', 'O', 'D', 'E', 'B', 'A', 'N', 'C']
      ['A', 'B', 'C'] = .ok ['B', 'A', 'N', 'C'] ∧
    ∃ res, MinWindowSubstring ['A', 'D', 'O', 'B', 'E', 'C', 'O', 'D', 'E', 'B', 'A', 'N', 'C']
        ['A', 'B', 'C'] = .ok res ∧
      (res = [] ↔ ((['A', 'D', 'O', 'B', 'E', 'C', 'O', 'D', 'E', 'B', 'A', 'N', 'C'] : List Char)
          = [] ∨ (['A', 'B', 'C'] : List Char) = [] ∨
        ¬ ∃ w, w <:+: ['A', 'D', 'O', 'B', 'E', 'C', 'O', 'D', 'E', 'B', 'A', 'N', 'C'] ∧
          Covers w ['A', 'B', 'C'])) ∧
      (res ≠ [] →
        res <:+: ['A', 'D', 'O', 'B', 'E', 'C', 'O', 'D', 'E', 'B', 'A', 'N', 'C'] ∧
        Covers res ['A', 'B', 'C'] ∧
        (∀ w, w <:+: ['A', 'D', 'O', 'B', 'E', 'C', 'O', 'D', 'E', 'B', 'A', 'N', 'C'] →
          Covers w ['A', 'B', 'C'] → res.length ≤ w.length) ∧
        ∃ a, a + res.length ≤
            (['A', 'D', 'O', 'B', 'E', 'C', 'O', 'D', 'E', 'B', 'A', 'N', 'C'] : List Char).length ∧
          res = window ['A', 'D', 'O', 'B', 'E', 'C', 'O', 'D', 'E', 'B', 'A', 'N', 'C'] a
            res.length ∧
          ∀ b, b + res.length ≤
              (['A', 'D', 'O', 'B', 'E', 'C', 'O', 'D', 'E', 'B', 'A', 'N', 'C'] : List Char).length →
            Covers (window ['A', 'D', 'O', 'B', 'E', 'C', 'O', 'D', 'E', 'B', 'A', 'N', 'C'] b
              res.length) ['A', 'B', 'C'] → a ≤ b) :=
  ⟨by decide, minWindowSubstring_minimal
    ['A', 'D', 'O', 'B', 'E', 'C', 'O', 'D', 'E', 'B', 'A', 'N', 'C'] ['A', 'B', 'C']
    (by decide) (by decide) (by decide)⟩

end SlidingWindow

namespace Backtracking

open DijkstraOtimizado GoRuntime

/-! # Theorems on the backtracking algorithms -/

/-! ## GeneratePermutations -/

theorem contains_iff : ∀ (l : List Int) (v : Int), contains l v = true ↔ v ∈ l
  | [], v => by simp [contains]
  | item :: rest, v => by
    unfold contains
    by_cases h : item = v
    · simp [h]
    · have h' : ¬ v = item := fun e => h e.symm
      simp [h, h', contains_iff rest v]

theorem prefix_snoc_unique {cur p : List Int} {x y : Int} (hx : (cur ++ [x]) <+: p)
    (hy : (cur ++ [y]) <+: p) : x = y := by
  obtain ⟨t, ht⟩ := hx
  obtain ⟨t', ht'⟩ := hy
  rw [← ht'] at ht
  simp only [List.append_assoc, List.singleton_append] at ht
  have := List.append_cancel_left ht
  injection this

theorem extendsTo_full (nums cur : List Int) (hc : cur.Nodup)
    (hsub : cur ⊆ nums) (hlen : cur.length = nums.length) (p : List Int) :
    p ∈ [cur] ↔ ExtendsTo nums cur p := by
  have hperm : cur.Perm nums :=
    (List.subperm_of_subset hc hsub).perm_of_length_le (by omega)
  rw [List.mem_singleton]
  constructor
  · intro h
    rw [h]
    exact ⟨List.prefix_refl _, hperm⟩
  · rintro ⟨hpre, hp⟩
    exact (hpre.eq_of_length (by rw [hlen, hp.length_eq])).symm

theorem extendsTo_step (nums cur : List Int) (hn : nums.Nodup)
    (hlen : cur.length < nums.length) (p : List Int) :
    (∃ x ∈ nums, x ∉ cur ∧ ExtendsTo nums (cur ++ [x]) p) ↔ ExtendsTo nums cur p := by
  constructor
  · rintro ⟨x, _, _, hpre, hp⟩
    exact ⟨(List.prefix_append cur [x]).trans hpre, hp⟩
  · rintro ⟨⟨t, ht⟩, hp⟩
    cases t with
    | nil =>
      rw [List.append_nil] at ht
      have := hp.length_eq
      rw [← ht] at this
      omega
    | cons x t =>
      have hpn : p.Nodup := hp.nodup_iff.2 hn
      rw [← ht] at hpn
      have hdis := (List.nodup_append.1 hpn).2.2
      refine ⟨x, hp.subset (by rw [← ht]; simp), ?_, ⟨t, by rw [← ht]; simp⟩, hp⟩
      intro hx
      exact hdis hx (List.mem_cons_self _ _)

/-- A call of the closure `backtrack` of `GeneratePermutations` appends to
`result` the rearrangements of `nums` that start with `currentPermutation`,
each once. -/
theorem permBacktrack_spec (nums : List Int) (hn : nums.Nodup) :
    ∀ (fuel : Nat) (cur : List Int) (result : List (List Int)), cur.Nodup → cur ⊆ nums →
    nums.length ≤ cur.length + fuel →
    ∃ L, permBacktrack nums fuel cur result = .ok (result ++ L) ∧ L.Nodup ∧
      ∀ p, p ∈ L ↔ ExtendsTo nums cur p := by
  intro fuel
  induction fuel with
  | zero =>
    intro cur result hc hsub hlen
    have hle := (List.subperm_of_subset hc hsub).length_le
    have heq : cur.length = nums.length := by omega
    refine ⟨[cur], ?_, List.nodup_singleton _, extendsTo_full nums cur hc hsub heq⟩
    unfold permBacktrack
    rw [if_pos heq]
  | succ fuel ih =>
    intro cur result hc hsub hlen
    have hle := (List.subperm_of_subset hc hsub).length_le
    unfold permBacktrack
    by_cases heq : cur.length = nums.length
    · rw [if_pos heq]
      exact ⟨[cur], rfl, List.nodup_singleton _, extendsTo_full nums cur hc hsub heq⟩
    · rw [if_neg heq]
      have hloop : ∀ (rest : List Int) (result : List (List Int)), rest.Nodup → rest ⊆ nums →
          ∃ L, rest.foldlM (fun result num =>
              if !contains cur num then permBacktrack nums fuel (cur ++ [num]) result
              else pure result) result = .ok (result ++ L) ∧ L.Nodup ∧
            ∀ p, p ∈ L ↔ ∃ x ∈ rest, x ∉ cur ∧ ExtendsTo nums (cur ++ [x]) p := by
        intro rest
        induction rest with
        | nil =>
          intro result _ _
          exact ⟨[], by simp [List.foldlM, pure, Except.pure], List.nodup_nil, by simp⟩
        | cons x rest ihr =>
          intro result hrn hrs
          have hrn' := List.nodup_cons.1 hrn
          have hxn : x ∈ nums := hrs (List.mem_cons_self _ _)
          have hrs' : rest ⊆ nums := fun y hy => hrs (List.mem_cons_of_mem _ hy)
          rw [List.foldlM_cons]
          by_cases hx : x ∈ cur
          · have hcx : contains cur x = true := (contains_iff cur x).2 hx
            simp only [hcx, Bool.not_true, Bool.false_eq_true, if_false]
            obtain ⟨L, h1, h2, h3⟩ := ihr result hrn'.2 hrs'
            refine ⟨L, ?_, h2, ?_⟩
            · simpa [bind, Except.bind, pure, Except.pure] using h1
            · intro p
              rw [h3 p]
              constructor
              · rintro ⟨y, hy, hyc, he⟩
                exact ⟨y, List.mem_cons_of_mem _ hy, hyc, he⟩
              · rintro ⟨y, hy, hyc, he⟩
                rcases List.mem_cons.1 hy with rfl | hy
                · exact absurd hx hyc
                · exact ⟨y, hy, hyc, he⟩
          · have hcx : contains cur x = false := by
              cases h : contains cur x
              · rfl
              · exact absurd ((contains_iff cur x).1 h) hx
            simp only [hcx, Bool.not_false, if_true]
            obtain ⟨Lx, g1, g2, g3⟩ := ih (cur ++ [x]) result
              (by
                rw [List.nodup_append]
                refine ⟨hc, List.nodup_singleton _, ?_⟩
                intro a ha hb
                rw [List.mem_singleton] at hb
                exact hx (hb ▸ ha))
              (by
                intro a ha
                rcases List.mem_append.1 ha with ha | ha
                · exact hsub ha
                · rw [List.mem_singleton] at ha
                  exact ha ▸ hxn)
              (by simp; omega)
            rw [g1]
            simp only [bind, Except.bind]
            obtain ⟨L, h1, h2, h3⟩ := ihr (result ++ Lx) hrn'.2 hrs'
            refine ⟨Lx ++ L, by rw [h1, List.append_assoc], ?_, ?_⟩
            · rw [List.nodup_append]
              refine ⟨g2, h2, ?_⟩
              intro p hp1 hp2
              obtain ⟨y, hy, _, hey⟩ := (h3 p).1 hp2
              have := prefix_snoc_unique ((g3 p).1 hp1).1 hey.1
              exact hrn'.1 (this ▸ hy)
            · intro p
              rw [List.mem_append, g3 p, h3 p]
              constructor
              · rintro (h | ⟨y, hy, hyc, he⟩)
                · exact ⟨x, List.mem_cons_self _ _, hx, h⟩
                · exact ⟨y, List.mem_cons_of_mem _ hy, hyc, he⟩
              · rintro ⟨y, hy, hyc, he⟩
                rcases List.mem_cons.1 hy with rfl | hy
                · exact Or.inl he
                · exact Or.inr ⟨y, hy, hyc, he⟩
      obtain ⟨L, h1, h2, h3⟩ := hloop nums result hn (List.Subset.refl _)
      refine ⟨L, h1, h2, ?_⟩
      intro p
      rw [h3 p]
      exact extendsTo_step nums cur hn (by omega) p

/-- C25: for every list of pairwise distinct integers, `GeneratePermutations`
returns `n!` lists (`n` the length of `nums`), without repetition, and a list
is among them exactly when it is a rearrangement of `nums`. -/
theorem generatePermutations_all (nums : List Int) (hn : nums.Nodup) :
    ∃ res, GeneratePermutations nums = .ok res ∧ res.length = nums.length.factorial ∧
      res.Nodup ∧ ∀ p, p ∈ res ↔ p.Perm nums := by
  obtain ⟨L, h1, h2, h3⟩ := permBacktrack_spec nums hn nums.length [] [] List.nodup_nil
    (List.nil_subset _) (by simp)
  rw [List.nil_append] at h1
  have hmem : ∀ p, p ∈ L ↔ p.Perm nums := by
    intro p
    rw [h3 p]
    unfold ExtendsTo
    simp
  refine ⟨L, h1, ?_, h2, hmem⟩
  have hperm : L.Perm nums.permutations := by
    rw [List.perm_ext_iff_of_nodup h2 (List.nodup_permutations nums hn)]
    intro p
    rw [hmem p, List.mem_permutations]
  rw [hperm.length_eq, List.length_permutations]

/-- C25 on `[1,2,3]`. -/
theorem generatePermutations_all_witness :
    GeneratePermutations [1, 2, 3]
      = .ok [[1, 2, 3], [1, 3, 2], [2, 1, 3], [2, 3, 1], [3, 1, 2], [3, 2, 1]] ∧
    ∃ res, GeneratePermutations [1, 2, 3] = .ok res ∧
      res.length = ([1, 2, 3] : List Int).length.factorial ∧
      res.Nodup ∧ ∀ p, p ∈ res ↔ p.Perm [1, 2, 3] :=
  ⟨by decide, generatePermutations_all [1, 2, 3] (by decide)⟩

/-! ## NQueens -/

theorem queenRow_length (n q : Nat) : (queenRow n q).length = n := by
  unfold queenRow
  simp

theorem queenRow_get (n q j : Nat) (hq : q < n) (hj : j < n) :
    (queenRow n q)[j]? = some (if j = q then 'Q' else '.') := by
  unfold queenRow
  rw [List.getElem?_set]
  by_cases h : q = j
  · subst h
    simp [hq]
  · have h' : ¬ j = q := fun e => h e.symm
    simp [h, h', hj]

theorem set_middle {α : Type} (A B : List α) (x y : α) :
    (A ++ x :: B).set A.length y = A ++ y :: B := by
  induction A with
  | nil => rfl
  | cons a t ih => simp [ih]

theorem get_middle {α : Type} (A B : List α) (x : α) :
    (A ++ x :: B)[A.length]? = some x := by
  induction A with
  | nil => simp
  | cons a t ih => simpa using ih

theorem stateOf_open (n : Nat) (qs : List Nat) (h : qs.length < n) :
    stateOf n qs = boardOf n qs ++ List.replicate n '.' ::
      List.replicate (n - (qs.length + 1)) (List.replicate n '.') := by
  unfold stateOf
  have : n - qs.length = (n - (qs.length + 1)) + 1 := by omega
  rw [this, List.replicate_succ]

theorem stateOf_snoc (n : Nat) (qs : List Nat) (c : Nat) :
    stateOf n (qs ++ [c]) = boardOf n qs ++ queenRow n c ::
      List.replicate (n - (qs.length + 1)) (List.replicate n '.') := by
  unfold stateOf boardOf
  simp

theorem boardOf_length (n : Nat) (qs : List Nat) : (boardOf n qs).length = qs.length := by
  unfold boardOf
  simp

theorem stateOf_length (n : Nat) (qs : List Nat) (h : qs.length ≤ n) :
    (stateOf n qs).length = n := by
  unfold stateOf
  rw [List.length_append, boardOf_length, List.length_replicate]
  omega

theorem stateOf_get (n : Nat) (qs : List Nat) (i : Nat) (hi : i < qs.length) :
    (stateOf n qs)[i]? = some (queenRow n (qs.getD i 0)) := by
  unfold stateOf boardOf
  rw [List.getElem?_append_left (by simpa using hi), List.getElem?_map,
    List.getD_eq_getElem?_getD, List.getElem?_eq_getElem hi]
  rfl

theorem state_line (n : Nat) (qs : List Nat) (h : qs.length < n) :
    index (stateOf n qs) qs.length = .ok (List.replicate n '.') := by
  apply index_some
  rw [stateOf_open n qs h, ← boardOf_length n qs]
  exact get_middle _ _ _

theorem place_runes (n c : Nat) (hc : c < n) :
    store (List.replicate n '.') c 'Q' = .ok (queenRow n c) := by
  rw [store_ok _ _ _ (by simpa using hc)]
  rfl

theorem place_board (n : Nat) (qs : List Nat) (c : Nat) (h : qs.length < n) :
    store (stateOf n qs) qs.length (queenRow n c) = .ok (stateOf n (qs ++ [c])) := by
  rw [store_ok _ _ _ (by rw [stateOf_length n qs (le_of_lt h)]; exact h), stateOf_snoc,
    stateOf_open n qs h]
  have := set_middle (boardOf n qs) (List.replicate (n - (qs.length + 1))
    (List.replicate n '.')) (List.replicate n '.') (queenRow n c)
  rw [boardOf_length] at this
  rw [this]

theorem remove_runes (n c : Nat) (hc : c < n) :
    store (queenRow n c) c '.' = .ok (List.replicate n '.') := by
  rw [store_ok _ _ _ (by rw [queenRow_length]; exact hc)]
  unfold queenRow
  rw [List.set_set]
  congr 1
  apply List.ext_getElem?
  intro k
  rw [List.getElem?_set]
  split
  · rename_i hk
    subst hk
    simp [hc]
  · rfl

theorem remove_board (n : Nat) (qs : List Nat) (c : Nat) (h : qs.length < n) :
    store (stateOf n (qs ++ [c])) qs.length (List.replicate n '.') = .ok (stateOf n qs) := by
  rw [store_ok _ _ _ (by
    rw [stateOf_length n (qs ++ [c]) (by simp; omega)]; exact h), stateOf_snoc,
    stateOf_open n qs h]
  have := set_middle (boardOf n qs) (List.replicate (n - (qs.length + 1))
    (List.replicate n '.')) (queenRow n c) (List.replicate n '.')
  rw [boardOf_length] at this
  rw [this]

theorem queen_test (a b : Nat) : ((if a = b then 'Q' else '.') = 'Q') ↔ a = b := by
  by_cases h : a = b
  · simp [h]
  · simp [h]

theorem getD_lt (n : Nat) (qs : List Nat) (hq : ∀ q ∈ qs, q < n) (i : Nat)
    (hi : i < qs.length) : qs.getD i 0 < n := by
  rw [List.getD_eq_getElem _ _ hi]
  exact hq _ (List.getElem_mem _)

theorem safeColumn_spec (n : Nat) (qs : List Nat) (hq : ∀ q ∈ qs, q < n) (col : Nat)
    (hcol : col < n) : ∀ (todo i : Nat), i + todo = qs.length →
    ∃ b, safeColumn (stateOf n qs) col todo i = .ok b ∧
      (b = true ↔ ∀ i', i ≤ i' → i' < qs.length → qs.getD i' 0 ≠ col) := by
  intro todo
  induction todo with
  | zero =>
    intro i hi
    refine ⟨true, rfl, ?_⟩
    simp only [true_iff]
    intro i' h1 h2
    omega
  | succ todo ih =>
    intro i hi
    have hil : i < qs.length := by omega
    unfold safeColumn
    rw [index_some _ _ _ (stateOf_get n qs i hil)]
    simp only [bind, Except.bind]
    rw [index_some _ _ _ (queenRow_get n _ col (getD_lt n qs hq i hil) hcol)]
    simp only []
    by_cases hc : col = qs.getD i 0
    · rw [if_pos ((queen_test _ _).2 hc)]
      refine ⟨false, rfl, ?_⟩
      simp only [Bool.false_eq_true, false_iff]
      intro h
      exact h i (le_refl _) hil hc.symm
    · rw [if_neg (fun h => hc ((queen_test _ _).1 h))]
      obtain ⟨b, hb, hiff⟩ := ih (i + 1) (by omega)
      refine ⟨b, hb, ?_⟩
      rw [hiff]
      constructor
      · intro h i' h1 h2
        by_cases hx : i' = i
        · rw [hx]; exact fun e => hc e.symm
        · exact h i' (by omega) h2
      · intro h i' h1 h2
        exact h i' (by omega) h2

theorem safeMainDiagonal_spec (n : Nat) (qs : List Nat) (hq : ∀ q ∈ qs, q < n) (col : Nat)
    (hcol : col < n) : ∀ (fuel a : Nat), a ≤ fuel → a ≤ qs.length →
    ∃ b, safeMainDiagonal (stateOf n qs) fuel ((a : Int) - 1)
        ((col : Int) - ((qs.length : Int) - (a : Int)) - 1) = .ok b ∧
      (b = true ↔ ∀ i', i' < a → qs.getD i' 0 + qs.length ≠ col + i') := by
  intro fuel
  induction fuel with
  | zero =>
    intro a ha _
    have ha0 : a = 0 := by omega
    subst ha0
    unfold safeMainDiagonal
    rw [if_neg (by omega)]
    refine ⟨true, rfl, ?_⟩
    simp only [true_iff]
    intro i' h1
    omega
  | succ fuel ih =>
    intro a ha hal
    unfold safeMainDiagonal
    by_cases hg : (a : Int) - 1 ≥ 0 ∧ (col : Int) - ((qs.length : Int) - (a : Int)) - 1 ≥ 0
    · rw [if_pos hg]
      have hi : ((a : Int) - 1) = ((a - 1 : Nat) : Int) := by omega
      have hj : (col : Int) - ((qs.length : Int) - (a : Int)) - 1 =
          ((col + a - qs.length - 1 : Nat) : Int) := by omega
      have hil : a - 1 < qs.length := by omega
      rw [hi, hj, sliceGet_cast _ _ _ (stateOf_get n qs (a - 1) hil)]
      simp only [bind, Except.bind]
      rw [sliceGet_cast _ _ _ (queenRow_get n _ (col + a - qs.length - 1)
        (getD_lt n qs hq _ hil) (by omega))]
      simp only []
      by_cases hc : col + a - qs.length - 1 = qs.getD (a - 1) 0
      · rw [if_pos ((queen_test _ _).2 hc)]
        refine ⟨false, rfl, ?_⟩
        simp only [Bool.false_eq_true, false_iff]
        intro h
        exact h (a - 1) (by omega) (by omega)
      · rw [if_neg (fun h => hc ((queen_test _ _).1 h))]
        obtain ⟨b, hb, hiff⟩ := ih (a - 1) (by omega) (by omega)
        have e1 : ((a - 1 : Nat) : Int) - 1 = (((a - 1 : Nat) : Int)) - 1 := rfl
        have e2 : ((col + a - qs.length - 1 : Nat) : Int) - 1 =
            (col : Int) - ((qs.length : Int) - ((a - 1 : Nat) : Int)) - 1 := by omega
        rw [e2]
        refine ⟨b, hb, ?_⟩
        rw [hiff]
        constructor
        · intro h i' h1
          by_cases hx : i' = a - 1
          · rw [hx]; omega
          · exact h i' (by omega)
        · intro h i' h1
          exact h i' (by omega)
    · rw [if_neg hg]
      refine ⟨true, rfl, ?_⟩
      simp only [true_iff]
      intro i' h1
      have := getD_lt n qs hq i' (by omega)
      omega

theorem safeSecondaryDiagonal_spec (n : Nat) (qs : List Nat) (hq : ∀ q ∈ qs, q < n)
    (col : Nat) : ∀ (fuel a : Nat), a ≤ fuel → a ≤ qs.length →
    ∃ b, safeSecondaryDiagonal (stateOf n qs) (n : Int) fuel ((a : Int) - 1)
        ((col : Int) + ((qs.length : Int) - (a : Int)) + 1) = .ok b ∧
      (b = true ↔ ∀ i', i' < a → qs.getD i' 0 + i' ≠ col + qs.length) := by
  intro fuel
  induction fuel with
  | zero =>
    intro a ha _
    have ha0 : a = 0 := by omega
    subst ha0
    unfold safeSecondaryDiagonal
    rw [if_neg (by omega)]
    refine ⟨true, rfl, ?_⟩
    simp only [true_iff]
    intro i' h1
    omega
  | succ fuel ih =>
    intro a ha hal
    unfold safeSecondaryDiagonal
    by_cases hg : (a : Int) - 1 ≥ 0 ∧ (col : Int) + ((qs.length : Int) - (a : Int)) + 1 < (n : Int)
    · rw [if_pos hg]
      have hi : ((a : Int) - 1) = ((a - 1 : Nat) : Int) := by omega
      have hj : (col : Int) + ((qs.length : Int) - (a : Int)) + 1 =
          ((col + qs.length - a + 1 : Nat) : Int) := by omega
      have hil : a - 1 < qs.length := by omega
      rw [hi, hj, sliceGet_cast _ _ _ (stateOf_get n qs (a - 1) hil)]
      simp only [bind, Except.bind]
      rw [sliceGet_cast _ _ _ (queenRow_get n _ (col + qs.length - a + 1)
        (getD_lt n qs hq _ hil) (by omega))]
      simp only []
      by_cases hc : col + qs.length - a + 1 = qs.getD (a - 1) 0
      · rw [if_pos ((queen_test _ _).2 hc)]
        refine ⟨false, rfl, ?_⟩
        simp only [Bool.false_eq_true, false_iff]
        intro h
        exact h (a - 1) (by omega) (by omega)
      · rw [if_neg (fun h => hc ((queen_test _ _).1 h))]
        obtain ⟨b, hb, hiff⟩ := ih (a - 1) (by omega) (by omega)
        have e2 : ((col + qs.length - a + 1 : Nat) : Int) + 1 =
            (col : Int) + ((qs.length : Int) - ((a - 1 : Nat) : Int)) + 1 := by omega
        rw [e2]
        refine ⟨b, hb, ?_⟩
        rw [hiff]
        constructor
        · intro h i' h1
          by_cases hx : i' = a - 1
          · rw [hx]; omega
          · exact h i' (by omega)
        · intro h i' h1
          exact h i' (by omega)
    · rw [if_neg hg]
      refine ⟨true, rfl, ?_⟩
      simp only [true_iff]
      intro i' h1
      have := getD_lt n qs hq i' (by omega)
      omega

theorem isSafe_spec (n : Nat) (qs : List Nat) (hq : ∀ q ∈ qs, q < n) (col : Nat)
    (hcol : col < n) :
    ∃ b, isSafe (stateOf n qs) qs.length col n = .ok b ∧ (b = true ↔ SafeAt qs col) := by
  obtain ⟨b1, h1, hc⟩ := safeColumn_spec n qs hq col hcol qs.length 0 (by omega)
  obtain ⟨b2, h2, hm⟩ := safeMainDiagonal_spec n qs hq col hcol qs.length qs.length
    (le_refl _) (le_refl _)
  obtain ⟨b3, h3, hs⟩ := safeSecondaryDiagonal_spec n qs hq col qs.length qs.length
    (le_refl _) (le_refl _)
  have e2 : (col : Int) - ((qs.length : Int) - (qs.length : Int)) - 1 = (col : Int) - 1 := by
    omega
  have e3 : (col : Int) + ((qs.length : Int) - (qs.length : Int)) + 1 = (col : Int) + 1 := by
    omega
  rw [e2] at h2
  rw [e3] at h3
  unfold isSafe
  rw [h1]
  simp only [bind, Except.bind]
  cases hb1 : b1 with
  | false =>
    refine ⟨false, rfl, ?_⟩
    simp only [Bool.false_eq_true, false_iff]
    intro h
    have : b1 = true := hc.2 (fun i' _ hi' => (h i' hi').1)
    rw [hb1] at this
    cases this
  | true =>
    simp only [Bool.not_true, Bool.false_eq_true, if_false]
    rw [h2]
    simp only []
    cases hb2 : b2 with
    | false =>
      refine ⟨false, rfl, ?_⟩
      simp only [Bool.false_eq_true, false_iff]
      intro h
      have : b2 = true := hm.2 (fun i' hi' => (h i' hi').2.1)
      rw [hb2] at this
      cases this
    | true =>
      simp only [Bool.not_true, Bool.false_eq_true, if_false]
      refine ⟨b3, h3, ?_⟩
      rw [hs]
      have hcol' := hc.1 hb1
      have hmain := hm.1 hb2
      constructor
      · intro h i' hi'
        exact ⟨hcol' i' (Nat.zero_le _) hi', hmain i' hi', h i' hi'⟩
      · intro h i' hi'
        exact (h i' hi').2.2

theorem snoc_prefix_eq {α : Type} {cur p : List α} {x y : α} (hx : (cur ++ [x]) <+: p)
    (hy : (cur ++ [y]) <+: p) : x = y := by
  obtain ⟨t, ht⟩ := hx
  obtain ⟨t', ht'⟩ := hy
  rw [← ht'] at ht
  simp only [List.append_assoc, List.singleton_append] at ht
  have := List.append_cancel_left ht
  injection this

theorem prefix_getD {qs full : List Nat} (h : qs <+: full) (i : Nat) (hi : i < qs.length) :
    full.getD i 0 = qs.getD i 0 := by
  obtain ⟨t, rfl⟩ := h
  rw [List.getD_eq_getElem?_getD, List.getD_eq_getElem?_getD, List.getElem?_append_left hi]

theorem getD_snoc (qs : List Nat) (c : Nat) : (qs ++ [c]).getD qs.length 0 = c := by
  rw [List.getD_eq_getElem?_getD, List.getElem?_append_right (le_refl _)]
  simp

theorem prefix_placement {n : Nat} {qs full : List Nat} (hp : Placement n full)
    (h : qs <+: full) : Placement n qs := by
  have hlen := h.length_le
  refine ⟨fun q hq => hp.1 q (h.subset hq), ?_⟩
  intro i j hij hj
  have := hp.2 i j hij (by omega)
  rw [prefix_getD h i (by omega), prefix_getD h j hj] at this
  exact this

theorem placement_snoc {n : Nat} {qs : List Nat} {c : Nat} (hp : Placement n qs)
    (hc : c < n) (hs : SafeAt qs c) : Placement n (qs ++ [c]) := by
  constructor
  · intro q hq
    rcases List.mem_append.1 hq with h | h
    · exact hp.1 q h
    · rw [List.mem_singleton] at h
      rw [h]; exact hc
  · intro i j hij hj
    rw [List.length_append, List.length_singleton] at hj
    have hpre : qs <+: qs ++ [c] := List.prefix_append _ _
    by_cases hjl : j < qs.length
    · rw [prefix_getD hpre i (by omega), prefix_getD hpre j hjl]
      exact hp.2 i j hij hjl
    · have hj' : j = qs.length := by omega
      rw [hj', getD_snoc, prefix_getD hpre i (by omega)]
      have := hs i (by omega)
      omega

theorem safe_of_placement {n : Nat} {qs : List Nat} {c : Nat}
    (hp : Placement n (qs ++ [c])) : c < n ∧ SafeAt qs c := by
  refine ⟨hp.1 c (by simp), ?_⟩
  intro i hi
  have hpre : qs <+: qs ++ [c] := List.prefix_append _ _
  have := hp.2 i qs.length hi (by simp)
  rw [getD_snoc, prefix_getD hpre i hi] at this
  omega

theorem stateOf_full (n : Nat) (qs : List Nat) (h : qs.length = n) :
    stateOf n qs = boardOf n qs := by
  unfold stateOf
  rw [h, Nat.sub_self]
  simp

theorem full_iff (n : Nat) (qs : List Nat) (hp : Placement n qs) (h : qs.length = n)
    (full : List Nat) :
    full ∈ [qs] ↔ (Placement n full ∧ full.length = n ∧ qs <+: full) := by
  rw [List.mem_singleton]
  constructor
  · intro e
    rw [e]
    exact ⟨hp, h, List.prefix_refl _⟩
  · rintro ⟨_, hl, hpre⟩
    exact (List.IsPrefix.eq_of_length hpre (by rw [h, hl])).symm

theorem fold_columns (n : Nat) (qs : List Nat)
    (body : List (List Char) × List (List (List Char)) → Nat →
      Except Fault (List (List Char) × List (List (List Char))))
    (hbody : ∀ (result : List (List (List Char))) (c : Nat), c < n →
      ∃ solsC : List (List Nat), body (stateOf n qs, result) c =
          .ok (stateOf n qs, result ++ solsC.map (boardOf n)) ∧ solsC.Nodup ∧
        ∀ full, full ∈ solsC ↔
          (Placement n full ∧ full.length = n ∧ (qs ++ [c]) <+: full)) :
    ∀ (cs : List Nat) (result : List (List (List Char))), cs.Nodup → (∀ c ∈ cs, c < n) →
    ∃ sols : List (List Nat), cs.foldlM body (stateOf n qs, result) =
        .ok (stateOf n qs, result ++ sols.map (boardOf n)) ∧ sols.Nodup ∧
      ∀ full, full ∈ sols ↔
        ∃ c ∈ cs, Placement n full ∧ full.length = n ∧ (qs ++ [c]) <+: full := by
  intro cs
  induction cs with
  | nil =>
    intro result _ _
    exact ⟨[], by simp [List.foldlM, pure, Except.pure], List.nodup_nil, by simp⟩
  | cons c rest ihr =>
    intro result hnd hcs
    have hnd' := List.nodup_cons.1 hnd
    have hc : c < n := hcs c (List.mem_cons_self _ _)
    have hrest : ∀ x ∈ rest, x < n := fun x hx => hcs x (List.mem_cons_of_mem _ hx)
    obtain ⟨solsC, g1, g2, g3⟩ := hbody result c hc
    obtain ⟨sols, h1, h2, h3⟩ := ihr (result ++ solsC.map (boardOf n)) hnd'.2 hrest
    refine ⟨solsC ++ sols, ?_, ?_, ?_⟩
    · rw [List.foldlM_cons, g1]
      simp only [bind, Except.bind]
      rw [h1, List.map_append, List.append_assoc]
    · rw [List.nodup_append]
      refine ⟨g2, h2, ?_⟩
      intro full hf1 hf2
      obtain ⟨y, hy, hey⟩ := (h3 full).1 hf2
      have := snoc_prefix_eq ((g3 full).1 hf1).2.2 hey.2.2
      exact hnd'.1 (this ▸ hy)
    · intro full
      rw [List.mem_append, g3 full, h3 full]
      constructor
      · rintro (h | ⟨y, hy, he⟩)
        · exact ⟨c, List.mem_cons_self _ _, h⟩
        · exact ⟨y, List.mem_cons_of_mem _ hy, he⟩
      · rintro ⟨y, hy, he⟩
        rcases List.mem_cons.1 hy with rfl | hy
        · exact Or.inl he
        · exact Or.inr ⟨y, hy, he⟩

theorem fold_range (n : Nat) (qs : List Nat)
    (body : List (List Char) × List (List (List Char)) → Nat →
      Except Fault (List (List Char) × List (List (List Char))))
    (hbody : ∀ (result : List (List (List Char))) (c : Nat), c < n →
      ∃ solsC : List (List Nat), body (stateOf n qs, result) c =
          .ok (stateOf n qs, result ++ solsC.map (boardOf n)) ∧ solsC.Nodup ∧
        ∀ full, full ∈ solsC ↔
          (Placement n full ∧ full.length = n ∧ (qs ++ [c]) <+: full))
    (hlt : qs.length < n) (result : List (List (List Char))) :
    ∃ sols : List (List Nat), (List.range n).foldlM body (stateOf n qs, result) =
        .ok (stateOf n qs, result ++ sols.map (boardOf n)) ∧ sols.Nodup ∧
      ∀ full, full ∈ sols ↔ (Placement n full ∧ full.length = n ∧ qs <+: full) := by
  obtain ⟨sols, h1, h2, h3⟩ := fold_columns n qs body hbody (List.range n) result
    (List.nodup_range n) (fun c hc => List.mem_range.1 hc)
  refine ⟨sols, h1, h2, ?_⟩
  intro full
  rw [h3 full]
  constructor
  · rintro ⟨c, _, hpl, hl, hpre⟩
    exact ⟨hpl, hl, (List.prefix_append qs [c]).trans hpre⟩
  · rintro ⟨hpl, hl, hpre⟩
    obtain ⟨t, ht⟩ := hpre
    cases t with
    | nil =>
      rw [List.append_nil] at ht
      rw [← ht] at hl
      omega
    | cons c t =>
      have hcmem : c ∈ full := by rw [← ht]; simp
      refine ⟨c, List.mem_range.2 (hpl.1 c hcmem), hpl, hl, ⟨t, ?_⟩⟩
      rw [← ht]
      simp

theorem queensBacktrack_spec (n : Nat) : ∀ (fuel : Nat) (qs : List Nat)
    (result : List (List (List Char))), Placement n qs → qs.length ≤ n →
    n ≤ qs.length + fuel →
    ∃ sols : List (List Nat), queensBacktrack n fuel qs.length (stateOf n qs) result =
        .ok (stateOf n qs, result ++ sols.map (boardOf n)) ∧ sols.Nodup ∧
      ∀ full, full ∈ sols ↔ (Placement n full ∧ full.length = n ∧ qs <+: full) := by
  intro fuel
  induction fuel with
  | zero =>
    intro qs result hp hle hfuel
    have heq : qs.length = n := by omega
    refine ⟨[qs], ?_, List.nodup_singleton _, full_iff n qs hp heq⟩
    unfold queensBacktrack
    rw [if_pos heq, stateOf_full n qs heq]
    rfl
  | succ fuel ih =>
    intro qs result hp hle hfuel
    unfold queensBacktrack
    by_cases heq : qs.length = n
    · rw [if_pos heq]
      refine ⟨[qs], ?_, List.nodup_singleton _, full_iff n qs hp heq⟩
      rw [stateOf_full n qs heq]
      rfl
    · rw [if_neg heq]
      have hlt : qs.length < n := by omega
      apply fold_range n qs _ ?_ hlt result
      intro result c hc
      obtain ⟨b, hb, hiff⟩ := isSafe_spec n qs hp.1 c hc
      simp only [bind, Except.bind]
      rw [hb]
      simp only []
      cases hbv : b with
      | false =>
        simp only [Bool.false_eq_true, if_false, pure, Except.pure]
        refine ⟨[], by simp, List.nodup_nil, ?_⟩
        intro full
        simp only [List.not_mem_nil, false_iff]
        intro he
        have hsafe := (safe_of_placement (prefix_placement he.1 he.2.2)).2
        have := hiff.2 hsafe
        rw [hbv] at this
        cases this
      | true =>
        have hsafe : SafeAt qs c := hiff.1 hbv
        have hp' := placement_snoc hp hc hsafe
        simp only [if_true]
        rw [state_line n qs hlt]
        simp only []
        rw [place_runes n c hc]
        simp only []
        rw [place_board n qs c hlt]
        simp only []
        obtain ⟨solsC, g1, g2, g3⟩ := ih (qs ++ [c]) result hp'
          (by simp; omega) (by simp; omega)
        have hlen : (qs ++ [c]).length = qs.length + 1 := by simp
        rw [hlen] at g1
        rw [g1]
        simp only []
        rw [remove_runes n c hc]
        simp only []
        rw [remove_board n qs c hlt]
        exact ⟨solsC, rfl, g2, g3⟩

theorem queenCol_spec : ∀ (r : List Char) (j : Nat), r[j]? = some 'Q' →
    (∀ j', j' < j → r[j']? ≠ some 'Q') → queenCol r = j := by
  intro r
  induction r with
  | nil => intro j h; simp at h
  | cons c rest ih =>
    intro j h hmin
    unfold queenCol
    cases j with
    | zero =>
      simp only [List.getElem?_cons_zero, Option.some.injEq] at h
      rw [if_pos h]
    | succ j =>
      have h0 := hmin 0 (by omega)
      simp only [List.getElem?_cons_zero, ne_eq, Option.some.injEq] at h0
      rw [if_neg h0]
      simp only [List.getElem?_cons_succ] at h
      rw [ih j h (fun j' hj' => by
        have := hmin (j' + 1) (by omega)
        simpa using this)]

theorem queenRow_char (n q j : Nat) (hq : q < n) :
    (queenRow n q)[j]? = some 'Q' ↔ j = q := by
  by_cases hj : j < n
  · rw [queenRow_get n q j hq hj]
    simp only [Option.some.injEq]
    exact queen_test j q
  · rw [List.getElem?_eq_none (by rw [queenRow_length]; omega)]
    constructor
    · intro h; cases h
    · intro h; omega

theorem queenCol_row (n q : Nat) (hq : q < n) : queenCol (queenRow n q) = q := by
  apply queenCol_spec
  · exact (queenRow_char n q q hq).2 rfl
  · intro j' hj' h
    have := (queenRow_char n q j' hq).1 h
    omega

theorem boardOf_cols (n : Nat) : ∀ (qs : List Nat), (∀ q ∈ qs, q < n) →
    (boardOf n qs).map queenCol = qs := by
  intro qs
  induction qs with
  | nil => intro _; rfl
  | cons q rest ih =>
    intro h
    unfold boardOf at ih ⊢
    rw [List.map_cons, List.map_cons, queenCol_row n q (h q (List.mem_cons_self _ _)),
      ih (fun x hx => h x (List.mem_cons_of_mem _ hx))]

theorem charAt_boardOf (n : Nat) (qs : List Nat) (hq : ∀ q ∈ qs, q < n) (i j : Nat)
    (hi : i < qs.length) : charAt (boardOf n qs) i j = 'Q' ↔ j = qs.getD i 0 := by
  have hrow : (boardOf n qs).getD i [] = queenRow n (qs.getD i 0) := by
    unfold boardOf
    rw [List.getD_eq_getElem?_getD, List.getElem?_map, List.getD_eq_getElem?_getD,
      List.getElem?_eq_getElem hi]
    rfl
  have hqi := getD_lt n qs hq i hi
  unfold charAt
  rw [hrow]
  by_cases hj : j < n
  · rw [List.getD_eq_getElem?_getD, queenRow_get n _ j hqi hj]
    exact queen_test j _
  · rw [List.getD_eq_getElem?_getD, List.getElem?_eq_none (by rw [queenRow_length]; omega)]
    constructor
    · intro h; exact absurd h (by decide)
    · intro h; omega

theorem boardOf_solution (n : Nat) (qs : List Nat) (hp : Placement n qs)
    (hl : qs.length = n) : IsSolution n (boardOf n qs) := by
  refine ⟨by rw [boardOf_length, hl], ?_, ?_, ?_⟩
  · intro line hline
    unfold boardOf at hline
    rw [List.mem_map] at hline
    obtain ⟨q, _, rfl⟩ := hline
    refine ⟨queenRow_length n q, ?_⟩
    intro c hc
    unfold queenRow at hc
    rcases List.mem_or_eq_of_mem_set hc with h | h
    · left
      exact (List.mem_replicate.1 h).2
    · right
      exact h
  · intro i hi
    refine ⟨qs.getD i 0, getD_lt n qs hp.1 i (by omega), ?_⟩
    intro j' _
    exact charAt_boardOf n qs hp.1 i j' (by omega)
  · intro i j i' j' hi _ hi' _ h1 h2 hne
    have e1 := (charAt_boardOf n qs hp.1 i j (by omega)).1 h1
    have e2 := (charAt_boardOf n qs hp.1 i' j' (by omega)).1 h2
    rcases Nat.lt_or_gt_of_ne hne with h | h
    · have := hp.2 i i' h (by omega)
      omega
    · have := hp.2 i' i h (by omega)
      omega

theorem solution_boardOf (n : Nat) (board : List (List Char)) (hs : IsSolution n board) :
    ∃ qs, Placement n qs ∧ qs.length = n ∧ board = boardOf n qs := by
  obtain ⟨hlen, hrows, hone, hatt⟩ := hs
  have hcol : ∀ i, i < n → (board.map queenCol).getD i 0 < n ∧
      ∀ j', j' < n → (charAt board i j' = 'Q' ↔ j' = (board.map queenCol).getD i 0) := by
    intro i hi
    obtain ⟨j, hj, hiff⟩ := hone i hi
    have hil : i < board.length := by omega
    have hrl : board[i].length = n := (hrows _ (List.getElem_mem _)).1
    have hch : ∀ j', j' < n → charAt board i j' = (board[i])[j']?.getD '.' := by
      intro j' _
      unfold charAt
      rw [List.getD_eq_getElem _ _ hil, List.getD_eq_getElem?_getD]
    have hq : queenCol board[i] = j := by
      apply queenCol_spec
      · have := (hiff j hj).2 rfl
        rw [hch j hj, List.getElem?_eq_getElem (by omega)] at this
        rw [List.getElem?_eq_getElem (by omega)]
        exact congrArg some this
      · intro j' hj' h
        have := (hiff j' (by omega)).1 (by rw [hch j' (by omega), h]; rfl)
        omega
    have hget : (board.map queenCol).getD i 0 = j := by
      rw [List.getD_eq_getElem?_getD, List.getElem?_map, List.getElem?_eq_getElem hil]
      exact hq
    rw [hget]
    exact ⟨hj, hiff⟩
  refine ⟨board.map queenCol, ⟨?_, ?_⟩, by rw [List.length_map, hlen], ?_⟩
  · intro q hq
    obtain ⟨i, hi, rfl⟩ := List.getElem_of_mem hq
    rw [List.length_map] at hi
    have := (hcol i (by omega)).1
    rw [List.getD_eq_getElem _ _ (by rw [List.length_map]; exact hi)] at this
    exact this
  · intro i j hij hj
    rw [List.length_map] at hj
    have hi := hcol i (by omega)
    have hj' := hcol j (by omega)
    have := hatt i _ j _ (by omega) hi.1 (by omega) hj'.1 ((hi.2 _ hi.1).2 rfl)
      ((hj'.2 _ hj'.1).2 rfl) (by omega)
    omega
  · apply List.ext_getElem
    · rw [boardOf_length, List.length_map]
    · intro i h1 h2
      have hi : i < n := by omega
      have hc := hcol i hi
      have hrl : board[i].length = n := (hrows _ (List.getElem_mem _)).1
      have hrow : (boardOf n (board.map queenCol))[i] =
          queenRow n ((board.map queenCol).getD i 0) := by
        unfold boardOf
        rw [List.getElem_map, List.getD_eq_getElem _ _ (by rw [List.length_map]; exact h1)]
      rw [hrow]
      apply List.ext_getElem
      · rw [hrl, queenRow_length]
      · intro j g1 g2
        have hj : j < n := by omega
        have hq := queenRow_get n _ j hc.1 hj
        rw [List.getElem?_eq_getElem g2] at hq
        have hq' := Option.some.inj hq
        rw [hq']
        have hch : charAt board i j = board[i][j] := by
          unfold charAt
          rw [List.getD_eq_getElem _ _ h1, List.getD_eq_getElem _ _ g1]
        have hiff := hc.2 j hj
        rw [hch] at hiff
        by_cases hjq : j = (board.map queenCol).getD i 0
        · rw [if_pos hjq]
          exact hiff.2 hjq
        · rw [if_neg hjq]
          rcases (hrows _ (List.getElem_mem h1)).2 _ (List.getElem_mem g1) with h | h
          · exact h
          · exact absurd (hiff.1 h) hjq

/-- C23: for every `n >= 0`, `NQueens(n)` returns, and its result lists exactly
the boards of `n` rows and `n` columns over `'.'` and `'Q'` that have exactly one
`'Q'` in every row and no two queens in the same column or on the same diagonal,
each such board exactly once. -/
theorem nQueens_solutions (n : Int) (hn : 0 ≤ n) :
    ∃ res, NQueens n = .ok res ∧ res.Nodup ∧
      ∀ board, board ∈ res ↔ IsSolution n.toNat board := by
  have hp0 : Placement n.toNat [] :=
    ⟨fun q hq => absurd hq (List.not_mem_nil q), fun i j _ hj => absurd hj (Nat.not_lt_zero j)⟩
  obtain ⟨sols, hrun, hnd, hmem⟩ := queensBacktrack_spec n.toNat n.toNat [] [] hp0
    (Nat.zero_le _) (by simp)
  have hstart : stateOf n.toNat [] =
      List.replicate n.toNat (List.replicate n.toNat '.') := by
    simp [stateOf, boardOf]
  rw [hstart] at hrun
  simp only [List.length_nil, List.nil_append] at hrun
  refine ⟨sols.map (boardOf n.toNat), ?_, ?_, ?_⟩
  · unfold NQueens
    rw [if_neg (by omega)]
    simp only [bind, Except.bind, pure, Except.pure]
    rw [hrun]
  · apply List.Nodup.map_on _ hnd
    intro a ha b hb hab
    have h1 := boardOf_cols n.toNat a ((hmem a).1 ha).1.1
    have h2 := boardOf_cols n.toNat b ((hmem b).1 hb).1.1
    rw [← h1, ← h2, hab]
  · intro board
    rw [List.mem_map]
    constructor
    · rintro ⟨qs, hqs, rfl⟩
      obtain ⟨hp, hl, _⟩ := (hmem qs).1 hqs
      exact boardOf_solution n.toNat qs hp hl
    · intro hs
      obtain ⟨qs, hp, hl, rfl⟩ := solution_boardOf n.toNat board hs
      exact ⟨qs, (hmem qs).2 ⟨hp, hl, List.nil_prefix⟩, rfl⟩

/-- C23 for `n = 4`, with the two boards `NQueens(4)` returns. -/
theorem nQueens_solutions_witness :
    (0 : Int) ≤ 4 ∧
    (∃ res, NQueens 4 = .ok res ∧ res.Nodup ∧
      ∀ board, board ∈ res ↔ IsSolution (4 : Int).toNat board) ∧
    NQueens 4 = .ok [[['.', 'Q', '.', '.'], ['.', '.', '.', 'Q'], ['Q', '.', '.', '.'],
        ['.', '.', 'Q', '.']],
      [['.', '.', 'Q', '.'], ['Q', '.', '.', '.'], ['.', '.', '.', 'Q'],
        ['.', 'Q', '.', '.']]] :=
  ⟨by decide, nQueens_solutions 4 (by decide), by decide⟩

/-! ## SolveSudoku -/

theorem shaped_row (board : Board) (hS : Shaped board) (i : Nat) (hi : i < 9) :
    board.rows[i]? = some (board.rows.getD i ⟨0, 0⟩) ∧ (board.rows.getD i ⟨0, 0⟩).len = 9 ∧
      address board i 9 ≤ board.cells.length := by
  have hlt : i < board.rows.length := by rw [hS.1]; exact hi
  have hmem := hS.2 _ (List.getElem_mem hlt)
  unfold address
  rw [List.getD_eq_getElem _ _ hlt, List.getElem?_eq_getElem hlt]
  exact ⟨rfl, hmem.1, hmem.2⟩

theorem address_lt (board : Board) (hS : Shaped board) (i j : Nat) (hi : i < 9) (hj : j < 9) :
    address board i j < board.cells.length := by
  have := (shaped_row board hS i hi).2.2
  unfold address at this ⊢
  omega

theorem cellGet_ok (board : Board) (hS : Shaped board) (i j : Nat) (hi : i < 9) (hj : j < 9) :
    cellGet board i j = .ok (cellAt board i j) := by
  obtain ⟨hrow, hlen, _⟩ := shaped_row board hS i hi
  have hlt := address_lt board hS i j hi hj
  unfold cellGet
  rw [index_some _ _ _ hrow]
  simp only [bind, Except.bind]
  rw [if_pos (by rw [hlen]; exact hj)]
  unfold cellAt
  rw [List.getD_eq_getElem _ _ hlt]
  exact index_ok _ _ hlt

theorem cellSet_ok (board : Board) (hS : Shaped board) (i j : Nat) (v : List Char)
    (hi : i < 9) (hj : j < 9) : cellSet board i j v = .ok (put board i j v) := by
  obtain ⟨hrow, hlen, _⟩ := shaped_row board hS i hi
  have hlt := address_lt board hS i j hi hj
  unfold cellSet
  rw [index_some _ _ _ hrow]
  simp only [bind, Except.bind]
  rw [if_pos (by rw [hlen]; exact hj)]
  have hst : store board.cells ((board.rows.getD i ⟨0, 0⟩).start + j) v =
      .ok (board.cells.set (address board i j) v) := store_ok _ _ _ hlt
  rw [hst]
  rfl

theorem shaped_put (board : Board) (hS : Shaped board) (i j : Nat) (v : List Char) :
    Shaped (put board i j v) := by
  refine ⟨hS.1, ?_⟩
  intro r hr
  have := hS.2 r hr
  unfold put
  simp only [List.length_set]
  exact this

theorem address_inj (board : Board) (hS : Shaped board) (hP : Separate board)
    (i j i' j' : Nat) (hi : i < 9) (hj : j < 9) (hi' : i' < 9) (hj' : j' < 9)
    (h : address board i j = address board i' j') : i = i' ∧ j = j' := by
  have hlt : i < board.rows.length := by rw [hS.1]; exact hi
  have hlt' : i' < board.rows.length := by rw [hS.1]; exact hi'
  have h1 := (hS.2 _ (List.getElem_mem hlt)).1
  have h2 := (hS.2 _ (List.getElem_mem hlt')).1
  unfold address at h
  rw [List.getD_eq_getElem _ _ hlt, List.getD_eq_getElem _ _ hlt'] at h
  have hpair := List.pairwise_iff_getElem.1 hP
  rcases Nat.lt_trichotomy i i' with hlt2 | heq | hgt
  · have := hpair i i' hlt hlt' hlt2
    omega
  · subst heq
    exact ⟨rfl, by omega⟩
  · have := hpair i' i hlt' hlt hgt
    omega

theorem cellAt_put (board : Board) (hS : Shaped board) (hP : Separate board) (i j : Nat)
    (v : List Char) (hi : i < 9) (hj : j < 9) (i' j' : Nat) (hi' : i' < 9) (hj' : j' < 9) :
    cellAt (put board i j v) i' j' = if i' = i ∧ j' = j then v else cellAt board i' j' := by
  have hlt := address_lt board hS i j hi hj
  have haddr : address (put board i j v) i' j' = address board i' j' := rfl
  unfold cellAt
  rw [haddr]
  unfold put
  simp only [List.getD_eq_getElem?_getD]
  by_cases h : i' = i ∧ j' = j
  · rw [if_pos h, h.1, h.2, List.getElem?_set_self hlt]
    rfl
  · rw [if_neg h, List.getElem?_set_ne]
    intro e
    have := address_inj board hS hP i j i' j' hi hj hi' hj' e
    exact h ⟨this.1.symm, this.2.symm⟩

theorem put_restore (board : Board) (hS : Shaped board) (i j : Nat) (v : List Char)
    (hi : i < 9) (hj : j < 9) :
    put (put board i j v) i j (cellAt board i j) = board := by
  have hlt := address_lt board hS i j hi hj
  show (⟨board.rows, (board.cells.set (address board i j) v).set
    (address board i j) (board.cells.getD (address board i j) emptyCell)⟩ : Board) = board
  rw [List.set_set, List.getD_eq_getElem _ _ hlt, set_self _ _ hlt]

theorem mem_positions (i j : Nat) : (i, j) ∈ positions ↔ i < 9 ∧ j < 9 := by
  unfold positions
  rw [List.pair_mem_product, List.mem_range, List.mem_range]

theorem countP_drop {α : Type} (p q : α → Bool) (a : α) (hpa : p a = true)
    (hqa : q a = false) : ∀ (l : List α), (∀ x ∈ l, q x = true → p x = true) →
    l.countP q ≤ l.countP p ∧ (a ∈ l → l.countP q < l.countP p) := by
  intro l
  induction l with
  | nil => intro _; exact ⟨le_refl _, fun h => absurd h (List.not_mem_nil a)⟩
  | cons x t ih =>
    intro hle
    obtain ⟨h1, h2⟩ := ih (fun y hy => hle y (List.mem_cons_of_mem _ hy))
    have hx := hle x (List.mem_cons_self _ _)
    rw [List.countP_cons, List.countP_cons]
    constructor
    · cases hq : q x with
      | false => simp; omega
      | true => simp [hx hq]; exact h1
    · intro ha
      rcases List.mem_cons.1 ha with rfl | hat
      · simp [hpa, hqa]
        omega
      · have := h2 hat
        cases hq : q x with
        | false => simp; omega
        | true => simp [hx hq]; exact this

theorem empties_put (board : Board) (hS : Shaped board) (hP : Separate board) (i j : Nat)
    (v : List Char) (hi : i < 9) (hj : j < 9) (he : cellAt board i j = emptyCell)
    (hv : v ≠ emptyCell) : empties (put board i j v) < empties board := by
  unfold empties
  apply (countP_drop _ _ (i, j) (by simp [he]) (by
    simp only [decide_eq_false_iff_not]
    rw [cellAt_put board hS hP i j v hi hj i j hi hj, if_pos ⟨rfl, rfl⟩]
    exact hv) positions ?_).2 ((mem_positions i j).2 ⟨hi, hj⟩)
  intro x hx hq
  have hx' := (mem_positions x.1 x.2).1 hx
  simp only [decide_eq_true_eq] at hq ⊢
  rw [cellAt_put board hS hP i j v hi hj x.1 x.2 hx'.1 hx'.2] at hq
  split at hq
  · exact absurd hq hv
  · exact hq

theorem empties_le (board : Board) : empties board ≤ 81 := by
  unfold empties
  exact le_trans (List.countP_le_length _) (by decide)

theorem scanRow_spec (board : Board) (hS : Shaped board) (row : Nat) (hrow : row < 9)
    (num : List Char) : ∀ (todo x : Nat), x + todo = 9 →
    ∃ b, scanRow board row num todo x = .ok b ∧
      (b = true ↔ ∀ x', x ≤ x' → x' < 9 → cellAt board row x' ≠ num) := by
  intro todo
  induction todo with
  | zero =>
    intro x hx
    refine ⟨true, rfl, ?_⟩
    simp only [true_iff]
    intro x' h1 h2
    omega
  | succ todo ih =>
    intro x hx
    unfold scanRow
    rw [cellGet_ok board hS row x hrow (by omega)]
    simp only [bind, Except.bind]
    by_cases hc : cellAt board row x = num
    · rw [if_pos hc]
      refine ⟨false, rfl, ?_⟩
      simp only [Bool.false_eq_true, false_iff]
      intro h
      exact h x (le_refl _) (by omega) hc
    · rw [if_neg hc]
      obtain ⟨b, hb, hiff⟩ := ih (x + 1) (by omega)
      refine ⟨b, hb, ?_⟩
      rw [hiff]
      constructor
      · intro h x' h1 h2
        by_cases hx' : x' = x
        · rw [hx']; exact hc
        · exact h x' (by omega) h2
      · intro h x' h1 h2
        exact h x' (by omega) h2

theorem scanCol_spec (board : Board) (hS : Shaped board) (col : Nat) (hcol : col < 9)
    (num : List Char) : ∀ (todo x : Nat), x + todo = 9 →
    ∃ b, scanCol board col num todo x = .ok b ∧
      (b = true ↔ ∀ x', x ≤ x' → x' < 9 → cellAt board x' col ≠ num) := by
  intro todo
  induction todo with
  | zero =>
    intro x hx
    refine ⟨true, rfl, ?_⟩
    simp only [true_iff]
    intro x' h1 h2
    omega
  | succ todo ih =>
    intro x hx
    unfold scanCol
    rw [cellGet_ok board hS x col (by omega) hcol]
    simp only [bind, Except.bind]
    by_cases hc : cellAt board x col = num
    · rw [if_pos hc]
      refine ⟨false, rfl, ?_⟩
      simp only [Bool.false_eq_true, false_iff]
      intro h
      exact h x (le_refl _) (by omega) hc
    · rw [if_neg hc]
      obtain ⟨b, hb, hiff⟩ := ih (x + 1) (by omega)
      refine ⟨b, hb, ?_⟩
      rw [hiff]
      constructor
      · intro h x' h1 h2
        by_cases hx' : x' = x
        · rw [hx']; exact hc
        · exact h x' (by omega) h2
      · intro h x' h1 h2
        exact h x' (by omega) h2

theorem scanBox_spec (board : Board) (hS : Shaped board) (sr sc : Nat) (hsr : sr + 3 ≤ 9)
    (hsc : sc + 3 ≤ 9) (num : List Char) : ∀ (todo i j : Nat), 3 * i + j + todo = 9 → j < 3 →
    ∃ b, scanBox board sr sc num todo i j = .ok b ∧
      (b = true ↔ ∀ i' j', i' < 3 → j' < 3 → (i < i' ∨ (i = i' ∧ j ≤ j')) →
        cellAt board (i' + sr) (j' + sc) ≠ num) := by
  intro todo
  induction todo with
  | zero =>
    intro i j hij hj
    refine ⟨true, rfl, ?_⟩
    simp only [true_iff]
    intro i' j' h1 h2 h3
    omega
  | succ todo ih =>
    intro i j hij hj
    unfold scanBox
    rw [cellGet_ok board hS (i + sr) (j + sc) (by omega) (by omega)]
    simp only [bind, Except.bind]
    by_cases hc : cellAt board (i + sr) (j + sc) = num
    · rw [if_pos hc]
      refine ⟨false, rfl, ?_⟩
      simp only [Bool.false_eq_true, false_iff]
      intro h
      exact h i j (by omega) hj (Or.inr ⟨rfl, le_refl _⟩) hc
    · rw [if_neg hc]
      by_cases hj1 : j + 1 < 3
      · rw [if_pos hj1]
        obtain ⟨b, hb, hiff⟩ := ih i (j + 1) (by omega) hj1
        refine ⟨b, hb, ?_⟩
        rw [hiff]
        constructor
        · intro h i' j' h1 h2 h3
          by_cases hx' : i' = i ∧ j' = j
          · rw [hx'.1, hx'.2]; exact hc
          · exact h i' j' h1 h2 (by omega)
        · intro h i' j' h1 h2 h3
          exact h i' j' h1 h2 (by omega)
      · rw [if_neg hj1]
        obtain ⟨b, hb, hiff⟩ := ih (i + 1) 0 (by omega) (by omega)
        refine ⟨b, hb, ?_⟩
        rw [hiff]
        constructor
        · intro h i' j' h1 h2 h3
          by_cases hx' : i' = i ∧ j' = j
          · rw [hx'.1, hx'.2]; exact hc
          · exact h i' j' h1 h2 (by omega)
        · intro h i' j' h1 h2 h3
          exact h i' j' h1 h2 (by omega)

theorem isValidSudoku_spec (board : Board) (hS : Shaped board) (i j : Nat) (hi : i < 9)
    (hj : j < 9) (num : List Char) :
    ∃ b, isValidSudoku board i j num = .ok b ∧
      (b = true ↔ ∀ i' j', i' < 9 → j' < 9 → Peer i j i' j' → cellAt board i' j' ≠ num) := by
  obtain ⟨b1, h1, hr⟩ := scanRow_spec board hS i hi num 9 0 rfl
  obtain ⟨b2, h2, hc⟩ := scanCol_spec board hS j hj num 9 0 rfl
  obtain ⟨b3, h3, hb⟩ := scanBox_spec board hS (3 * (i / 3)) (3 * (j / 3)) (by omega)
    (by omega) num 9 0 0 rfl (by omega)
  unfold isValidSudoku
  rw [h1]
  simp only [bind, Except.bind]
  cases hb1 : b1 with
  | false =>
    refine ⟨false, rfl, ?_⟩
    simp only [Bool.false_eq_true, false_iff]
    intro h
    have : b1 = true := hr.2 (fun x' _ hx' => h i x' hi hx' (Or.inl rfl))
    rw [hb1] at this
    cases this
  | true =>
    simp only [Bool.not_true, Bool.false_eq_true, if_false]
    rw [h2]
    simp only []
    cases hb2 : b2 with
    | false =>
      refine ⟨false, rfl, ?_⟩
      simp only [Bool.false_eq_true, false_iff]
      intro h
      have : b2 = true := hc.2 (fun x' _ hx' => h x' j hx' hj (Or.inr (Or.inl rfl)))
      rw [hb2] at this
      cases this
    | true =>
      simp only [Bool.not_true, Bool.false_eq_true, if_false]
      refine ⟨b3, h3, ?_⟩
      rw [hb]
      have hrow := hr.1 hb1
      have hcol := hc.1 hb2
      constructor
      · intro h i' j' hi' hj' hp
        rcases hp with hp | hp | hp
        · rw [← hp]; exact hrow j' (Nat.zero_le _) hj'
        · rw [← hp]; exact hcol i' (Nat.zero_le _) hi'
        · have h4 := h (i' % 3) (j' % 3) (by omega) (by omega) (by omega)
          have h5 : i' % 3 + 3 * (i / 3) = i' := by omega
          have h6 : j' % 3 + 3 * (j / 3) = j' := by omega
          rw [h5, h6] at h4
          exact h4
      · intro h i' j' hi' hj' _
        apply h _ _ (by omega) (by omega)
        right; right
        constructor
        · omega
        · omega

theorem firstEmpty_spec (board : Board) (hS : Shaped board) :
    ∀ (todo i j : Nat), 9 * i + j + todo = 81 → j < 9 →
    (∀ i' j', i' < 9 → j' < 9 → (i' < i ∨ (i' = i ∧ j' < j)) →
      cellAt board i' j' ≠ emptyCell) →
    (firstEmpty board todo i j = .ok none ∧ Complete board) ∨
    (∃ a b, firstEmpty board todo i j = .ok (some (a, b)) ∧ a < 9 ∧ b < 9 ∧
      cellAt board a b = emptyCell) := by
  intro todo
  induction todo with
  | zero =>
    intro i j hij hj hall
    left
    refine ⟨rfl, ?_⟩
    intro i' j' hi' hj'
    exact hall i' j' hi' hj' (by omega)
  | succ todo ih =>
    intro i j hij hj hall
    unfold firstEmpty
    rw [cellGet_ok board hS i j (by omega) hj]
    simp only [bind, Except.bind]
    by_cases hc : cellAt board i j = emptyCell
    · rw [if_pos hc]
      right
      exact ⟨i, j, rfl, by omega, hj, hc⟩
    · rw [if_neg hc]
      by_cases hj1 : j + 1 < 9
      · rw [if_pos hj1]
        apply ih i (j + 1) (by omega) hj1
        intro i' j' hi' hj' h
        by_cases hx : i' = i ∧ j' = j
        · rw [hx.1, hx.2]; exact hc
        · exact hall i' j' hi' hj' (by omega)
      · rw [if_neg hj1]
        apply ih (i + 1) 0 (by omega) (by omega)
        intro i' j' hi' hj' h
        by_cases hx : i' = i ∧ j' = j
        · rw [hx.1, hx.2]; exact hc
        · exact hall i' j' hi' hj' (by omega)

theorem peer_symm {i j i' j' : Nat} (h : Peer i j i' j') : Peer i' j' i j := by
  rcases h with h | h | h
  · exact Or.inl h.symm
  · exact Or.inr (Or.inl h.symm)
  · exact Or.inr (Or.inr ⟨h.1.symm, h.2.symm⟩)

theorem numerals_filled : ∀ num ∈ numerals, num ≠ emptyCell := by decide

theorem noClash_put (board : Board) (hS : Shaped board) (hP : Separate board)
    (hN : NoClash board) (i j : Nat) (hi : i < 9) (hj : j < 9) (num : List Char)
    (hfree : ∀ i' j', i' < 9 → j' < 9 → Peer i j i' j' → cellAt board i' j' ≠ num) :
    NoClash (put board i j num) := by
  intro a ha b hb a' ha' b' hb' hne hp hfill
  rw [cellAt_put board hS hP i j num hi hj a b ha hb] at hfill ⊢
  rw [cellAt_put board hS hP i j num hi hj a' b' ha' hb']
  by_cases h1 : a = i ∧ b = j
  · rw [if_pos h1]
    have h2 : ¬ (a' = i ∧ b' = j) := by
      intro h
      apply hne
      rw [h1.1, h1.2, h.1, h.2]
    rw [if_neg h2]
    rw [h1.1, h1.2] at hp
    exact Ne.symm (hfree a' b' ha' hb' hp)
  · rw [if_neg h1] at hfill ⊢
    by_cases h2 : a' = i ∧ b' = j
    · rw [if_pos h2]
      rw [h2.1, h2.2] at hp
      exact hfree a b ha hb (peer_symm hp)
    · rw [if_neg h2]
      exact hN a ha b hb a' ha' b' hb' hne hp hfill

theorem cellsOk_put (board : Board) (hS : Shaped board) (hP : Separate board)
    (hC : CellsOk board) (i j : Nat) (hi : i < 9) (hj : j < 9) (v : List Char)
    (hv : v = emptyCell ∨ v ∈ numerals) : CellsOk (put board i j v) := by
  intro a ha b hb
  unfold CellOk
  rw [cellAt_put board hS hP i j v hi hj a b ha hb]
  split
  · exact hv
  · exact hC a ha b hb

theorem tryNums_spec (fuel : Nat) (i j : Nat) (hi : i < 9) (hj : j < 9)
    (ihf : ∀ board, Shaped board → Separate board → NoClash board → empties board < fuel →
      Outcome board (solve fuel board)) :
    ∀ (nums : List (List Char)), (∀ n ∈ nums, n ∈ numerals) →
    ∀ board, Shaped board → Separate board → NoClash board →
      cellAt board i j = emptyCell → empties board ≤ fuel →
      Outcome board (tryNums (fun b => solve fuel b) i j nums board) := by
  intro nums
  induction nums with
  | nil =>
    intro _ board _ _ _ _ _
    exact ⟨false, board, rfl, (fun h => by cases h), fun _ => rfl⟩
  | cons num rest ih =>
    intro hnums board hS hP hN hcell hfuel
    have hrest : ∀ n ∈ rest, n ∈ numerals := fun n hn => hnums n (List.mem_cons_of_mem _ hn)
    have hnum : num ∈ numerals := hnums num (List.mem_cons_self _ _)
    obtain ⟨valid, hvalid, hiff⟩ := isValidSudoku_spec board hS i j hi hj num
    unfold tryNums
    rw [hvalid]
    simp only [bind, Except.bind]
    cases hv : valid with
    | false =>
      simp only [Bool.false_eq_true, if_false]
      exact ih hrest board hS hP hN hcell hfuel
    | true =>
      simp only [if_true]
      rw [cellSet_ok board hS i j num hi hj]
      simp only []
      have hS1 := shaped_put board hS i j num
      have hP1 : Separate (put board i j num) := hP
      have hN1 := noClash_put board hS hP hN i j hi hj num (hiff.1 hv)
      have hE1 := empties_put board hS hP i j num hi hj hcell (numerals_filled num hnum)
      obtain ⟨solved, after, hrun, hyes, hno⟩ :=
        ihf (put board i j num) hS1 hP1 hN1 (by omega)
      rw [hrun]
      simp only []
      cases hs : solved with
      | true =>
        simp only [if_true]
        obtain ⟨h0, h1, h2, h3, h4, h5⟩ := hyes hs
        refine ⟨true, after, rfl, fun _ => ⟨h0, h1, h2, ?_, h4, ?_⟩, fun h => by cases h⟩
        · intro a b ha hb hfill
          have hab : ¬ (a = i ∧ b = j) := by
            intro h
            rw [h.1, h.2] at hfill
            exact hfill hcell
          have h6 := h3 a b ha hb (by
            rw [cellAt_put board hS hP i j num hi hj a b ha hb, if_neg hab]
            exact hfill)
          rw [h6, cellAt_put board hS hP i j num hi hj a b ha hb, if_neg hab]
        · intro hC
          exact h5 (cellsOk_put board hS hP hC i j hi hj num (Or.inr hnum))
      | false =>
        simp only [Bool.false_eq_true, if_false]
        rw [hno hs, cellSet_ok _ hS1 i j emptyCell hi hj]
        simp only []
        have hback : put (put board i j num) i j emptyCell = board := by
          rw [← hcell]
          exact put_restore board hS i j num hi hj
        rw [hback]
        exact ih hrest board hS hP hN hcell hfuel

theorem solve_spec : ∀ (fuel : Nat) (board : Board), Shaped board → Separate board →
    NoClash board → empties board < fuel → Outcome board (solve fuel board) := by
  intro fuel
  induction fuel with
  | zero =>
    intro board _ _ _ h
    omega
  | succ fuel ih =>
    intro board hS hP hN hfuel
    unfold solve
    rcases firstEmpty_spec board hS 81 0 0 rfl (by omega) (fun i' j' _ _ h => by omega) with
      ⟨h1, hfull⟩ | ⟨a, b, h1, ha, hb, hcell⟩
    · rw [h1]
      refine ⟨true, board, rfl,
        fun _ => ⟨rfl, hS, hfull, fun _ _ _ _ _ => rfl, hN, fun h => h⟩, fun h => by cases h⟩
    · rw [h1]
      exact tryNums_spec fuel a b ha hb ih numerals (fun n hn => hn) board hS hP hN hcell
        (by omega)

set_option maxRecDepth 100000 in
/-- C24 fails on the code when rows share storage: on the board whose nine rows
are one slice of nine `"."` cells (a 9x9 board of `"."` cells, no filled cell, so
nothing repeated), `SolveSudoku` returns true and leaves every row equal to
`123456789`, so every column holds one digit nine times. -/
theorem solveSudoku_counterexample :
    Shaped sharedRowBoard ∧ CellsOk sharedRowBoard ∧ NoClash sharedRowBoard ∧
    SolveSudoku sharedRowBoard = .ok (true, ⟨List.replicate 9 ⟨0, 9⟩, numerals⟩) ∧
    ¬ NoClash ⟨List.replicate 9 ⟨0, 9⟩, numerals⟩ ∧
    cellAt ⟨List.replicate 9 ⟨0, 9⟩, numerals⟩ 0 0 = ['1'] ∧
    cellAt ⟨List.replicate 9 ⟨0, 9⟩, numerals⟩ 1 0 = ['1'] := by
  refine ⟨by decide, by decide, by decide, by decide, by decide, by decide, by decide⟩

/-- C24 as amended: for every 9x9 board whose rows are separate slices (no two
rows share a cell), whose cells are `"."` or a digit `"1"` to `"9"` and whose
filled cells repeat no digit in any row, column or 3x3 box, `SolveSudoku(board)`
returns; if it returns true, the board afterwards has no `"."` cell, agrees
with the original board on every filled cell, repeats no digit in any row,
column or 3x3 box (and is a 9x9 board of digits with the same row slices); if it
returns false, the board afterwards is the original board. -/
theorem solveSudoku_sound (board : Board) (hS : Shaped board) (hP : Separate board)
    (hC : CellsOk board) (hN : NoClash board) :
    ∃ solved after, SolveSudoku board = .ok (solved, after) ∧
      (solved = true → Complete after ∧ Agrees board after ∧ NoClash after ∧
        Shaped after ∧ CellsOk after ∧ after.rows = board.rows) ∧
      (solved = false → after = board) := by
  have hE := empties_le board
  obtain ⟨solved, after, hrun, hyes, hno⟩ := solve_spec 82 board hS hP hN (by omega)
  refine ⟨solved, after, hrun, ?_, hno⟩
  intro hs
  obtain ⟨h0, h1, h2, h3, h4, h5⟩ := hyes hs
  exact ⟨h2, h3, h4, h1, h5 hC, h0⟩

set_option maxRecDepth 100000 in
/-- C24 as amended, on the board of the demonstration. -/
theorem solveSudoku_sound_witness :
    Shaped puzzle ∧ Separate puzzle ∧ CellsOk puzzle ∧ NoClash puzzle ∧
    ∃ solved after, SolveSudoku puzzle = .ok (solved, after) ∧
      (solved = true → Complete after ∧ Agrees puzzle after ∧ NoClash after ∧
        Shaped after ∧ CellsOk after ∧ after.rows = puzzle.rows) ∧
      (solved = false → after = puzzle) :=
  have hN : NoClash puzzle := by decide
  ⟨by decide, by decide, by decide, hN,
    solveSudoku_sound puzzle (by decide) (by decide) (by decide) hN⟩

end Backtracking

namespace DijkstraBasico

open DijkstraOtimizado GoRuntime

/-! ## The two graphs built by the same calls -/

theorem simple_addEdge (g : SimpleGraph) (a b c : Int) (ha : InR g.matrix.length a)
    (hb : InR (look [] g.matrix a).length b) :
    g.AddEdge a b c =
      .ok ⟨g.vertices, g.matrix.set a.toNat ((look [] g.matrix a).set b.toNat c)⟩ := by
  unfold SimpleGraph.AddEdge
  rw [sliceGet_look [] g.matrix a ha]
  simp only [bind, Except.bind]
  rw [sliceSet_look _ b c hb]
  simp only []
  rw [sliceSet_look _ a _ ha]
  rfl

theorem matrix_set (m : List (List Int)) (a b c u v : Int) (ha : InR m.length a)
    (hb : InR (look [] m a).length b) :
    look 0 (look [] (m.set a.toNat ((look [] m a).set b.toNat c)) u) v =
      if u = a ∧ v = b then c else look 0 (look [] m u) v := by
  rw [look_set [] m a u _ ha]
  by_cases hu : u = a
  · subst hu
    rw [if_pos rfl, look_set 0 _ b v c hb]
    by_cases hv : v = b
    · simp [hv]
    · simp [hv]
  · simp [hu]

theorem hasEdge_iff (g : WeightedGraph) (u : Int) (e : Edge) :
    g.HasEdge u e ↔ InR g.adjList.length u ∧ e ∈ look [] g.adjList u :=
  ⟨mem_look_of_hasEdge g u e, fun h => hasEdge_of_mem_look g u e h.1 h.2⟩

theorem hasEdge_addEdge (g g' : WeightedGraph) (a b c : Int)
    (h : g.AddEdge a b c = .ok g') (u : Int) (e : Edge) :
    g'.HasEdge u e ↔ g.HasEdge u e ∨ (u = a ∧ e = ⟨b, c⟩) := by
  by_cases ha : 0 ≤ a ∧ a.toNat < g.adjList.length
  · rw [AddEdge_inRange g a b c ha.1 ha.2] at h
    cases h
    rw [hasEdge_iff, hasEdge_iff]
    simp only [List.length_set]
    rw [look_set [] g.adjList a u _ ha]
    have hrow : g.adjList.getD a.toNat [] = look [] g.adjList a := by
      unfold look
      rw [if_pos ha.1]
    by_cases hu : u = a
    · subst hu
      rw [if_pos rfl, hrow, List.mem_append, List.mem_singleton]
      constructor
      · rintro ⟨h1, h2 | h2⟩
        · exact Or.inl ⟨h1, h2⟩
        · exact Or.inr ⟨rfl, h2⟩
      · rintro (⟨h1, h2⟩ | h2)
        · exact ⟨h1, Or.inl h2⟩
        · exact ⟨ha, Or.inr h2.2⟩
    · simp [hu]
  · rw [AddEdge_outOfRange g a b c ha] at h
    cases h

theorem addEdge_bounded (g g' : WeightedGraph) (a b c : Int)
    (h : g.AddEdge a b c = .ok g') (hw : g.WeightsBounded)
    (hc : 0 ≤ c ∧ c ≤ maxInt64 - INF) : g'.WeightsBounded := by
  by_cases ha : 0 ≤ a ∧ a.toNat < g.adjList.length
  · rw [AddEdge_inRange g a b c ha.1 ha.2] at h
    cases h
    intro row hrow e he
    rcases List.mem_or_eq_of_mem_set hrow with h1 | h1
    · exact hw row h1 e he
    · subst h1
      rcases List.mem_append.1 he with h2 | h2
      · refine hw _ ?_ e h2
        rw [List.getD_eq_getElem?_getD, List.getElem?_eq_getElem ha.2]
        exact List.getElem_mem _
      · rw [List.mem_singleton] at h2
        subst h2
        exact hc
  · rw [AddEdge_outOfRange g a b c ha] at h
    cases h

theorem same_step (gs : SimpleGraph) (gw : WeightedGraph) (hS : SameGraph gs gw)
    (a b c : Int) (ha : InR gw.adjList.length a) (hb : InR gw.adjList.length b)
    (hc : 0 < c) (hnew : ∀ w, ¬ gw.HasEdge a ⟨b, w⟩) :
    ∃ gs' gw', gs.AddEdge a b c = .ok gs' ∧ gw.AddEdge a b c = .ok gw' ∧
      SameGraph gs' gw' ∧ gw'.adjList.length = gw.adjList.length := by
  have haM : InR gs.matrix.length a := by rw [hS.rows]; exact ha
  have hbM : InR (look [] gs.matrix a).length b := by rw [hS.cols a ha]; exact hb
  have hw := AddEdge_inRange gw a b c ha.1 ha.2
  refine ⟨_, _, simple_addEdge gs a b c haM hbM, hw, ?_, by simp⟩
  constructor
  · exact hS.vert
  · simp [hS.rows]
  · intro u hu
    simp only [List.length_set] at hu ⊢
    rw [look_set [] gs.matrix a u _ haM]
    by_cases hua : u = a
    · subst hua
      simp [hS.cols u ha]
    · simp [hua, hS.cols u hu]
  · intro u v w hu hv
    simp only [List.length_set] at hu hv
    rw [hasEdge_addEdge gw _ a b c hw u ⟨v, w⟩]
    unfold SimpleGraph.M
    simp only []
    rw [matrix_set gs.matrix a b c u v haM hbM]
    by_cases huv : u = a ∧ v = b
    · obtain ⟨rfl, rfl⟩ := huv
      simp only [and_self, if_true, true_and, Edge.mk.injEq]
      constructor
      · rintro (h | h)
        · exact absurd h (hnew w)
        · exact ⟨h.symm, by rw [h]; exact hc⟩
      · rintro ⟨h, _⟩
        exact Or.inr h.symm
    · rw [if_neg huv]
      have hiff := hS.edge u v w hu hv
      unfold SimpleGraph.M at hiff
      rw [← hiff]
      constructor
      · rintro (h | ⟨h1, h2⟩)
        · exact h
        · exfalso
          simp only [Edge.mk.injEq] at h2
          exact huv ⟨h1, h2.1⟩
      · exact Or.inl

theorem same_fold : ∀ (calls : List (Int × Int × Int)) (gs : SimpleGraph) (gw : WeightedGraph),
    SameGraph gs gw → gw.WellFormed → gw.WeightsBounded →
    (∀ e ∈ calls, InR gw.adjList.length e.1 ∧ InR gw.adjList.length e.2.1 ∧ 0 < e.2.2 ∧
      e.2.2 ≤ maxInt64 - INF ∧ ∀ w, ¬ gw.HasEdge e.1 ⟨e.2.1, w⟩) →
    (calls.map (fun e => (e.1, e.2.1))).Nodup →
    ∃ gs' gw',
      calls.foldlM (fun (g : SimpleGraph) e => g.AddEdge e.1 e.2.1 e.2.2) gs = .ok gs' ∧
      calls.foldlM (fun (g : WeightedGraph) e => g.AddEdge e.1 e.2.1 e.2.2) gw = .ok gw' ∧
      SameGraph gs' gw' ∧ gw'.WellFormed ∧ gw'.WeightsBounded ∧
      gw'.vertices = gw.vertices := by
  intro calls
  induction calls with
  | nil =>
    intro gs gw hS hg hw _ _
    exact ⟨gs, gw, rfl, rfl, hS, hg, hw, rfl⟩
  | cons x rest ih =>
    intro gs gw hS hg hw hall hnd
    obtain ⟨ha, hb, hc, hc', hnew⟩ := hall x (List.mem_cons_self _ _)
    obtain ⟨gs1, gw1, h1, h2, hS1, hlen⟩ := same_step gs gw hS x.1 x.2.1 x.2.2 ha hb hc hnew
    have hbV : 0 ≤ x.2.1 ∧ x.2.1 < gw.vertices := by
      have h3 := hg.1.1
      have h4 := hg.1.2
      have h5 := hb.1
      have h6 := hb.2
      omega
    obtain ⟨hg1, hv1⟩ := AddEdge_wellFormed gw gw1 x.1 x.2.1 x.2.2 hg hbV h2
    have hw1 := addEdge_bounded gw gw1 x.1 x.2.1 x.2.2 h2 hw ⟨by omega, hc'⟩
    rw [List.map_cons, List.nodup_cons] at hnd
    have hall1 : ∀ e ∈ rest, InR gw1.adjList.length e.1 ∧ InR gw1.adjList.length e.2.1 ∧
        0 < e.2.2 ∧ e.2.2 ≤ maxInt64 - INF ∧ ∀ w, ¬ gw1.HasEdge e.1 ⟨e.2.1, w⟩ := by
      intro e he
      obtain ⟨ea, eb, ec, ec', enew⟩ := hall e (List.mem_cons_of_mem _ he)
      rw [hlen]
      refine ⟨ea, eb, ec, ec', ?_⟩
      intro w hw'
      rw [hasEdge_addEdge gw gw1 x.1 x.2.1 x.2.2 h2] at hw'
      rcases hw' with h | ⟨h3, h4⟩
      · exact enew w h
      · apply hnd.1
        rw [List.mem_map]
        refine ⟨e, he, ?_⟩
        simp only [Edge.mk.injEq] at h4
        rw [h3, h4.1]
    obtain ⟨gs', gw', h5, h6, hS', hg', hw', hv'⟩ := ih gs1 gw1 hS1 hg1 hw1 hall1 hnd.2
    refine ⟨gs', gw', ?_, ?_, hS', hg', hw', by rw [hv', hv1]⟩
    · rw [List.foldlM_cons, h1]
      exact h5
    · rw [List.foldlM_cons, h2]
      exact h6

theorem look_replicate_in {α : Type} (d x : α) (n : Nat) (v : Int) (h : InR n v) :
    look d (List.replicate n x) v = x := by
  unfold look
  rw [if_pos h.1, List.getD_eq_getElem?_getD, List.getElem?_replicate, if_pos h.2]
  rfl

theorem build_same (vertices : Int) (calls : List (Int × Int × Int))
    (hv : ValidCalls vertices calls) (hb : BoundedCalls calls) (h0 : 0 ≤ vertices) :
    ∃ gs gw, buildSimple vertices calls = .ok gs ∧ buildGraph vertices calls = .ok gw ∧
      SameGraph gs gw ∧ gw.WellFormed ∧ gw.WeightsBounded ∧ gw.vertices = vertices := by
  have hempty : ∀ u e,
      ¬ (⟨vertices, List.replicate vertices.toNat []⟩ : WeightedGraph).HasEdge u e := by
    intro u e h
    rw [hasEdge_iff] at h
    have h2 := h.2
    simp only [] at h2
    rw [look_replicate] at h2
    cases h2
  have hS : SameGraph ⟨vertices, List.replicate vertices.toNat (List.replicate vertices.toNat 0)⟩
      ⟨vertices, List.replicate vertices.toNat []⟩ := by
    constructor
    · rfl
    · simp
    · intro u hu
      simp only [List.length_replicate] at hu ⊢
      rw [look_replicate_in _ _ _ _ hu]
      simp
    · intro u v w hu hv
      simp only [List.length_replicate] at hu hv
      unfold SimpleGraph.M
      simp only []
      rw [look_replicate_in _ _ _ _ hu, look_replicate_in _ _ _ _ hv]
      constructor
      · intro h
        exact absurd h (hempty u _)
      · rintro ⟨h1, h2⟩
        omega
  have hg : (⟨vertices, List.replicate vertices.toNat []⟩ : WeightedGraph).WellFormed := by
    refine ⟨⟨h0, by simp⟩, ?_⟩
    intro row hrow e he
    rw [List.mem_replicate] at hrow
    rw [hrow.2] at he
    cases he
  have hw : (⟨vertices, List.replicate vertices.toNat []⟩ : WeightedGraph).WeightsBounded := by
    intro row hrow e he
    rw [List.mem_replicate] at hrow
    rw [hrow.2] at he
    cases he
  obtain ⟨gs, gw, h1, h2, hS', hg', hw', hv'⟩ := same_fold calls _ _ hS hg hw
    (by
      intro e he
      obtain ⟨ha, hb', hc⟩ := hv.1 e he
      simp only [List.length_replicate]
      exact ⟨⟨ha.1, by omega⟩, ⟨hb'.1, by omega⟩, hc, hb e he, fun w => hempty _ _⟩)
    hv.2
  refine ⟨gs, gw, ?_, ?_, hS', hg', hw', hv'⟩
  · unfold buildSimple NewSimpleGraph
    rw [if_pos h0]
    exact h1
  · unfold buildGraph NewWeightedGraph
    rw [if_pos h0]
    exact h2

/-! ## The linear scan and the relaxation loop -/

theorem look_outside {α : Type} (d : α) (xs : List α) (v : Int) (h : ¬ InR xs.length v) :
    look d xs v = d := by
  unfold look
  split
  · rename_i h0
    have h1 : xs.length ≤ v.toNat := by
      by_contra hc
      exact h ⟨h0, by omega⟩
    rw [List.getD_eq_getElem?_getD, List.getElem?_eq_none h1]
    rfl
  · rfl

theorem findMin_spec (st : Tables) (n : Nat) (hV : st.visited.length = n)
    (hD : st.distances.length = n) :
    ∀ (todo v : Nat) (md mv : Int), v + todo = n →
      ((mv = -1 ∧ md = INF) ∨ (InR n mv ∧ st.Vis mv = false ∧ st.D mv = md ∧ md < INF)) →
      (∀ u : Nat, u < v → st.Vis (u : Int) = false → md ≤ st.D (u : Int)) →
      ∃ r, findMin st todo (v : Int) md mv = .ok r ∧
        ((r = -1 ∧ ∀ u, st.Vis u = false → INF ≤ st.D u) ∨
         (InR n r ∧ st.Vis r = false ∧ st.D r < INF ∧
          ∀ u, st.Vis u = false → st.D r ≤ st.D u)) := by
  intro todo
  induction todo with
  | zero =>
    intro v md mv hv hm hall
    have hvn : v = n := by omega
    subst hvn
    have hfull : ∀ u : Int, st.Vis u = false → md ≤ st.D u := by
      intro u hu
      by_cases hin : InR v u
      · have h1 := hall u.toNat hin.2
        rw [Int.toNat_of_nonneg hin.1] at h1
        exact h1 hu
      · have h2 : st.D u = INF := by
          unfold Tables.D
          exact look_outside INF st.distances u (by rw [hD]; exact hin)
        rw [h2]
        rcases hm with h | h
        · rw [h.2]
        · exact le_of_lt h.2.2.2
    refine ⟨mv, rfl, ?_⟩
    rcases hm with h | h
    · left
      refine ⟨h.1, ?_⟩
      intro u hu
      have := hfull u hu
      rw [h.2] at this
      exact this
    · right
      refine ⟨h.1, h.2.1, by rw [h.2.2.1]; exact h.2.2.2, ?_⟩
      intro u hu
      rw [h.2.2.1]
      exact hfull u hu
  | succ todo ih =>
    intro v md mv hv hm hall
    have hin : InR n (v : Int) := ⟨Int.natCast_nonneg v, by rw [Int.toNat_natCast]; omega⟩
    have hnext : ((v : Int) + 1) = ((v + 1 : Nat) : Int) := by push_cast; rfl
    have hmd : md ≤ INF := by
      rcases hm with h | h
      · rw [h.2]
      · exact le_of_lt h.2.2.2
    unfold findMin
    rw [sliceGet_look false st.visited v (by rw [hV]; exact hin)]
    simp only [bind, Except.bind]
    cases hseen : look false st.visited (v : Int) with
    | true =>
      simp only [if_true]
      rw [hnext]
      apply ih (v + 1) md mv (by omega) hm
      intro u hu huv
      by_cases h1 : u < v
      · exact hall u h1 huv
      · have h2 : u = v := by omega
        subst h2
        unfold Tables.Vis at huv
        rw [hseen] at huv
        cases huv
    | false =>
      simp only [Bool.false_eq_true, if_false]
      rw [sliceGet_look INF st.distances v (by rw [hD]; exact hin)]
      simp only []
      by_cases hlt : look INF st.distances (v : Int) < md
      · rw [if_pos hlt, hnext]
        apply ih (v + 1) _ _ (by omega)
        · right
          exact ⟨hin, hseen, rfl, by omega⟩
        · intro u hu huv
          by_cases h1 : u < v
          · have := hall u h1 huv
            omega
          · have h2 : u = v := by omega
            subst h2
            exact le_refl _
      · rw [if_neg hlt, hnext]
        apply ih (v + 1) md mv (by omega) hm
        intro u hu huv
        by_cases h1 : u < v
        · exact hall u h1 huv
        · have h2 : u = v := by omega
          subst h2
          unfold Tables.D
          omega

theorem triUpTo_next (g : WeightedGraph) (st st' : Tables) (m k : Int)
    (hT : TriUpTo g st m k) (hvis : st'.visited = st.visited)
    (hle : ∀ v, st'.D v ≤ st.D v) (hfix : ∀ u, st.Vis u = true → st'.D u = st.D u)
    (hnew : ∀ e, g.HasEdge m e → e.dest = k → st'.D k ≤ st'.D m + e.weight) :
    TriUpTo g st' m (k + 1) := by
  intro u e hu he hcur
  have hu' : st.Vis u = true := by
    unfold Tables.Vis at hu ⊢
    rw [← hvis]
    exact hu
  by_cases hc : u = m ∧ e.dest = k
  · obtain ⟨rfl, hd⟩ := hc
    have := hnew e he hd
    rw [hd]
    exact this
  · have h1 := hT u e hu' he (fun h => by
      have h2 := hcur h
      have h3 : e.dest ≠ k := fun h4 => hc ⟨h, h4⟩
      omega)
    have h2 := hle e.dest
    rw [hfix u hu']
    omega

theorem relaxNeighbor_spec (gs : SimpleGraph) (gw : WeightedGraph) (hS : SameGraph gs gw)
    (hw : gw.WeightsBounded) (s m k : Int) (st : Tables)
    (hm : InR gw.adjList.length m) (hk : InR gw.adjList.length k)
    (hI : InvS gw s st) (hC : CurMaxS st m) (hT : TriUpTo gw st m k) :
    ∃ st', relaxNeighbor gs m k st = .ok st' ∧ InvS gw s st' ∧ CurMaxS st' m ∧
      TriUpTo gw st' m (k + 1) ∧ st'.visited = st.visited := by
  have hweight : ∀ e, gw.HasEdge m e → e.dest = k → gs.M m k = e.weight ∧ 0 < e.weight := by
    intro e he hd
    have he' : gw.HasEdge m ⟨k, e.weight⟩ := by rw [← hd]; exact he
    exact (hS.edge m k e.weight hm hk).1 he'
  have hkeep : ∀ (_ : ∀ e, gw.HasEdge m e → e.dest = k → st.D k ≤ st.D m + e.weight),
      InvS gw s st ∧ CurMaxS st m ∧ TriUpTo gw st m (k + 1) ∧ st.visited = st.visited :=
    fun hnew => ⟨hI, hC, triUpTo_next gw st st m k hT rfl (fun _ => le_refl _)
      (fun _ _ => rfl) hnew, rfl⟩
  unfold relaxNeighbor
  rw [sliceGet_look [] gs.matrix m (by rw [hS.rows]; exact hm)]
  simp only [bind, Except.bind]
  rw [sliceGet_look 0 (look [] gs.matrix m) k (by rw [hS.cols m hm]; exact hk)]
  simp only []
  by_cases hw0 : look 0 (look [] gs.matrix m) k > 0
  · rw [if_pos hw0]
    have hedge : gw.HasEdge m ⟨k, gs.M m k⟩ := (hS.edge m k _ hm hk).2 ⟨rfl, hw0⟩
    have hb := weight_bounds hw hedge
    simp only [] at hb
    rw [sliceGet_look false st.visited k (by rw [hI.lenV]; exact hk)]
    simp only []
    cases hseen : look false st.visited k with
    | true =>
      simp only [if_true]
      refine ⟨st, rfl, hkeep ?_⟩
      intro e he hd
      have h1 := hC.2 k hseen
      have h2 := (hweight e he hd).2
      omega
    | false =>
      simp only [Bool.false_eq_true, if_false]
      rw [sliceGet_look INF st.distances m (by rw [hI.lenD]; exact hm),
        sliceGet_look INF st.distances k (by rw [hI.lenD]; exact hk)]
      simp only []
      have hexact : addInt (look INF st.distances m) (look 0 (look [] gs.matrix m) k) =
          st.D m + gs.M m k :=
        addInt_exact _ _ (hI.nonneg m) (hI.dLe m) hb.1 hb.2
      rw [hexact]
      by_cases hlt : st.D m + gs.M m k < look INF st.distances k
      · rw [if_pos hlt, sliceSet_look _ _ _ (show InR st.distances.length k by
          rw [hI.lenD]; exact hk), sliceSet_look _ _ _ (show InR st.previous.length k by
          rw [hI.lenP]; exact hk)]
        simp only []
        have hDk : InR st.distances.length k := by rw [hI.lenD]; exact hk
        obtain ⟨st2, hst2⟩ : ∃ st2 : Tables, st2 = ⟨st.distances.set k.toNat
            (st.D m + gs.M m k), st.previous.set k.toNat m, st.visited⟩ := ⟨_, rfl⟩
        have hD' : ∀ v, st2.D v = if v = k then st.D m + gs.M m k else st.D v := by
          intro v
          rw [hst2]
          unfold Tables.D
          exact look_set INF st.distances k v _ hDk
        have hV' : ∀ v, st2.Vis v = st.Vis v := by
          intro v
          rw [hst2]
          rfl
        have hle' : ∀ v, st2.D v ≤ st.D v := by
          intro v
          rw [hD' v]
          split
          · rename_i h
            rw [h]
            exact le_of_lt hlt
          · exact le_refl _
        have hfix' : ∀ u, st.Vis u = true → st2.D u = st.D u := by
          intro u hu
          rw [hD' u]
          have huk : u ≠ k := by
            intro h
            unfold Tables.Vis at hu
            rw [h, hseen] at hu
            cases hu
          rw [if_neg huk]
        refine ⟨st2, by rw [hst2]; rfl, ?_, ?_, ?_, by rw [hst2]⟩
        · constructor
          · rw [hst2]; simp [hI.lenD]
          · rw [hst2]; simp [hI.lenP]
          · rw [hst2]; exact hI.lenV
          · rw [hD' s]
            have hks : s ≠ k := by
              intro h
              have h1 := hI.src0
              have h2 := hI.nonneg m
              have h3 : st.D k = look INF st.distances k := rfl
              have h4 := hb.1
              rw [h] at h1
              omega
            rw [if_neg hks]
            exact hI.src0
          · intro v
            rw [hD' v]
            split
            · have := hI.nonneg m
              omega
            · exact hI.nonneg v
          · intro v
            exact le_trans (hle' v) (hI.dLe v)
          · intro v hv hfin
            rw [hD' v] at hfin ⊢
            by_cases hvk : v = k
            · rw [if_pos hvk] at hfin ⊢
              rw [hvk]
              have hwm := hI.walk m hm (hI.visFin m hC.1)
              exact Walk.snoc m (st.D m) ⟨k, gs.M m k⟩ hwm hedge
            · rw [if_neg hvk] at hfin ⊢
              exact hI.walk v hv hfin
          · intro u hu
            have hu' : st.Vis u = true := by rw [← hV' u]; exact hu
            rw [hfix' u hu']
            exact hI.visFin u hu'
          · intro u v hu hv
            have hu' : st.Vis u = true := by rw [← hV' u]; exact hu
            have hv' : st.Vis v = false := by rw [← hV' v]; exact hv
            rw [hfix' u hu', hD' v]
            split
            · have := hC.2 u hu'
              omega
            · exact hI.mono u v hu' hv'
        · refine ⟨by rw [hV' m]; exact hC.1, ?_⟩
          intro u hu
          have hu' : st.Vis u = true := by rw [← hV' u]; exact hu
          rw [hfix' u hu', hfix' m hC.1]
          exact hC.2 u hu'
        · apply triUpTo_next gw st st2 m k hT (by rw [hst2]) hle' hfix'
          intro e he hd
          rw [hfix' m hC.1, hD' k, if_pos rfl, (hweight e he hd).1]
      · rw [if_neg hlt]
        refine ⟨st, rfl, hkeep ?_⟩
        intro e he hd
        have h1 := (hweight e he hd).1
        unfold Tables.D at hlt ⊢
        unfold Tables.D at h1
        omega
  · rw [if_neg hw0]
    refine ⟨st, rfl, hkeep ?_⟩
    intro e he hd
    have h1 := hweight e he hd
    unfold SimpleGraph.M at h1
    omega

theorem relaxLoop_spec (gs : SimpleGraph) (gw : WeightedGraph) (hS : SameGraph gs gw)
    (hw : gw.WeightsBounded) (s m : Int) (hm : InR gw.adjList.length m) :
    ∀ (todo k : Nat) (st : Tables), k + todo = gw.adjList.length →
      InvS gw s st → CurMaxS st m → TriUpTo gw st m (k : Int) →
      ∃ st', relaxLoop gs m todo (k : Int) st = .ok st' ∧ InvS gw s st' ∧ CurMaxS st' m ∧
        TriUpTo gw st' m (gw.adjList.length : Int) ∧ st'.visited = st.visited := by
  intro todo
  induction todo with
  | zero =>
    intro k st hk hI hC hT
    have hkn : k = gw.adjList.length := by omega
    rw [hkn] at hT
    exact ⟨st, rfl, hI, hC, hT, rfl⟩
  | succ todo ih =>
    intro k st hk hI hC hT
    have hin : InR gw.adjList.length (k : Int) :=
      ⟨Int.natCast_nonneg k, by rw [Int.toNat_natCast]; omega⟩
    have hnext : ((k : Int) + 1) = ((k + 1 : Nat) : Int) := by push_cast; rfl
    obtain ⟨st1, h1, hI1, hC1, hT1, hv1⟩ :=
      relaxNeighbor_spec gs gw hS hw s m k st hm hin hI hC hT
    rw [hnext] at hT1
    obtain ⟨st2, h2, hI2, hC2, hT2, hv2⟩ := ih (k + 1) st1 (by omega) hI1 hC1 hT1
    refine ⟨st2, ?_, hI2, hC2, hT2, by rw [hv2, hv1]⟩
    unfold relaxLoop
    rw [h1]
    simp only [bind, Except.bind]
    rw [hnext]
    exact h2

theorem count_false_set : ∀ (l : List Bool) (k : Nat), l[k]? = some false →
    (l.set k true).count false + 1 = l.count false := by
  intro l
  induction l with
  | nil => intro k h; simp at h
  | cons a t ih =>
    intro k h
    cases k with
    | zero =>
      simp only [List.getElem?_cons_zero, Option.some.injEq] at h
      subst h
      simp
    | succ k =>
      simp only [List.getElem?_cons_succ] at h
      have := ih k h
      simp only [List.set_cons_succ, List.count_cons]
      omega

theorem look_false_mem (l : List Bool) (v : Int) (h : InR l.length v)
    (hv : look false l v = false) : l[v.toNat]? = some false := by
  unfold look at hv
  rw [if_pos h.1, List.getD_eq_getElem?_getD, List.getElem?_eq_getElem h.2] at hv
  rw [List.getElem?_eq_getElem h.2]
  exact congrArg some hv

theorem triS_of_upTo (g : WeightedGraph) (hg : g.WellFormed) (st : Tables) (m : Int)
    (h : TriUpTo g st m (g.adjList.length : Int)) : TriS g st := by
  intro u e hu he
  apply h u e hu he
  intro _
  have hd := hasEdge_dest_inR hg he
  have h1 := hd.1
  have h2 := hd.2
  omega

theorem basicoLoop_spec (gs : SimpleGraph) (gw : WeightedGraph) (hS : SameGraph gs gw)
    (hg : gw.WellFormed) (hw : gw.WeightsBounded) (s : Int) :
    ∀ (todo : Nat) (st : Tables), InvS gw s st → TriS gw st →
      st.visited.count false ≤ todo →
      ∃ st', basicoLoop gs todo st = .ok st' ∧ InvS gw s st' ∧ TriS gw st' ∧ Done st' := by
  have hn : gs.vertices.toNat = gw.adjList.length := by rw [hS.vert, hg.1.2]
  intro todo
  induction todo with
  | zero =>
    intro st hI hT hc
    refine ⟨st, rfl, hI, hT, ?_⟩
    intro v hv
    by_cases hin : InR st.visited.length v
    · have hmem := List.getElem?_mem (look_false_mem st.visited v hin hv)
      have hpos := List.count_pos_iff.2 hmem
      omega
    · have h2 : st.D v = INF := by
        unfold Tables.D
        exact look_outside INF st.distances v (by rw [hI.lenD, ← hI.lenV]; exact hin)
      rw [h2]
  | succ todo ih =>
    intro st hI hT hc
    have hscan : ∃ r, findMin st gw.adjList.length 0 INF (-1) = .ok r ∧
        ((r = -1 ∧ ∀ u, st.Vis u = false → INF ≤ st.D u) ∨
         (InR gw.adjList.length r ∧ st.Vis r = false ∧ st.D r < INF ∧
          ∀ u, st.Vis u = false → st.D r ≤ st.D u)) :=
      findMin_spec st gw.adjList.length hI.lenV hI.lenD gw.adjList.length 0 INF (-1)
        (by omega) (Or.inl ⟨rfl, rfl⟩) (fun u hu => absurd hu (Nat.not_lt_zero u))
    obtain ⟨r, hr, hcase⟩ := hscan
    unfold basicoLoop
    rw [hn, hr]
    simp only [bind, Except.bind]
    rcases hcase with ⟨h1, hdone⟩ | ⟨hin, hvis, hfin, hmin⟩
    · rw [if_pos h1]
      exact ⟨st, rfl, hI, hT, hdone⟩
    · have hne : r ≠ -1 := by
        have := hin.1
        omega
      have hinV : InR st.visited.length r := by rw [hI.lenV]; exact hin
      rw [if_neg hne, sliceSet_look _ _ _ hinV]
      simp only []
      obtain ⟨st1, hst1⟩ : ∃ st1 : Tables,
          st1 = ⟨st.distances, st.previous, st.visited.set r.toNat true⟩ := ⟨_, rfl⟩
      have hD1 : ∀ v, st1.D v = st.D v := by
        intro v
        rw [hst1]
        rfl
      have hV1 : ∀ v, st1.Vis v = if v = r then true else st.Vis v := by
        intro v
        rw [hst1]
        unfold Tables.Vis
        exact look_set false st.visited r v true hinV
      have hI1 : InvS gw s st1 := by
        constructor
        · rw [hst1]; exact hI.lenD
        · rw [hst1]; exact hI.lenP
        · rw [hst1]; simp [hI.lenV]
        · rw [hD1]; exact hI.src0
        · intro v; rw [hD1]; exact hI.nonneg v
        · intro v; rw [hD1]; exact hI.dLe v
        · intro v hv hf
          rw [hD1] at hf ⊢
          exact hI.walk v hv hf
        · intro u hu
          rw [hV1] at hu
          rw [hD1]
          by_cases hur : u = r
          · rw [hur]; exact hfin
          · rw [if_neg hur] at hu
            exact hI.visFin u hu
        · intro u v hu hv
          rw [hV1] at hu hv
          rw [hD1, hD1]
          by_cases hvr : v = r
          · rw [if_pos hvr] at hv
            cases hv
          · rw [if_neg hvr] at hv
            by_cases hur : u = r
            · rw [hur]; exact hmin v hv
            · rw [if_neg hur] at hu
              exact hI.mono u v hu hv
      have hC1 : CurMaxS st1 r := by
        refine ⟨by rw [hV1, if_pos rfl], ?_⟩
        intro u hu
        rw [hV1] at hu
        rw [hD1, hD1]
        by_cases hur : u = r
        · rw [hur]
        · rw [if_neg hur] at hu
          exact hI.mono u r hu hvis
      have hT1 : TriUpTo gw st1 r ((0 : Nat) : Int) := by
        intro u e hu he hcur
        rw [hV1] at hu
        rw [hD1, hD1]
        by_cases hur : u = r
        · have h1 := hcur hur
          have h2 := (hasEdge_dest_inR hg he).1
          simp only [Nat.cast_zero] at h1
          omega
        · rw [if_neg hur] at hu
          exact hT u e hu he
      obtain ⟨st2, h2, hI2, _, hT2, hv2⟩ :=
        relaxLoop_spec gs gw hS hw s r hin gw.adjList.length 0 st1 (by omega) hI1 hC1 hT1
      have hcount : st2.visited.count false ≤ todo := by
        rw [hv2, hst1]
        have := count_false_set st.visited r.toNat (look_false_mem st.visited r hinV hvis)
        simp only []
        omega
      obtain ⟨st3, h3, hI3, hT3, hD3⟩ := ih st2 hI2 (triS_of_upTo gw hg st2 r hT2) hcount
      refine ⟨st3, ?_, hI3, hT3, hD3⟩
      rw [← hst1]
      have h2' : relaxLoop gs r gw.adjList.length 0 st1 = .ok st2 := h2
      rw [h2']
      exact h3

theorem basico_lower_bound (g : WeightedGraph) (hw : g.WeightsBounded) (s : Int)
    (st : Tables) (hI : InvS g s st) (hT : TriS g st) (hD : Done st) :
    ∀ v d, Walk g s v d → (st.Vis v = true ∧ st.D v ≤ d) ∨ INF ≤ d := by
  intro v d h
  induction h with
  | nil =>
    left
    refine ⟨?_, le_of_eq hI.src0⟩
    cases hv : st.Vis s with
    | true => rfl
    | false =>
      have h1 := hD s hv
      rw [hI.src0] at h1
      exact absurd h1 (by decide)
  | snoc u d e _ hedge ih =>
    have hb := weight_bounds hw hedge
    rcases ih with ⟨hvis, hle⟩ | hinf
    · have h1 := hT u e hvis hedge
      cases hv : st.Vis e.dest with
      | true =>
        left
        exact ⟨rfl, by omega⟩
      | false =>
        right
        have h2 := hD e.dest hv
        omega
    · right
      omega

theorem lists_eq_of_look (a b : List Int) (hlen : a.length = b.length)
    (h : ∀ v, InR a.length v → look INF a v = look INF b v) : a = b := by
  apply List.ext_getElem hlen
  intro i h1 h2
  have h3 := h (i : Int) ⟨Int.natCast_nonneg i, by rw [Int.toNat_natCast]; exact h1⟩
  unfold look at h3
  rw [if_pos (Int.natCast_nonneg i), Int.toNat_natCast, List.getD_eq_getElem?_getD,
    List.getD_eq_getElem?_getD, List.getElem?_eq_getElem h1, List.getElem?_eq_getElem h2] at h3
  exact h3

theorem basico_run (gs : SimpleGraph) (gw : WeightedGraph) (hS : SameGraph gs gw)
    (hg : gw.WellFormed) (hw : gw.WeightsBounded) (s : Int)
    (hs : 0 ≤ s ∧ s < gw.vertices) :
    ∃ st, gs.DijkstraBasico s = .ok (st.distances, st.previous) ∧ InvS gw s st ∧
      TriS gw st ∧ Done st := by
  have hn : gs.vertices.toNat = gw.adjList.length := by rw [hS.vert, hg.1.2]
  have hsR : InR gw.adjList.length s := inR_of_vertex gw hg.1 s hs
  have hsD : InR (List.replicate gw.adjList.length INF).length s := by
    rw [List.length_replicate]; exact hsR
  obtain ⟨st0, hst0⟩ : ∃ st0 : Tables,
      st0 = ⟨(List.replicate gw.adjList.length INF).set s.toNat 0,
        List.replicate gw.adjList.length (-1), List.replicate gw.adjList.length false⟩ :=
    ⟨_, rfl⟩
  have hD0 : ∀ v, st0.D v = if v = s then 0 else INF := by
    intro v
    rw [hst0]
    unfold Tables.D
    simp only []
    rw [look_set INF _ s v 0 hsD, look_replicate]
  have hV0 : ∀ v, st0.Vis v = false := by
    intro v
    rw [hst0]
    unfold Tables.Vis
    exact look_replicate false _ v
  have hI0 : InvS gw s st0 := by
    constructor
    · rw [hst0]; simp
    · rw [hst0]; simp
    · rw [hst0]; simp
    · rw [hD0, if_pos rfl]
    · intro v
      rw [hD0]
      split
      · exact le_refl _
      · decide
    · intro v
      rw [hD0]
      split
      · decide
      · exact le_refl _
    · intro v _ hf
      rw [hD0] at hf ⊢
      by_cases hvs : v = s
      · rw [if_pos hvs, hvs]
        exact Walk.nil
      · rw [if_neg hvs] at hf
        exact absurd hf (lt_irrefl _)
    · intro u hu
      rw [hV0] at hu
      cases hu
    · intro u v hu _
      rw [hV0] at hu
      cases hu
  have hT0 : TriS gw st0 := by
    intro u e hu _
    rw [hV0] at hu
    cases hu
  have hc0 : st0.visited.count false ≤ gw.adjList.length := by
    rw [hst0]
    simp
  obtain ⟨st, hrun, hI, hT, hD⟩ :=
    basicoLoop_spec gs gw hS hg hw s gw.adjList.length st0 hI0 hT0 hc0
  refine ⟨st, ?_, hI, hT, hD⟩
  unfold SimpleGraph.DijkstraBasico
  have h0 : ¬ gs.vertices < 0 := by
    rw [hS.vert]
    have := hg.1.1
    omega
  rw [if_neg h0, hn]
  simp only [bind, Except.bind, pure, Except.pure]
  rw [sliceSet_look _ _ _ hsD]
  simp only []
  rw [← hst0, hrun]

/-- C29 fails on the code: the two calls `AddEdge(0, 1, 1)` and
`AddEdge(1, 0, MaxInt64)` on two vertices have in-range endpoints, strictly
positive weights and distinct `(from, to)` pairs, yet from source 0
`DijkstraBasico` returns the distances `[0, 1]` while `Dijkstra` returns
`[MinInt64, 1]`: relaxing `1 -> 0` computes `1 + MaxInt64`, which wraps to
`MinInt64`; the heap version stores it in `distances[0]`, the scan version skips
the visited neighbour 0. -/
theorem basico_counterexample :
    ValidCalls 2 overflowCalls ∧
    ∃ gs gw, buildSimple 2 overflowCalls = .ok gs ∧ buildGraph 2 overflowCalls = .ok gw ∧
      gs.DijkstraBasico 0 = .ok ([0, 1], [-1, 0]) ∧
      gw.Dijkstra 0 = .ok ([-9223372036854775808, 1], [1, 0]) ∧
      ([0, 1] : List Int) ≠ [-9223372036854775808, 1] :=
  ⟨by decide, ⟨2, [[0, 1], [9223372036854775807, 0]]⟩,
    ⟨2, [[⟨1, 1⟩], [⟨0, 9223372036854775807⟩]]⟩, by decide, by decide, by decide, by decide,
    by decide⟩

/-- C29 as amended: for every vertex count `V`, every start in `[0, V)` and
every list of `AddEdge(from, to, weight)` calls with in-range endpoints, weights
in `[1, MaxInt64 - MaxInt32]` and no `(from, to)` pair repeated, applied both to
a `SimpleGraph` and to a `WeightedGraph`: both graphs are built, and
`DijkstraBasico(start)` and `Dijkstra(start)` return, with the same `distances`
table. -/
theorem basico_agrees (vertices start : Int) (calls : List (Int × Int × Int))
    (hv : ValidCalls vertices calls) (hb : BoundedCalls calls)
    (hs : 0 ≤ start ∧ start < vertices) :
    ∃ gs gw distances previousB previousH,
      buildSimple vertices calls = .ok gs ∧ buildGraph vertices calls = .ok gw ∧
      gs.DijkstraBasico start = .ok (distances, previousB) ∧
      gw.Dijkstra start = .ok (distances, previousH) := by
  obtain ⟨gs, gw, h1, h2, hS, hg, hw, hvert⟩ :=
    build_same vertices calls hv hb (by omega)
  have hs' : 0 ≤ start ∧ start < gw.vertices := by rw [hvert]; exact hs
  have hsR := inR_of_vertex gw hg.1 start hs'
  obtain ⟨stB, hB, hIB, hTB, hDB⟩ := basico_run gs gw hS hg hw start hs'
  obtain ⟨stH, hH, _, hBH, ⟨hFH, hTH⟩, hnil⟩ := dijkstra_run_full gw hg hw start hs'
  have hlowB := basico_lower_bound gw hw start stB hIB hTB hDB
  have hlowH := final_lower_bound gw hg hw start hsR stH hFH hTH hnil
  have heq : stB.distances = stH.distances := by
    apply lists_eq_of_look _ _ (by rw [hIB.lenD, hBH.lenD])
    intro v hv'
    rw [hIB.lenD] at hv'
    have hb1 := hIB.dLe v
    have hh1 := hBH.dLe v
    have hwB : stB.D v < INF → stH.D v ≤ stB.D v := by
      intro hf
      rcases hlowH v _ (hIB.walk v hv' hf) with h | h
      · exact h.2
      · omega
    have hwH : stH.D v < INF → stB.D v ≤ stH.D v := by
      intro hf
      rcases hlowB v _ (hFH.walk v hv' hf) with h | h
      · exact h.2
      · omega
    show stB.D v = stH.D v
    by_cases hf : stH.D v < INF
    · have := hwH hf
      have := hwB (by omega)
      omega
    · by_contra hne
      have := hwB (by omega)
      omega
  refine ⟨gs, gw, stB.distances, stB.previous, stH.previous, h1, h2, hB, ?_⟩
  rw [heq]
  exact hH (gw.edgeCount + 1) (le_refl _)

/-- C29 as amended, on the ten calls of the scenario with start 0. -/
theorem basico_agrees_witness :
    ValidCalls 5 scenarioEdges ∧ BoundedCalls scenarioEdges ∧
    ∃ gs gw distances previousB previousH,
      buildSimple 5 scenarioEdges = .ok gs ∧ buildGraph 5 scenarioEdges = .ok gw ∧
      gs.DijkstraBasico 0 = .ok (distances, previousB) ∧
      gw.Dijkstra 0 = .ok (distances, previousH) :=
  ⟨by decide, by decide, basico_agrees 5 0 scenarioEdges (by decide) (by decide) (by decide)⟩

end DijkstraBasico

namespace DijkstraMemory

open DijkstraOtimizado GoRuntime

/-! # A call leaves what existed as it was -/

/-- On the memory that holds `scenarioGraph`, the slices a call from vertex 0
returns hold the tables of `Dijkstra`. -/
theorem dijkstraIn_scenario : (DijkstraIn 11 0 0 (layout scenarioGraph)).map
    (fun r => (intsAt r.2 r.1.1, intsAt r.2 r.1.2)) = scenarioGraph.Dijkstra 0 := by decide

theorem withSlices_d (base : Memory) (d p v : Nat) (D P : List Int) (V : List Bool)
    (hd : d < base.ints.length) (hdp : d ≠ p) :
    (withSlices base d p v D P V).ints[d]? = some D := by
  unfold withSlices
  simp only []
  rw [List.getElem?_set_ne (Ne.symm hdp), List.getElem?_set_self hd]

theorem withSlices_p (base : Memory) (d p v : Nat) (D P : List Int) (V : List Bool)
    (hp : p < base.ints.length) :
    (withSlices base d p v D P V).ints[p]? = some P := by
  unfold withSlices
  simp only []
  rw [List.getElem?_set_self (by rw [List.length_set]; exact hp)]

theorem withSlices_v (base : Memory) (d p v : Nat) (D P : List Int) (V : List Bool)
    (hv : v < base.bools.length) :
    (withSlices base d p v D P V).bools[v]? = some V := by
  unfold withSlices
  simp only []
  rw [List.getElem?_set_self hv]

theorem loadInt_d (base : Memory) (d p v : Nat) (D P : List Int) (V : List Bool)
    (hd : d < base.ints.length) (hdp : d ≠ p) (i : Int) :
    loadInt (withSlices base d p v D P V) d i = sliceGet D i := by
  unfold loadInt
  rw [index_some _ _ _ (withSlices_d base d p v D P V hd hdp)]
  rfl

theorem loadBool_v (base : Memory) (d p v : Nat) (D P : List Int) (V : List Bool)
    (hv : v < base.bools.length) (i : Int) :
    loadBool (withSlices base d p v D P V) v i = sliceGet V i := by
  unfold loadBool
  rw [index_some _ _ _ (withSlices_v base d p v D P V hv)]
  rfl

theorem storeInt_d (base : Memory) (d p v : Nat) (D P : List Int) (V : List Bool)
    (hd : d < base.ints.length) (hdp : d ≠ p) (i x : Int) :
    storeInt (withSlices base d p v D P V) d i x =
      (sliceSet D i x >>= fun D' => pure (withSlices base d p v D' P V)) := by
  unfold storeInt
  rw [index_some _ _ _ (withSlices_d base d p v D P V hd hdp)]
  simp only [bind, Except.bind]
  cases sliceSet D i x with
  | error e => rfl
  | ok D' =>
    simp only []
    rw [store_ok _ _ _ (by unfold withSlices; simp only [List.length_set]; exact hd)]
    simp only [pure, Except.pure]
    unfold withSlices
    simp only []
    rw [List.set_comm _ _ _ (Ne.symm hdp), List.set_set]

theorem storeInt_p (base : Memory) (d p v : Nat) (D P : List Int) (V : List Bool)
    (hp : p < base.ints.length) (i x : Int) :
    storeInt (withSlices base d p v D P V) p i x =
      (sliceSet P i x >>= fun P' => pure (withSlices base d p v D P' V)) := by
  unfold storeInt
  rw [index_some _ _ _ (withSlices_p base d p v D P V hp)]
  simp only [bind, Except.bind]
  cases sliceSet P i x with
  | error e => rfl
  | ok P' =>
    simp only []
    rw [store_ok _ _ _ (by unfold withSlices; simp only [List.length_set]; exact hp)]
    simp only [pure, Except.pure]
    unfold withSlices
    simp only []
    rw [List.set_set]

theorem storeBool_v (base : Memory) (d p v : Nat) (D P : List Int) (V : List Bool)
    (hv : v < base.bools.length) (i : Int) (x : Bool) :
    storeBool (withSlices base d p v D P V) v i x =
      (sliceSet V i x >>= fun V' => pure (withSlices base d p v D P V')) := by
  unfold storeBool
  rw [index_some _ _ _ (withSlices_v base d p v D P V hv)]
  simp only [bind, Except.bind]
  cases sliceSet V i x with
  | error e => rfl
  | ok V' =>
    simp only []
    rw [store_ok _ _ _ (by unfold withSlices; simp only [List.length_set]; exact hv)]
    simp only [pure, Except.pure]
    unfold withSlices
    simp only []
    rw [List.set_set]

theorem relaxEdgeIn_embed (base : Memory) (d p v : Nat) (hd : d < base.ints.length)
    (hp : p < base.ints.length) (hdp : d ≠ p) (cur : Int) (e : Edge) (st : State) :
    relaxEdgeIn cur e (embed base d p v st) =
      (relaxEdge cur e st >>= fun st' => pure (embed base d p v st')) := by
  unfold relaxEdgeIn relaxEdge embed
  simp only [loadInt_d base d p v _ _ _ hd hdp, bind, Except.bind]
  cases sliceGet st.distances cur with
  | error err => rfl
  | ok dcur =>
    simp only []
    cases sliceGet st.distances e.dest with
    | error err => rfl
    | ok dn =>
      simp only []
      by_cases hlt : addInt dcur e.weight < dn
      · simp only [if_pos hlt, storeInt_d base d p v _ _ _ hd hdp, bind, Except.bind]
        cases sliceSet st.distances e.dest (addInt dcur e.weight) with
        | error err => rfl
        | ok D' =>
          simp only [pure, Except.pure, storeInt_p base d p v _ _ _ hp, bind, Except.bind]
          cases sliceSet st.previous e.dest cur with
          | error err => rfl
          | ok P' =>
            simp only []
            cases heapPush st.pq ⟨e.dest, addInt dcur e.weight, 0⟩ with
            | error err => rfl
            | ok pq' => rfl
      · simp only [if_neg hlt]
        rfl

theorem relaxRange_embed (base : Memory) (d p v : Nat) (hd : d < base.ints.length)
    (hp : p < base.ints.length) (hdp : d ≠ p) (cur : Int) (row : Nat) (edges : List Edge)
    (hrow : base.rows[row]? = some edges) :
    ∀ (todo k : Nat) (st : State), k + todo = edges.length →
    relaxRange cur row todo k (embed base d p v st) =
      (relaxEdges cur (edges.drop k) st >>= fun st' => pure (embed base d p v st')) := by
  intro todo
  induction todo with
  | zero =>
    intro k st hk
    have hk' : edges.length ≤ k := by omega
    rw [List.drop_eq_nil_of_le hk']
    rfl
  | succ todo ih =>
    intro k st hk
    have hlt : k < edges.length := by omega
    have hrows : (embed base d p v st).mem.rows[row]? = some edges := hrow
    unfold relaxRange
    rw [index_some _ _ _ hrows]
    simp only [bind, Except.bind]
    rw [index_ok _ _ hlt]
    simp only []
    rw [relaxEdgeIn_embed base d p v hd hp hdp, List.drop_eq_getElem_cons hlt]
    unfold relaxEdges
    simp only [bind, Except.bind]
    cases relaxEdge cur edges[k] st with
    | error err => rfl
    | ok st1 =>
      simp only [pure, Except.pure]
      exact ih (k + 1) st1 (by omega)

theorem loadRow_holds (mem : Memory) (g : Nat) (G : WeightedGraph) (hH : Holds mem g G)
    (x : Int) :
    (loadRow mem g x = .error Fault.indexOutOfRange ∧
      sliceGet G.adjList x = .error Fault.indexOutOfRange) ∨
    ∃ row edges, loadRow mem g x = .ok row ∧ mem.rows[row]? = some edges ∧
      sliceGet G.adjList x = .ok edges := by
  obtain ⟨t, table, h1, h2, h3, h4⟩ := hH
  unfold loadRow
  rw [index_some _ _ _ h1]
  simp only [bind, Except.bind]
  rw [index_some _ _ _ h2]
  simp only []
  by_cases hx : 0 ≤ x ∧ x.toNat < table.length
  · right
    have hlt := hx.2
    have hv := h4 x.toNat hlt
    rw [List.getElem?_eq_getElem hlt, List.getElem?_eq_getElem (h3 ▸ hlt)] at hv
    simp only [Option.some_bind] at hv
    refine ⟨table[x.toNat], G.adjList[x.toNat], ?_, hv, ?_⟩
    · rw [sliceGet_ok_iff]
      exact ⟨hx.1, List.getElem?_eq_getElem hlt⟩
    · rw [sliceGet_ok_iff]
      exact ⟨hx.1, List.getElem?_eq_getElem (h3 ▸ hlt)⟩
  · left
    have hfail : ∀ {α : Type} (xs : List α), xs.length = table.length →
        sliceGet xs x = .error Fault.indexOutOfRange := by
      intro α xs hlen
      unfold sliceGet
      split
      · rename_i h0
        rw [List.getElem?_eq_none (by
          rw [hlen]
          by_contra hc
          exact hx ⟨h0, by omega⟩)]
      · rfl
    exact ⟨hfail table rfl, hfail G.adjList h3.symm⟩

theorem stepIn_embed (base : Memory) (g : Nat) (G : WeightedGraph) (hH : Holds base g G)
    (d p v : Nat) (hd : d < base.ints.length) (hp : p < base.ints.length) (hdp : d ≠ p)
    (hv : v < base.bools.length) (st : State) :
    stepIn g (embed base d p v st) =
      (dijkstraStep G st >>= fun st' => pure (embed base d p v st')) := by
  unfold stepIn dijkstraStep
  have hpq : (embed base d p v st).pq = st.pq := rfl
  rw [hpq]
  simp only [bind, Except.bind]
  cases heapPop st.pq with
  | error err => rfl
  | ok res =>
    obtain ⟨current, pq⟩ := res
    simp only []
    have hload : loadBool (embed base d p v st).mem (embed base d p v st).visited
        current.vertex = sliceGet st.visited current.vertex :=
      loadBool_v base d p v _ _ _ hv _
    rw [hload]
    cases sliceGet st.visited current.vertex with
    | error err => rfl
    | ok seen =>
      simp only []
      cases seen with
      | true => rfl
      | false =>
        simp only [Bool.false_eq_true, if_false]
        have hstore : storeBool (embed base d p v st).mem (embed base d p v st).visited
            current.vertex true = (sliceSet st.visited current.vertex true >>= fun V' =>
              pure (withSlices base d p v st.distances st.previous V')) :=
          storeBool_v base d p v _ _ _ hv _ _
        rw [hstore]
        simp only [bind, Except.bind]
        cases sliceSet st.visited current.vertex true with
        | error err => rfl
        | ok V' =>
          simp only [pure, Except.pure]
          have hrow : loadRow (withSlices base d p v st.distances st.previous V') g
              current.vertex = loadRow base g current.vertex := rfl
          rw [hrow]
          rcases loadRow_holds base g G hH current.vertex with ⟨h1, h2⟩ | ⟨row, edges, h1, h2, h3⟩
          · rw [h1, h2]
          · rw [h1, h3]
            simp only []
            have hrows : (withSlices base d p v st.distances st.previous V').rows[row]? =
                some edges := h2
            rw [index_some _ _ _ hrows]
            simp only []
            have := relaxRange_embed base d p v hd hp hdp current.vertex row edges h2
              edges.length 0 ⟨st.distances, st.previous, V', pq⟩ (by omega)
            rw [List.drop_zero] at this
            exact this

theorem loopIn_embed (base : Memory) (g : Nat) (G : WeightedGraph) (hH : Holds base g G)
    (d p v : Nat) (hd : d < base.ints.length) (hp : p < base.ints.length) (hdp : d ≠ p)
    (hv : v < base.bools.length) : ∀ (fuel : Nat) (st : State),
    loopIn g fuel (embed base d p v st) =
      (dijkstraLoop G fuel st >>= fun st' => pure (embed base d p v st')) := by
  intro fuel
  induction fuel with
  | zero =>
    intro st
    unfold loopIn dijkstraLoop
    have hpq : (embed base d p v st).pq = st.pq := rfl
    rw [hpq]
    split
    · rfl
    · rfl
  | succ fuel ih =>
    intro st
    unfold loopIn dijkstraLoop
    have hpq : (embed base d p v st).pq = st.pq := rfl
    rw [hpq]
    split
    · rw [stepIn_embed base g G hH d p v hd hp hdp hv]
      simp only [bind, Except.bind]
      cases dijkstraStep G st with
      | error err => rfl
      | ok st1 =>
        simp only [pure, Except.pure]
        exact ih st1
    · rfl

theorem fill_step {α : Type} (D : List α) (i n : Nat) (x : α) (hi : i < n)
    (hD : D.length = n) :
    (D.set i x).take (i + 1) ++ List.replicate (n - (i + 1)) x =
      D.take i ++ List.replicate (n - i) x := by
  apply List.ext_getElem?
  intro k
  rw [List.getElem?_append, List.getElem?_append]
  simp only [List.length_take, List.length_set, List.getElem?_take, List.getElem?_set,
    List.getElem?_replicate, hD]
  have e1 : min (i + 1) n = i + 1 := by omega
  have e2 : min i n = i := by omega
  rw [e1, e2]
  by_cases h1 : k < i
  · have h2 : k < i + 1 := by omega
    have h3 : ¬ i = k := by omega
    simp [h1, h2, h3]
  · by_cases h2 : k = i
    · subst h2
      simp [hD, hi]
    · have h3 : ¬ k < i + 1 := by omega
      have h4 : ¬ i = k := fun e => h2 e.symm
      simp only [h1, h3, if_false]
      by_cases h5 : k < n
      · rw [if_pos (by omega), if_pos (by omega)]
      · rw [if_neg (by omega), if_neg (by omega)]

theorem loadVertices_holds (mem : Memory) (g : Nat) (G : WeightedGraph)
    (hH : Holds mem g G) : loadVertices mem g = .ok G.vertices := by
  obtain ⟨t, table, h1, _⟩ := hH
  unfold loadVertices
  rw [index_some _ _ _ h1]
  rfl

theorem initLoop_fill (base : Memory) (g : Nat) (G : WeightedGraph) (hH : Holds base g G)
    (d p v : Nat) (hd : d < base.ints.length) (hp : p < base.ints.length) (hdp : d ≠ p)
    (n : Nat) (hn : G.vertices = (n : Int)) (V : List Bool) :
    ∀ (fuel i : Nat) (D P : List Int), i ≤ n → n - i ≤ fuel → D.length = n → P.length = n →
    initLoop g d p fuel (i : Int) (withSlices base d p v D P V) =
      .ok (withSlices base d p v (D.take i ++ List.replicate (n - i) INF)
        (P.take i ++ List.replicate (n - i) (-1)) V) := by
  have hvert : ∀ D P, loadVertices (withSlices base d p v D P V) g = .ok G.vertices :=
    fun D P => loadVertices_holds base g G hH
  have hdone : ∀ (D P : List Int), D.length = n → P.length = n →
      withSlices base d p v D P V =
        withSlices base d p v (D.take n ++ List.replicate (n - n) INF)
          (P.take n ++ List.replicate (n - n) (-1)) V := by
    intro D P hD hP
    simp only [Nat.sub_self, List.replicate_zero, List.append_nil]
    rw [List.take_of_length_le (by omega), List.take_of_length_le (by omega)]
  intro fuel
  induction fuel with
  | zero =>
    intro i D P hi hfuel hD hP
    have hin : i = n := by omega
    subst hin
    unfold initLoop
    rw [hvert]
    simp only [bind, Except.bind]
    rw [if_neg (by omega)]
    exact congrArg Except.ok (hdone D P hD hP)
  | succ fuel ih =>
    intro i D P hi hfuel hD hP
    unfold initLoop
    rw [hvert]
    simp only [bind, Except.bind]
    by_cases hlt : (i : Int) < G.vertices
    · have hin : i < n := by omega
      rw [if_pos hlt, storeInt_d base d p v _ _ _ hd hdp,
        sliceSet_cast D i INF (by omega)]
      simp only [bind, Except.bind, pure, Except.pure]
      rw [storeInt_p base d p v _ _ _ hp, sliceSet_cast P i (-1) (by omega)]
      simp only [bind, Except.bind, pure, Except.pure]
      have hnext : ((i : Int) + 1) = ((i + 1 : Nat) : Int) := by push_cast; rfl
      rw [hnext, ih (i + 1) _ _ (by omega) (by omega) (by simp [hD]) (by simp [hP]),
        fill_step D i n INF hin hD, fill_step P i n (-1) hin hP]
    · have hin : i = n := by omega
      subst hin
      rw [if_neg hlt]
      exact congrArg Except.ok (hdone D P hD hP)

theorem set_two {α : Type} (l : List α) (a b D P : α) :
    ((l ++ [a] ++ [b]).set l.length D).set (l.length + 1) P = l ++ [D] ++ [P] := by
  induction l with
  | nil => rfl
  | cons x t ih => simp [ih]

theorem set_last {α : Type} (l : List α) (a V : α) :
    (l ++ [a]).set l.length V = l ++ [V] := by
  induction l with
  | nil => rfl
  | cons x t ih => simp [ih]

theorem withSlices_afterMakes (mem : Memory) (n : Nat) (D P : List Int) (V : List Bool) :
    withSlices (afterMakes mem n) mem.ints.length (mem.ints.length + 1) mem.bools.length
        D P V =
      ⟨mem.graphs, mem.tables, mem.rows, mem.ints ++ [D] ++ [P], mem.bools ++ [V]⟩ := by
  unfold withSlices afterMakes
  simp only [set_two, set_last]

theorem holds_of_same (mem mem' : Memory) (g : Nat) (G : WeightedGraph)
    (hH : Holds mem g G) (h1 : mem'.graphs = mem.graphs) (h2 : mem'.tables = mem.tables)
    (h3 : mem'.rows = mem.rows) : Holds mem' g G := by
  unfold Holds at hH ⊢
  rw [h1, h2, h3]
  exact hH

theorem dijkstraIn_eq (mem : Memory) (g : Nat) (G : WeightedGraph) (hH : Holds mem g G)
    (hS : G.Shaped) (start : Int) (fuel : Nat) :
    DijkstraIn fuel g start mem =
      ((initState G start >>= fun st => dijkstraLoop G fuel st) >>= fun st =>
        pure ((mem.ints.length, mem.ints.length + 1),
          (⟨mem.graphs, mem.tables, mem.rows, mem.ints ++ [st.distances] ++ [st.previous],
            mem.bools ++ [st.visited]⟩ : Memory))) := by
  obtain ⟨n, hn⟩ : ∃ n : Nat, G.vertices = (n : Int) := ⟨G.vertices.toNat, by
    have := hS.1
    omega⟩
  have hnn : G.vertices.toNat = n := by omega
  have hbase : Holds (afterMakes mem n) g G := holds_of_same mem _ g G hH rfl rfl rfl
  have hd : mem.ints.length < (afterMakes mem n).ints.length := by
    unfold afterMakes; simp
  have hp : mem.ints.length + 1 < (afterMakes mem n).ints.length := by
    unfold afterMakes; simp
  have hv : mem.bools.length < (afterMakes mem n).bools.length := by
    unfold afterMakes; simp
  have hdp : mem.ints.length ≠ mem.ints.length + 1 := by omega
  have hneg : ¬ G.vertices < 0 := by omega
  have hm1 : Holds ⟨mem.graphs, mem.tables, mem.rows, mem.ints ++ [List.replicate n 0],
      mem.bools⟩ g G := holds_of_same mem _ g G hH rfl rfl rfl
  have hm2 : Holds ⟨mem.graphs, mem.tables, mem.rows,
      mem.ints ++ [List.replicate n 0] ++ [List.replicate n 0], mem.bools⟩ g G :=
    holds_of_same mem _ g G hH rfl rfl rfl
  have hstart : afterMakes mem n = withSlices (afterMakes mem n) mem.ints.length
      (mem.ints.length + 1) mem.bools.length (List.replicate n 0) (List.replicate n 0)
      (List.replicate n false) := by
    rw [withSlices_afterMakes]
    rfl
  unfold DijkstraIn makeInts makeBools
  rw [loadVertices_holds mem g G hH]
  simp only [bind, Except.bind, if_neg hneg, hnn]
  rw [loadVertices_holds _ g G hm1]
  simp only [if_neg hneg, hnn]
  rw [loadVertices_holds _ g G hm2]
  simp only [if_neg hneg, hnn]
  have hmem : (⟨mem.graphs, mem.tables, mem.rows,
      mem.ints ++ [List.replicate n 0] ++ [List.replicate n 0],
      mem.bools ++ [List.replicate n false]⟩ : Memory) = afterMakes mem n := rfl
  have hlen : (mem.ints ++ [List.replicate n 0]).length = mem.ints.length + 1 := by simp
  simp only [hmem, hlen]
  rw [loadVertices_holds _ g G hbase]
  simp only [hnn]
  have hinit := initLoop_fill (afterMakes mem n) g G hbase mem.ints.length
    (mem.ints.length + 1) mem.bools.length hd hp hdp n hn (List.replicate n false) n 0
    (List.replicate n 0) (List.replicate n 0) (Nat.zero_le _) (by omega) (by simp) (by simp)
  rw [← hstart] at hinit
  simp only [List.take_zero, List.nil_append, Nat.sub_zero, Nat.cast_zero] at hinit
  rw [hinit]
  simp only []
  rw [storeInt_d _ _ _ _ _ _ _ hd hdp]
  unfold initState
  simp only [bind, Except.bind, if_neg hneg, hnn]
  cases sliceSet (List.replicate n INF) start 0 with
  | error err => rfl
  | ok D0 =>
    simp only [pure, Except.pure]
    have hcap : loadVertices (withSlices (afterMakes mem n) mem.ints.length
        (mem.ints.length + 1) mem.bools.length D0 (List.replicate n (-1))
        (List.replicate n false)) g = .ok G.vertices :=
      loadVertices_holds (afterMakes mem n) g G hbase
    rw [hcap]
    simp only [if_neg hneg]
    cases heapInit [] with
    | error err => rfl
    | ok pq0 =>
      simp only []
      cases heapPush pq0 ⟨start, 0, 0⟩ with
      | error err => rfl
      | ok pq1 =>
        simp only []
        have hloop := loopIn_embed (afterMakes mem n) g G hbase mem.ints.length
          (mem.ints.length + 1) mem.bools.length hd hp hdp hv fuel
          ⟨D0, List.replicate n (-1), List.replicate n false, pq1⟩
        unfold embed at hloop
        simp only [] at hloop
        rw [hloop]
        simp only [bind, Except.bind]
        cases dijkstraLoop G fuel ⟨D0, List.replicate n (-1), List.replicate n false, pq1⟩ with
        | error err => rfl
        | ok st =>
          simp only [pure, Except.pure]
          rw [withSlices_afterMakes]

theorem untouched_grow (mem : Memory) (D P : List Int) (V : List Bool) :
    Untouched mem ⟨mem.graphs, mem.tables, mem.rows, mem.ints ++ [D] ++ [P],
      mem.bools ++ [V]⟩ :=
  ⟨rfl, rfl, rfl, ⟨[D] ++ [P], by simp⟩, ⟨[V], rfl⟩⟩

theorem intsAt_grow (mem : Memory) (D P : List Int) (V : List Bool) :
    intsAt ⟨mem.graphs, mem.tables, mem.rows, mem.ints ++ [D] ++ [P], mem.bools ++ [V]⟩
        mem.ints.length = D ∧
    intsAt ⟨mem.graphs, mem.tables, mem.rows, mem.ints ++ [D] ++ [P], mem.bools ++ [V]⟩
        (mem.ints.length + 1) = P := by
  unfold intsAt
  simp only [List.getD_eq_getElem?_getD, List.append_assoc]
  constructor
  · rw [List.getElem?_append_right (le_refl _)]
    simp
  · rw [List.getElem?_append_right (by omega)]
    simp

theorem intsAt_kept (before after : Memory) (h : Untouched before after) (a : Nat)
    (ha : a < before.ints.length) : intsAt after a = intsAt before a := by
  obtain ⟨t, ht⟩ := h.2.2.2.1
  unfold intsAt
  rw [← ht, List.getD_eq_getElem?_getD, List.getD_eq_getElem?_getD,
    List.getElem?_append_left ha]

theorem dijkstraIn_run (mem : Memory) (g : Nat) (G : WeightedGraph) (start : Int)
    (hH : Holds mem g G) (hg : G.WellFormed) (hs : 0 ≤ start ∧ start < G.vertices) :
    ∃ D P V, G.Dijkstra start = .ok (D, P) ∧ ∀ fuel, G.edgeCount + 1 ≤ fuel →
      DijkstraIn fuel g start mem = .ok ((mem.ints.length, mem.ints.length + 1),
        ⟨mem.graphs, mem.tables, mem.rows, mem.ints ++ [D] ++ [P], mem.bools ++ [V]⟩) := by
  obtain ⟨st, hrun, hloop, _⟩ :=
    dijkstra_run G hg start hs (fun _ => True) trivial (fun _ _ _ _ _ _ => trivial)
  refine ⟨st.distances, st.previous, st.visited, hrun _ (le_refl _), ?_⟩
  intro fuel hfuel
  rw [dijkstraIn_eq mem g G hH hg.1 start fuel, initState_eq G hg.1 start hs]
  simp only [bind, Except.bind]
  rw [dijkstraLoop_mono G _ _ _ hloop fuel hfuel]
  rfl

/-- C13: for every graph whose stored edges end in `[0, V)`, held at an address
of any memory, and every source in `[0, V)`: a call `Dijkstra(source)` returns
and leaves everything that was allocated before it as it was, the graph struct,
its adjacency table and every row included; a second call on the memory the
first one leaves returns as well, changes nothing either (the tables of the
first call included), and its `distances` and `previous` hold the same values
as those of the first call, which are the tables of the model `Dijkstra`. -/
theorem dijkstra_repeatable (mem : Memory) (g : Nat) (G : WeightedGraph) (start : Int)
    (firstFuel secondFuel : Nat) (hH : Holds mem g G) (hg : G.WellFormed)
    (hs : 0 ≤ start ∧ start < G.vertices) (h1 : G.edgeCount + 1 ≤ firstFuel)
    (h2 : G.edgeCount + 1 ≤ secondFuel) :
    ∃ d1 p1 mem1 d2 p2 mem2,
      DijkstraIn firstFuel g start mem = .ok ((d1, p1), mem1) ∧
      Untouched mem mem1 ∧ Holds mem1 g G ∧
      DijkstraIn secondFuel g start mem1 = .ok ((d2, p2), mem2) ∧
      Untouched mem1 mem2 ∧ Holds mem2 g G ∧
      intsAt mem2 d2 = intsAt mem1 d1 ∧ intsAt mem2 p2 = intsAt mem1 p1 ∧
      intsAt mem2 d1 = intsAt mem1 d1 ∧ intsAt mem2 p1 = intsAt mem1 p1 ∧
      G.Dijkstra start = .ok (intsAt mem1 d1, intsAt mem1 p1) := by
  obtain ⟨D, P, V, hpure, hrun1⟩ := dijkstraIn_run mem g G start hH hg hs
  have hU1 := untouched_grow mem D P V
  have hH1 := holds_of_same mem _ g G hH hU1.1 hU1.2.1 hU1.2.2.1
  obtain ⟨D', P', V', hpure', hrun2⟩ := dijkstraIn_run _ g G start hH1 hg hs
  rw [hpure] at hpure'
  cases hpure'
  have hU2 := untouched_grow
    ⟨mem.graphs, mem.tables, mem.rows, mem.ints ++ [D] ++ [P], mem.bools ++ [V]⟩ D P V'
  have hH2 := holds_of_same _ _ g G hH1 hU2.1 hU2.2.1 hU2.2.2.1
  have e1 := intsAt_grow mem D P V
  have e2 := intsAt_grow
    ⟨mem.graphs, mem.tables, mem.rows, mem.ints ++ [D] ++ [P], mem.bools ++ [V]⟩ D P V'
  have k1 := intsAt_kept _ _ hU2 mem.ints.length (by simp)
  have k2 := intsAt_kept _ _ hU2 (mem.ints.length + 1) (by simp)
  refine ⟨_, _, _, _, _, _, hrun1 firstFuel h1, hU1, hH1, hrun2 secondFuel h2, hU2, hH2,
    ?_, ?_, k1, k2, ?_⟩
  · rw [e2.1, e1.1]
  · rw [e2.2, e1.2]
  · rw [e1.1, e1.2]
    exact hpure

/-- C13 on a memory that holds `scenarioGraph` at address 0, with source 0. -/
theorem dijkstra_repeatable_witness :
    Holds (layout scenarioGraph) 0 scenarioGraph ∧
    ∃ d1 p1 mem1 d2 p2 mem2,
      DijkstraIn 11 0 0 (layout scenarioGraph) = .ok ((d1, p1), mem1) ∧
      Untouched (layout scenarioGraph) mem1 ∧ Holds mem1 0 scenarioGraph ∧
      DijkstraIn 11 0 0 mem1 = .ok ((d2, p2), mem2) ∧
      Untouched mem1 mem2 ∧ Holds mem2 0 scenarioGraph ∧
      intsAt mem2 d2 = intsAt mem1 d1 ∧ intsAt mem2 p2 = intsAt mem1 p1 ∧
      intsAt mem2 d1 = intsAt mem1 d1 ∧ intsAt mem2 p1 = intsAt mem1 p1 ∧
      scenarioGraph.Dijkstra 0 = .ok (intsAt mem1 d1, intsAt mem1 p1) :=
  ⟨⟨0, List.range 5, rfl, rfl, rfl, by decide⟩,
    dijkstra_repeatable (layout scenarioGraph) 0 scenarioGraph 0 11 11
      ⟨0, List.range 5, rfl, rfl, rfl, by decide⟩ (by decide) (by decide) (by decide)
      (by decide)⟩

end DijkstraMemory

